import Mathlib

/-!
# squerrel::queue — a shallow embedding of `src/queue.hpp`

The queue is a bounded multi-producer / multi-consumer FIFO of variable-length byte
strings.  This file embeds the C++ class `squerrel::queue<MaxElementsNum, DataBufferSize,
Atom>` as pure Lean functions over an explicit state record and proves properties of its
single-threaded behaviour and of its bit-level codecs.

Conventions of the embedding

* `Atom` is an unsigned integer of `atom_bits` bits.  Atoms are natural numbers and every
  operation that the C++ performs in `Atom` arithmetic is followed by an explicit reduction
  modulo `2 ^ atom_bits` (`to_atom`).  `size_t` is assumed to be at least as wide as `Atom`.
* `std::atomic<Atom>` cells are plain `Nat` fields of the state; a single thread runs, so
  every load sees the latest store, and `compare_exchange` is the usual compare-then-store.
* A `(pointer, length)` pair is a `List Byte` (`src` with `size = src.length`, `dst` with
  `capacity = dst.length`).  `memcpy` writes into the prefix of the destination list.
* `for (;;)` retry loops take a fuel argument; running out of fuel is the outcome
  `Outcome.diverged`.  The theorems show that one unit of fuel is always enough when a single
  thread runs.
* Exceptions are outcomes: `SQUERREL_EXPECTS` failing is `Outcome.invalid_argument`,
  `SQUERREL_ASSERT` failing is `Outcome.logic_error`.  The state returned with such an
  outcome is the state at the point where the exception is thrown.
-/

namespace squerrel

/-- A `char` of the payload ring. -/
abbrev Byte := UInt8

/-- The template parameters of `queue`: `MaxElementsNum` (slot count `N`), `DataBufferSize`
(payload bytes `B`) and `atom_bits = sizeof(Atom) * 8` (word width `W`). -/
structure Params where
  MaxElementsNum : Nat
  DataBufferSize : Nat
  atom_bits : Nat
deriving DecidableEq, Repr

/-- The value of `is_pow_of_2<N>()`: `(N != 0) && ((N & (N - 1)) == 0)`. -/
def is_pow_of_2 (n : Nat) : Bool := (n != 0) && ((n &&& (n - 1)) == 0)

/-- Unfolding of the recursive template `log2<N>()` with an explicit recursion bound. -/
def log2_aux : Nat → Nat → Nat
  | 0, _ => 0
  | fuel + 1, n => if n > 1 then 1 + log2_aux fuel (n / 2) else 0

/-- The value of `log2<N>()`: `0` for `N == 1`, `1 + log2<N / 2>()` for `N > 1`. -/
def log2 (n : Nat) : Nat := log2_aux n n

/-- Conversion `static_cast<Atom>(x)`: reduction modulo `2 ^ atom_bits`. -/
def to_atom (W x : Nat) : Nat := x % 2 ^ W

/-- Subtraction `a - b` of two values in `Atom` arithmetic. -/
def atom_sub (W a b : Nat) : Nat := (a % 2 ^ W + (2 ^ W - b % 2 ^ W)) % 2 ^ W

/-- The value of `mod<N, R>(lhs)`: `lhs & (N - 1)`. -/
def mod (N lhs : Nat) : Nat := lhs &&& (N - 1)

/-- The value of `wrapped_less_than<N>(lhs, rhs)`:
`diff = mod<N * 2, Atom>(rhs - lhs); return (diff <= N) && diff`. -/
def wrapped_less_than (W N lhs rhs : Nat) : Bool :=
  let diff := mod (N * 2) (atom_sub W rhs lhs)
  decide (diff ≤ N) && (diff != 0)

/-- The constants `state::nil = 0` and `state::val = 1`. -/
def state.nil : Nat := 0

/-- The constant `state::val`. -/
def state.val : Nat := 1

/-- A `bit_slice<StartBit, EndBit>`. -/
structure bit_slice where
  start_bit : Nat
  end_bit : Nat
deriving DecidableEq, Repr

namespace bit_slice

/-- The `static_assert` of `bit_slice`:
`end_bit <= atom_bits && start_bit < atom_bits && start_bit < end_bit`. -/
def valid (W : Nat) (s : bit_slice) : Bool :=
  decide (s.end_bit ≤ W) && decide (s.start_bit < W) && decide (s.start_bit < s.end_bit)

/-- The constant `mask = ((Atom(1) << (EndBit - StartBit)) - 1) << StartBit`. -/
def mask (W : Nat) (s : bit_slice) : Nat :=
  to_atom W (atom_sub W (to_atom W (1 <<< (s.end_bit - s.start_bit))) 1 <<< s.start_bit)

/-- The value of `encode(arg)`: `(arg << start_bit) & mask`. -/
def encode (W : Nat) (s : bit_slice) (arg : Nat) : Nat :=
  to_atom W (arg <<< s.start_bit) &&& s.mask W

/-- The value of `decode(arg)`: `(arg & mask) >> start_bit`. -/
def decode (W : Nat) (s : bit_slice) (arg : Nat) : Nat :=
  (arg &&& s.mask W) >>> s.start_bit

end bit_slice

/-- The record `meta_info`: the decoded metadata word of one slot. -/
structure meta_info where
  begin : Nat
  size : Nat
  state : Nat
  odd_round : Nat
deriving DecidableEq, Repr

namespace meta_info

/-- The slice `bit_slice<0, log2<DataBufferSize>() + 1>`. -/
def begin_slice (P : Params) : bit_slice := ⟨0, log2 P.DataBufferSize + 1⟩

/-- The slice `bit_slice<log2<DataBufferSize>() + 1, atom_bits - 2>`. -/
def size_slice (P : Params) : bit_slice := ⟨log2 P.DataBufferSize + 1, P.atom_bits - 2⟩

/-- The slice `bit_slice<atom_bits - 2, atom_bits - 1>`. -/
def state_slice (P : Params) : bit_slice := ⟨P.atom_bits - 2, P.atom_bits - 1⟩

/-- The slice `bit_slice<atom_bits - 1, atom_bits>`. -/
def odd_round_slice (P : Params) : bit_slice := ⟨P.atom_bits - 1, P.atom_bits⟩

end meta_info

/-- The producer-side cursor `slider<state::nil>`. -/
structure nil_slider where
  meta_idx : Nat
  data_idx : Nat
deriving DecidableEq, Repr

/-- The consumer-side cursor `slider<state::val>`. -/
structure val_slider where
  meta_idx : Nat
deriving DecidableEq, Repr

namespace nil_slider

/-- The slice `bit_slice<0, atom_bits - (log2<DataBufferSize>() + 1)>`. -/
def meta_idx_slice (P : Params) : bit_slice :=
  ⟨0, P.atom_bits - (log2 P.DataBufferSize + 1)⟩

/-- The slice `bit_slice<atom_bits - (log2<DataBufferSize>() + 1), atom_bits>`. -/
def data_idx_slice (P : Params) : bit_slice :=
  ⟨P.atom_bits - (log2 P.DataBufferSize + 1), P.atom_bits⟩

/-- The operator `!=` of `slider<state::nil>`. -/
def ne (a b : nil_slider) : Bool := (a.meta_idx != b.meta_idx) || (a.data_idx != b.data_idx)

/-- The method `shift(m)`: `data_idx = m.begin + m.size + DataBufferSize; ++meta_idx`. -/
def shift (P : Params) (s : nil_slider) (m : meta_info) : nil_slider :=
  { meta_idx := to_atom P.atom_bits (s.meta_idx + 1),
    data_idx := to_atom P.atom_bits (m.begin + m.size + P.DataBufferSize) }

/-- The method `less_than(rhs)`: both indices are `wrapped_less_than`. -/
def less_than (P : Params) (a b : nil_slider) : Bool :=
  wrapped_less_than P.atom_bits P.MaxElementsNum a.meta_idx b.meta_idx &&
  wrapped_less_than P.atom_bits P.DataBufferSize a.data_idx b.data_idx

end nil_slider

namespace val_slider

/-- The operator `!=` of `slider<state::val>`. -/
def ne (a b : val_slider) : Bool := a.meta_idx != b.meta_idx

/-- The method `shift(m)`: `++meta_idx`. -/
def shift (P : Params) (s : val_slider) (_m : meta_info) : val_slider :=
  { meta_idx := to_atom P.atom_bits (s.meta_idx + 1) }

/-- The method `less_than(rhs)`. -/
def less_than (P : Params) (a b : val_slider) : Bool :=
  wrapped_less_than P.atom_bits P.MaxElementsNum a.meta_idx b.meta_idx

end val_slider

/-- The overload `pack(const meta_info&)`. -/
def pack_meta (P : Params) (src : meta_info) : Nat :=
  (meta_info.begin_slice P).encode P.atom_bits src.begin |||
  (meta_info.size_slice P).encode P.atom_bits src.size |||
  (meta_info.state_slice P).encode P.atom_bits src.state |||
  (meta_info.odd_round_slice P).encode P.atom_bits src.odd_round

/-- The overload `pack(const slider<state::nil>&)`. -/
def pack_nil (P : Params) (src : nil_slider) : Nat :=
  (nil_slider.meta_idx_slice P).encode P.atom_bits src.meta_idx |||
  (nil_slider.data_idx_slice P).encode P.atom_bits src.data_idx

/-- The overload `pack(const slider<state::val>&)`. -/
def pack_val (src : val_slider) : Nat := src.meta_idx

/-- The instance `unpack<meta_info>`. -/
def unpack_meta (P : Params) (src : Nat) : meta_info :=
  { begin := (meta_info.begin_slice P).decode P.atom_bits src,
    size := (meta_info.size_slice P).decode P.atom_bits src,
    state := (meta_info.state_slice P).decode P.atom_bits src,
    odd_round := (meta_info.odd_round_slice P).decode P.atom_bits src }

/-- The instance `unpack<slider<state::nil>>`. -/
def unpack_nil (P : Params) (src : Nat) : nil_slider :=
  { meta_idx := (nil_slider.meta_idx_slice P).decode P.atom_bits src,
    data_idx := (nil_slider.data_idx_slice P).decode P.atom_bits src }

/-- The instance `unpack<slider<state::val>>`. -/
def unpack_val (src : Nat) : val_slider := { meta_idx := src }

/-- The compile-time checks of an instantiation: both sizes are powers of two, each of the six
`bit_slice` instantiations passes its own assertion, and `MaxElementsNum` is representable in
`Atom` (it is the `Atom` template argument of `wrapped_less_than<MaxElementsNum>`, where a
narrowing conversion is ill-formed).  `Atom` being unsigned is built into the embedding. -/
def Params.accepted (P : Params) : Bool :=
  is_pow_of_2 P.MaxElementsNum && is_pow_of_2 P.DataBufferSize &&
  decide (P.MaxElementsNum < 2 ^ P.atom_bits) &&
  (meta_info.begin_slice P).valid P.atom_bits && (meta_info.size_slice P).valid P.atom_bits &&
  (meta_info.state_slice P).valid P.atom_bits &&
  (meta_info.odd_round_slice P).valid P.atom_bits &&
  (nil_slider.meta_idx_slice P).valid P.atom_bits &&
  (nil_slider.data_idx_slice P).valid P.atom_bits

/-- The constant `bitwise_max_size`:
`(Atom(1) << (size_slice::end_bit - size_slice::start_bit)) - Atom(1)`. -/
def bitwise_max_size (P : Params) : Nat :=
  atom_sub P.atom_bits
    (to_atom P.atom_bits
      (1 <<< ((meta_info.size_slice P).end_bit - (meta_info.size_slice P).start_bit))) 1

/-- The public constant `max_size`. -/
def max_size (P : Params) : Nat :=
  if P.DataBufferSize < bitwise_max_size P then P.DataBufferSize else bitwise_max_size P

/-- The outcome of a call: a normal return, one of the two exceptions, or a retry loop that
did not finish within its fuel. -/
inductive Outcome (α : Type) where
  | ret (a : α)
  | invalid_argument
  | logic_error
  | diverged
deriving DecidableEq, Repr

/-- The data members of a `queue` object. -/
structure queue where
  slide_limit : Nat
  meta_buf : List Nat
  data_buf : List Byte
  nil_begin : Nat
  nil_end : Nat
  val_begin : Nat
  val_end : Nat
deriving DecidableEq, Repr

/-- The default argument `static_cast<size_t>(-1)` of the constructor, for a 64-bit
`size_t`. -/
def default_slide_limit : Nat := 2 ^ 64 - 1

/-- The constructor `queue(slide_limit)`: all slot words are `0`, all payload bytes are `0`,
`nil_end` starts at `(MaxElementsNum, DataBufferSize)` and the other cursors at `0`. -/
def queue.fresh (P : Params) (slide_limit : Nat) : queue :=
  { slide_limit := slide_limit,
    meta_buf := List.replicate P.MaxElementsNum 0,
    data_buf := List.replicate P.DataBufferSize 0,
    nil_begin := 0,
    nil_end := pack_nil P ⟨to_atom P.atom_bits P.MaxElementsNum,
                           to_atom P.atom_bits P.DataBufferSize⟩,
    val_begin := 0,
    val_end := 0 }

/-- The function `compare_exchange(atom, expected, desired)` on a cell holding `atom`:
returns the success flag, the new content of the cell and the new value of `expected`. -/
def compare_exchange {T : Type} (pack : T → Nat) (unpack : Nat → T)
    (atom : Nat) (expected desired : T) : Bool × Nat × T :=
  if atom = pack expected then (true, pack desired, expected)
  else (false, atom, unpack atom)

/-- The slot word `meta_buf[mod<MaxElementsNum, size_t>(meta_idx)]`, decoded. -/
def load_slot (P : Params) (meta_buf : List Nat) (meta_idx : Nat) : meta_info :=
  unpack_meta P (meta_buf.getD (mod P.MaxElementsNum meta_idx) 0)

/-- The value `(State == state::val) == !(meta_idx & MaxElementsNum)` as an `Atom`. -/
def expected_round (P : Params) (State meta_idx : Nat) : Nat :=
  if (State == state.val) == !((meta_idx &&& P.MaxElementsNum) != 0) then 1 else 0

/-- The `for` loop of `slide_forward<State>`, with `i` iterations left. -/
def slide_loop {T : Type} (P : Params) (State : Nat) (meta_idx : T → Nat)
    (shift : T → meta_info → T) (meta_buf : List Nat) : Nat → T → T
  | 0, desired => desired
  | i + 1, desired =>
    let odd_round := expected_round P State (meta_idx desired)
    let m := load_slot P meta_buf (meta_idx desired)
    if m.state ≠ State ∨ m.odd_round ≠ odd_round then desired
    else slide_loop P State meta_idx shift meta_buf i (shift desired m)

/-- The instance `slide_forward<state::nil>(sl)` on a cell holding `sl`: returns the slider
and the new content of the cell. -/
def slide_forward_nil (P : Params) (slide_limit : Nat) (meta_buf : List Nat) (sl : Nat) :
    nil_slider × Nat :=
  let expected := unpack_nil P sl
  let desired := slide_loop P state.nil nil_slider.meta_idx (nil_slider.shift P) meta_buf
    slide_limit expected
  if expected.ne desired then
    match compare_exchange (pack_nil P) (unpack_nil P) sl expected desired with
    | (true, a, _) => (desired, a)
    | (false, a, e) => (e, a)
  else (desired, sl)

/-- The instance `slide_forward<state::val>(sl)` on a cell holding `sl`. -/
def slide_forward_val (P : Params) (slide_limit : Nat) (meta_buf : List Nat) (sl : Nat) :
    val_slider × Nat :=
  let expected := unpack_val sl
  let desired := slide_loop P state.val val_slider.meta_idx (val_slider.shift P) meta_buf
    slide_limit expected
  if expected.ne desired then
    match compare_exchange pack_val unpack_val sl expected desired with
    | (true, a, _) => (desired, a)
    | (false, a, e) => (e, a)
  else (desired, sl)

/-- The call `memcpy(dst + doff, src + soff, n)` on two disjoint buffers, byte by byte. -/
def memcpy (dst : List Byte) (doff : Nat) (src : List Byte) (soff : Nat) : Nat → List Byte
  | 0 => dst
  | n + 1 => (memcpy dst doff src soff n).set (doff + n) (src.getD (soff + n) 0)

/-- The method `read_data(idx, dst, size)`; returns the new content of `dst`. -/
def read_data (P : Params) (data_buf : List Byte) (idx : Nat) (dst : List Byte) (size : Nat) :
    List Byte :=
  let s := min size (P.DataBufferSize - idx)
  memcpy (memcpy dst 0 data_buf idx s) s data_buf 0 (size - s)

/-- The method `write_data(idx, src, size)`; returns the new content of `data_buf`. -/
def write_data (P : Params) (data_buf : List Byte) (idx : Nat) (src : List Byte) (size : Nat) :
    List Byte :=
  let s := min size (P.DataBufferSize - idx)
  memcpy (memcpy data_buf idx src 0 s) 0 src s (size - s)

/-- The method `consume_data(meta_idx, dst, capacity)` with `capacity = dst.length`. -/
def consume_data (P : Params) (q : queue) (meta_idx : Nat) (dst : List Byte) :
    Outcome Nat × queue × List Byte :=
  let m := load_slot P q.meta_buf meta_idx
  if m.state ≠ state.val then (.logic_error, q, dst)
  else if ¬ m.size ≤ dst.length then (.invalid_argument, q, dst)
  else
    let dst1 := read_data P q.data_buf (mod P.DataBufferSize m.begin) dst m.size
    let m1 := { m with state := state.nil }
    (.ret m.size,
     { q with meta_buf := q.meta_buf.set (mod P.MaxElementsNum meta_idx) (pack_meta P m1) },
     dst1)

/-- The `for (;;)` loop of `try_pop`. -/
def try_pop_loop (P : Params) (dst : List Byte) :
    Nat → queue → val_slider → val_slider → Outcome Nat × queue × List Byte
  | 0, q, _, _ => (.diverged, q, dst)
  | fuel + 1, q, cur, end_ =>
    if !cur.less_than P end_ then (.ret 0, q, dst)
    else
      match compare_exchange pack_val unpack_val q.val_begin cur
          ⟨to_atom P.atom_bits (cur.meta_idx + 1)⟩ with
      | (true, a, _) => consume_data P { q with val_begin := a } cur.meta_idx dst
      | (false, _, cur1) => try_pop_loop P dst fuel q cur1 (unpack_val q.val_end)

/-- The method `try_pop(dst, capacity)` with `capacity = dst.length`. -/
def try_pop (P : Params) (fuel : Nat) (q : queue) (dst : List Byte) :
    Outcome Nat × queue × List Byte :=
  let cur := unpack_val q.val_begin
  let r := slide_forward_val P q.slide_limit q.meta_buf q.val_end
  try_pop_loop P dst fuel { q with val_end := r.2 } cur r.1

/-- The handle class `bulk`. -/
structure bulk where
  cur : Nat
  end_ : Nat
deriving DecidableEq, Repr

/-- The method `bulk::empty()`. -/
def bulk.empty (b : bulk) : Bool := b.cur == b.end_

/-- The `for (;;)` loop of `pop_bulk`. -/
def pop_bulk_loop (P : Params) :
    Nat → queue → val_slider → val_slider → Outcome bulk × queue
  | 0, q, _, _ => (.diverged, q)
  | fuel + 1, q, cur, end_ =>
    if !cur.less_than P end_ then (.ret ⟨0, 0⟩, q)
    else
      match compare_exchange pack_val unpack_val q.val_begin cur end_ with
      | (true, a, _) => (.ret ⟨cur.meta_idx, end_.meta_idx⟩, { q with val_begin := a })
      | (false, _, cur1) => pop_bulk_loop P fuel q cur1 (unpack_val q.val_end)

/-- The method `pop_bulk()`. -/
def pop_bulk (P : Params) (fuel : Nat) (q : queue) : Outcome bulk × queue :=
  let cur := unpack_val q.val_begin
  let r := slide_forward_val P q.slide_limit q.meta_buf q.val_end
  pop_bulk_loop P fuel { q with val_end := r.2 } cur r.1

/-- The method `consume_from_bulk(b, dst, capacity)`; the handle is passed by reference, so
its new value is returned as well.  The post-increment `b.cur++` takes effect before
`consume_data` runs. -/
def consume_from_bulk (P : Params) (q : queue) (b : bulk) (dst : List Byte) :
    Outcome Nat × queue × bulk × List Byte :=
  if b.empty then (.ret 0, q, b, dst)
  else
    let r := consume_data P q b.cur dst
    (r.1, r.2.1, { b with cur := to_atom P.atom_bits (b.cur + 1) }, r.2.2)

/-- The `for (;;)` loop of `try_push`: `some cur` when the reservation CAS succeeded with
`cur` as the value read, `none` when the space check failed. -/
def try_push_loop (P : Params) (size : Nat) :
    Nat → queue → nil_slider → nil_slider → Outcome (Option nil_slider) × queue
  | 0, q, _, _ => (.diverged, q)
  | fuel + 1, q, cur, end_ =>
    if !(nil_slider.less_than P
          ⟨cur.meta_idx, to_atom P.atom_bits (cur.data_idx + (size - 1))⟩ end_) then
      (.ret none, q)
    else
      match compare_exchange (pack_nil P) (unpack_nil P) q.nil_begin cur
          ⟨to_atom P.atom_bits (cur.meta_idx + 1), to_atom P.atom_bits (cur.data_idx + size)⟩ with
      | (true, a, _) => (.ret (some cur), { q with nil_begin := a })
      | (false, _, cur1) => try_push_loop P size fuel q cur1 (unpack_nil P q.nil_end)

/-- The method `try_push(src, size)` with `size = src.length`. -/
def try_push (P : Params) (fuel : Nat) (q : queue) (src : List Byte) : Outcome Bool × queue :=
  let size := src.length
  if ¬ (size ≠ 0 ∧ size ≤ max_size P) then (.invalid_argument, q)
  else
    let cur := unpack_nil P q.nil_begin
    let r := slide_forward_nil P q.slide_limit q.meta_buf q.nil_end
    match try_push_loop P size fuel { q with nil_end := r.2 } cur r.1 with
    | (.ret none, q1) => (.ret false, q1)
    | (.ret (some cur), q1) =>
      let m := load_slot P q1.meta_buf cur.meta_idx
      if m.state ≠ state.nil then (.logic_error, q1)
      else
        let data1 := write_data P q1.data_buf (mod P.DataBufferSize cur.data_idx) src size
        let m1 : meta_info :=
          { begin := cur.data_idx, size := to_atom P.atom_bits size, state := state.val,
            odd_round := if (cur.meta_idx &&& P.MaxElementsNum) != 0 then 0 else 1 }
        (.ret true,
         { q1 with data_buf := data1,
                   meta_buf := q1.meta_buf.set (mod P.MaxElementsNum cur.meta_idx)
                     (pack_meta P m1) })
    | (.invalid_argument, q1) => (.invalid_argument, q1)
    | (.logic_error, q1) => (.logic_error, q1)
    | (.diverged, q1) => (.diverged, q1)

/-! ## Vocabulary of the statements -/

/-- The shape of an accepted instantiation: `MaxElementsNum = 2 ^ n`, `DataBufferSize = 2 ^ lb`
with `lb + 4 ≤ atom_bits` (every slice is non-empty) and `n < atom_bits`. -/
structure Params.Shape (P : Params) (n lb : Nat) : Prop where
  hN : P.MaxElementsNum = 2 ^ n
  hB : P.DataBufferSize = 2 ^ lb
  hW : lb + 4 ≤ P.atom_bits
  hn : n < P.atom_bits

/-- Width in bits of the `size` field of a slot word. -/
def size_bits (P : Params) : Nat := P.atom_bits - 2 - (log2 P.DataBufferSize + 1)

/-- Width in bits of the `meta_idx` field of a producer cursor. -/
def meta_idx_bits (P : Params) : Nat := P.atom_bits - (log2 P.DataBufferSize + 1)

/-- The producer cursor has room for the slot index and its wrap-parity bit:
`log2(MaxElementsNum) + 1` bits. -/
def Params.roomy (P : Params) : Bool :=
  decide (log2 P.MaxElementsNum + 1 ≤ meta_idx_bits P)

/-- The round bit that `try_push` publishes for the element at position `p` of the stream:
`!(p & MaxElementsNum)`. -/
def round_at (P : Params) (p : Nat) : Nat :=
  if (p &&& P.MaxElementsNum) != 0 then 0 else 1

/-- Total length of the first `p` elements of a stream: the byte offset at which element `p`
starts. -/
def off (hist : List (List Byte)) (p : Nat) : Nat := ((hist.take p).map List.length).sum

/-- Element `p` of a stream (empty beyond its end). -/
def elem (hist : List (List Byte)) (p : Nat) : List Byte := hist.getD p []

/-- The representation invariant of a queue with a roomy producer cursor, in terms of the
stream `hist` of all elements pushed so far and four positions in it: `f` elements have been
reclaimed by `nil_end`, `h` have been consumed, `c` have been claimed by `val_begin` and `e` are
visible through `val_end`. -/
structure Inv (P : Params) (q : queue) (hist : List (List Byte)) (h c e f : Nat) : Prop where
  hfh : f ≤ h
  hhc : h ≤ c
  hce : c ≤ e
  het : e ≤ hist.length
  htf : hist.length ≤ f + P.MaxElementsNum
  hbytes : off hist hist.length ≤ off hist f + P.DataBufferSize
  hsize : ∀ p, p < hist.length → 1 ≤ (elem hist p).length ∧ (elem hist p).length ≤ max_size P
  hmlen : q.meta_buf.length = P.MaxElementsNum
  hdlen : q.data_buf.length = P.DataBufferSize
  hvb : q.val_begin = c % 2 ^ P.atom_bits
  hve : q.val_end = e % 2 ^ P.atom_bits
  hnb : q.nil_begin = pack_nil P ⟨hist.length, off hist hist.length⟩
  hne : q.nil_end = pack_nil P ⟨f + P.MaxElementsNum, off hist f + P.DataBufferSize⟩
  hval : ∀ p, h ≤ p → p < hist.length →
    load_slot P q.meta_buf p
      = ⟨off hist p % (2 * P.DataBufferSize), (elem hist p).length, state.val, round_at P p⟩
  hdata : ∀ p, h ≤ p → p < hist.length → ∀ j, j < (elem hist p).length →
    q.data_buf.getD ((off hist p + j) % P.DataBufferSize) 0 = (elem hist p).getD j 0
  hnil : ∀ p, p < h → hist.length ≤ p + P.MaxElementsNum →
    load_slot P q.meta_buf p
      = ⟨off hist p % (2 * P.DataBufferSize), (elem hist p).length, state.nil, round_at P p⟩
  hfree : ∀ s, hist.length ≤ s → s < P.MaxElementsNum →
    load_slot P q.meta_buf s = ⟨0, 0, 0, 0⟩

/-- A call of a single-threaded client: `try_push(src, src.length)` or
`try_pop(dst, dst.length)`. -/
inductive Op where
  | push (src : List Byte)
  | pop (dst : List Byte)
deriving DecidableEq, Repr

/-- One call on the queue together with the bookkeeping of the elements that were pushed
successfully and not popped yet (oldest first).  The result is `none` when the call does not
return normally. -/
def step (P : Params) (fuel : Nat) (s : queue × List (List Byte)) :
    Op → Option (queue × List (List Byte))
  | .push src =>
    match try_push P fuel s.1 src with
    | (.ret true, q1) => some (q1, s.2 ++ [src])
    | (.ret false, q1) => some (q1, s.2)
    | _ => none
  | .pop dst =>
    match try_pop P fuel s.1 dst with
    | (.ret r, q1, _) => some (q1, if r = 0 then s.2 else s.2.tail)
    | _ => none

/-- A sequence of calls from a given state; `none` when some call does not return
normally. -/
def run_from (P : Params) (fuel : Nat) (s : queue × List (List Byte)) :
    List Op → Option (queue × List (List Byte))
  | [] => some s
  | op :: ops =>
    match step P fuel s op with
    | some s1 => run_from P fuel s1 ops
    | none => none

/-- A sequence of calls on a freshly constructed queue. -/
def run (P : Params) (slide_limit fuel : Nat) (ops : List Op) :
    Option (queue × List (List Byte)) :=
  run_from P fuel (queue.fresh P slide_limit, []) ops

/-- The calls of C1: pushes of `1 ≤ size ≤ max_size` bytes and pops with
`capacity ≥ max_size`. -/
def Op.sized (P : Params) : Op → Prop
  | .push src => 1 ≤ src.length ∧ src.length ≤ max_size P
  | .pop dst => max_size P ≤ dst.length

/-- Total number of payload bytes of a list of elements. -/
def total_bytes (xs : List (List Byte)) : Nat := (xs.map List.length).sum

/-- A producer cursor value stands for slot position `p` and byte position `d` of the
stream: its fields agree with them modulo the widths of the packed fields. -/
def nil_slider.At (P : Params) (s : nil_slider) (p d : Nat) : Prop :=
  s.meta_idx % 2 ^ meta_idx_bits P = p % 2 ^ meta_idx_bits P ∧
  s.data_idx % (2 * P.DataBufferSize) = d % (2 * P.DataBufferSize)

/-- The invariant of the states that a single-threaded client of `try_push` and `try_pop` can
reach: no claim is outstanding, and either the producer cursor is roomy or `nil_end` has never
moved and at most one element has ever been pushed. -/
def Good (P : Params) (q : queue) (hist : List (List Byte)) (h e f : Nat) : Prop :=
  Inv P q hist h h e f ∧ (P.roomy = true ∨ (f = 0 ∧ hist.length ≤ 1))

/-- Successive `consume_from_bulk` calls on one handle, one per destination buffer: the
outcome and destination content of every call, then the final queue and handle. -/
def consume_all (P : Params) :
    queue → bulk → List (List Byte) → List (Outcome Nat × List Byte) × queue × bulk
  | q, b, [] => ([], q, b)
  | q, b, dst :: dsts =>
    let r := consume_from_bulk P q b dst
    let rest := consume_all P r.2.1 r.2.2.1 dsts
    ((r.1, r.2.2.2) :: rest.1, rest.2)

/-- What a consumer expects from draining the elements `xs` into the buffers `dsts`: each call
returns the length of its element and leaves the element's bytes at the front of its
buffer. -/
def drained (xs dsts : List (List Byte)) : List (Outcome Nat × List Byte) :=
  List.zipWith (fun x dst => (Outcome.ret x.length, x ++ dst.drop x.length)) xs dsts

/-! ## A single-threaded client -/

/-- The objects a single-threaded client holds: the queue and the `bulk` handles it has
obtained so far. -/
structure Client where
  q : queue
  handles : List bulk
deriving DecidableEq, Repr

/-- A statement of the client program: a call of one of the four public operations
(`consume i dst` calls `consume_from_bulk` on the `i`-th handle, which is updated in place), or
the copy construction of a further `bulk` object from the `i`-th handle. -/
inductive Call where
  | push (src : List Byte)
  | pop (dst : List Byte)
  | bulk
  | consume (i : Nat) (dst : List Byte)
  | copy (i : Nat)
deriving DecidableEq, Repr

/-- What the client observes of a call. -/
inductive Reply where
  | pushed (o : Outcome Bool)
  | popped (o : Outcome Nat) (dst : List Byte)
  | claimed (o : Outcome bulk)
  | consumed (o : Outcome Nat) (dst : List Byte)
  | copied
  | no_handle
deriving DecidableEq, Repr

/-- One statement of the client.  An exception leaves the queue in the state in which it
was thrown and the client carries on. -/
def call (P : Params) (fuel : Nat) (s : Client) : Call → Client × Reply
  | .push src =>
    let r := try_push P fuel s.q src
    ({ s with q := r.2 }, .pushed r.1)
  | .pop dst =>
    let r := try_pop P fuel s.q dst
    ({ s with q := r.2.1 }, .popped r.1 r.2.2)
  | .bulk =>
    let r := pop_bulk P fuel s.q
    match r.1 with
    | .ret b => ({ q := r.2, handles := s.handles ++ [b] }, .claimed r.1)
    | _ => ({ s with q := r.2 }, .claimed r.1)
  | .consume i dst =>
    match s.handles.get? i with
    | none => (s, .no_handle)
    | some b =>
      let r := consume_from_bulk P s.q b dst
      ({ q := r.2.1, handles := s.handles.set i r.2.2.1 }, .consumed r.1 r.2.2.2)
  | .copy i =>
    match s.handles.get? i with
    | none => (s, .no_handle)
    | some b => ({ s with handles := s.handles ++ [b] }, .copied)

/-! ## The helper step of the specification -/

/-- The round that the specification's slide expects at position `p` for state `S`:
`(S == VAL) XOR (bit log2(N) of p is set)`. -/
def spec_round (P : Params) (S p : Nat) : Nat :=
  if xor (S == state.val) (p.testBit (log2 P.MaxElementsNum)) then 1 else 0

/-- Position `p` can be slid over: slot `p mod N` has state `S` and the round expected at
`p`. -/
def spec_ready (P : Params) (meta_buf : List Nat) (S p : Nat) : Bool :=
  let m := unpack_meta P (meta_buf.getD (p % P.MaxElementsNum) 0)
  (m.state == S) && (m.odd_round == spec_round P S p)

/-- Length of the run of consecutive positions starting at `p` that can be slid over, counted
up to `bound`. -/
def spec_run (P : Params) (meta_buf : List Nat) (S : Nat) : Nat → Nat → Nat
  | 0, _ => 0
  | bound + 1, p =>
    if spec_ready P meta_buf S p then 1 + spec_run P meta_buf S bound (p + 1) else 0

/-! ## Programs of a client and the invariants of the reachable states -/

/-- A client program run statement by statement: the final state and the replies. -/
def exec (P : Params) (fuel : Nat) : Client → List Call → Client × List Reply
  | s, [] => (s, [])
  | s, c :: cs =>
    let r := call P fuel s c
    let rest := exec P fuel r.1 cs
    (rest.1, r.2 :: rest.2)

/-- The client right after the construction of the queue. -/
def Client.fresh (P : Params) (slide_limit : Nat) : Client :=
  { q := queue.fresh P slide_limit, handles := [] }

/-- The statements that copy a handle. -/
def Call.is_copy : Call → Bool
  | .copy _ => true
  | _ => false

/-- The replies that report a failed `SQUERREL_ASSERT`. -/
def Reply.is_logic_error : Reply → Bool
  | .pushed .logic_error => true
  | .popped .logic_error _ => true
  | .claimed .logic_error => true
  | .consumed .logic_error _ => true
  | _ => false

/-- The replies of a `try_push` that returned true. -/
def Reply.is_pushed : Reply → Bool
  | .pushed (.ret true) => true
  | _ => false

/-- The slots and the producer cursor `nil_begin` of a queue into which the elements `hist`
have been pushed so far, of which those at the positions marked by `rel` have been released;
everything before position `f` has been released, and the elements from `f` on fit the slot
ring and the payload ring. -/
structure SInv (P : Params) (q : queue) (hist : List (List Byte)) (rel : Nat → Bool)
    (f : Nat) : Prop where
  hsize : ∀ p, p < hist.length → 1 ≤ (elem hist p).length ∧ (elem hist p).length ≤ max_size P
  hmlen : q.meta_buf.length = P.MaxElementsNum
  hdlen : q.data_buf.length = P.DataBufferSize
  hnb : q.nil_begin = pack_nil P ⟨hist.length, off hist hist.length⟩
  hrel : ∀ p, rel p = true → p < hist.length
  hf : ∀ p, p < f → rel p = true
  htf : hist.length ≤ f + P.MaxElementsNum
  hbytes : off hist hist.length ≤ off hist f + P.DataBufferSize
  hslot : ∀ p, p < hist.length → hist.length ≤ p + P.MaxElementsNum →
    load_slot P q.meta_buf p
      = ⟨off hist p % (2 * P.DataBufferSize), (elem hist p).length,
         if rel p = true then state.nil else state.val, round_at P p⟩
  hfree : ∀ s, hist.length ≤ s → s < P.MaxElementsNum →
    load_slot P q.meta_buf s = ⟨0, 0, 0, 0⟩

/-- The producer cursor `nil_end` of an instantiation whose `meta_idx` field is too narrow for
the wrap-parity bit, after `t` pushes with slide limit `L`: either the stored index `e` is not
behind the next push (and then no payload has been reclaimed), or it is behind for good and no
push succeeds any more. -/
def NarrowEnd (P : Params) (L : Nat) (e : nil_slider) (t f : Nat) : Prop :=
  t ≤ 2 ^ meta_idx_bits P ∧
  ((t ≤ e.meta_idx ∧ f = 0 ∧ e.data_idx = P.DataBufferSize ∧
      (L % 2 ^ meta_idx_bits P = 0 → e.meta_idx = 0) ∧
      (t + 1 = 2 ^ meta_idx_bits P →
        L % 2 ^ meta_idx_bits P = 1 ∧ L + 2 ^ meta_idx_bits P ≤ P.MaxElementsNum + 1)) ∨
   (e.meta_idx < t ∧ (t = 2 ^ meta_idx_bits P → e.meta_idx = 0)))

/-- The producer cursor `nil_end`: with a roomy `meta_idx` field it stands one ring beyond
the reclaimed position `f`. -/
def NilEnd (P : Params) (q : queue) (hist : List (List Byte)) (f : Nat) : Prop :=
  q.nil_end < 2 ^ P.atom_bits ∧
  (P.roomy = true →
    q.nil_end = pack_nil P ⟨f + P.MaxElementsNum, off hist f + P.DataBufferSize⟩) ∧
  (P.roomy = false →
    NarrowEnd P q.slide_limit (unpack_nil P q.nil_end) hist.length f)

/-- The consumer side of a client that never copies a handle: `c` positions have been claimed,
`e` are visible through `val_end`, only claimed positions have been released, and handle `i`
still owns the unreleased positions from `lo i` up to `hi i`; distinct handles own disjoint
ranges. -/
structure VInv (P : Params) (s : Client) (hist : List (List Byte)) (rel : Nat → Bool)
    (c e : Nat) (lo hi : Nat → Nat) : Prop where
  hce : c ≤ e
  het : e ≤ hist.length
  hvb : s.q.val_begin = c % 2 ^ P.atom_bits
  hve : s.q.val_end = e % 2 ^ P.atom_bits
  hrc : ∀ p, rel p = true → p < c
  hh : ∀ i, i < s.handles.length →
    lo i ≤ hi i ∧ hi i ≤ c ∧
    s.handles.getD i ⟨0, 0⟩ = ⟨lo i % 2 ^ P.atom_bits, hi i % 2 ^ P.atom_bits⟩ ∧
    ∀ p, lo i ≤ p → p < hi i → rel p = false
  hdisj : ∀ i j, i < j → j < s.handles.length → lo i = hi i ∨ lo j = hi j ∨ hi i ≤ lo j

/-- A claimed position that has not been released and that no handle owns. -/
def orphan (s : Client) (rel : Nat → Bool) (c : Nat) (lo hi : Nat → Nat) (p : Nat) : Prop :=
  p < c ∧ rel p = false ∧ ∀ i, i < s.handles.length → ¬ (lo i ≤ p ∧ p < hi i)

/-- The distance from cursor index `a` to cursor index `b` on the doubled slot ring:
`mod<N * 2, Atom>(b - a)`. -/
def ring_dist (P : Params) (a b : Nat) : Nat :=
  mod (P.MaxElementsNum * 2) (atom_sub P.atom_bits b a)

/-- Total size of the elements held by the slots in state VAL. -/
def val_bytes (P : Params) (q : queue) : Nat :=
  ((List.range P.MaxElementsNum).map (fun s =>
    if (load_slot P q.meta_buf s).state = state.val then (load_slot P q.meta_buf s).size
    else 0)).sum

/-- The states of the slots and producer cursors that a client can reach: the slot invariant
and the `nil_end` invariant hold for some stream of pushed elements and some set of released
positions. -/
def Reach (P : Params) (q : queue) : Prop :=
  ∃ hist rel f, SInv P q hist rel f ∧ NilEnd P q hist f

/-- A client program run on a freshly constructed queue. -/
def run_client (P : Params) (slide_limit fuel : Nat) (calls : List Call) :
    Client × List Reply :=
  exec P fuel (Client.fresh P slide_limit) calls

/-- Slot `y` goes from state `a` to state `b` between the buffers `mb` and `mb1`, with its
round bit flipped or kept, and no other slot word changes. -/
def slot_turns (P : Params) (mb mb1 : List Nat) (y a b : Nat) (flip : Bool) : Prop :=
  y < P.MaxElementsNum ∧
  (load_slot P mb y).state = a ∧ (load_slot P mb1 y).state = b ∧
  (load_slot P mb y).odd_round ≤ 1 ∧
  (load_slot P mb1 y).odd_round
    = (if flip = true then 1 - (load_slot P mb y).odd_round else (load_slot P mb y).odd_round) ∧
  ∀ z, z < P.MaxElementsNum → z ≠ y → load_slot P mb1 z = load_slot P mb z

/-! ## Clients that never copy a handle -/

/-- The replies of a call whose retry loop ran out of fuel in this model. -/
def Reply.is_diverged : Reply → Bool
  | .pushed .diverged => true
  | .popped .diverged _ => true
  | .claimed .diverged => true
  | .consumed .diverged _ => true
  | _ => false

/-- The invariant of a client that never copies a handle. -/
structure Full (P : Params) (s : Client) (hist : List (List Byte)) (rel : Nat → Bool)
    (f c e : Nat) (lo hi : Nat → Nat) : Prop where
  slots : SInv P s.q hist rel f
  ends : NilEnd P s.q hist f
  vals : VInv P s hist rel c e lo hi

/-- One statement has taken a client that never copies a handle from `s` to `s1` with reply
`rep`: the invariant holds again, for the stream extended by the element pushed (if any); no
assertion has failed and no retry loop has run out of fuel; claimed positions stay claimed, orphans stay orphans, and a capacity
error of `try_pop` has made the position it claimed an orphan. -/
def Stepped (P : Params) (s : Client) (hist : List (List Byte)) (rel : Nat → Bool)
    (c : Nat) (lo hi : Nat → Nat) (s1 : Client) (rep : Reply) : Prop :=
  ∃ ext rel1 f1 c1 e1 lo1 hi1,
    Full P s1 (hist ++ ext) rel1 f1 c1 e1 lo1 hi1 ∧
    ext.length = (if rep.is_pushed = true then 1 else 0) ∧
    rep.is_logic_error = false ∧
    rep.is_diverged = false ∧
    c ≤ c1 ∧
    (∀ p, orphan s rel c lo hi p → orphan s1 rel1 c1 lo1 hi1 p) ∧
    s1.q.slide_limit = s.q.slide_limit ∧
    (∀ d, rep = .popped .invalid_argument d → orphan s1 rel1 c1 lo1 hi1 c)

theorem two_pow_log2_aux (k : Nat) : ∀ fuel, k ≤ fuel → log2_aux fuel (2 ^ k) = k := by
  induction k with
  | zero =>
    intro fuel _
    cases fuel <;> simp [log2_aux]
  | succ k ih =>
    intro fuel hf
    cases fuel with
    | zero => omega
    | succ fuel =>
      have h1 : 2 ^ (k + 1) > 1 := Nat.one_lt_two_pow (by omega)
      have h2 : 2 ^ (k + 1) / 2 = 2 ^ k := by
        rw [Nat.pow_succ]; exact Nat.mul_div_cancel _ (by decide)
      simp only [log2_aux, h1, if_true, h2]
      rw [ih fuel (by omega)]; omega

theorem log2_two_pow (k : Nat) : log2 (2 ^ k) = k :=
  two_pow_log2_aux k _ (Nat.le_of_lt (Nat.lt_two_pow k))

theorem is_pow_of_2_two_pow (k : Nat) : is_pow_of_2 (2 ^ k) = true := by
  have h : 2 ^ k ≠ 0 := by positivity
  simp [is_pow_of_2, h]

theorem testBit_two_pow_add_lt {k r : Nat} (hr : r < 2 ^ k) : (2 ^ k + r).testBit k = true := by
  rw [Nat.testBit_two_pow_add_eq, Nat.testBit_lt_two_pow hr]; rfl

theorem eq_two_pow_of_is_pow_of_2 {n : Nat} (h : is_pow_of_2 n = true) : ∃ k, n = 2 ^ k := by
  simp only [is_pow_of_2, Bool.and_eq_true, bne_iff_ne, ne_eq, beq_iff_eq] at h
  obtain ⟨hn, hand⟩ := h
  have hle : 2 ^ Nat.log 2 n ≤ n := Nat.pow_log_le_self 2 hn
  have hlt : n < 2 ^ (Nat.log 2 n + 1) := Nat.lt_pow_succ_log_self (by decide) n
  generalize Nat.log 2 n = k at hle hlt
  refine ⟨k, ?_⟩
  by_contra hne
  rw [Nat.pow_succ] at hlt
  obtain ⟨r, hr⟩ : ∃ r, n = 2 ^ k + (r + 1) := ⟨n - 2 ^ k - 1, by omega⟩
  have b1 : n.testBit k = true := by
    rw [hr]; exact testBit_two_pow_add_lt (by omega)
  have b2 : (n - 1).testBit k = true := by
    have : n - 1 = 2 ^ k + r := by omega
    rw [this]; exact testBit_two_pow_add_lt (by omega)
  have b3 : (n &&& (n - 1)).testBit k = true := by
    rw [Nat.testBit_and, b1, b2]; rfl
  rw [hand] at b3
  simp at b3

theorem eq_two_pow_log2 {n : Nat} (h : is_pow_of_2 n = true) : n = 2 ^ log2 n := by
  obtain ⟨k, rfl⟩ := eq_two_pow_of_is_pow_of_2 h
  rw [log2_two_pow]

theorem mod_two_pow (k x : Nat) : mod (2 ^ k) x = x % 2 ^ k := by
  simp [mod]

theorem to_atom_of_lt {W x : Nat} (h : x < 2 ^ W) : to_atom W x = x := Nat.mod_eq_of_lt h

theorem to_atom_lt (W x : Nat) : to_atom W x < 2 ^ W := Nat.mod_lt _ (by positivity)

namespace bit_slice

theorem mask_eq {W : Nat} {s : bit_slice} (h : s.valid W = true) :
    s.mask W = (2 ^ (s.end_bit - s.start_bit) - 1) <<< s.start_bit := by
  simp only [valid, Bool.and_eq_true, decide_eq_true_eq] at h
  obtain ⟨⟨he, hs⟩, hse⟩ := h
  have hW : 1 < 2 ^ W := Nat.one_lt_two_pow (by omega)
  have h1 : atom_sub W (to_atom W (1 <<< (s.end_bit - s.start_bit))) 1
      = 2 ^ (s.end_bit - s.start_bit) - 1 := by
    simp only [atom_sub, to_atom, Nat.shiftLeft_eq, one_mul, Nat.mod_mod,
      Nat.mod_eq_of_lt hW]
    rcases Nat.lt_or_ge (s.end_bit - s.start_bit) W with hk | hk
    · have hlt : 2 ^ (s.end_bit - s.start_bit) < 2 ^ W := Nat.pow_lt_pow_right (by decide) hk
      have hpos : 0 < 2 ^ (s.end_bit - s.start_bit) := by positivity
      rw [Nat.mod_eq_of_lt hlt]
      have : 2 ^ (s.end_bit - s.start_bit) + (2 ^ W - 1)
          = (2 ^ (s.end_bit - s.start_bit) - 1) + 2 ^ W := by omega
      rw [this, Nat.add_mod_right, Nat.mod_eq_of_lt (by omega)]
    · have hk' : s.end_bit - s.start_bit = W := by omega
      rw [hk', Nat.mod_self, Nat.zero_add, Nat.mod_eq_of_lt (by omega)]
  rw [mask, h1]
  apply to_atom_of_lt
  rw [Nat.shiftLeft_eq]
  have hpos : 0 < 2 ^ (s.end_bit - s.start_bit) := by positivity
  calc (2 ^ (s.end_bit - s.start_bit) - 1) * 2 ^ s.start_bit
      < 2 ^ (s.end_bit - s.start_bit) * 2 ^ s.start_bit :=
        Nat.mul_lt_mul_of_pos_right (by omega) (by positivity)
    _ = 2 ^ s.end_bit := by rw [← Nat.pow_add]; congr 1; omega
    _ ≤ 2 ^ W := Nat.pow_le_pow_right (by decide) he

theorem testBit_mask {W : Nat} {s : bit_slice} (h : s.valid W = true) (i : Nat) :
    (s.mask W).testBit i = decide (s.start_bit ≤ i ∧ i < s.end_bit) := by
  rw [mask_eq h, Nat.testBit_shiftLeft, Nat.testBit_two_pow_sub_one]
  simp only [valid, Bool.and_eq_true, decide_eq_true_eq] at h
  by_cases h1 : s.start_bit ≤ i <;> by_cases h2 : i < s.end_bit <;> simp [h1, h2] <;> omega

theorem testBit_encode {W : Nat} {s : bit_slice} (h : s.valid W = true) (v i : Nat) :
    (s.encode W v).testBit i = (decide (s.start_bit ≤ i ∧ i < s.end_bit) && v.testBit (i - s.start_bit)) := by
  rw [encode, Nat.testBit_and, testBit_mask h, to_atom, Nat.testBit_mod_two_pow,
    Nat.testBit_shiftLeft]
  simp only [valid, Bool.and_eq_true, decide_eq_true_eq] at h
  by_cases h1 : s.start_bit ≤ i <;> by_cases h2 : i < s.end_bit <;> simp [h1, h2]
  intro _; omega

theorem testBit_decode {W : Nat} {s : bit_slice} (h : s.valid W = true) (w j : Nat) :
    (s.decode W w).testBit j = (decide (j < s.end_bit - s.start_bit) && w.testBit (s.start_bit + j)) := by
  rw [decode, Nat.testBit_shiftRight, Nat.testBit_and, testBit_mask h]
  by_cases h1 : j < s.end_bit - s.start_bit <;> simp [h1] 
  all_goals (intro _; omega)

end bit_slice

namespace bit_slice

theorem valid_iff {W : Nat} {s : bit_slice} :
    s.valid W = true ↔ s.end_bit ≤ W ∧ s.start_bit < W ∧ s.start_bit < s.end_bit := by
  simp [valid, and_assoc]

theorem decode_encode {W : Nat} {s : bit_slice} (h : s.valid W = true) (v : Nat) :
    s.decode W (s.encode W v) = v % 2 ^ (s.end_bit - s.start_bit) := by
  apply Nat.eq_of_testBit_eq
  intro j
  rw [testBit_decode h, testBit_encode h, Nat.testBit_mod_two_pow]
  by_cases h1 : j < s.end_bit - s.start_bit <;> simp [h1]
  intro h2; omega

theorem encode_decode {W : Nat} {s : bit_slice} (h : s.valid W = true) (w : Nat) :
    s.encode W (s.decode W w) = w &&& s.mask W := by
  apply Nat.eq_of_testBit_eq
  intro i
  rw [testBit_encode h, testBit_decode h, Nat.testBit_and, testBit_mask h]
  by_cases h1 : s.start_bit ≤ i ∧ i < s.end_bit
  · have e : s.start_bit + (i - s.start_bit) = i := by omega
    have h3 : i - s.start_bit < s.end_bit - s.start_bit := by omega
    simp [h1, e, h3]
  · simp [h1]

theorem encode_and_mask (W : Nat) (s : bit_slice) (v : Nat) :
    s.encode W v &&& s.mask W = s.encode W v := by
  rw [encode, Nat.and_assoc, Nat.and_self]

theorem decode_or (W : Nat) (s : bit_slice) (a b : Nat) :
    s.decode W (a ||| b) = s.decode W a ||| s.decode W b := by
  apply Nat.eq_of_testBit_eq
  intro j
  simp only [decode, Nat.testBit_shiftRight, Nat.testBit_and, Nat.testBit_or]
  cases a.testBit (s.start_bit + j) <;> cases b.testBit (s.start_bit + j) <;> simp

theorem decode_encode_of_disjoint {W : Nat} {s t : bit_slice} (hs : s.valid W = true)
    (ht : t.valid W = true) (hd : t.end_bit ≤ s.start_bit ∨ s.end_bit ≤ t.start_bit) (v : Nat) :
    s.decode W (t.encode W v) = 0 := by
  apply Nat.eq_of_testBit_eq
  intro j
  rw [testBit_decode hs, testBit_encode ht, Nat.zero_testBit]
  by_cases h1 : j < s.end_bit - s.start_bit
  · have h2 : ¬ (t.start_bit ≤ s.start_bit + j ∧ s.start_bit + j < t.end_bit) := by omega
    simp [h2]
  · simp [h1]

theorem encode_lt {W : Nat} {s : bit_slice} (h : s.valid W = true) (v : Nat) :
    s.encode W v < 2 ^ W := by
  apply Nat.lt_pow_two_of_testBit
  intro i hi
  rw [testBit_encode h]
  rw [valid_iff] at h
  have : ¬ (s.start_bit ≤ i ∧ i < s.end_bit) := by omega
  simp [this]

theorem decode_lt {W : Nat} {s : bit_slice} (h : s.valid W = true) (w : Nat) :
    s.decode W w < 2 ^ (s.end_bit - s.start_bit) := by
  apply Nat.lt_pow_two_of_testBit
  intro i hi
  rw [testBit_decode h]
  have : ¬ (i < s.end_bit - s.start_bit) := by omega
  simp [this]

end bit_slice

theorem atom_sub_add_modEq (W a b : Nat) : atom_sub W b a + a ≡ b [MOD 2 ^ W] := by
  have hpos : 0 < 2 ^ W := by positivity
  have ha : a % 2 ^ W < 2 ^ W := Nat.mod_lt _ hpos
  unfold atom_sub
  have h1 : (b % 2 ^ W + (2 ^ W - a % 2 ^ W)) % 2 ^ W + a
      ≡ (b % 2 ^ W + (2 ^ W - a % 2 ^ W)) + a [MOD 2 ^ W] :=
    Nat.ModEq.add_right _ (Nat.mod_modEq _ _)
  have h2 : (b % 2 ^ W + (2 ^ W - a % 2 ^ W)) + a ≡ b [MOD 2 ^ W] := by
    have e : (b % 2 ^ W + (2 ^ W - a % 2 ^ W)) + a
        = b % 2 ^ W + 2 ^ W * (1 + a / 2 ^ W) := by
      have := Nat.mod_add_div a (2 ^ W)
      rw [Nat.mul_add, Nat.mul_one]
      omega
    rw [e]
    unfold Nat.ModEq
    rw [Nat.add_mul_mod_self_left, Nat.mod_mod]
  exact h1.trans h2

theorem atom_sub_mod_eq {W k a b d : Nat} (hk : k ≤ W) (hd : d < 2 ^ k)
    (h : b % 2 ^ k = (a + d) % 2 ^ k) : atom_sub W b a % 2 ^ k = d := by
  have h1 : atom_sub W b a + a ≡ b [MOD 2 ^ k] :=
    (atom_sub_add_modEq W a b).of_dvd (Nat.pow_dvd_pow 2 hk)
  have h2 : atom_sub W b a + a ≡ d + a [MOD 2 ^ k] := by
    refine h1.trans ?_
    unfold Nat.ModEq
    rw [h, Nat.add_comm]
  have h3 : atom_sub W b a ≡ d [MOD 2 ^ k] := Nat.ModEq.add_right_cancel' a h2
  unfold Nat.ModEq at h3
  rw [h3, Nat.mod_eq_of_lt hd]

theorem atom_sub_cast (W a b : Nat) :
    ((atom_sub W b a : Nat) : Int) = ((b : Int) - (a : Int)) % ((2 : Int) ^ W) := by
  have h := atom_sub_add_modEq W a b
  have hlt : atom_sub W b a < 2 ^ W := Nat.mod_lt _ (by positivity)
  have h2 : ((atom_sub W b a : Nat) : Int) ≡ (b : Int) - a [ZMOD ((2 ^ W : Nat) : Int)] := by
    have := (Int.natCast_modEq_iff.mpr h)
    push_cast at this ⊢
    exact Int.ModEq.add_right_cancel' (a : Int) (by simpa using this)
  unfold Int.ModEq at h2
  push_cast at h2
  rw [← h2]
  symm
  apply Int.emod_eq_of_lt
  · positivity
  · exact_mod_cast hlt

/-- The test `wrapped_less_than<2^k>` on two cursors that are `d` apart modulo `2^(k+1)`. -/
theorem wrapped_less_than_of_dist {W k a b d : Nat} (hk : k + 1 ≤ W) (hd : d < 2 ^ (k + 1))
    (h : b % 2 ^ (k + 1) = (a + d) % 2 ^ (k + 1)) :
    wrapped_less_than W (2 ^ k) a b = (decide (d ≤ 2 ^ k) && decide (d ≠ 0)) := by
  have e : mod (2 ^ k * 2) (atom_sub W b a) = d := by
    rw [← Nat.pow_succ, mod_two_pow]
    exact atom_sub_mod_eq hk hd h
  simp only [wrapped_less_than, e]
  by_cases h0 : d = 0 <;> simp [h0]

theorem Params.shape_of_accepted {P : Params} (h : P.accepted = true) :
    P.Shape (log2 P.MaxElementsNum) (log2 P.DataBufferSize) := by
  simp only [Params.accepted, Bool.and_eq_true, decide_eq_true_eq, bit_slice.valid_iff,
    meta_info.begin_slice, meta_info.size_slice, meta_info.state_slice,
    meta_info.odd_round_slice, nil_slider.meta_idx_slice, nil_slider.data_idx_slice] at h
  obtain ⟨⟨⟨⟨⟨⟨⟨⟨hN, hB⟩, hlt⟩, -⟩, h2⟩, -⟩, -⟩, -⟩, -⟩ := h
  have eN := eq_two_pow_log2 hN
  refine ⟨eN, eq_two_pow_log2 hB, by omega, ?_⟩
  rw [eN] at hlt
  exact (Nat.pow_lt_pow_iff_right (by decide)).mp hlt

theorem Params.accepted_of_shape {P : Params} {n lb : Nat} (h : P.Shape n lb) :
    P.accepted = true := by
  obtain ⟨hN, hB, hW, hn⟩ := h
  have hl : log2 P.DataBufferSize = lb := by rw [hB, log2_two_pow]
  have hlt : P.MaxElementsNum < 2 ^ P.atom_bits := by
    rw [hN]; exact Nat.pow_lt_pow_right (by decide) hn
  simp only [Params.accepted, Bool.and_eq_true, decide_eq_true_eq, bit_slice.valid_iff,
    meta_info.begin_slice, meta_info.size_slice, meta_info.state_slice,
    meta_info.odd_round_slice, nil_slider.meta_idx_slice, nil_slider.data_idx_slice, hl]
  rw [hN, hB]
  simp only [is_pow_of_2_two_pow, true_and]
  rw [← hN]
  refine ⟨⟨⟨⟨⟨⟨hlt, ?_⟩, ?_⟩, ?_⟩, ?_⟩, ?_⟩, ?_⟩ <;> omega

namespace Params.Shape

variable {P : Params} {n lb : Nat}

theorem log2_B (h : P.Shape n lb) : log2 P.DataBufferSize = lb := by
  rw [h.hB, log2_two_pow]

theorem log2_N (h : P.Shape n lb) : log2 P.MaxElementsNum = n := by
  rw [h.hN, log2_two_pow]

theorem begin_valid (h : P.Shape n lb) : (meta_info.begin_slice P).valid P.atom_bits = true := by
  have := h.hW
  simp only [bit_slice.valid_iff, meta_info.begin_slice, h.log2_B]; omega

theorem size_valid (h : P.Shape n lb) : (meta_info.size_slice P).valid P.atom_bits = true := by
  have := h.hW
  simp only [bit_slice.valid_iff, meta_info.size_slice, h.log2_B]; omega

theorem state_valid (h : P.Shape n lb) : (meta_info.state_slice P).valid P.atom_bits = true := by
  have := h.hW
  simp only [bit_slice.valid_iff, meta_info.state_slice]; omega

theorem odd_round_valid (h : P.Shape n lb) :
    (meta_info.odd_round_slice P).valid P.atom_bits = true := by
  have := h.hW
  simp only [bit_slice.valid_iff, meta_info.odd_round_slice]; omega

theorem meta_idx_valid (h : P.Shape n lb) :
    (nil_slider.meta_idx_slice P).valid P.atom_bits = true := by
  have := h.hW
  simp only [bit_slice.valid_iff, nil_slider.meta_idx_slice, h.log2_B]; omega

theorem data_idx_valid (h : P.Shape n lb) :
    (nil_slider.data_idx_slice P).valid P.atom_bits = true := by
  have := h.hW
  simp only [bit_slice.valid_iff, nil_slider.data_idx_slice, h.log2_B]; omega

theorem unpack_pack_nil (h : P.Shape n lb) (s : nil_slider) :
    unpack_nil P (pack_nil P s)
      = ⟨s.meta_idx % 2 ^ (P.atom_bits - (lb + 1)), s.data_idx % 2 ^ (lb + 1)⟩ := by
  have hW := h.hW
  have hl := h.log2_B
  simp only [unpack_nil, pack_nil, bit_slice.decode_or,
    bit_slice.decode_encode h.meta_idx_valid, bit_slice.decode_encode h.data_idx_valid]
  rw [bit_slice.decode_encode_of_disjoint h.meta_idx_valid h.data_idx_valid
        (by simp only [nil_slider.meta_idx_slice, nil_slider.data_idx_slice]; omega),
      bit_slice.decode_encode_of_disjoint h.data_idx_valid h.meta_idx_valid
        (by simp only [nil_slider.meta_idx_slice, nil_slider.data_idx_slice]; omega)]
  simp only [nil_slider.meta_idx_slice, nil_slider.data_idx_slice, hl, Nat.or_zero,
    Nat.zero_or, Nat.sub_zero]
  have e : P.atom_bits - (P.atom_bits - (lb + 1)) = lb + 1 := by omega
  rw [e]

theorem unpack_pack_meta (h : P.Shape n lb) (m : meta_info) :
    unpack_meta P (pack_meta P m)
      = ⟨m.begin % 2 ^ (lb + 1), m.size % 2 ^ (P.atom_bits - 2 - (lb + 1)),
         m.state % 2, m.odd_round % 2⟩ := by
  have hW := h.hW
  have hl := h.log2_B
  have d : ∀ {s t : bit_slice}, s.valid P.atom_bits = true → t.valid P.atom_bits = true →
      (t.end_bit ≤ s.start_bit ∨ s.end_bit ≤ t.start_bit) → ∀ v,
      s.decode P.atom_bits (t.encode P.atom_bits v) = 0 :=
    fun hs ht hd v => bit_slice.decode_encode_of_disjoint hs ht hd v
  simp only [unpack_meta, pack_meta, bit_slice.decode_or,
    bit_slice.decode_encode h.begin_valid, bit_slice.decode_encode h.size_valid,
    bit_slice.decode_encode h.state_valid, bit_slice.decode_encode h.odd_round_valid]
  rw [d h.begin_valid h.size_valid (by simp only [meta_info.begin_slice, meta_info.size_slice]; omega),
      d h.begin_valid h.state_valid (by simp only [meta_info.begin_slice, meta_info.state_slice, hl]; omega),
      d h.begin_valid h.odd_round_valid (by simp only [meta_info.begin_slice, meta_info.odd_round_slice, hl]; omega),
      d h.size_valid h.begin_valid (by simp only [meta_info.begin_slice, meta_info.size_slice]; omega),
      d h.size_valid h.state_valid (by simp only [meta_info.size_slice, meta_info.state_slice]; omega),
      d h.size_valid h.odd_round_valid (by simp only [meta_info.size_slice, meta_info.odd_round_slice]; omega),
      d h.state_valid h.begin_valid (by simp only [meta_info.begin_slice, meta_info.state_slice, hl]; omega),
      d h.state_valid h.size_valid (by simp only [meta_info.size_slice, meta_info.state_slice]; omega),
      d h.state_valid h.odd_round_valid (by simp only [meta_info.state_slice, meta_info.odd_round_slice]; omega),
      d h.odd_round_valid h.begin_valid (by simp only [meta_info.begin_slice, meta_info.odd_round_slice, hl]; omega),
      d h.odd_round_valid h.size_valid (by simp only [meta_info.size_slice, meta_info.odd_round_slice]; omega),
      d h.odd_round_valid h.state_valid (by simp only [meta_info.state_slice, meta_info.odd_round_slice]; omega)]
  simp only [meta_info.begin_slice, meta_info.size_slice, meta_info.state_slice,
    meta_info.odd_round_slice, hl, Nat.or_zero, Nat.zero_or, Nat.sub_zero]
  have e1 : P.atom_bits - 1 - (P.atom_bits - 2) = 1 := by omega
  have e2 : P.atom_bits - (P.atom_bits - 1) = 1 := by omega
  rw [e1, e2, Nat.pow_one]

theorem pack_unpack_nil (h : P.Shape n lb) {w : Nat} (hw : w < 2 ^ P.atom_bits) :
    pack_nil P (unpack_nil P w) = w := by
  have hW := h.hW
  have hl := h.log2_B
  apply Nat.eq_of_testBit_eq
  intro i
  simp only [pack_nil, unpack_nil, Nat.testBit_or, bit_slice.testBit_encode h.meta_idx_valid,
    bit_slice.testBit_encode h.data_idx_valid, bit_slice.testBit_decode h.meta_idx_valid,
    bit_slice.testBit_decode h.data_idx_valid]
  simp only [nil_slider.meta_idx_slice, nil_slider.data_idx_slice, hl]
  by_cases hi : i < P.atom_bits
  · by_cases h1 : i < P.atom_bits - (lb + 1)
    · have h2 : ¬ (P.atom_bits - (lb + 1) ≤ i) := by omega
      simp [h1, h2]
    · have e : P.atom_bits - (lb + 1) + (i - (P.atom_bits - (lb + 1))) = i := by omega
      have h3 : i - (P.atom_bits - (lb + 1)) < P.atom_bits - (P.atom_bits - (lb + 1)) := by omega
      have h4 : P.atom_bits - (lb + 1) ≤ i := by omega
      simp [h1, e, h3, h4, hi]
  · have hb : w.testBit i = false :=
      Nat.testBit_lt_two_pow (Nat.lt_of_lt_of_le hw (Nat.pow_le_pow_right (by decide) (by omega)))
    have h1 : ¬ (i < P.atom_bits - (lb + 1)) := by omega
    simp [hb, h1, hi]

theorem pack_unpack_meta (h : P.Shape n lb) {w : Nat} (hw : w < 2 ^ P.atom_bits) :
    pack_meta P (unpack_meta P w) = w := by
  have hW := h.hW
  have hl := h.log2_B
  apply Nat.eq_of_testBit_eq
  intro i
  simp only [pack_meta, unpack_meta, Nat.testBit_or, bit_slice.testBit_encode h.begin_valid,
    bit_slice.testBit_encode h.size_valid, bit_slice.testBit_encode h.state_valid,
    bit_slice.testBit_encode h.odd_round_valid, bit_slice.testBit_decode h.begin_valid,
    bit_slice.testBit_decode h.size_valid, bit_slice.testBit_decode h.state_valid,
    bit_slice.testBit_decode h.odd_round_valid]
  simp only [meta_info.begin_slice, meta_info.size_slice, meta_info.state_slice,
    meta_info.odd_round_slice, hl]
  by_cases hi : i < P.atom_bits
  · rcases Nat.lt_or_ge i (lb + 1) with h1 | h1
    · have : ¬ (lb + 1 ≤ i) := by omega
      have : ¬ (P.atom_bits - 2 ≤ i) := by omega
      have : ¬ (P.atom_bits - 1 ≤ i) := by omega
      simp [*]
    · rcases Nat.lt_or_ge i (P.atom_bits - 2) with h2 | h2
      · have : ¬ (i < lb + 1) := by omega
        have : ¬ (P.atom_bits - 2 ≤ i) := by omega
        have : ¬ (P.atom_bits - 1 ≤ i) := by omega
        have e : lb + 1 + (i - (lb + 1)) = i := by omega
        have : i - (lb + 1) < P.atom_bits - 2 - (lb + 1) := by omega
        simp [*]
      · rcases Nat.lt_or_ge i (P.atom_bits - 1) with h3 | h3
        · have : ¬ (i < lb + 1) := by omega
          have : ¬ (i < P.atom_bits - 2) := by omega
          have : ¬ (P.atom_bits - 1 ≤ i) := by omega
          have e : P.atom_bits - 2 + (i - (P.atom_bits - 2)) = i := by omega
          have : i - (P.atom_bits - 2) < P.atom_bits - 1 - (P.atom_bits - 2) := by omega
          simp [*]
        · have : ¬ (i < lb + 1) := by omega
          have : ¬ (i < P.atom_bits - 2) := by omega
          have : ¬ (i < P.atom_bits - 1) := by omega
          have e : P.atom_bits - 1 + (i - (P.atom_bits - 1)) = i := by omega
          have : i - (P.atom_bits - 1) < P.atom_bits - (P.atom_bits - 1) := by omega
          simp [*]
  · have hb : w.testBit i = false :=
      Nat.testBit_lt_two_pow (Nat.lt_of_lt_of_le hw (Nat.pow_le_pow_right (by decide) (by omega)))
    have : ¬ (i < lb + 1) := by omega
    have : ¬ (i < P.atom_bits - 2) := by omega
    have : ¬ (i < P.atom_bits - 1) := by omega
    simp [*]

end Params.Shape

namespace bit_slice

theorem mask_and_of_disjoint {W : Nat} {s t : bit_slice} (hs : s.valid W = true)
    (ht : t.valid W = true) (hd : t.end_bit ≤ s.start_bit ∨ s.end_bit ≤ t.start_bit) :
    s.mask W &&& t.mask W = 0 := by
  apply Nat.eq_of_testBit_eq
  intro i
  rw [Nat.testBit_and, testBit_mask hs, testBit_mask ht, Nat.zero_testBit]
  by_cases h1 : s.start_bit ≤ i ∧ i < s.end_bit
  · have h2 : ¬ (t.start_bit ≤ i ∧ i < t.end_bit) := by omega
    simp [h2]
  · simp [h1]

theorem mask_or_of_adjacent {W : Nat} {s t : bit_slice} (hs : s.valid W = true)
    (ht : t.valid W = true) (hadj : s.end_bit = t.start_bit) :
    s.mask W ||| t.mask W = (⟨s.start_bit, t.end_bit⟩ : bit_slice).mask W := by
  have hst : (⟨s.start_bit, t.end_bit⟩ : bit_slice).valid W = true := by
    rw [valid_iff] at hs ht ⊢
    dsimp only
    omega
  rw [valid_iff] at hs ht
  apply Nat.eq_of_testBit_eq
  intro i
  rw [Nat.testBit_or, testBit_mask (valid_iff.mpr hs), testBit_mask (valid_iff.mpr ht),
    testBit_mask hst]
  dsimp only
  by_cases h1 : s.start_bit ≤ i ∧ i < s.end_bit
  · have h3 : s.start_bit ≤ i ∧ i < t.end_bit := by omega
    simp [h1, h3]
  · by_cases h2 : t.start_bit ≤ i ∧ i < t.end_bit
    · have h3 : s.start_bit ≤ i ∧ i < t.end_bit := by omega
      simp [h2, h3]
    · have h3 : ¬ (s.start_bit ≤ i ∧ i < t.end_bit) := by omega
      simp [h1, h2, h3]

theorem mask_full {W : Nat} (hW : 0 < W) : (⟨0, W⟩ : bit_slice).mask W = 2 ^ W - 1 := by
  rw [mask_eq (by rw [valid_iff]; dsimp only; omega)]
  simp

end bit_slice

/-! ## Buffers -/

theorem getElem?_set_eq_ite {α : Type} (l : List α) (i j : Nat) (a : α) :
    (l.set i a)[j]? = if i = j ∧ i < l.length then some a else l[j]? := by
  rw [List.getElem?_set]
  by_cases h : i = j
  · subst h
    by_cases h2 : i < l.length
    · simp [h2]
    · have h3 : l.length ≤ i := by omega
      simp [h2, h3]
  · simp [h]

theorem length_memcpy (dst : List Byte) (doff : Nat) (src : List Byte) (soff n : Nat) :
    (memcpy dst doff src soff n).length = dst.length := by
  induction n with
  | zero => rfl
  | succ n ih => simp [memcpy, ih]

theorem getElem?_memcpy (dst : List Byte) (doff : Nat) (src : List Byte) (soff n i : Nat) :
    (memcpy dst doff src soff n)[i]?
      = if doff ≤ i ∧ i < doff + n ∧ i < dst.length
        then some (src.getD (soff + (i - doff)) 0) else dst[i]? := by
  induction n with
  | zero =>
    have h : ¬ (doff ≤ i ∧ i < doff + 0 ∧ i < dst.length) := by omega
    rw [if_neg h]; rfl
  | succ n ih =>
    rw [memcpy, getElem?_set_eq_ite, length_memcpy, ih]
    by_cases h1 : doff + n = i
    · subst h1
      by_cases h2 : doff + n < dst.length
      · have e : doff + n - doff = n := by omega
        simp [h2, e]
      · simp [h2]
    · by_cases h2 : doff ≤ i ∧ i < doff + n ∧ i < dst.length
      · have h3 : doff ≤ i ∧ i < doff + (n + 1) ∧ i < dst.length := by omega
        simp [h1, h2, h3]
      · have h3 : ¬ (doff ≤ i ∧ i < doff + (n + 1) ∧ i < dst.length) := by omega
        simp [h1, h2, h3]

theorem length_read_data (P : Params) (data : List Byte) (idx : Nat) (dst : List Byte)
    (size : Nat) : (read_data P data idx dst size).length = dst.length := by
  simp [read_data, length_memcpy]

theorem length_write_data (P : Params) (data : List Byte) (idx : Nat) (src : List Byte)
    (size : Nat) : (write_data P data idx src size).length = data.length := by
  simp [write_data, length_memcpy]

theorem getElem?_read_data (P : Params) (data : List Byte) (idx : Nat) (dst : List Byte)
    (size i : Nat) (hidx : idx < P.DataBufferSize) (hsize : size ≤ P.DataBufferSize)
    (hcap : size ≤ dst.length) :
    (read_data P data idx dst size)[i]?
      = if i < size then some (data.getD ((idx + i) % P.DataBufferSize) 0) else dst[i]? := by
  simp only [read_data, getElem?_memcpy, length_memcpy]
  by_cases h1 : i < size
  · rcases Nat.lt_or_ge i (min size (P.DataBufferSize - idx)) with h2 | h2
    · have h3 : ¬ (min size (P.DataBufferSize - idx) ≤ i ∧
          i < min size (P.DataBufferSize - idx) + (size - min size (P.DataBufferSize - idx)) ∧
          i < dst.length) := by omega
      have h4 : (0 ≤ i ∧ i < 0 + min size (P.DataBufferSize - idx) ∧ i < dst.length) := by omega
      have h5 : (idx + i) % P.DataBufferSize = idx + i := Nat.mod_eq_of_lt (by omega)
      rw [if_neg h3, if_pos h4, if_pos h1, h5, Nat.sub_zero]
    · have h3 : (min size (P.DataBufferSize - idx) ≤ i ∧
          i < min size (P.DataBufferSize - idx) + (size - min size (P.DataBufferSize - idx)) ∧
          i < dst.length) := by omega
      have h5 : (idx + i) % P.DataBufferSize = 0 + (i - min size (P.DataBufferSize - idx)) := by
        have e : idx + i = (i - (P.DataBufferSize - idx)) + P.DataBufferSize := by omega
        rw [e, Nat.add_mod_right, Nat.mod_eq_of_lt (by omega)]
        omega
      rw [if_pos h3, if_pos h1, h5]
  · have h3 : ¬ (min size (P.DataBufferSize - idx) ≤ i ∧
        i < min size (P.DataBufferSize - idx) + (size - min size (P.DataBufferSize - idx)) ∧
        i < dst.length) := by omega
    have h4 : ¬ (0 ≤ i ∧ i < 0 + min size (P.DataBufferSize - idx) ∧ i < dst.length) := by omega
    rw [if_neg h3, if_neg h4, if_neg h1]

theorem getElem?_write_data (P : Params) (data : List Byte) (idx : Nat) (src : List Byte)
    (size i : Nat) (hlen : data.length = P.DataBufferSize) (hidx : idx < P.DataBufferSize)
    (hsize : size ≤ P.DataBufferSize) (hi : i < P.DataBufferSize) :
    (write_data P data idx src size)[i]?
      = if (i + P.DataBufferSize - idx) % P.DataBufferSize < size
        then some (src.getD ((i + P.DataBufferSize - idx) % P.DataBufferSize) 0)
        else data[i]? := by
  simp only [write_data, getElem?_memcpy, length_memcpy, hlen]
  rcases Nat.lt_or_ge i idx with h1 | h1
  · have e : (i + P.DataBufferSize - idx) % P.DataBufferSize = i + P.DataBufferSize - idx :=
      Nat.mod_eq_of_lt (by omega)
    rw [e]
    have h3 : ¬ (idx ≤ i ∧ i < idx + min size (P.DataBufferSize - idx) ∧
        i < P.DataBufferSize) := by omega
    by_cases h2 : i + P.DataBufferSize - idx < size
    · have h4 : (0 ≤ i ∧ i < 0 + (size - min size (P.DataBufferSize - idx)) ∧
          i < P.DataBufferSize) := by omega
      have h5 : min size (P.DataBufferSize - idx) + (i - 0) = i + P.DataBufferSize - idx := by
        omega
      rw [if_pos h4, if_pos h2, h5]
    · have h4 : ¬ (0 ≤ i ∧ i < 0 + (size - min size (P.DataBufferSize - idx)) ∧
          i < P.DataBufferSize) := by omega
      rw [if_neg h4, if_neg h3, if_neg h2]
  · have e : (i + P.DataBufferSize - idx) % P.DataBufferSize = i - idx := by
      have e1 : i + P.DataBufferSize - idx = (i - idx) + P.DataBufferSize := by omega
      rw [e1, Nat.add_mod_right, Nat.mod_eq_of_lt (by omega)]
    rw [e]
    have h4 : ¬ (0 ≤ i ∧ i < 0 + (size - min size (P.DataBufferSize - idx)) ∧
        i < P.DataBufferSize) := by omega
    by_cases h2 : i - idx < size
    · have h3 : (idx ≤ i ∧ i < idx + min size (P.DataBufferSize - idx) ∧
          i < P.DataBufferSize) := by omega
      rw [if_neg h4, if_pos h3, if_pos h2, Nat.zero_add]
    · have h3 : ¬ (idx ≤ i ∧ i < idx + min size (P.DataBufferSize - idx) ∧
          i < P.DataBufferSize) := by omega
      rw [if_neg h4, if_neg h3, if_neg h2]

/-! ## Wrap-around arithmetic of cursors -/

theorem modEq_of_pow_le {K k a p : Nat} (hK : k ≤ K) (h : a % 2 ^ K = p % 2 ^ K) :
    a % 2 ^ k = p % 2 ^ k :=
  Nat.ModEq.of_dvd (Nat.pow_dvd_pow 2 hK) h

theorem testBit_congr {K n a p : Nat} (hK : n < K) (h : a % 2 ^ K = p % 2 ^ K) :
    a.testBit n = p.testBit n := by
  have h1 := Nat.testBit_mod_two_pow a K n
  have h2 := Nat.testBit_mod_two_pow p K n
  rw [h] at h1
  simp only [hK, decide_True, Bool.true_and] at h1 h2
  rw [← h1, h2]

theorem and_two_pow_ne_zero (x n : Nat) : ((x &&& 2 ^ n) != 0) = x.testBit n := by
  by_cases hb : x.testBit n = true
  · have : (x &&& 2 ^ n).testBit n = true := by
      rw [Nat.testBit_and, hb, Nat.testBit_two_pow_self]; rfl
    have hne : x &&& 2 ^ n ≠ 0 := by
      intro h0; rw [h0] at this; simp at this
    simp [hb, hne]
  · have hb' : x.testBit n = false := by simpa using hb
    have : x &&& 2 ^ n = 0 := by
      apply Nat.eq_of_testBit_eq
      intro i
      rw [Nat.testBit_and, Nat.testBit_two_pow, Nat.zero_testBit]
      by_cases hi : n = i
      · subst hi; simp [hb']
      · simp [hi]
    simp [hb', this]

theorem testBit_add_two_pow (x n : Nat) : (x + 2 ^ n).testBit n = !x.testBit n := by
  rw [Nat.add_comm]; exact Nat.testBit_two_pow_add_eq x n

theorem testBit_sub_two_pow {x n : Nat} (h : 2 ^ n ≤ x) :
    (x - 2 ^ n).testBit n = !x.testBit n := by
  have := testBit_add_two_pow (x - 2 ^ n) n
  rw [Nat.sub_add_cancel h] at this
  rw [this, Bool.not_not]

theorem mod_sub_two_pow {x n : Nat} (h : 2 ^ n ≤ x) : (x - 2 ^ n) % 2 ^ n = x % 2 ^ n := by
  conv_rhs => rw [← Nat.sub_add_cancel h]
  rw [Nat.add_mod_right]

theorem mod_ne_of_lt {N p r : Nat} (h1 : p < r) (h2 : r < p + N) : p % N ≠ r % N := by
  intro h
  have hN : 0 < N := by omega
  have hd : N ∣ r - p := (Nat.modEq_iff_dvd' (Nat.le_of_lt h1)).mp h
  have := Nat.le_of_dvd (by omega) hd
  omega

theorem add_mod_to_atom {K W a p c : Nat} (hK : K ≤ W) (h : a % 2 ^ K = p % 2 ^ K) :
    to_atom W (a + c) % 2 ^ K = (p + c) % 2 ^ K := by
  unfold to_atom
  rw [Nat.mod_mod_of_dvd _ (Nat.pow_dvd_pow 2 hK)]
  exact Nat.ModEq.add_right c h

/-- The test `wrapped_less_than<2^k>` on cursors that stand for the positions `x ≤ y` at most
`2^k` apart. -/
theorem wrapped_less_than_of_le {W K k a b x y : Nat} (hk : k + 1 ≤ K) (hK : K ≤ W)
    (ha : a % 2 ^ K = x % 2 ^ K) (hb : b % 2 ^ K = y % 2 ^ K) (hxy : x ≤ y)
    (hd : y ≤ x + 2 ^ k) : wrapped_less_than W (2 ^ k) a b = decide (x < y) := by
  have hpos : 0 < 2 ^ k := by positivity
  have ha' := modEq_of_pow_le hk ha
  have hb' := modEq_of_pow_le hk hb
  have h := wrapped_less_than_of_dist (W := W) (k := k) (a := a) (b := b) (d := y - x)
    (by omega) (by rw [Nat.pow_succ]; omega)
    (by
      rw [hb']
      have : (a + (y - x)) % 2 ^ (k + 1) = (x + (y - x)) % 2 ^ (k + 1) :=
        Nat.ModEq.add_right _ ha'
      rw [this]; congr 1; omega)
  rw [h]
  by_cases hlt : x < y
  · have h1 : y - x ≤ 2 ^ k := by omega
    have h2 : y - x ≠ 0 := by omega
    simp [hlt, h1, h2]
  · have h2 : y - x = 0 := by omega
    simp [hlt, h2]

/-- The test `wrapped_less_than<2^k>` on cursors that stand for positions `y ≤ x` less than
`2^k` apart, in the wrong order. -/
theorem wrapped_less_than_of_ge {W K k a b x y : Nat} (hk : k + 1 ≤ K) (hK : K ≤ W)
    (ha : a % 2 ^ K = x % 2 ^ K) (hb : b % 2 ^ K = y % 2 ^ K) (hxy : y ≤ x)
    (hd : x < y + 2 ^ k) : wrapped_less_than W (2 ^ k) a b = false := by
  have hpos : 0 < 2 ^ k := by positivity
  have ha' := modEq_of_pow_le hk ha
  have hb' := modEq_of_pow_le hk hb
  have hM : 2 ^ (k + 1) = 2 * 2 ^ k := by rw [Nat.pow_succ]; omega
  rcases Nat.eq_or_lt_of_le hxy with he | hlt
  · have h := wrapped_less_than_of_dist (W := W) (k := k) (a := a) (b := b) (d := 0)
      (by omega) (by positivity) (by rw [hb', he]; exact ha'.symm)
    rw [h]; simp
  · have h := wrapped_less_than_of_dist (W := W) (k := k) (a := a) (b := b)
      (d := 2 ^ (k + 1) - (x - y)) (by omega) (by omega)
      (by
        rw [hb']
        have h1 : (a + (2 ^ (k + 1) - (x - y))) % 2 ^ (k + 1)
            = (x + (2 ^ (k + 1) - (x - y))) % 2 ^ (k + 1) := Nat.ModEq.add_right _ ha'
        rw [h1]
        have h2 : x + (2 ^ (k + 1) - (x - y)) = y + 2 ^ (k + 1) := by omega
        rw [h2, Nat.add_mod_right])
    rw [h]
    have h3 : ¬ (2 ^ (k + 1) - (x - y) ≤ 2 ^ k) := by omega
    simp [h3]

/-! ## Slots, rounds and streams -/

theorem bit_slice.encode_mod {W : Nat} {s : bit_slice} (h : s.valid W = true) (v : Nat) :
    s.encode W (v % 2 ^ (s.end_bit - s.start_bit)) = s.encode W v := by
  apply Nat.eq_of_testBit_eq
  intro i
  rw [bit_slice.testBit_encode h, bit_slice.testBit_encode h, Nat.testBit_mod_two_pow]
  by_cases h1 : s.start_bit ≤ i ∧ i < s.end_bit
  · have h2 : i - s.start_bit < s.end_bit - s.start_bit := by omega
    simp [h1, h2]
  · simp [h1]

theorem off_zero (hist : List (List Byte)) : off hist 0 = 0 := by simp [off]

theorem off_succ {hist : List (List Byte)} {p : Nat} (hp : p < hist.length) :
    off hist (p + 1) = off hist p + (elem hist p).length := by
  unfold off elem
  rw [List.take_succ, List.map_append, List.sum_append]
  simp [List.getElem?_eq_getElem hp]

theorem off_mono (hist : List (List Byte)) {p r : Nat} (h : p ≤ r) : off hist p ≤ off hist r := by
  induction r with
  | zero => have : p = 0 := by omega
            rw [this]
  | succ r ih =>
    rcases Nat.eq_or_lt_of_le h with he | hlt
    · rw [he]
    · have h1 := ih (by omega)
      by_cases hr : r < hist.length
      · rw [off_succ hr]; omega
      · have e : off hist (r + 1) = off hist r := by
          unfold off
          rw [List.take_of_length_le (by omega), List.take_of_length_le (by omega)]
        rw [e]; exact h1

theorem off_append_of_le (hist : List (List Byte)) (x : List Byte) {p : Nat}
    (hp : p ≤ hist.length) : off (hist ++ [x]) p = off hist p := by
  unfold off
  rw [List.take_append_of_le_length hp]

theorem off_append_length (hist : List (List Byte)) (x : List Byte) :
    off (hist ++ [x]) (hist.length + 1) = off hist hist.length + x.length := by
  unfold off
  rw [List.take_of_length_le (by simp), List.take_of_length_le (by simp)]
  simp

theorem elem_append_of_lt (hist : List (List Byte)) (x : List Byte) {p : Nat}
    (hp : p < hist.length) : elem (hist ++ [x]) p = elem hist p := by
  unfold elem
  simp [List.getElem?_append_left hp]

theorem elem_append_length (hist : List (List Byte)) (x : List Byte) :
    elem (hist ++ [x]) hist.length = x := by
  unfold elem
  simp

theorem off_eq_total_bytes (hist : List (List Byte)) :
    off hist hist.length = total_bytes hist := by
  unfold off total_bytes
  rw [List.take_length]

theorem off_add_total_bytes_drop (hist : List (List Byte)) (p : Nat) :
    off hist p + total_bytes (hist.drop p) = off hist hist.length := by
  rw [off_eq_total_bytes]
  unfold off total_bytes
  rw [← List.sum_append, ← List.map_append, List.take_append_drop]

namespace Params.Shape

variable {P : Params} {n lb : Nat}

theorem mod_N (h : P.Shape n lb) (x : Nat) : mod P.MaxElementsNum x = x % 2 ^ n := by
  rw [h.hN, mod_two_pow]

theorem mod_B (h : P.Shape n lb) (x : Nat) : mod P.DataBufferSize x = x % 2 ^ lb := by
  rw [h.hB, mod_two_pow]

theorem two_B (h : P.Shape n lb) : 2 * P.DataBufferSize = 2 ^ (lb + 1) := by
  rw [h.hB, Nat.pow_succ, Nat.mul_comm]

theorem N_pos (h : P.Shape n lb) : 0 < P.MaxElementsNum := by
  rw [h.hN]; positivity

theorem B_pos (h : P.Shape n lb) : 0 < P.DataBufferSize := by
  rw [h.hB]; positivity

theorem round_at_eq (h : P.Shape n lb) (p : Nat) :
    round_at P p = if p.testBit n = true then 0 else 1 := by
  unfold round_at
  rw [h.hN, and_two_pow_ne_zero]

theorem round_at_le (h : P.Shape n lb) (p : Nat) : round_at P p ≤ 1 := by
  rw [h.round_at_eq]; split <;> omega

theorem expected_round_val (h : P.Shape n lb) (idx : Nat) :
    expected_round P state.val idx = round_at P idx := by
  unfold expected_round
  rw [h.round_at_eq, h.hN, and_two_pow_ne_zero]
  cases idx.testBit n <;> simp [state.val]

theorem expected_round_nil (h : P.Shape n lb) (idx : Nat) :
    expected_round P state.nil idx = 1 - round_at P idx := by
  unfold expected_round
  rw [h.round_at_eq, h.hN, and_two_pow_ne_zero]
  cases idx.testBit n <;> simp [state.val, state.nil]

theorem round_at_congr (h : P.Shape n lb) {K a p : Nat} (hK : n < K)
    (hc : a % 2 ^ K = p % 2 ^ K) : round_at P a = round_at P p := by
  rw [h.round_at_eq, h.round_at_eq, testBit_congr hK hc]

theorem round_at_add_N (h : P.Shape n lb) (p : Nat) :
    round_at P (p + P.MaxElementsNum) = 1 - round_at P p := by
  rw [h.round_at_eq, h.round_at_eq, h.hN, testBit_add_two_pow]
  cases p.testBit n <;> simp

theorem round_at_of_lt (h : P.Shape n lb) {p : Nat} (hp : p < P.MaxElementsNum) :
    round_at P p = 1 := by
  rw [h.round_at_eq, Nat.testBit_lt_two_pow (by rw [← h.hN]; exact hp)]
  simp

theorem load_slot_congr (h : P.Shape n lb) (mb : List Nat) {K a p : Nat} (hK : n ≤ K)
    (hc : a % 2 ^ K = p % 2 ^ K) : load_slot P mb a = load_slot P mb p := by
  unfold load_slot
  rw [h.mod_N, h.mod_N, modEq_of_pow_le hK hc]

theorem load_slot_add_N (h : P.Shape n lb) (mb : List Nat) (p : Nat) :
    load_slot P mb (p + P.MaxElementsNum) = load_slot P mb p := by
  unfold load_slot
  rw [h.mod_N, h.mod_N, h.hN, Nat.add_mod_right]

theorem load_slot_set (h : P.Shape n lb) {mb : List Nat} (hlen : mb.length = P.MaxElementsNum)
    (a w p : Nat) :
    load_slot P (mb.set (mod P.MaxElementsNum a) w) p
      = if p % P.MaxElementsNum = a % P.MaxElementsNum then unpack_meta P w
        else load_slot P mb p := by
  unfold load_slot
  rw [h.mod_N, h.mod_N]
  simp only [List.getD_eq_getElem?_getD, getElem?_set_eq_ite, hlen]
  rw [h.hN]
  have hlt : a % 2 ^ n < 2 ^ n := Nat.mod_lt _ (by positivity)
  by_cases he : p % 2 ^ n = a % 2 ^ n
  · have : a % 2 ^ n = p % 2 ^ n ∧ a % 2 ^ n < 2 ^ n := ⟨he.symm, hlt⟩
    rw [if_pos this, if_pos he]; rfl
  · have : ¬ (a % 2 ^ n = p % 2 ^ n ∧ a % 2 ^ n < 2 ^ n) := fun hh => he hh.1.symm
    rw [if_neg this, if_neg he]

theorem pack_nil_congr (h : P.Shape n lb) {a b : nil_slider}
    (hm : a.meta_idx % 2 ^ meta_idx_bits P = b.meta_idx % 2 ^ meta_idx_bits P)
    (hd : a.data_idx % (2 * P.DataBufferSize) = b.data_idx % (2 * P.DataBufferSize)) :
    pack_nil P a = pack_nil P b := by
  have hW := h.hW
  have hl := h.log2_B
  unfold pack_nil
  rw [← bit_slice.encode_mod h.meta_idx_valid a.meta_idx,
    ← bit_slice.encode_mod h.meta_idx_valid b.meta_idx,
    ← bit_slice.encode_mod h.data_idx_valid a.data_idx,
    ← bit_slice.encode_mod h.data_idx_valid b.data_idx]
  have e1 : (nil_slider.meta_idx_slice P).end_bit - (nil_slider.meta_idx_slice P).start_bit
      = meta_idx_bits P := rfl
  have e2 : (nil_slider.data_idx_slice P).end_bit - (nil_slider.data_idx_slice P).start_bit
      = lb + 1 := by
    simp only [nil_slider.data_idx_slice, hl]; omega
  rw [e1, e2, hm, ← h.two_B, hd]

theorem pack_nil_lt (h : P.Shape n lb) (s : nil_slider) : pack_nil P s < 2 ^ P.atom_bits :=
  Nat.or_lt_two_pow (bit_slice.encode_lt h.meta_idx_valid _)
    (bit_slice.encode_lt h.data_idx_valid _)

theorem pack_meta_lt (h : P.Shape n lb) (m : meta_info) : pack_meta P m < 2 ^ P.atom_bits :=
  Nat.or_lt_two_pow (Nat.or_lt_two_pow (Nat.or_lt_two_pow
    (bit_slice.encode_lt h.begin_valid _) (bit_slice.encode_lt h.size_valid _))
    (bit_slice.encode_lt h.state_valid _)) (bit_slice.encode_lt h.odd_round_valid _)

theorem unpack_pack_nil' (h : P.Shape n lb) (s : nil_slider) :
    unpack_nil P (pack_nil P s)
      = ⟨s.meta_idx % 2 ^ meta_idx_bits P, s.data_idx % (2 * P.DataBufferSize)⟩ := by
  rw [h.unpack_pack_nil, h.two_B]
  simp only [meta_idx_bits, h.log2_B]

theorem max_size_eq (h : P.Shape n lb) :
    max_size P = min P.DataBufferSize (2 ^ size_bits P - 1) := by
  have hW := h.hW
  have hl := h.log2_B
  have hb : bitwise_max_size P = 2 ^ size_bits P - 1 := by
    have hlt : 2 ^ size_bits P < 2 ^ P.atom_bits :=
      Nat.pow_lt_pow_right (by decide) (by unfold size_bits; omega)
    have hpos : 0 < 2 ^ size_bits P := by positivity
    have h1 : 1 < 2 ^ P.atom_bits := Nat.one_lt_two_pow (by omega)
    have e : (meta_info.size_slice P).end_bit - (meta_info.size_slice P).start_bit
        = size_bits P := rfl
    rw [bitwise_max_size, e]
    simp only [atom_sub, to_atom, Nat.shiftLeft_eq, one_mul, Nat.mod_mod,
      Nat.mod_eq_of_lt hlt, Nat.mod_eq_of_lt h1]
    have e2 : 2 ^ size_bits P + (2 ^ P.atom_bits - 1)
        = (2 ^ size_bits P - 1) + 2 ^ P.atom_bits := by omega
    rw [e2, Nat.add_mod_right, Nat.mod_eq_of_lt (by omega)]
  rw [max_size, hb]
  split <;> omega

theorem max_size_le (h : P.Shape n lb) :
    max_size P ≤ P.DataBufferSize ∧ max_size P < 2 ^ (P.atom_bits - 2 - (lb + 1)) ∧
    1 ≤ max_size P := by
  have hW := h.hW
  have hc := h.max_size_eq
  have hsb : size_bits P = P.atom_bits - 2 - (lb + 1) := by
    simp only [size_bits, h.log2_B]
  rw [hsb] at hc
  have hpos : 2 ≤ 2 ^ (P.atom_bits - 2 - (lb + 1)) := by
    calc 2 = 2 ^ 1 := rfl
      _ ≤ 2 ^ (P.atom_bits - 2 - (lb + 1)) := Nat.pow_le_pow_right (by decide) (by omega)
  have := h.B_pos
  rw [hc]
  refine ⟨Nat.min_le_left _ _, ?_, ?_⟩
  · have := Nat.min_le_right P.DataBufferSize (2 ^ (P.atom_bits - 2 - (lb + 1)) - 1)
    omega
  · rw [Nat.le_min]; omega

end Params.Shape

/-! ## Sliding the end cursors of a queue that satisfies the invariant -/

section slide

variable {P : Params} {n lb : Nat} {q : queue} {hist : List (List Byte)} {h c e f : Nat}

theorem slide_loop_succ {T : Type} (P : Params) (State : Nat) (mi : T → Nat)
    (sh : T → meta_info → T) (mb : List Nat) (i : Nat) (d : T) :
    slide_loop P State mi sh mb (i + 1) d
      = if (load_slot P mb (mi d)).state ≠ State ∨
            (load_slot P mb (mi d)).odd_round ≠ expected_round P State (mi d)
        then d else slide_loop P State mi sh mb i (sh d (load_slot P mb (mi d))) := rfl

/-- The slot at the position of the next push is not a published element of the current
round. -/
theorem Inv.val_stop (hS : P.Shape n lb) (hI : Inv P q hist h c e f) :
    (load_slot P q.meta_buf hist.length).state ≠ state.val ∨
    (load_slot P q.meta_buf hist.length).odd_round ≠ round_at P hist.length := by
  have hN := hS.N_pos
  have h1 := hI.htf
  have h2 := hI.hfh
  rcases Nat.lt_or_ge hist.length (h + P.MaxElementsNum) with hlt | hge
  · left
    rcases Nat.lt_or_ge hist.length P.MaxElementsNum with hs | hs
    · rw [hI.hfree _ (Nat.le_refl _) hs]; simp [state.val]
    · have e1 : hist.length = (hist.length - P.MaxElementsNum) + P.MaxElementsNum := by omega
      rw [e1, hS.load_slot_add_N, hI.hnil _ (by omega) (by omega)]
      simp [state.val, state.nil]
  · right
    have e1 : hist.length = h + P.MaxElementsNum := by omega
    rw [e1, hS.load_slot_add_N, hI.hval h (Nat.le_refl _) (by omega), hS.round_at_add_N]
    have := hS.round_at_le h
    simp only
    omega

theorem Inv.slide_val_loop (hS : P.Shape n lb) (hI : Inv P q hist h c e f) :
    ∀ cnt p, e ≤ p → p ≤ hist.length → hist.length - p ≤ cnt →
      slide_loop P state.val val_slider.meta_idx (val_slider.shift P) q.meta_buf cnt
          ⟨p % 2 ^ P.atom_bits⟩ = ⟨hist.length % 2 ^ P.atom_bits⟩ := by
  have hn := hS.hn
  intro cnt
  induction cnt with
  | zero =>
    intro p _ hp hc
    have : p = hist.length := by omega
    rw [this]; rfl
  | succ cnt ih =>
    intro p hep hp hc
    rw [slide_loop_succ]
    have hcong : (p % 2 ^ P.atom_bits) % 2 ^ P.atom_bits = p % 2 ^ P.atom_bits := Nat.mod_mod _ _
    have hls : load_slot P q.meta_buf (val_slider.meta_idx ⟨p % 2 ^ P.atom_bits⟩)
        = load_slot P q.meta_buf p := hS.load_slot_congr _ (Nat.le_of_lt hn) hcong
    have hrd : expected_round P state.val (val_slider.meta_idx ⟨p % 2 ^ P.atom_bits⟩)
        = round_at P p := by
      rw [hS.expected_round_val]; exact hS.round_at_congr hn hcong
    rw [hls, hrd]
    rcases Nat.eq_or_lt_of_le hp with heq | hlt
    · subst heq
      rw [if_pos (hI.val_stop hS)]
    · have hv := hI.hval p (by have := hI.hhc; have := hI.hce; omega) hlt
      rw [hv]
      simp only [ne_eq, not_true_eq_false, or_self, if_false]
      have hsh : val_slider.shift P ⟨p % 2 ^ P.atom_bits⟩
          ⟨off hist p % (2 * P.DataBufferSize), (elem hist p).length, state.val, round_at P p⟩
          = ⟨(p + 1) % 2 ^ P.atom_bits⟩ := by
        simp only [val_slider.shift, to_atom, Nat.mod_add_mod]
      rw [hsh]
      exact ih (p + 1) (by omega) (by omega) (by omega)

/-- With a slide limit of at least `MaxElementsNum`, `slide_forward<state::val>(val_end)` moves
`val_end` to the position of the next push. -/
theorem Inv.slide_val_end (hS : P.Shape n lb) (hI : Inv P q hist h c e f)
    (hsl : P.MaxElementsNum ≤ q.slide_limit) :
    slide_forward_val P q.slide_limit q.meta_buf q.val_end
      = (⟨hist.length % 2 ^ P.atom_bits⟩, hist.length % 2 ^ P.atom_bits) := by
  have hl := hI.slide_val_loop hS q.slide_limit e (Nat.le_refl _) hI.het
    (by have := hI.htf; have := hI.hfh; have := hI.hhc; have := hI.hce; omega)
  unfold slide_forward_val
  simp only [unpack_val, hI.hve, hl]
  by_cases hne : val_slider.ne ⟨e % 2 ^ P.atom_bits⟩ ⟨hist.length % 2 ^ P.atom_bits⟩ = true
  · rw [if_pos hne]
    simp only [compare_exchange, pack_val, if_true]
  · rw [if_neg hne]
    simp only [val_slider.ne, bne_iff_ne, ne_eq, not_not] at hne
    rw [hne]

/-- The slot at the oldest unconsumed position is not a released slot of the round that
`nil_end` expects next. -/
theorem Inv.nil_stop (hS : P.Shape n lb) (hI : Inv P q hist h c e f) :
    (load_slot P q.meta_buf h).state ≠ state.nil ∨
    (load_slot P q.meta_buf h).odd_round ≠ round_at P h := by
  have hN := hS.N_pos
  have h1 := hI.hhc
  have h2 := hI.hce
  have h3 := hI.het
  rcases Nat.lt_or_ge h hist.length with hlt | hge
  · left
    rw [hI.hval h (Nat.le_refl _) hlt]
    simp [state.val, state.nil]
  · right
    rcases Nat.lt_or_ge h P.MaxElementsNum with hs | hs
    · rw [hI.hfree h hge hs, hS.round_at_of_lt hs]
      simp
    · have e1 : h = (h - P.MaxElementsNum) + P.MaxElementsNum := by omega
      have hr : round_at P h = 1 - round_at P (h - P.MaxElementsNum) := by
        conv_lhs => rw [e1]
        exact hS.round_at_add_N _
      have hl : load_slot P q.meta_buf h = load_slot P q.meta_buf (h - P.MaxElementsNum) := by
        conv_lhs => rw [e1]
        exact hS.load_slot_add_N _ _
      rw [hl, hI.hnil _ (by omega) (by omega), hr]
      have := hS.round_at_le (h - P.MaxElementsNum)
      simp only
      omega

theorem Inv.slide_nil_loop (hS : P.Shape n lb) (hr : n + 1 ≤ meta_idx_bits P)
    (hI : Inv P q hist h c e f) :
    ∀ cnt p (s : nil_slider), f ≤ p → p ≤ h → h - p ≤ cnt →
      s.At P (p + P.MaxElementsNum) (off hist p + P.DataBufferSize) →
      (slide_loop P state.nil nil_slider.meta_idx (nil_slider.shift P) q.meta_buf cnt s).At P
        (h + P.MaxElementsNum) (off hist h + P.DataBufferSize) := by
  have hW := hS.hW
  have hKW : meta_idx_bits P ≤ P.atom_bits := by unfold meta_idx_bits; omega
  intro cnt
  induction cnt with
  | zero =>
    intro p s _ hp hc hs
    have : p = h := by omega
    subst this
    exact hs
  | succ cnt ih =>
    intro p s hfp hp hc hs
    rw [slide_loop_succ]
    have hls : load_slot P q.meta_buf s.meta_idx = load_slot P q.meta_buf p := by
      rw [hS.load_slot_congr _ (by omega) hs.1, hS.load_slot_add_N]
    have hrd : expected_round P state.nil s.meta_idx = round_at P p := by
      rw [hS.expected_round_nil, hS.round_at_congr (by omega) hs.1, hS.round_at_add_N]
      have := hS.round_at_le p
      omega
    rw [hls, hrd]
    rcases Nat.eq_or_lt_of_le hp with heq | hlt
    · subst heq
      rw [if_pos (hI.nil_stop hS)]
      exact hs
    · have hv := hI.hnil p hlt (by have := hI.htf; omega)
      rw [hv]
      simp only [ne_eq, not_true_eq_false, or_self, if_false]
      apply ih (p + 1) _ (by omega) (by omega) (by omega)
      have hpl : p < hist.length := by
        have := hI.hhc; have := hI.hce; have := hI.het; omega
      constructor
      · have := add_mod_to_atom (c := 1) hKW hs.1
        simp only [nil_slider.shift]
        rw [this]; congr 1; omega
      · simp only [nil_slider.shift, to_atom]
        rw [hS.two_B, Nat.mod_mod_of_dvd _ (Nat.pow_dvd_pow 2 (by omega : lb + 1 ≤ P.atom_bits)),
          ← hS.two_B, off_succ hpl]
        have e1 : off hist p % (2 * P.DataBufferSize) + (elem hist p).length + P.DataBufferSize
            = off hist p % (2 * P.DataBufferSize) + ((elem hist p).length + P.DataBufferSize) := by
          omega
        have e2 : off hist p + (elem hist p).length + P.DataBufferSize
            = off hist p + ((elem hist p).length + P.DataBufferSize) := by omega
        rw [e1, e2, Nat.mod_add_mod]

/-- With a slide limit of at least `MaxElementsNum`, `slide_forward<state::nil>(nil_end)` moves
`nil_end` one full ring beyond the oldest unconsumed position. -/
theorem Inv.slide_nil_end (hS : P.Shape n lb) (hr : n + 1 ≤ meta_idx_bits P)
    (hI : Inv P q hist h c e f) (hsl : P.MaxElementsNum ≤ q.slide_limit) :
    ∃ s : nil_slider,
      slide_forward_nil P q.slide_limit q.meta_buf q.nil_end
        = (s, pack_nil P ⟨h + P.MaxElementsNum, off hist h + P.DataBufferSize⟩) ∧
      s.At P (h + P.MaxElementsNum) (off hist h + P.DataBufferSize) := by
  have hexp : unpack_nil P q.nil_end
      = ⟨(f + P.MaxElementsNum) % 2 ^ meta_idx_bits P,
         (off hist f + P.DataBufferSize) % (2 * P.DataBufferSize)⟩ := by
    rw [hI.hne, hS.unpack_pack_nil']
  have hAt0 : (unpack_nil P q.nil_end).At P (f + P.MaxElementsNum)
      (off hist f + P.DataBufferSize) := by
    rw [hexp]; exact ⟨Nat.mod_mod _ _, Nat.mod_mod _ _⟩
  have hpk : pack_nil P (unpack_nil P q.nil_end) = q.nil_end :=
    hS.pack_unpack_nil (by rw [hI.hne]; exact hS.pack_nil_lt _)
  have hl := hI.slide_nil_loop hS hr q.slide_limit f _ (Nat.le_refl _) hI.hfh
    (by have := hI.htf; have := hI.hhc; have := hI.hce; have := hI.het; omega) hAt0
  unfold slide_forward_nil
  dsimp only
  by_cases hne : (unpack_nil P q.nil_end).ne
      (slide_loop P state.nil nil_slider.meta_idx (nil_slider.shift P) q.meta_buf
        q.slide_limit (unpack_nil P q.nil_end)) = true
  · rw [if_pos hne]
    simp only [compare_exchange, hpk, if_true]
    exact ⟨_, by rw [hS.pack_nil_congr
      (b := ⟨h + P.MaxElementsNum, off hist h + P.DataBufferSize⟩) hl.1 hl.2], hl⟩
  · rw [if_neg hne]
    have heq : slide_loop P state.nil nil_slider.meta_idx (nil_slider.shift P) q.meta_buf
        q.slide_limit (unpack_nil P q.nil_end) = unpack_nil P q.nil_end := by
      simp only [nil_slider.ne, Bool.or_eq_true, bne_iff_ne, ne_eq, not_or, not_not] at hne
      generalize slide_loop P state.nil nil_slider.meta_idx (nil_slider.shift P) q.meta_buf
        q.slide_limit (unpack_nil P q.nil_end) = d at hne
      generalize unpack_nil P q.nil_end = x at hne
      cases d; cases x
      simp only [nil_slider.mk.injEq]
      exact ⟨hne.1.symm, hne.2.symm⟩
    rw [heq] at hl ⊢
    refine ⟨_, ?_, hl⟩
    rw [← hpk, hS.pack_nil_congr
      (b := ⟨h + P.MaxElementsNum, off hist h + P.DataBufferSize⟩) hl.1 hl.2]

end slide

/-! ## Consuming under the invariant -/

section consume

variable {P : Params} {n lb : Nat} {q : queue} {hist : List (List Byte)} {h c e f : Nat}

/-- Moving the consumer cursors inside their bounds keeps the invariant. -/
theorem Inv.set_val (hI : Inv P q hist h c e f) {c1 e1 : Nat} (h1 : h ≤ c1) (h2 : c1 ≤ e1)
    (h3 : e1 ≤ hist.length) :
    Inv P { q with val_begin := c1 % 2 ^ P.atom_bits, val_end := e1 % 2 ^ P.atom_bits }
      hist h c1 e1 f :=
  { hfh := hI.hfh, hhc := h1, hce := h2, het := h3, htf := hI.htf, hbytes := hI.hbytes,
    hsize := hI.hsize, hmlen := hI.hmlen, hdlen := hI.hdlen, hvb := rfl, hve := rfl,
    hnb := hI.hnb, hne := hI.hne, hval := hI.hval, hdata := hI.hdata, hnil := hI.hnil,
    hfree := hI.hfree }

theorem read_data_eq (hS : P.Shape n lb) (data x dst : List Byte) (o : Nat)
    (hx : x.length ≤ P.DataBufferSize) (hcap : x.length ≤ dst.length)
    (hdata : ∀ j, j < x.length → data.getD ((o + j) % P.DataBufferSize) 0 = x.getD j 0) :
    read_data P data (o % P.DataBufferSize) dst x.length = x ++ dst.drop x.length := by
  have hB := hS.B_pos
  apply List.ext_getElem?
  intro i
  rw [getElem?_read_data P data _ dst x.length i (Nat.mod_lt _ hB) hx hcap]
  by_cases hi : i < x.length
  · rw [if_pos hi, List.getElem?_append_left hi, Nat.mod_add_mod, hdata i hi]
    simp [List.getElem?_eq_getElem hi]
  · rw [if_neg hi, List.getElem?_append_right (by omega), List.getElem?_drop]
    congr 1; omega

/-- The method `consume_data` on the oldest unconsumed position `h`, which has been claimed:
it returns the element, copies its bytes and releases the slot. -/
theorem Inv.consume_ok (hS : P.Shape n lb) (hI : Inv P q hist h c e f) (hc : h < c)
    {i : Nat} (hi : i % 2 ^ P.atom_bits = h % 2 ^ P.atom_bits) (dst : List Byte)
    (hcap : (elem hist h).length ≤ dst.length) :
    ∃ q1, consume_data P q i dst
        = (.ret (elem hist h).length, q1, elem hist h ++ dst.drop (elem hist h).length) ∧
      Inv P q1 hist (h + 1) c e f ∧ q1.slide_limit = q.slide_limit ∧
      q1.val_begin = q.val_begin ∧ q1.val_end = q.val_end := by
  have hW := hS.hW
  have hn := hS.hn
  have hN := hS.N_pos
  have h1 := hI.hce
  have h2 := hI.het
  have h3 := hI.htf
  have h4 := hI.hfh
  have hlt : h < hist.length := by omega
  have hsz := hI.hsize h hlt
  have hms := hS.max_size_le
  have hslot : load_slot P q.meta_buf i
      = ⟨off hist h % (2 * P.DataBufferSize), (elem hist h).length, state.val, round_at P h⟩ := by
    rw [hS.load_slot_congr _ (Nat.le_of_lt hn) hi]
    exact hI.hval h (Nat.le_refl _) hlt
  have hiN : i % P.MaxElementsNum = h % P.MaxElementsNum := by
    rw [hS.hN]; exact modEq_of_pow_le (Nat.le_of_lt hn) hi
  have hbeg : mod P.DataBufferSize (off hist h % (2 * P.DataBufferSize))
      = off hist h % P.DataBufferSize := by
    rw [hS.mod_B, hS.two_B, Nat.mod_mod_of_dvd _ (Nat.pow_dvd_pow 2 (Nat.le_succ lb)), ← hS.hB]
  have hrd := read_data_eq hS q.data_buf (elem hist h) dst (off hist h) (by omega) hcap
    (hI.hdata h (Nat.le_refl _) hlt)
  have hnew : unpack_meta P (pack_meta P
      ⟨off hist h % (2 * P.DataBufferSize), (elem hist h).length, state.nil, round_at P h⟩)
      = ⟨off hist h % (2 * P.DataBufferSize), (elem hist h).length, state.nil, round_at P h⟩ := by
    rw [hS.unpack_pack_meta]
    have e1 : off hist h % (2 * P.DataBufferSize) % 2 ^ (lb + 1)
        = off hist h % (2 * P.DataBufferSize) := by
      rw [← hS.two_B, Nat.mod_mod]
    have e2 : (elem hist h).length % 2 ^ (P.atom_bits - 2 - (lb + 1)) = (elem hist h).length :=
      Nat.mod_eq_of_lt (by omega)
    have e3 : round_at P h % 2 = round_at P h :=
      Nat.mod_eq_of_lt (by have := hS.round_at_le h; omega)
    simp only [e1, e2, e3, state.nil, Nat.zero_mod]
  refine ⟨{ q with meta_buf := q.meta_buf.set (mod P.MaxElementsNum i) (pack_meta P
      ⟨off hist h % (2 * P.DataBufferSize), (elem hist h).length, state.nil, round_at P h⟩) },
    ?_, ?_, rfl, rfl, rfl⟩
  · unfold consume_data
    simp only [hslot, ne_eq, not_true_eq_false, if_false, hcap, hbeg, hrd]
  · exact
      { hfh := by omega
        hhc := by omega
        hce := hI.hce
        het := hI.het
        htf := hI.htf
        hbytes := hI.hbytes
        hsize := hI.hsize
        hmlen := by simp [hI.hmlen]
        hdlen := hI.hdlen
        hvb := hI.hvb
        hve := hI.hve
        hnb := hI.hnb
        hne := hI.hne
        hval := by
          intro p hp hpt
          simp only
          rw [hS.load_slot_set hI.hmlen, hiN,
            if_neg (Ne.symm (mod_ne_of_lt (by omega) (by omega)))]
          exact hI.hval p (by omega) hpt
        hdata := fun p hp hpt => hI.hdata p (by omega) hpt
        hnil := by
          intro p hp hpt
          simp only
          rw [hS.load_slot_set hI.hmlen, hiN]
          rcases Nat.eq_or_lt_of_le (Nat.le_of_lt_succ hp) with heq | hlt2
          · subst heq
            rw [if_pos rfl]
            exact hnew
          · rw [if_neg (mod_ne_of_lt hlt2 (by omega))]
            exact hI.hnil p hlt2 hpt
        hfree := by
          intro s hs hsN
          simp only
          rw [hS.load_slot_set hI.hmlen, hiN,
            if_neg (Ne.symm (mod_ne_of_lt (by omega) (by omega)))]
          exact hI.hfree s hs hsN }

theorem Inv.consume_small (hS : P.Shape n lb) (hI : Inv P q hist h c e f) (hc : h < c)
    {i : Nat} (hidx : i % 2 ^ P.atom_bits = h % 2 ^ P.atom_bits) (dst : List Byte)
    (hcap : dst.length < (elem hist h).length) :
    consume_data P q i dst = (.invalid_argument, q, dst) := by
  have hlt : h < hist.length := by
    have := hI.hce; have := hI.het; omega
  have hslot : load_slot P q.meta_buf i
      = ⟨off hist h % (2 * P.DataBufferSize), (elem hist h).length, state.val, round_at P h⟩ := by
    rw [hS.load_slot_congr _ (Nat.le_of_lt hS.hn) hidx]
    exact hI.hval h (Nat.le_refl _) hlt
  have hcap' : ¬ (elem hist h).length ≤ dst.length := by omega
  unfold consume_data
  simp only [hslot, ne_eq, not_true_eq_false, if_false, hcap', not_false_eq_true, if_true]

theorem Inv.less_than_val (hS : P.Shape n lb) (hI : Inv P q hist h c e f) :
    val_slider.less_than P ⟨c % 2 ^ P.atom_bits⟩ ⟨hist.length % 2 ^ P.atom_bits⟩
      = decide (c < hist.length) := by
  have hn := hS.hn
  unfold val_slider.less_than
  rw [hS.hN]
  exact wrapped_less_than_of_le (K := P.atom_bits) (by omega) (Nat.le_refl _) (Nat.mod_mod _ _)
    (Nat.mod_mod _ _) (by have := hI.hce; have := hI.het; omega)
    (by rw [← hS.hN]; have := hI.htf; have := hI.hfh; have := hI.hhc; omega)

/-- The method `try_pop` on a queue without outstanding claims: `0` when nothing is stored,
otherwise the oldest element (or the capacity error). -/
theorem Inv.pop_spec (hS : P.Shape n lb) (hI : Inv P q hist h h e f)
    (hsl : P.MaxElementsNum ≤ q.slide_limit) (fuel : Nat) (dst : List Byte) :
    (h = hist.length → try_pop P (fuel + 1) q dst = (.ret 0, q, dst)) ∧
    (h < hist.length → (elem hist h).length ≤ dst.length →
      ∃ q1, try_pop P (fuel + 1) q dst
          = (.ret (elem hist h).length, q1, elem hist h ++ dst.drop (elem hist h).length) ∧
        Inv P q1 hist (h + 1) (h + 1) hist.length f ∧ q1.slide_limit = q.slide_limit) ∧
    (h < hist.length → dst.length < (elem hist h).length →
      (try_pop P (fuel + 1) q dst).1 = .invalid_argument) := by
  have hsv := hI.slide_val_end hS hsl
  have hlt := hI.less_than_val hS
  have hnext : to_atom P.atom_bits (h % 2 ^ P.atom_bits + 1) = (h + 1) % 2 ^ P.atom_bits := by
    simp only [to_atom, Nat.mod_add_mod]
  refine ⟨fun hemp => ?_, fun hne hcap => ?_, fun hne hcap => ?_⟩
  · have hd : decide (h < hist.length) = false := by simp; omega
    have hve : hist.length % 2 ^ P.atom_bits = q.val_end := by
      rw [hI.hve]; have := hI.hce; have := hI.het
      have : e = hist.length := by omega
      rw [this]
    unfold try_pop
    simp only [hsv, unpack_val, hI.hvb, try_pop_loop, hlt, hd, Bool.not_false, if_true]
    rw [hve, ← hI.hvb]
  · have hd : decide (h < hist.length) = true := by simp; omega
    have hI2 : Inv P { q with val_begin := (h + 1) % 2 ^ P.atom_bits,
                              val_end := hist.length % 2 ^ P.atom_bits }
        hist h (h + 1) hist.length f :=
      hI.set_val (by omega) (by omega) (Nat.le_refl _)
    obtain ⟨q1, hq1, hI3, hsl1, -, -⟩ :=
      hI2.consume_ok hS (Nat.lt_succ_self h) (i := h % 2 ^ P.atom_bits) (Nat.mod_mod _ _)
        dst hcap
    refine ⟨q1, ?_, hI3, hsl1⟩
    unfold try_pop
    simp only [hsv, unpack_val, hI.hvb, try_pop_loop, hlt, hd, Bool.not_true,
      Bool.false_eq_true, if_false, compare_exchange, pack_val, if_true, hnext]
    exact hq1
  · have hd : decide (h < hist.length) = true := by simp; omega
    have hI2 : Inv P { q with val_begin := (h + 1) % 2 ^ P.atom_bits,
                              val_end := hist.length % 2 ^ P.atom_bits }
        hist h (h + 1) hist.length f :=
      hI.set_val (by omega) (by omega) (Nat.le_refl _)
    have hq1 := hI2.consume_small hS (Nat.lt_succ_self h) (i := h % 2 ^ P.atom_bits)
      (Nat.mod_mod _ _) dst hcap
    unfold try_pop
    simp only [hsv, unpack_val, hI.hvb, try_pop_loop, hlt, hd, Bool.not_true,
      Bool.false_eq_true, if_false, compare_exchange, pack_val, if_true, hnext]
    rw [hq1]

end consume

/-! ## Pushing under the invariant -/

theorem ring_index_fwd {B : Nat} (hB : 0 < B) (x j : Nat) :
    ((x + j) % B + B - x % B) % B = j % B := by
  have hx : x % B < B := Nat.mod_lt _ hB
  have h1 : ((x + j) % B + B - x % B) + x % B = (x + j) % B + B := by omega
  have h2 : ((x + j) % B + B - x % B) + x % B ≡ j + x % B [MOD B] := by
    rw [h1]
    unfold Nat.ModEq
    rw [Nat.add_mod_right, Nat.mod_mod, Nat.add_comm x j, Nat.add_mod_mod]
  exact Nat.ModEq.add_right_cancel' _ h2

theorem ring_index_bwd {B : Nat} (y d : Nat) (hd : 0 < d) (hdB : d < B) :
    (y % B + B - (y + d) % B) % B = B - d := by
  have hB : 0 < B := by omega
  have hx : (y + d) % B < B := Nat.mod_lt _ hB
  have h1 : (y % B + B - (y + d) % B) + (y + d) % B = y % B + B := by omega
  have h2 : (y % B + B - (y + d) % B) + d + y ≡ y [MOD B] := by
    have e : (y % B + B - (y + d) % B) + d + y = (y % B + B - (y + d) % B) + (y + d) := by omega
    rw [e]
    unfold Nat.ModEq
    rw [← Nat.add_mod_mod, h1, Nat.add_mod_right, Nat.mod_mod]
  have h3 : (y % B + B - (y + d) % B) + d ≡ 0 [MOD B] := by
    have : (y % B + B - (y + d) % B) + d + y ≡ 0 + y [MOD B] := by rw [Nat.zero_add]; exact h2
    exact Nat.ModEq.add_right_cancel' _ this
  have h4 : ((y % B + B - (y + d) % B) % B + d) % B = 0 := by
    rw [Nat.mod_add_mod]; exact h3
  have hr : (y % B + B - (y + d) % B) % B < B := Nat.mod_lt _ hB
  have hdvd : B ∣ (y % B + B - (y + d) % B) % B + d := Nat.dvd_of_mod_eq_zero h4
  obtain ⟨k, hk⟩ := hdvd
  have hk1 : k = 1 := by
    rcases Nat.lt_or_ge k 1 with h0 | h0
    · have : k = 0 := by omega
      rw [this] at hk; omega
    · rcases Nat.lt_or_ge k 2 with h2' | h2'
      · omega
      · have : B * 2 ≤ B * k := Nat.mul_le_mul_left B h2'
        omega
  rw [hk1] at hk
  omega

theorem write_data_written (P : Params) {data src : List Byte} {o size j : Nat}
    (hlen : data.length = P.DataBufferSize) (hsize : size ≤ P.DataBufferSize) (hj : j < size) :
    (write_data P data (o % P.DataBufferSize) src size).getD ((o + j) % P.DataBufferSize) 0
      = src.getD j 0 := by
  have hB : 0 < P.DataBufferSize := by omega
  rw [List.getD_eq_getElem?_getD, getElem?_write_data P data _ src size _ hlen
    (Nat.mod_lt _ hB) hsize (Nat.mod_lt _ hB), ring_index_fwd hB, Nat.mod_eq_of_lt (by omega),
    if_pos hj]
  rfl

theorem write_data_kept (P : Params) (data src : List Byte) (y d size : Nat)
    (hlen : data.length = P.DataBufferSize) (hd : 0 < d) (hds : d + size ≤ P.DataBufferSize)
    (hs : 0 < size) :
    (write_data P data ((y + d) % P.DataBufferSize) src size).getD (y % P.DataBufferSize) 0
      = data.getD (y % P.DataBufferSize) 0 := by
  have hB : 0 < P.DataBufferSize := by omega
  rw [List.getD_eq_getElem?_getD, getElem?_write_data P data _ src size _ hlen
    (Nat.mod_lt _ hB) (by omega) (Nat.mod_lt _ hB), ring_index_bwd y d hd (by omega),
    if_neg (by omega), List.getD_eq_getElem?_getD]

section push

variable {P : Params} {n lb : Nat} {q : queue} {hist : List (List Byte)} {h c e f : Nat}

/-- Moving `nil_end` up to one ring beyond the oldest unconsumed position keeps the
invariant. -/
theorem Inv.set_nil_end (hI : Inv P q hist h c e f) :
    Inv P { q with nil_end := pack_nil P ⟨h + P.MaxElementsNum,
                                          off hist h + P.DataBufferSize⟩ } hist h c e h :=
  { hfh := Nat.le_refl _, hhc := hI.hhc, hce := hI.hce, het := hI.het
    htf := by have := hI.htf; have := hI.hfh; omega
    hbytes := by have := hI.hbytes; have := off_mono hist hI.hfh; omega
    hsize := hI.hsize, hmlen := hI.hmlen, hdlen := hI.hdlen, hvb := hI.hvb, hve := hI.hve
    hnb := hI.hnb, hne := rfl, hval := hI.hval, hdata := hI.hdata, hnil := hI.hnil
    hfree := hI.hfree }

/-- The space check of `try_push` against the slid `nil_end`. -/
theorem Inv.push_check (hS : P.Shape n lb) (hr : n + 1 ≤ meta_idx_bits P)
    (hI : Inv P q hist h c e f) {s : nil_slider}
    (hs : s.At P (h + P.MaxElementsNum) (off hist h + P.DataBufferSize)) {size : Nat}
    (h1 : 1 ≤ size) (h2 : size ≤ P.DataBufferSize) :
    nil_slider.less_than P
        ⟨hist.length % 2 ^ meta_idx_bits P,
         to_atom P.atom_bits
           (off hist hist.length % (2 * P.DataBufferSize) + (size - 1))⟩ s
      = (decide (hist.length < h + P.MaxElementsNum) &&
         decide (off hist hist.length + size ≤ off hist h + P.DataBufferSize)) := by
  have hW := hS.hW
  have hKW : meta_idx_bits P ≤ P.atom_bits := by unfold meta_idx_bits; omega
  have hh : h ≤ hist.length := by have := hI.hhc; have := hI.hce; have := hI.het; omega
  have hoff := off_mono hist hh
  have hby : off hist hist.length ≤ off hist h + P.DataBufferSize := by
    have := hI.hbytes; have := off_mono hist hI.hfh; omega
  have hm : wrapped_less_than P.atom_bits P.MaxElementsNum
      (hist.length % 2 ^ meta_idx_bits P) s.meta_idx
      = decide (hist.length < h + P.MaxElementsNum) := by
    rw [hS.hN]
    exact wrapped_less_than_of_le hr hKW (Nat.mod_mod _ _) (by rw [← hS.hN]; exact hs.1)
      (by rw [← hS.hN]; have := hI.htf; have := hI.hfh; omega) (by omega)
  have ha : to_atom P.atom_bits (off hist hist.length % (2 * P.DataBufferSize) + (size - 1))
      % 2 ^ (lb + 1) = (off hist hist.length + (size - 1)) % 2 ^ (lb + 1) := by
    apply add_mod_to_atom (by omega)
    rw [← hS.two_B, Nat.mod_mod]
  have hb : s.data_idx % 2 ^ (lb + 1) = (off hist h + P.DataBufferSize) % 2 ^ (lb + 1) := by
    rw [← hS.two_B]; exact hs.2
  have hd : wrapped_less_than P.atom_bits P.DataBufferSize
      (to_atom P.atom_bits (off hist hist.length % (2 * P.DataBufferSize) + (size - 1)))
      s.data_idx
      = decide (off hist hist.length + size ≤ off hist h + P.DataBufferSize) := by
    conv_lhs => arg 2; rw [hS.hB]
    by_cases hfit : off hist hist.length + size ≤ off hist h + P.DataBufferSize
    · rw [wrapped_less_than_of_le (Nat.le_refl _) (by omega) ha hb (by omega)
        (by rw [← hS.hB]; omega)]
      simp only [hfit, decide_True, decide_eq_true_eq]
      omega
    · rw [wrapped_less_than_of_ge (Nat.le_refl _) (by omega) ha hb (by omega)
        (by rw [← hS.hB]; omega)]
      simp [hfit]
  unfold nil_slider.less_than
  rw [hm, hd]

/-- The state after a successful reservation, payload copy and publication satisfies the
invariant for the stream extended by the new element. -/
theorem Inv.push_commit (hS : P.Shape n lb)
    (hI : Inv P q hist h c e f) {src : List Byte}
    (hsrc : 1 ≤ src.length ∧ src.length ≤ max_size P)
    (hok1 : hist.length < f + P.MaxElementsNum)
    (hok2 : off hist hist.length + src.length ≤ off hist f + P.DataBufferSize)
    {i w : Nat} (hiN : i % P.MaxElementsNum = hist.length % P.MaxElementsNum)
    (hw : unpack_meta P w
      = ⟨off hist hist.length % (2 * P.DataBufferSize), src.length, state.val,
         round_at P hist.length⟩) :
    Inv P { q with
        nil_begin := pack_nil P ⟨hist.length + 1, off hist hist.length + src.length⟩,
        data_buf := write_data P q.data_buf (off hist hist.length % P.DataBufferSize) src
          src.length,
        meta_buf := q.meta_buf.set (mod P.MaxElementsNum i) w }
      (hist ++ [src]) h c e f := by
  have hN := hS.N_pos
  have hms := hS.max_size_le
  have h1 := hI.hhc
  have h2 := hI.hce
  have h3 := hI.het
  have h4 := hI.hfh
  have hoffh : ∀ p, p ≤ hist.length → off (hist ++ [src]) p = off hist p :=
    fun p hp => off_append_of_le hist src hp
  have helem : ∀ p, p < hist.length → elem (hist ++ [src]) p = elem hist p :=
    fun p hp => elem_append_of_lt hist src hp
  exact
    { hfh := hI.hfh
      hhc := hI.hhc
      hce := hI.hce
      het := by rw [List.length_append]; simp only [List.length_singleton]; omega
      htf := by rw [List.length_append]; simp only [List.length_singleton]; omega
      hbytes := by
        rw [List.length_append]; simp only [List.length_singleton]
        rw [off_append_length, hoffh f (by omega)]; exact hok2
      hsize := by
        intro p hp
        rw [List.length_append] at hp; simp only [List.length_singleton] at hp
        rcases Nat.eq_or_lt_of_le (Nat.le_of_lt_succ hp) with heq | hlt
        · rw [heq, elem_append_length]; exact hsrc
        · rw [helem p hlt]; exact hI.hsize p hlt
      hmlen := by simp [hI.hmlen]
      hdlen := by simp only [length_write_data]; exact hI.hdlen
      hvb := hI.hvb
      hve := hI.hve
      hnb := by
        simp only [List.length_append, List.length_singleton]
        rw [off_append_length]
      hne := by
        simp only
        rw [hoffh f (by omega)]; exact hI.hne
      hval := by
        intro p hp hpt
        rw [List.length_append] at hpt; simp only [List.length_singleton] at hpt
        simp only
        rw [hS.load_slot_set hI.hmlen, hiN]
        rcases Nat.eq_or_lt_of_le (Nat.le_of_lt_succ hpt) with heq | hlt
        · rw [heq, if_pos rfl, hw, hoffh _ (Nat.le_refl _), elem_append_length]
        · rw [if_neg (mod_ne_of_lt hlt (by omega)), hoffh p (by omega), helem p hlt]
          exact hI.hval p hp hlt
      hdata := by
        intro p hp hpt j hj
        rw [List.length_append] at hpt; simp only [List.length_singleton] at hpt
        simp only
        rcases Nat.eq_or_lt_of_le (Nat.le_of_lt_succ hpt) with heq | hlt
        · rw [heq, elem_append_length] at hj ⊢
          rw [hoffh _ (Nat.le_refl _)]
          exact write_data_written P hI.hdlen (by omega) hj
        · rw [helem p hlt] at hj ⊢
          rw [hoffh p (by omega)]
          have hp1 : off hist (p + 1) ≤ off hist hist.length := off_mono hist (by omega)
          rw [off_succ hlt] at hp1
          have hph : off hist f ≤ off hist p := off_mono hist (by omega)
          have e1 : off hist hist.length
              = (off hist p + j) + (off hist hist.length - (off hist p + j)) := by omega
          have hk := write_data_kept P q.data_buf src (off hist p + j)
            (off hist hist.length - (off hist p + j)) src.length hI.hdlen (by omega) (by omega)
            (by omega)
          rw [← e1] at hk
          rw [hk]
          exact hI.hdata p hp hlt j hj
      hnil := by
        intro p hp hpt
        rw [List.length_append] at hpt; simp only [List.length_singleton] at hpt
        simp only
        rw [hS.load_slot_set hI.hmlen, hiN, if_neg (mod_ne_of_lt (by omega) (by omega)),
          hoffh p (by omega), helem p (by omega)]
        exact hI.hnil p hp (by omega)
      hfree := by
        intro s hs hsN
        rw [List.length_append] at hs; simp only [List.length_singleton] at hs
        simp only
        rw [hS.load_slot_set hI.hmlen, hiN,
          if_neg (Ne.symm (mod_ne_of_lt (by omega) (by omega)))]
        exact hI.hfree s (by omega) hsN }

theorem try_push_loop_ok (P : Params) (size fuel : Nat) (q : queue) (cur end_ : nil_slider)
    (hlt : nil_slider.less_than P
      ⟨cur.meta_idx, to_atom P.atom_bits (cur.data_idx + (size - 1))⟩ end_ = true)
    (hcas : q.nil_begin = pack_nil P cur) :
    try_push_loop P size (fuel + 1) q cur end_
      = (.ret (some cur),
         { q with nil_begin := pack_nil P ⟨to_atom P.atom_bits (cur.meta_idx + 1),
                                           to_atom P.atom_bits (cur.data_idx + size)⟩ }) := by
  simp only [try_push_loop, hlt, Bool.not_true, Bool.false_eq_true, if_false, compare_exchange,
    hcas, if_true]

theorem try_push_loop_full (P : Params) (size fuel : Nat) (q : queue) (cur end_ : nil_slider)
    (hlt : nil_slider.less_than P
      ⟨cur.meta_idx, to_atom P.atom_bits (cur.data_idx + (size - 1))⟩ end_ = false) :
    try_push_loop P size (fuel + 1) q cur end_ = (.ret none, q) := by
  simp only [try_push_loop, hlt, Bool.not_false, if_true]

theorem try_push_ok_eq (P : Params) (fuel : Nat) (q : queue) (src : List Byte)
    (s cur : nil_slider) (ne1 : Nat)
    (hvalid : src.length ≠ 0 ∧ src.length ≤ max_size P)
    (hs : slide_forward_nil P q.slide_limit q.meta_buf q.nil_end = (s, ne1))
    (hcur : unpack_nil P q.nil_begin = cur)
    (hchk : nil_slider.less_than P
      ⟨cur.meta_idx, to_atom P.atom_bits (cur.data_idx + (src.length - 1))⟩ s = true)
    (hpk : q.nil_begin = pack_nil P cur)
    (hst : (load_slot P q.meta_buf cur.meta_idx).state = state.nil) :
    try_push P (fuel + 1) q src
      = (.ret true,
         { q with
           nil_end := ne1,
           nil_begin := pack_nil P ⟨to_atom P.atom_bits (cur.meta_idx + 1),
                                    to_atom P.atom_bits (cur.data_idx + src.length)⟩,
           data_buf := write_data P q.data_buf (mod P.DataBufferSize cur.data_idx) src
             src.length,
           meta_buf := q.meta_buf.set (mod P.MaxElementsNum cur.meta_idx)
             (pack_meta P ⟨cur.data_idx, to_atom P.atom_bits src.length, state.val,
               if (cur.meta_idx &&& P.MaxElementsNum) != 0 then 0 else 1⟩) }) := by
  unfold try_push
  rw [if_neg (not_not.mpr hvalid)]
  simp only [hs, hcur]
  rw [try_push_loop_ok P src.length fuel { q with nil_end := ne1 } cur s hchk hpk]
  simp only [hst, ne_eq, not_true_eq_false, if_false]

theorem try_push_full_eq (P : Params) (fuel : Nat) (q : queue) (src : List Byte)
    (s cur : nil_slider) (ne1 : Nat)
    (hvalid : src.length ≠ 0 ∧ src.length ≤ max_size P)
    (hs : slide_forward_nil P q.slide_limit q.meta_buf q.nil_end = (s, ne1))
    (hcur : unpack_nil P q.nil_begin = cur)
    (hchk : nil_slider.less_than P
      ⟨cur.meta_idx, to_atom P.atom_bits (cur.data_idx + (src.length - 1))⟩ s = false) :
    try_push P (fuel + 1) q src = (.ret false, { q with nil_end := ne1 }) := by
  unfold try_push
  rw [if_neg (not_not.mpr hvalid)]
  simp only [hs, hcur]
  rw [try_push_loop_full P src.length fuel { q with nil_end := ne1 } cur s hchk]

theorem Params.Shape.mod_B_two (hS : P.Shape n lb) (x : Nat) :
    mod P.DataBufferSize (x % (2 * P.DataBufferSize)) = x % P.DataBufferSize := by
  rw [hS.mod_B, hS.two_B, Nat.mod_mod_of_dvd _ (Nat.pow_dvd_pow 2 (Nat.le_succ lb)), ← hS.hB]

/-- The method `try_push` with a valid size: it succeeds exactly when a slot and enough
payload bytes are free, and then appends the element to the stream. -/
theorem Inv.push_spec (hS : P.Shape n lb) (hr : n + 1 ≤ meta_idx_bits P)
    (hI : Inv P q hist h c e f) (hsl : P.MaxElementsNum ≤ q.slide_limit) (fuel : Nat)
    {src : List Byte} (hsrc : 1 ≤ src.length ∧ src.length ≤ max_size P) :
    ((hist.length < h + P.MaxElementsNum ∧
        off hist hist.length + src.length ≤ off hist h + P.DataBufferSize) →
      ∃ q1, try_push P (fuel + 1) q src = (.ret true, q1) ∧
        Inv P q1 (hist ++ [src]) h c e h ∧ q1.slide_limit = q.slide_limit) ∧
    (¬ (hist.length < h + P.MaxElementsNum ∧
        off hist hist.length + src.length ≤ off hist h + P.DataBufferSize) →
      ∃ q1, try_push P (fuel + 1) q src = (.ret false, q1) ∧
        Inv P q1 hist h c e h ∧ q1.slide_limit = q.slide_limit) := by
  have hW := hS.hW
  have hms := hS.max_size_le
  have hKW : meta_idx_bits P ≤ P.atom_bits := by unfold meta_idx_bits; omega
  obtain ⟨s, hs, hAt⟩ := hI.slide_nil_end hS hr hsl
  have hI0 := hI.set_nil_end
  have hcur : unpack_nil P q.nil_begin
      = ⟨hist.length % 2 ^ meta_idx_bits P,
         off hist hist.length % (2 * P.DataBufferSize)⟩ := by
    rw [hI.hnb, hS.unpack_pack_nil']
  have hpk : q.nil_begin = pack_nil P ⟨hist.length % 2 ^ meta_idx_bits P,
      off hist hist.length % (2 * P.DataBufferSize)⟩ := by
    rw [← hcur, hS.pack_unpack_nil (by rw [hI.hnb]; exact hS.pack_nil_lt _)]
  have hchk := hI.push_check hS hr hAt hsrc.1 (by omega : src.length ≤ P.DataBufferSize)
  have hvalid : src.length ≠ 0 ∧ src.length ≤ max_size P := ⟨by omega, hsrc.2⟩
  constructor
  · rintro ⟨hok1, hok2⟩
    rw [decide_eq_true hok1, decide_eq_true hok2] at hchk
    have hnb : pack_nil P ⟨to_atom P.atom_bits (hist.length % 2 ^ meta_idx_bits P + 1),
        to_atom P.atom_bits (off hist hist.length % (2 * P.DataBufferSize) + src.length)⟩
        = pack_nil P ⟨hist.length + 1, off hist hist.length + src.length⟩ := by
      apply hS.pack_nil_congr
      · exact add_mod_to_atom hKW (Nat.mod_mod _ _)
      · simp only
        rw [hS.two_B]
        apply add_mod_to_atom (by omega)
        rw [← hS.two_B, Nat.mod_mod]
    have hslot : load_slot P q.meta_buf (hist.length % 2 ^ meta_idx_bits P)
        = load_slot P q.meta_buf hist.length :=
      hS.load_slot_congr _ (by omega) (Nat.mod_mod _ _)
    have hnilst : (load_slot P q.meta_buf hist.length).state = state.nil := by
      have hN := hS.N_pos
      rcases Nat.lt_or_ge hist.length P.MaxElementsNum with hlt | hge
      · rw [hI.hfree _ (Nat.le_refl _) hlt]; rfl
      · have e1 : hist.length = (hist.length - P.MaxElementsNum) + P.MaxElementsNum := by omega
        rw [e1, hS.load_slot_add_N, hI.hnil _ (by omega) (by omega)]
    have hw : unpack_meta P (pack_meta P
        ⟨off hist hist.length % (2 * P.DataBufferSize), to_atom P.atom_bits src.length,
         state.val,
         if ((hist.length % 2 ^ meta_idx_bits P) &&& P.MaxElementsNum) != 0 then 0 else 1⟩)
        = ⟨off hist hist.length % (2 * P.DataBufferSize), src.length, state.val,
           round_at P hist.length⟩ := by
      rw [hS.unpack_pack_meta]
      have hrd : (if ((hist.length % 2 ^ meta_idx_bits P) &&& P.MaxElementsNum) != 0
          then 0 else 1) = round_at P hist.length :=
        hS.round_at_congr (K := meta_idx_bits P) (by omega) (Nat.mod_mod _ _)
      have e1 : off hist hist.length % (2 * P.DataBufferSize) % 2 ^ (lb + 1)
          = off hist hist.length % (2 * P.DataBufferSize) := by
        rw [← hS.two_B, Nat.mod_mod]
      have hlt2 : src.length < 2 ^ (P.atom_bits - 2 - (lb + 1)) := by omega
      have hlt3 : src.length < 2 ^ P.atom_bits :=
        Nat.lt_of_lt_of_le hlt2 (Nat.pow_le_pow_right (by decide) (by omega))
      have e2 : to_atom P.atom_bits src.length % 2 ^ (P.atom_bits - 2 - (lb + 1))
          = src.length := by
        rw [to_atom_of_lt hlt3, Nat.mod_eq_of_lt hlt2]
      have e3 : round_at P hist.length % 2 = round_at P hist.length :=
        Nat.mod_eq_of_lt (by have := hS.round_at_le hist.length; omega)
      simp only [hrd, e1, e2, e3, state.val]
    have hI1 := hI0.push_commit hS hsrc hok1 hok2
      (i := hist.length % 2 ^ meta_idx_bits P)
      (by rw [hS.hN]; exact modEq_of_pow_le (by omega) (Nat.mod_mod _ _)) hw
    refine ⟨_, ?_, hI1, rfl⟩
    have hpush := try_push_ok_eq P fuel q src s _ _ hvalid hs hcur hchk hpk
      (by rw [hslot]; exact hnilst)
    simp only [hnb, hS.mod_B_two] at hpush
    exact hpush
  · intro hno
    have hchk' : nil_slider.less_than P
        ⟨hist.length % 2 ^ meta_idx_bits P,
         to_atom P.atom_bits
           (off hist hist.length % (2 * P.DataBufferSize) + (src.length - 1))⟩ s = false := by
      rw [hchk]
      simp only [Bool.and_eq_false_imp, decide_eq_true_eq, decide_eq_false_iff_not]
      intro h1 h2
      exact hno ⟨h1, h2⟩
    exact ⟨_, try_push_full_eq P fuel q src s _ _ hvalid hs hcur hchk', hI0, rfl⟩

end push

/-! ## Instantiations whose producer cursor has no room for the wrap bit

When `meta_idx_bits ≤ log2(MaxElementsNum)` the packed `meta_idx` of `nil_end` loses the value
`MaxElementsNum`: the first push still succeeds (the slid cursor is used before it is packed),
every later push fails. The consumer side is unaffected. -/

section narrow

variable {P : Params} {n lb : Nat} {q : queue} {hist : List (List Byte)} {h c e : Nat}

theorem Params.Shape.narrow_facts (hS : P.Shape n lb) (hd : meta_idx_bits P ≤ n) :
    1 ≤ meta_idx_bits P ∧ 2 ≤ P.MaxElementsNum ∧
    P.MaxElementsNum % 2 ^ meta_idx_bits P = 0 ∧ P.MaxElementsNum < 2 ^ P.atom_bits ∧
    P.DataBufferSize < 2 ^ P.atom_bits := by
  have hW := hS.hW
  have hmb : 1 ≤ meta_idx_bits P := by
    unfold meta_idx_bits; rw [hS.log2_B]; omega
  refine ⟨hmb, ?_, ?_, ?_, ?_⟩
  · rw [hS.hN]
    calc 2 = 2 ^ 1 := rfl
      _ ≤ 2 ^ n := Nat.pow_le_pow_right (by decide) (by omega)
  · rw [hS.hN]
    exact Nat.mod_eq_zero_of_dvd (Nat.pow_dvd_pow 2 hd)
  · rw [hS.hN]; exact Nat.pow_lt_pow_right (by decide) hS.hn
  · rw [hS.hB]; exact Nat.pow_lt_pow_right (by decide) (by omega)

/-- The `nil_end` cursor of a queue whose `nil_end` was never advanced decodes to slot `0`. -/
theorem Inv.narrow_nil_end (hS : P.Shape n lb) (hd : meta_idx_bits P ≤ n)
    (hI : Inv P q hist h c e 0) : unpack_nil P q.nil_end = ⟨0, P.DataBufferSize⟩ := by
  have hf := hS.narrow_facts hd
  have hB := hS.B_pos
  rw [hI.hne, hS.unpack_pack_nil', off_zero, Nat.zero_add, Nat.zero_add, hf.2.2.1,
    Nat.mod_eq_of_lt (show P.DataBufferSize < 2 * P.DataBufferSize by omega)]

theorem slide_nil_over_zero (hS : P.Shape n lb) (hd : meta_idx_bits P ≤ n) {mb : List Nat}
    (hz : ∀ s, s < P.MaxElementsNum → load_slot P mb s = ⟨0, 0, 0, 0⟩) :
    ∀ cnt i, i ≤ P.MaxElementsNum → P.MaxElementsNum - i ≤ cnt →
      slide_loop P state.nil nil_slider.meta_idx (nil_slider.shift P) mb cnt
          ⟨i, P.DataBufferSize⟩ = ⟨P.MaxElementsNum, P.DataBufferSize⟩ := by
  have hf := hS.narrow_facts hd
  intro cnt
  induction cnt with
  | zero =>
    intro i hi hc
    have : i = P.MaxElementsNum := by omega
    rw [this]; rfl
  | succ cnt ih =>
    intro i hi hc
    rw [slide_loop_succ]
    simp only
    rcases Nat.eq_or_lt_of_le hi with heq | hlt
    · have hl : load_slot P mb i = ⟨0, 0, 0, 0⟩ := by
        rw [heq]
        have := hS.load_slot_add_N mb 0
        rw [Nat.zero_add] at this
        rw [this]; exact hz 0 (by omega)
      have hr : expected_round P state.nil i = 1 := by
        rw [heq, hS.expected_round_nil]
        have := hS.round_at_add_N 0
        rw [Nat.zero_add] at this
        rw [this, hS.round_at_of_lt (by omega)]
      rw [hl, hr, heq]
      simp
    · have hr : expected_round P state.nil i = 0 := by
        rw [hS.expected_round_nil, hS.round_at_of_lt hlt]
      rw [hz i hlt, hr]
      simp only [state.nil, ne_eq, not_true_eq_false, or_self, if_false]
      have hsh : nil_slider.shift P ⟨i, P.DataBufferSize⟩ ⟨0, 0, 0, 0⟩
          = ⟨i + 1, P.DataBufferSize⟩ := by
        simp only [nil_slider.shift, Nat.zero_add]
        rw [to_atom_of_lt (by omega), to_atom_of_lt hf.2.2.2.2]
      rw [hsh]
      exact ih (i + 1) (by omega) (by omega)

/-- The first push into a queue with a narrow producer cursor succeeds. -/
theorem Inv.push_first (hS : P.Shape n lb) (hd : meta_idx_bits P ≤ n)
    (hI : Inv P q [] 0 0 e 0) (hsl : P.MaxElementsNum ≤ q.slide_limit) (fuel : Nat)
    {src : List Byte} (hsrc : 1 ≤ src.length ∧ src.length ≤ max_size P) :
    ∃ q1, try_push P (fuel + 1) q src = (.ret true, q1) ∧ Inv P q1 [src] 0 0 e 0 ∧
      q1.slide_limit = q.slide_limit := by
  have hW := hS.hW
  have hf := hS.narrow_facts hd
  have hms := hS.max_size_le
  have hB := hS.B_pos
  have hz : ∀ s, s < P.MaxElementsNum → load_slot P q.meta_buf s = ⟨0, 0, 0, 0⟩ :=
    fun s hs => hI.hfree s (Nat.zero_le _) hs
  have hne := hI.narrow_nil_end hS hd
  have hloop := slide_nil_over_zero hS hd hz q.slide_limit 0 (Nat.zero_le _) (by omega)
  have hpkE : pack_nil P (unpack_nil P q.nil_end) = q.nil_end :=
    hS.pack_unpack_nil (by rw [hI.hne]; exact hS.pack_nil_lt _)
  have hsame : pack_nil P ⟨P.MaxElementsNum, P.DataBufferSize⟩ = q.nil_end := by
    rw [hI.hne, off_zero, Nat.zero_add, Nat.zero_add]
  have hs : slide_forward_nil P q.slide_limit q.meta_buf q.nil_end
      = (⟨P.MaxElementsNum, P.DataBufferSize⟩, q.nil_end) := by
    unfold slide_forward_nil
    simp only [hne, hloop]
    have hne' : nil_slider.ne ⟨0, P.DataBufferSize⟩ ⟨P.MaxElementsNum, P.DataBufferSize⟩
        = true := by
      simp [nil_slider.ne]; omega
    rw [if_pos hne']
    have hpk0 : pack_nil P ⟨0, P.DataBufferSize⟩ = q.nil_end := by rw [← hne]; exact hpkE
    simp only [compare_exchange, hpk0, if_true, hsame]
  have hnb0 : q.nil_begin = pack_nil P ⟨0, 0⟩ := by
    rw [hI.hnb]; simp [off_zero]
  have hcur : unpack_nil P q.nil_begin = ⟨0, 0⟩ := by
    rw [hnb0, hS.unpack_pack_nil']; simp
  have hchk : nil_slider.less_than P ⟨0, to_atom P.atom_bits (0 + (src.length - 1))⟩
      ⟨P.MaxElementsNum, P.DataBufferSize⟩ = true := by
    unfold nil_slider.less_than
    dsimp only
    rw [Nat.zero_add, Bool.and_eq_true]
    constructor
    · conv_lhs => arg 2; rw [hS.hN]
      rw [wrapped_less_than_of_le (K := P.atom_bits) (x := 0) (y := P.MaxElementsNum)
        (by have := hS.hn; omega) (Nat.le_refl _) rfl rfl (Nat.zero_le _)
        (by rw [← hS.hN]; omega)]
      simp; omega
    · conv_lhs => arg 2; rw [hS.hB]
      rw [wrapped_less_than_of_le (K := lb + 1) (x := src.length - 1)
        (y := P.DataBufferSize) (Nat.le_refl _) (by omega)
        (by rw [to_atom_of_lt (by omega)]) rfl (by omega) (by rw [← hS.hB]; omega)]
      simp; omega
  have hpush := try_push_ok_eq P fuel q src _ ⟨0, 0⟩ _ ⟨by omega, hsrc.2⟩ hs hcur hchk hnb0
    (by rw [hz 0 (by omega)]; rfl)
  have hw : unpack_meta P (pack_meta P
      ⟨0, to_atom P.atom_bits src.length, state.val,
       if ((0 : Nat) &&& P.MaxElementsNum) != 0 then 0 else 1⟩)
      = ⟨off [] ([] : List (List Byte)).length % (2 * P.DataBufferSize), src.length, state.val,
         round_at P ([] : List (List Byte)).length⟩ := by
    rw [hS.unpack_pack_meta]
    have hlt2 : src.length < 2 ^ (P.atom_bits - 2 - (lb + 1)) := by omega
    have hlt3 : src.length < 2 ^ P.atom_bits :=
      Nat.lt_of_lt_of_le hlt2 (Nat.pow_le_pow_right (by decide) (by omega))
    have e2 : to_atom P.atom_bits src.length % 2 ^ (P.atom_bits - 2 - (lb + 1))
        = src.length := by
      rw [to_atom_of_lt hlt3, Nat.mod_eq_of_lt hlt2]
    simp only [e2, List.length_nil, off_zero, Nat.zero_mod, round_at, Nat.zero_and, bne_self_eq_false,
      Bool.false_eq_true, if_false, state.val]
  have hI1 := hI.push_commit hS hsrc (by simp; omega)
    (by simp only [List.length_nil, off_zero, Nat.zero_add]; omega) (i := 0) rfl hw
  refine ⟨_, hpush, ?_, rfl⟩
  have e1 : to_atom P.atom_bits (0 + 1) = 0 + 1 := to_atom_of_lt (by omega)
  have e3 : to_atom P.atom_bits (0 + src.length) = 0 + src.length :=
    to_atom_of_lt (by
      rw [Nat.zero_add]
      exact Nat.lt_of_lt_of_le (by omega : src.length < 2 ^ (P.atom_bits - 2 - (lb + 1)))
        (Nat.pow_le_pow_right (by decide) (by omega)))
  have e4 : mod P.DataBufferSize 0 = 0 := by simp [mod]
  simp only [List.length_nil, off_zero, List.nil_append, Nat.zero_mod] at hI1
  simp only [e1, e3, e4]
  exact hI1

/-- Once an element has been pushed into a queue with a narrow producer cursor, every further
push reports a full queue and leaves the state as it is. -/
theorem Inv.push_stuck (hS : P.Shape n lb) (hd : meta_idx_bits P ≤ n)
    (hI : Inv P q hist h c e 0) (hlen : hist.length = 1) (fuel : Nat)
    {src : List Byte} (hsrc : 1 ≤ src.length ∧ src.length ≤ max_size P) :
    try_push P (fuel + 1) q src = (.ret false, q) := by
  have hW := hS.hW
  have hf := hS.narrow_facts hd
  have hne := hI.narrow_nil_end hS hd
  have hstop : ∀ cnt, slide_loop P state.nil nil_slider.meta_idx (nil_slider.shift P)
      q.meta_buf cnt ⟨0, P.DataBufferSize⟩ = ⟨0, P.DataBufferSize⟩ := by
    intro cnt
    cases cnt with
    | zero => rfl
    | succ cnt =>
      rw [slide_loop_succ]
      have hcond : (load_slot P q.meta_buf 0).state ≠ state.nil ∨
          (load_slot P q.meta_buf 0).odd_round ≠ expected_round P state.nil 0 := by
        rcases Nat.eq_zero_or_pos h with h0 | hpos
        · left
          rw [hI.hval 0 (by omega) (by omega)]
          simp [state.val, state.nil]
        · right
          rw [hI.hnil 0 hpos (by omega), hS.expected_round_nil, hS.round_at_of_lt (by omega)]
          simp
      exact if_pos hcond
  have hs : slide_forward_nil P q.slide_limit q.meta_buf q.nil_end
      = (⟨0, P.DataBufferSize⟩, q.nil_end) := by
    unfold slide_forward_nil
    simp only [hne, hstop]
    have hne' : ¬ (nil_slider.ne ⟨0, P.DataBufferSize⟩ ⟨0, P.DataBufferSize⟩ = true) := by
      simp [nil_slider.ne]
    rw [if_neg hne']
  have h2mb : 1 < 2 ^ meta_idx_bits P := Nat.one_lt_two_pow (by omega)
  have hcur : unpack_nil P q.nil_begin
      = ⟨1, off hist 1 % (2 * P.DataBufferSize)⟩ := by
    rw [hI.hnb, hS.unpack_pack_nil', hlen, Nat.mod_eq_of_lt h2mb]
  have hchk : nil_slider.less_than P
      ⟨1, to_atom P.atom_bits (off hist 1 % (2 * P.DataBufferSize) + (src.length - 1))⟩
      ⟨0, P.DataBufferSize⟩ = false := by
    unfold nil_slider.less_than
    dsimp only
    rw [Bool.and_eq_false_imp]
    intro hcontra
    exfalso
    revert hcontra
    conv => lhs; lhs; arg 2; rw [hS.hN]
    rw [wrapped_less_than_of_ge (K := P.atom_bits) (x := 1) (y := 0)
      (by have := hS.hn; omega) (Nat.le_refl _) rfl rfl (Nat.zero_le _)
      (by rw [← hS.hN]; omega)]
    simp
  have hpush := try_push_full_eq P fuel q src _ _ _ ⟨by omega, hsrc.2⟩ hs hcur hchk
  rw [hpush]

end narrow

/-! ## Runs of a queue with a roomy producer cursor -/

section runs

variable {P : Params} {n lb : Nat}

theorem unpack_meta_zero (P : Params) : unpack_meta P 0 = ⟨0, 0, 0, 0⟩ := by
  simp [unpack_meta, bit_slice.decode]

theorem pack_nil_zero (P : Params) : pack_nil P ⟨0, 0⟩ = 0 := by
  simp [pack_nil, bit_slice.encode, to_atom]

/-- A freshly constructed queue satisfies the invariant for the empty stream. -/
theorem Inv.fresh (hS : P.Shape n lb) (sl : Nat) : Inv P (queue.fresh P sl) [] 0 0 0 0 := by
  have hNlt : P.MaxElementsNum < 2 ^ P.atom_bits := by
    rw [hS.hN]; exact Nat.pow_lt_pow_right (by decide) hS.hn
  have hBlt : P.DataBufferSize < 2 ^ P.atom_bits := by
    rw [hS.hB]; exact Nat.pow_lt_pow_right (by decide) (by have := hS.hW; omega)
  exact
    { hfh := Nat.le_refl _
      hhc := Nat.le_refl _
      hce := Nat.le_refl _
      het := Nat.le_refl _
      htf := by simp
      hbytes := by simp [off]
      hsize := by intro p hp; simp at hp
      hmlen := by simp [queue.fresh]
      hdlen := by simp [queue.fresh]
      hvb := by simp [queue.fresh]
      hve := by simp [queue.fresh]
      hnb := by
        simp only [queue.fresh, List.length_nil, off_zero]
        exact (pack_nil_zero P).symm
      hne := by
        simp only [queue.fresh, off_zero, Nat.zero_add, to_atom_of_lt hNlt, to_atom_of_lt hBlt]
      hval := by intro p _ hp; simp at hp
      hdata := by intro p _ hp; simp at hp
      hnil := by intro p hp; omega
      hfree := by
        intro s _ hs
        have hm : mod P.MaxElementsNum s < P.MaxElementsNum := by
          rw [hS.mod_N, hS.hN]; exact Nat.mod_lt _ (by positivity)
        simp only [load_slot, queue.fresh, List.getD_eq_getElem?_getD,
          List.getElem?_replicate, hm, if_true, Option.getD_some]
        exact unpack_meta_zero P }

theorem try_push_invalid (P : Params) (fuel : Nat) (q : queue) (src : List Byte)
    (h : ¬ (1 ≤ src.length ∧ src.length ≤ max_size P)) :
    try_push P fuel q src = (.invalid_argument, q) := by
  unfold try_push
  rw [if_pos (by intro hh; exact h ⟨by omega, hh.2⟩)]

theorem drop_append_singleton {α : Type} (l : List α) (x : α) {k : Nat} (hk : k ≤ l.length) :
    (l ++ [x]).drop k = l.drop k ++ [x] := by
  rw [List.drop_append_of_le_length hk]

theorem tail_drop {α : Type} (l : List α) (k : Nat) : (l.drop k).tail = l.drop (k + 1) := by
  rw [List.tail_drop]

theorem drop_eq_elem_cons (hist : List (List Byte)) {k : Nat} (hk : k < hist.length) :
    hist.drop k = elem hist k :: hist.drop (k + 1) := by
  rw [List.drop_eq_getElem_cons hk]
  simp [elem, List.getElem?_eq_getElem hk]

theorem Params.Shape.roomy_iff (hS : P.Shape n lb) :
    P.roomy = true ↔ n + 1 ≤ meta_idx_bits P := by
  simp [Params.roomy, hS.log2_N]

/-- A freshly constructed queue is in a reachable-state invariant. -/
theorem Good.at_start (hS : P.Shape n lb) (sl : Nat) : Good P (queue.fresh P sl) [] 0 0 0 :=
  ⟨Inv.fresh hS sl, by
    by_cases hr : P.roomy = true
    · exact Or.inl hr
    · exact Or.inr ⟨rfl, by simp⟩⟩

/-- The method `try_push` with a valid size on a reachable state: it returns normally, keeps
the invariant, and with a roomy producer cursor it succeeds exactly when a slot and the bytes
are free. -/
theorem Good.push (hS : P.Shape n lb) {q : queue} {hist : List (List Byte)} {h e f : Nat}
    (hG : Good P q hist h e f) (hsl : P.MaxElementsNum ≤ q.slide_limit) (fuel : Nat)
    {src : List Byte} (hsrc : 1 ≤ src.length ∧ src.length ≤ max_size P) :
    ∃ b q1 f1, try_push P (fuel + 1) q src = (.ret b, q1) ∧
      Good P q1 (if b = true then hist ++ [src] else hist) h e f1 ∧
      q1.slide_limit = q.slide_limit ∧
      (P.roomy = true →
        b = decide (hist.length < h + P.MaxElementsNum ∧
          off hist hist.length + src.length ≤ off hist h + P.DataBufferSize)) := by
  obtain ⟨hI, hreg⟩ := hG
  by_cases hr : P.roomy = true
  · have hr' := hS.roomy_iff.mp hr
    have hp := hI.push_spec hS hr' hsl fuel hsrc
    by_cases hok : hist.length < h + P.MaxElementsNum ∧
        off hist hist.length + src.length ≤ off hist h + P.DataBufferSize
    · obtain ⟨q2, hq2, hI2, hsl2⟩ := hp.1 hok
      exact ⟨true, q2, h, hq2, ⟨by simpa using hI2, Or.inl hr⟩, hsl2,
        fun _ => (decide_eq_true hok).symm⟩
    · obtain ⟨q2, hq2, hI2, hsl2⟩ := hp.2 hok
      exact ⟨false, q2, h, hq2, ⟨by simpa using hI2, Or.inl hr⟩, hsl2,
        fun _ => (decide_eq_false hok).symm⟩
  · have hd : meta_idx_bits P ≤ n := by
      have := mt hS.roomy_iff.mpr hr; omega
    rcases hreg with hreg | ⟨hf0, hlen⟩
    · exact absurd hreg hr
    · subst hf0
      rcases Nat.eq_or_lt_of_le hlen with h1 | h0
      · have hq := hI.push_stuck hS hd h1 fuel hsrc
        exact ⟨false, q, 0, hq, ⟨by simpa using hI, Or.inr ⟨rfl, by simpa using hlen⟩⟩, rfl,
          fun hh => absurd hh hr⟩
      · have hnil : hist = [] := List.length_eq_zero.mp (by omega)
        subst hnil
        have hh0 : h = 0 := by have := hI.hce; have := hI.het; simp at this; omega
        subst hh0
        obtain ⟨q2, hq2, hI2, hsl2⟩ := hI.push_first hS hd hsl fuel hsrc
        exact ⟨true, q2, 0, hq2, ⟨by simpa using hI2, Or.inr ⟨rfl, by simp⟩⟩, hsl2,
          fun hh => absurd hh hr⟩

/-- A pop keeps the reachable-state invariant. -/
theorem Good.after_pop {q q1 : queue} {hist : List (List Byte)} {h e f : Nat}
    (hG : Good P q hist h e f) (hI1 : Inv P q1 hist (h + 1) (h + 1) hist.length f) :
    Good P q1 hist (h + 1) hist.length f :=
  ⟨hI1, hG.2⟩

/-- One normally returning call keeps the invariant, and the bookkeeping of the stored
elements agrees with the stream. -/
theorem Good.step_ok (hS : P.Shape n lb) {q : queue}
    {hist : List (List Byte)} {h e f : Nat} (hG : Good P q hist h e f)
    (hsl : P.MaxElementsNum ≤ q.slide_limit) (fuel : Nat) (op : Op)
    {q1 : queue} {pend1 : List (List Byte)}
    (hstep : step P (fuel + 1) (q, hist.drop h) op = some (q1, pend1)) :
    ∃ hist1 h1 e1 f1, Good P q1 hist1 h1 e1 f1 ∧ pend1 = hist1.drop h1 ∧
      q1.slide_limit = q.slide_limit := by
  have hI := hG.1
  have hht : h ≤ hist.length := by have := hI.hce; have := hI.het; omega
  cases op with
  | push src =>
    by_cases hv : 1 ≤ src.length ∧ src.length ≤ max_size P
    · obtain ⟨b, q2, f2, hq2, hG2, hsl2, -⟩ := hG.push hS hsl fuel hv
      cases b with
      | true =>
        simp only [step, hq2, Option.some.injEq, Prod.mk.injEq] at hstep
        obtain ⟨rfl, rfl⟩ := hstep
        exact ⟨_, _, _, _, hG2, by simpa using (drop_append_singleton hist src hht).symm, hsl2⟩
      | false =>
        simp only [step, hq2, Option.some.injEq, Prod.mk.injEq] at hstep
        obtain ⟨rfl, rfl⟩ := hstep
        exact ⟨_, _, _, _, hG2, by simp, hsl2⟩
    · simp [step, try_push_invalid P (fuel + 1) q src hv] at hstep
  | pop dst =>
    have hp := hI.pop_spec hS hsl fuel dst
    rcases Nat.eq_or_lt_of_le hht with heq | hlt
    · simp only [step, hp.1 heq, if_true, Option.some.injEq, Prod.mk.injEq] at hstep
      obtain ⟨rfl, rfl⟩ := hstep
      exact ⟨_, _, _, _, hG, rfl, rfl⟩
    · rcases Nat.lt_or_ge dst.length (elem hist h).length with hsm | hcap
      · have h3 := hp.2.2 hlt hsm
        revert hstep h3
        simp only [step]
        generalize try_pop P (fuel + 1) q dst = r
        obtain ⟨o, q2, d2⟩ := r
        intro hstep h3
        simp only at h3
        subst h3
        simp at hstep
      · obtain ⟨q2, hq2, hI2, hsl2⟩ := hp.2.1 hlt hcap
        have hlen : (elem hist h).length ≠ 0 := by have := (hI.hsize h hlt).1; omega
        simp only [step, hq2, hlen, if_false, Option.some.injEq, Prod.mk.injEq] at hstep
        obtain ⟨rfl, rfl⟩ := hstep
        exact ⟨_, _, _, _, hG.after_pop hI2, tail_drop hist h, hsl2⟩

/-- A call with a valid size or a sufficient capacity returns normally. -/
theorem Good.step_sized (hS : P.Shape n lb) {q : queue}
    {hist : List (List Byte)} {h e f : Nat} (hG : Good P q hist h e f)
    (hsl : P.MaxElementsNum ≤ q.slide_limit) (fuel : Nat) {op : Op} (hop : op.sized P) :
    ∃ s1, step P (fuel + 1) (q, hist.drop h) op = some s1 := by
  have hI := hG.1
  have hht : h ≤ hist.length := by have := hI.hce; have := hI.het; omega
  cases op with
  | push src =>
    obtain ⟨b, q2, f2, hq2, -, -, -⟩ := hG.push hS hsl fuel hop
    cases b <;> simp [step, hq2]
  | pop dst =>
    have hp := hI.pop_spec hS hsl fuel dst
    rcases Nat.eq_or_lt_of_le hht with heq | hlt
    · simp [step, hp.1 heq]
    · have hcap : (elem hist h).length ≤ dst.length := by
        have := (hI.hsize h hlt).2
        have : max_size P ≤ dst.length := hop
        omega
      obtain ⟨q2, hq2, -, -⟩ := hp.2.1 hlt hcap
      simp [step, hq2]

/-- Every normally returning run from a reachable state ends in a reachable state. -/
theorem Good.run_ok (hS : P.Shape n lb) (fuel : Nat) :
    ∀ (ops : List Op) {q : queue} {hist : List (List Byte)} {h e f : Nat},
      Good P q hist h e f → P.MaxElementsNum ≤ q.slide_limit →
      ∀ {q1 : queue} {pend1 : List (List Byte)},
        run_from P (fuel + 1) (q, hist.drop h) ops = some (q1, pend1) →
        ∃ hist1 h1 e1 f1, Good P q1 hist1 h1 e1 f1 ∧ pend1 = hist1.drop h1 ∧
          q1.slide_limit = q.slide_limit := by
  intro ops
  induction ops with
  | nil =>
    intro q hist h e f hG _ q1 pend1 hrun
    simp only [run_from, Option.some.injEq, Prod.mk.injEq] at hrun
    obtain ⟨rfl, rfl⟩ := hrun
    exact ⟨_, _, _, _, hG, rfl, rfl⟩
  | cons op ops ih =>
    intro q hist h e f hG hsl q1 pend1 hrun
    simp only [run_from] at hrun
    cases hst : step P (fuel + 1) (q, hist.drop h) op with
    | none => rw [hst] at hrun; simp at hrun
    | some s1 =>
      rw [hst] at hrun
      obtain ⟨q2, pend2⟩ := s1
      obtain ⟨hist2, h2, e2, f2, hG2, hp2, hsl2⟩ := hG.step_ok hS hsl fuel op hst
      subst hp2
      obtain ⟨hist3, h3, e3, f3, hG3, hp3, hsl3⟩ := ih hG2 (by rw [hsl2]; exact hsl) hrun
      exact ⟨_, _, _, _, hG3, hp3, by rw [hsl3, hsl2]⟩

/-- A run of calls with valid sizes and sufficient capacities returns normally. -/
theorem Good.run_sized (hS : P.Shape n lb) (fuel : Nat) :
    ∀ (ops : List Op) {q : queue} {hist : List (List Byte)} {h e f : Nat},
      Good P q hist h e f → P.MaxElementsNum ≤ q.slide_limit →
      (∀ op ∈ ops, op.sized P) →
      ∃ s1, run_from P (fuel + 1) (q, hist.drop h) ops = some s1 := by
  intro ops
  induction ops with
  | nil =>
    intro q hist h e f _ _ _
    exact ⟨_, rfl⟩
  | cons op ops ih =>
    intro q hist h e f hG hsl hops
    obtain ⟨⟨q2, pend2⟩, hst⟩ := hG.step_sized hS hsl fuel (hops op (List.mem_cons_self _ _))
    obtain ⟨hist2, h2, e2, f2, hG2, hp2, hsl2⟩ := hG.step_ok hS hsl fuel op hst
    subst hp2
    obtain ⟨s3, hs3⟩ := ih hG2 (by rw [hsl2]; exact hsl)
      (fun o ho => hops o (List.mem_cons_of_mem _ ho))
    exact ⟨s3, by simp only [run_from, hst]; exact hs3⟩

end runs

/-! ## Bulk consumption under the invariant -/

section bulk_section

variable {P : Params} {n lb : Nat}

/-- With every visible element claimed, `try_pop` finds nothing. -/
theorem Inv.pop_none (hS : P.Shape n lb) {q : queue} {hist : List (List Byte)} {h c e f : Nat}
    (hI : Inv P q hist h c e f) (hc : c = hist.length)
    (hsl : P.MaxElementsNum ≤ q.slide_limit) (fuel : Nat) (dst : List Byte) :
    try_pop P (fuel + 1) q dst = (.ret 0, q, dst) := by
  have hsv := hI.slide_val_end hS hsl
  have hlt := hI.less_than_val hS
  have hd : decide (c < hist.length) = false := by simp; omega
  have hve : hist.length % 2 ^ P.atom_bits = q.val_end := by
    rw [hI.hve]; have := hI.hce; have := hI.het
    have : e = hist.length := by omega
    rw [this]
  unfold try_pop
  simp only [hsv, unpack_val, hI.hvb, try_pop_loop, hlt, hd, Bool.not_false, if_true]
  rw [hve, ← hI.hvb]

theorem mod_two_pow_ne {W N a b : Nat} (hN : N < 2 ^ W) (h1 : a < b) (h2 : b ≤ a + N) :
    a % 2 ^ W ≠ b % 2 ^ W :=
  mod_ne_of_lt h1 (by omega)

/-- Draining a claimed batch `[h, c)` with `consume_from_bulk`. -/
theorem Inv.consume_all_ok (hS : P.Shape n lb) :
    ∀ (dsts : List (List Byte)) {q : queue} {hist : List (List Byte)} {h c e f : Nat},
      Inv P q hist h c e f → h ≤ c → dsts.length = c - h →
      (∀ i, i < dsts.length → (elem hist (h + i)).length ≤ (dsts.getD i []).length) →
      ∃ q2, consume_all P q ⟨h % 2 ^ P.atom_bits, c % 2 ^ P.atom_bits⟩ dsts
          = (drained ((hist.drop h).take (c - h)) dsts, q2,
             ⟨c % 2 ^ P.atom_bits, c % 2 ^ P.atom_bits⟩) ∧
        Inv P q2 hist c c e f ∧ q2.slide_limit = q.slide_limit ∧
        q2.val_begin = q.val_begin ∧ q2.val_end = q.val_end := by
  intro dsts
  induction dsts with
  | nil =>
    intro q hist h c e f hI hhc hlen _
    simp only [List.length_nil] at hlen
    have : h = c := by omega
    subst this
    refine ⟨q, ?_, hI, rfl, rfl, rfl⟩
    simp [consume_all, drained]
  | cons dst dsts ih =>
    intro q hist h c e f hI hhc hlen hcap
    simp only [List.length_cons] at hlen
    have hlt : h < c := by omega
    have hct : c ≤ hist.length := by have := hI.hce; have := hI.het; omega
    have hNlt : P.MaxElementsNum < 2 ^ P.atom_bits := by
      rw [hS.hN]; exact Nat.pow_lt_pow_right (by decide) hS.hn
    have hne : h % 2 ^ P.atom_bits ≠ c % 2 ^ P.atom_bits :=
      mod_two_pow_ne hNlt hlt (by have := hI.htf; have := hI.hfh; omega)
    have hcap0 : (elem hist h).length ≤ dst.length := by
      have := hcap 0 (by simp)
      simpa using this
    obtain ⟨q1, hq1, hI1, hsl1, hvb1, hve1⟩ :=
      hI.consume_ok hS hlt (i := h % 2 ^ P.atom_bits) (Nat.mod_mod _ _) dst hcap0
    obtain ⟨q2, hq2, hI2, hsl2, hvb2, hve2⟩ := ih hI1 (by omega) (by omega)
      (by
        intro i hi
        have := hcap (i + 1) (by simp; omega)
        simp only [List.getD_cons_succ] at this
        have e1 : h + 1 + i = h + (i + 1) := by omega
        rw [e1]; exact this)
    refine ⟨q2, ?_, hI2, by rw [hsl2, hsl1], by rw [hvb2, hvb1], by rw [hve2, hve1]⟩
    have hnext : to_atom P.atom_bits (h % 2 ^ P.atom_bits + 1) = (h + 1) % 2 ^ P.atom_bits := by
      simp only [to_atom, Nat.mod_add_mod]
    have hemp : bulk.empty ⟨h % 2 ^ P.atom_bits, c % 2 ^ P.atom_bits⟩ = false := by
      simp [bulk.empty, hne]
    have hdrop : (hist.drop h).take (c - h)
        = elem hist h :: (hist.drop (h + 1)).take (c - (h + 1)) := by
      rw [drop_eq_elem_cons hist (by omega)]
      have : c - h = (c - (h + 1)) + 1 := by omega
      rw [this, List.take_succ_cons]
    rw [hdrop]
    simp only [consume_all, consume_from_bulk, hemp, Bool.false_eq_true, if_false, hq1, hnext,
      hq2, drained, List.zipWith_cons_cons]

/-- The method `pop_bulk` on a reachable state claims everything that is stored. -/
theorem Inv.pop_bulk_spec (hS : P.Shape n lb) {q : queue} {hist : List (List Byte)}
    {h e f : Nat} (hI : Inv P q hist h h e f) (hsl : P.MaxElementsNum ≤ q.slide_limit)
    (fuel : Nat) :
    (h = hist.length → pop_bulk P (fuel + 1) q = (.ret ⟨0, 0⟩, q)) ∧
    (h < hist.length →
      pop_bulk P (fuel + 1) q
        = (.ret ⟨h % 2 ^ P.atom_bits, hist.length % 2 ^ P.atom_bits⟩,
           { q with val_begin := hist.length % 2 ^ P.atom_bits,
                    val_end := hist.length % 2 ^ P.atom_bits }) ∧
      h % 2 ^ P.atom_bits ≠ hist.length % 2 ^ P.atom_bits) := by
  have hsv := hI.slide_val_end hS hsl
  have hlt := hI.less_than_val hS
  constructor
  · intro hemp
    have hd : decide (h < hist.length) = false := by simp; omega
    have hve : hist.length % 2 ^ P.atom_bits = q.val_end := by
      rw [hI.hve]; have := hI.hce; have := hI.het
      have : e = hist.length := by omega
      rw [this]
    unfold pop_bulk
    simp only [hsv, unpack_val, hI.hvb, pop_bulk_loop, hlt, hd, Bool.not_false, if_true]
    rw [hve, ← hI.hvb]
  · intro hne
    have hd : decide (h < hist.length) = true := by simp; omega
    have hNlt : P.MaxElementsNum < 2 ^ P.atom_bits := by
      rw [hS.hN]; exact Nat.pow_lt_pow_right (by decide) hS.hn
    refine ⟨?_, mod_two_pow_ne hNlt hne (by have := hI.htf; have := hI.hfh; omega)⟩
    unfold pop_bulk
    simp only [hsv, unpack_val, hI.hvb, pop_bulk_loop, hlt, hd, Bool.not_true,
      Bool.false_eq_true, if_false, compare_exchange, pack_val, if_true]

end bulk_section

/-! ## The calls on an arbitrary state -/

section general

variable {P : Params} {n lb : Nat}

/-- A single thread finds `val_begin` unchanged at its compare-exchange: `try_pop` is the slide
of `val_end`, the emptiness test, and `consume_data` on the claimed index. -/
theorem try_pop_eq (P : Params) (fuel : Nat) (q : queue) (dst : List Byte) :
    try_pop P (fuel + 1) q dst
      = if val_slider.less_than P ⟨q.val_begin⟩
            (slide_forward_val P q.slide_limit q.meta_buf q.val_end).1 = true
        then consume_data P
          { q with val_end := (slide_forward_val P q.slide_limit q.meta_buf q.val_end).2,
                   val_begin := to_atom P.atom_bits (q.val_begin + 1) } q.val_begin dst
        else (.ret 0,
          { q with val_end := (slide_forward_val P q.slide_limit q.meta_buf q.val_end).2 },
          dst) := by
  by_cases hlt : val_slider.less_than P ⟨q.val_begin⟩
      (slide_forward_val P q.slide_limit q.meta_buf q.val_end).1 = true
  · rw [if_pos hlt]
    simp only [try_pop, try_pop_loop, unpack_val, hlt, compare_exchange, pack_val,
      Bool.not_true, Bool.false_eq_true, if_false, if_true]
  · rw [if_neg hlt]
    simp only [Bool.not_eq_true] at hlt
    simp only [try_pop, try_pop_loop, unpack_val, hlt, Bool.not_false, if_true]

/-- The method `pop_bulk` run by a single thread: the slide of `val_end`, the emptiness test
and the claim of everything up to the slid `val_end`. -/
theorem pop_bulk_eq (P : Params) (fuel : Nat) (q : queue) :
    pop_bulk P (fuel + 1) q
      = if val_slider.less_than P ⟨q.val_begin⟩
            (slide_forward_val P q.slide_limit q.meta_buf q.val_end).1 = true
        then (.ret ⟨q.val_begin,
                (slide_forward_val P q.slide_limit q.meta_buf q.val_end).1.meta_idx⟩,
          { q with val_end := (slide_forward_val P q.slide_limit q.meta_buf q.val_end).2,
                   val_begin :=
                     (slide_forward_val P q.slide_limit q.meta_buf q.val_end).1.meta_idx })
        else (.ret ⟨0, 0⟩,
          { q with val_end := (slide_forward_val P q.slide_limit q.meta_buf q.val_end).2 }) := by
  by_cases hlt : val_slider.less_than P ⟨q.val_begin⟩
      (slide_forward_val P q.slide_limit q.meta_buf q.val_end).1 = true
  · rw [if_pos hlt]
    simp only [pop_bulk, pop_bulk_loop, unpack_val, hlt, compare_exchange, pack_val,
      Bool.not_true, Bool.false_eq_true, if_false, if_true]
  · rw [if_neg hlt]
    simp only [Bool.not_eq_true] at hlt
    simp only [pop_bulk, pop_bulk_loop, unpack_val, hlt, Bool.not_false, if_true]

/-- The three ways out of `consume_data`. -/
theorem consume_data_eq (P : Params) (q : queue) (x : Nat) (dst : List Byte) :
    consume_data P q x dst
      = if (load_slot P q.meta_buf x).state ≠ state.val then (.logic_error, q, dst)
        else if ¬ (load_slot P q.meta_buf x).size ≤ dst.length then (.invalid_argument, q, dst)
        else (.ret (load_slot P q.meta_buf x).size,
          { q with meta_buf := q.meta_buf.set (mod P.MaxElementsNum x)
                     (pack_meta P { (load_slot P q.meta_buf x) with state := state.nil }) },
          read_data P q.data_buf (mod P.DataBufferSize (load_slot P q.meta_buf x).begin) dst
            (load_slot P q.meta_buf x).size) := rfl

/-- A decoded slot word survives a change of its state field and re-encoding. -/
theorem unpack_pack_with_state (hS : P.Shape n lb) (w st : Nat) (hst : st ≤ 1) :
    unpack_meta P (pack_meta P { (unpack_meta P w) with state := st })
      = { (unpack_meta P w) with state := st } := by
  rw [hS.unpack_pack_meta]
  have hb := bit_slice.decode_lt hS.begin_valid w
  have hs := bit_slice.decode_lt hS.size_valid w
  have hr := bit_slice.decode_lt hS.odd_round_valid w
  have hlog := hS.log2_B
  have hW := hS.hW
  simp only [meta_info.begin_slice, meta_info.size_slice, meta_info.odd_round_slice, hlog,
    Nat.sub_zero] at hb hs hr
  have e1 : P.atom_bits - (P.atom_bits - 1) = 1 := by omega
  rw [e1] at hr
  simp only [unpack_meta, meta_info.mk.injEq]
  refine ⟨?_, ?_, ?_, ?_⟩
  · simp only [meta_info.begin_slice, hlog]
    exact Nat.mod_eq_of_lt hb
  · simp only [meta_info.size_slice, hlog]
    exact Nat.mod_eq_of_lt hs
  · omega
  · simp only [meta_info.odd_round_slice]
    omega

/-- The slot released by a normal return of `consume_data` keeps its `begin`, `size` and
`odd_round` fields; only its state becomes NIL.  Every other slot word is untouched. -/
theorem consume_data_ret (hS : P.Shape n lb) {q q1 : queue} (hlen : q.meta_buf.length = P.MaxElementsNum)
    {x r : Nat} {dst dst1 : List Byte} (h : consume_data P q x dst = (.ret r, q1, dst1)) :
    (load_slot P q.meta_buf x).state = state.val ∧
    r = (load_slot P q.meta_buf x).size ∧ r ≤ dst.length ∧
    load_slot P q1.meta_buf x = { (load_slot P q.meta_buf x) with state := state.nil } ∧
    (∀ p, p % P.MaxElementsNum ≠ x % P.MaxElementsNum →
      load_slot P q1.meta_buf p = load_slot P q.meta_buf p) ∧
    q1 = { q with meta_buf := q1.meta_buf } ∧
    q1.meta_buf.length = P.MaxElementsNum := by
  rw [consume_data_eq] at h
  by_cases h1 : (load_slot P q.meta_buf x).state ≠ state.val
  · rw [if_pos h1] at h; simp at h
  · rw [if_neg h1] at h
    by_cases h2 : ¬ (load_slot P q.meta_buf x).size ≤ dst.length
    · rw [if_pos h2] at h; simp at h
    · rw [if_neg h2] at h
      simp only [Prod.mk.injEq, Outcome.ret.injEq] at h
      obtain ⟨hr, hq, _⟩ := h
      subst hq
      refine ⟨not_not.mp h1, hr.symm, by omega, ?_, ?_, rfl, ?_⟩
      · dsimp only
        rw [hS.load_slot_set hlen, if_pos rfl]
        exact unpack_pack_with_state hS _ _ (by simp [state.nil])
      · intro p hp
        dsimp only
        rw [hS.load_slot_set hlen, if_neg hp]
      · simp [hlen]

/-- A return of `consume_data` with an exception leaves everything as it was. -/
theorem consume_data_err {q q1 : queue} {x : Nat} {dst dst1 : List Byte} {o : Outcome Nat}
    (h : consume_data P q x dst = (o, q1, dst1)) (ho : ∀ r, o ≠ .ret r) :
    q1 = q ∧ dst1 = dst ∧ (o = .logic_error ∨ o = .invalid_argument) := by
  rw [consume_data_eq] at h
  by_cases h1 : (load_slot P q.meta_buf x).state ≠ state.val
  · rw [if_pos h1] at h
    simp only [Prod.mk.injEq] at h
    exact ⟨h.2.1.symm, h.2.2.symm, Or.inl h.1.symm⟩
  · rw [if_neg h1] at h
    by_cases h2 : ¬ (load_slot P q.meta_buf x).size ≤ dst.length
    · rw [if_pos h2] at h
      simp only [Prod.mk.injEq] at h
      exact ⟨h.2.1.symm, h.2.2.symm, Or.inr h.1.symm⟩
    · rw [if_neg h2] at h
      simp only [Prod.mk.injEq] at h
      exact absurd h.1.symm (ho _)

/-- The method `try_push` run by a single thread with a valid size: the slide of `nil_end`,
the space test, the reservation, the state assertion and the publication. -/
theorem try_push_eq (hS : P.Shape n lb) (fuel : Nat) (q : queue) (src : List Byte)
    (hvalid : src.length ≠ 0 ∧ src.length ≤ max_size P) (hnb : q.nil_begin < 2 ^ P.atom_bits) :
    try_push P (fuel + 1) q src
      = if nil_slider.less_than P
            ⟨(unpack_nil P q.nil_begin).meta_idx,
             to_atom P.atom_bits ((unpack_nil P q.nil_begin).data_idx + (src.length - 1))⟩
            (slide_forward_nil P q.slide_limit q.meta_buf q.nil_end).1 = true
        then
          if (load_slot P q.meta_buf (unpack_nil P q.nil_begin).meta_idx).state = state.nil
          then (.ret true,
            { q with
              nil_end := (slide_forward_nil P q.slide_limit q.meta_buf q.nil_end).2,
              nil_begin := pack_nil P
                ⟨to_atom P.atom_bits ((unpack_nil P q.nil_begin).meta_idx + 1),
                 to_atom P.atom_bits ((unpack_nil P q.nil_begin).data_idx + src.length)⟩,
              data_buf := write_data P q.data_buf
                (mod P.DataBufferSize (unpack_nil P q.nil_begin).data_idx) src src.length,
              meta_buf := q.meta_buf.set
                (mod P.MaxElementsNum (unpack_nil P q.nil_begin).meta_idx)
                (pack_meta P ⟨(unpack_nil P q.nil_begin).data_idx,
                  to_atom P.atom_bits src.length, state.val,
                  if ((unpack_nil P q.nil_begin).meta_idx &&& P.MaxElementsNum) != 0
                  then 0 else 1⟩) })
          else (.logic_error,
            { q with
              nil_end := (slide_forward_nil P q.slide_limit q.meta_buf q.nil_end).2,
              nil_begin := pack_nil P
                ⟨to_atom P.atom_bits ((unpack_nil P q.nil_begin).meta_idx + 1),
                 to_atom P.atom_bits ((unpack_nil P q.nil_begin).data_idx + src.length)⟩ })
        else (.ret false,
          { q with nil_end := (slide_forward_nil P q.slide_limit q.meta_buf q.nil_end).2 }) := by
  have hpk : q.nil_begin = pack_nil P (unpack_nil P q.nil_begin) :=
    (hS.pack_unpack_nil hnb).symm
  by_cases hchk : nil_slider.less_than P
      ⟨(unpack_nil P q.nil_begin).meta_idx,
       to_atom P.atom_bits ((unpack_nil P q.nil_begin).data_idx + (src.length - 1))⟩
      (slide_forward_nil P q.slide_limit q.meta_buf q.nil_end).1 = true
  · rw [if_pos hchk]
    by_cases hst : (load_slot P q.meta_buf (unpack_nil P q.nil_begin).meta_idx).state = state.nil
    · rw [if_pos hst]
      exact try_push_ok_eq P fuel q src _ _ _ hvalid rfl rfl hchk hpk hst
    · rw [if_neg hst]
      unfold try_push
      rw [if_neg (not_not.mpr hvalid)]
      dsimp only
      rw [try_push_loop_ok P src.length fuel
        { q with nil_end := (slide_forward_nil P q.slide_limit q.meta_buf q.nil_end).2 } _ _
        hchk hpk]
      simp only [hst, ne_eq, not_false_eq_true, if_true]
  · rw [if_neg hchk]
    simp only [Bool.not_eq_true] at hchk
    exact try_push_full_eq P fuel q src _ _ _ hvalid rfl rfl hchk

end general

/-! ## The two ring copies never leave the payload buffer -/

/-- A copy that stays inside the first part of its destination leaves the rest alone. -/
theorem memcpy_append_dst (data junk src : List Byte) (doff soff : Nat) :
    ∀ k, doff + k ≤ data.length →
      memcpy (data ++ junk) doff src soff k = memcpy data doff src soff k ++ junk := by
  intro k
  induction k with
  | zero => intro _; rfl
  | succ k ih =>
    intro hk
    simp only [memcpy]
    rw [ih (by omega), List.set_append_left]
    rw [length_memcpy]
    omega

/-- A copy that reads only the first part of its source does not depend on the rest. -/
theorem memcpy_append_src (dst data junk : List Byte) (doff soff : Nat) :
    ∀ k, soff + k ≤ data.length →
      memcpy dst doff (data ++ junk) soff k = memcpy dst doff data soff k := by
  intro k
  induction k with
  | zero => intro _; rfl
  | succ k ih =>
    intro hk
    simp only [memcpy]
    rw [ih (by omega)]
    congr 1
    rw [List.getD_eq_getElem?_getD, List.getD_eq_getElem?_getD,
      List.getElem?_append_left (by omega)]

/-- The index that `write_data` gives to byte `(j - idx) mod B` of the element is `j`. -/
theorem ring_index_inv {B idx j : Nat} (hidx : idx < B) (hj : j < B) :
    (idx + (j + B - idx) % B) % B = j := by
  by_cases h : idx ≤ j
  · have e : j + B - idx = (j - idx) + B := by omega
    have e1 : (j + B - idx) % B = j - idx := by
      rw [e, Nat.add_mod_right]
      exact Nat.mod_eq_of_lt (by omega)
    have e2 : idx + (j - idx) = j := by omega
    rw [e1, e2]
    exact Nat.mod_eq_of_lt hj
  · have e1 : (j + B - idx) % B = j + B - idx := Nat.mod_eq_of_lt (by omega)
    have e : idx + (j + B - idx) = j + B := by omega
    rw [e1, e, Nat.add_mod_right]
    exact Nat.mod_eq_of_lt hj

/-- The bytes that `write_data` does not address keep their value. -/
theorem write_data_frame (P : Params) (data src : List Byte) (idx size j : Nat)
    (hlen : data.length = P.DataBufferSize) (hidx : idx < P.DataBufferSize)
    (hsize : size ≤ P.DataBufferSize) (hj : j < P.DataBufferSize)
    (hout : ∀ i, i < size → j ≠ (idx + i) % P.DataBufferSize) :
    (write_data P data idx src size).getD j 0 = data.getD j 0 := by
  rw [List.getD_eq_getElem?_getD, getElem?_write_data P data idx src size j hlen hidx hsize hj,
    List.getD_eq_getElem?_getD data]
  by_cases hc : (j + P.DataBufferSize - idx) % P.DataBufferSize < size
  · exact absurd (ring_index_inv hidx hj).symm (hout _ hc)
  · rw [if_neg hc]

/-! ## The slide loop and the run of ready positions -/

section run_section

variable {P : Params} {n lb : Nat}

theorem spec_round_eq (hS : P.Shape n lb) (S p : Nat) :
    spec_round P S p = expected_round P S p := by
  have h := and_two_pow_ne_zero p n
  rw [← hS.hN] at h
  simp only [spec_round, expected_round, hS.log2_N, h]
  cases (S == state.val) <;> cases p.testBit n <;> rfl

theorem spec_ready_iff (hS : P.Shape n lb) (mb : List Nat) (S p : Nat) :
    spec_ready P mb S p = true ↔
      ¬ ((load_slot P mb p).state ≠ S ∨
         (load_slot P mb p).odd_round ≠ expected_round P S p) := by
  have e : load_slot P mb p = unpack_meta P (mb.getD (p % P.MaxElementsNum) 0) := by
    unfold load_slot
    rw [hS.mod_N, ← hS.hN]
  simp only [spec_ready, ← e, spec_round_eq hS, Bool.and_eq_true, beq_iff_eq, ne_eq, not_or,
    not_not]

theorem spec_ready_congr (hS : P.Shape n lb) (mb : List Nat) (S : Nat) {a p : Nat}
    (h : a % 2 ^ P.atom_bits = p % 2 ^ P.atom_bits) :
    spec_ready P mb S a = spec_ready P mb S p := by
  have hn := hS.hn
  have h1 : a % P.MaxElementsNum = p % P.MaxElementsNum := by
    rw [hS.hN]; exact modEq_of_pow_le (by omega) h
  have h2 : a.testBit n = p.testBit n := testBit_congr hn h
  simp only [spec_ready, spec_round, h1, hS.log2_N, h2]

theorem spec_run_congr (hS : P.Shape n lb) (mb : List Nat) (S : Nat) :
    ∀ bound {a p : Nat}, a % 2 ^ P.atom_bits = p % 2 ^ P.atom_bits →
      spec_run P mb S bound a = spec_run P mb S bound p := by
  intro bound
  induction bound with
  | zero => intro a p _; rfl
  | succ b ih =>
    intro a p h
    simp only [spec_run, spec_ready_congr hS mb S h]
    rw [ih (a := a + 1) (p := p + 1) (by
      rw [Nat.add_mod, h, ← Nat.add_mod])]

theorem spec_run_le (P : Params) (mb : List Nat) (S : Nat) :
    ∀ bound p, spec_run P mb S bound p ≤ bound := by
  intro bound
  induction bound with
  | zero => intro p; simp [spec_run]
  | succ b ih =>
    intro p
    simp only [spec_run]
    split
    · have := ih (p + 1); omega
    · omega

/-- Every position inside a run is ready. -/
theorem spec_run_ready (P : Params) (mb : List Nat) (S : Nat) :
    ∀ bound p j, j < spec_run P mb S bound p → spec_ready P mb S (p + j) = true := by
  intro bound
  induction bound with
  | zero => intro p j h; simp [spec_run] at h
  | succ b ih =>
    intro p j h
    simp only [spec_run] at h
    by_cases hr : spec_ready P mb S p = true
    · rw [if_pos hr] at h
      cases j with
      | zero => exact hr
      | succ j =>
        have := ih (p + 1) j (by omega)
        rwa [Nat.add_assoc, Nat.add_comm 1 j] at this
    · rw [if_neg hr] at h; omega

/-- The run counted up to a smaller bound is the run cut at that bound. -/
theorem spec_run_min (P : Params) (mb : List Nat) (S : Nat) :
    ∀ b b' p, b ≤ b' → spec_run P mb S b p = min b (spec_run P mb S b' p) := by
  intro b
  induction b with
  | zero => intro b' p _; simp [spec_run]
  | succ b ih =>
    intro b' p hb
    obtain ⟨c, rfl⟩ : ∃ c, b' = c + 1 := ⟨b' - 1, by omega⟩
    simp only [spec_run]
    by_cases hr : spec_ready P mb S p = true
    · rw [if_pos hr, if_pos hr, ih c (p + 1) (by omega)]
      omega
    · rw [if_neg hr, if_neg hr]; simp

/-- One ring later the expected round has flipped, so a position and the position `N` slots
after it are never both ready. -/
theorem spec_ready_flip (hS : P.Shape n lb) (mb : List Nat) (S p : Nat)
    (h : spec_ready P mb S p = true) : spec_ready P mb S (p + P.MaxElementsNum) = false := by
  have hN := hS.N_pos
  have hb : (p + P.MaxElementsNum).testBit n = !p.testBit n := by
    rw [hS.hN]; exact testBit_add_two_pow p n
  simp only [spec_ready, spec_round, hS.log2_N, Nat.add_mod_right, hb, Bool.and_eq_true,
    beq_iff_eq] at h ⊢
  obtain ⟨h1, h2⟩ := h
  rw [h1, h2]
  cases (S == state.val) <;> cases p.testBit n <;> simp

/-- A run never spans more than one ring. -/
theorem spec_run_le_N (hS : P.Shape n lb) (mb : List Nat) (S bound p : Nat) :
    spec_run P mb S bound p ≤ P.MaxElementsNum := by
  by_contra hc
  have hN := hS.N_pos
  have h0 := spec_run_ready P mb S bound p 0 (by omega)
  have h1 := spec_run_ready P mb S bound p P.MaxElementsNum (by omega)
  rw [spec_ready_flip hS mb S p h0] at h1
  exact absurd h1 (by simp)

/-- The run is the same for every bound of at least one ring. -/
theorem spec_run_stable (hS : P.Shape n lb) (mb : List Nat) (S p : Nat) {bound : Nat}
    (hb : P.MaxElementsNum ≤ bound) :
    spec_run P mb S bound p = spec_run P mb S P.MaxElementsNum p := by
  have h1 := spec_run_min P mb S P.MaxElementsNum bound p hb
  have h2 := spec_run_le_N hS mb S bound p
  omega

/-- The bounded loop advances by the run cut at the slide limit. -/
theorem spec_run_limit (hS : P.Shape n lb) (mb : List Nat) (S p L : Nat) :
    spec_run P mb S L p = min L (spec_run P mb S P.MaxElementsNum p) := by
  by_cases h : L ≤ P.MaxElementsNum
  · exact spec_run_min P mb S L _ p h
  · rw [spec_run_stable hS mb S p (by omega)]
    have := spec_run_le P mb S P.MaxElementsNum p
    omega

/-- The loop of `slide_forward` advances the index by the run of ready positions. -/
theorem slide_loop_meta_idx {T : Type} (hS : P.Shape n lb) (S : Nat) (mi : T → Nat)
    (sh : T → meta_info → T) (mb : List Nat)
    (hsh : ∀ d m, mi (sh d m) = to_atom P.atom_bits (mi d + 1)) :
    ∀ cnt d, mi d < 2 ^ P.atom_bits →
      mi (slide_loop P S mi sh mb cnt d)
        = to_atom P.atom_bits (mi d + spec_run P mb S cnt (mi d)) := by
  intro cnt
  induction cnt with
  | zero =>
    intro d hd
    simp only [slide_loop, spec_run, Nat.add_zero]
    exact (to_atom_of_lt hd).symm
  | succ c ih =>
    intro d hd
    rw [slide_loop_succ]
    simp only [spec_run]
    by_cases hr : spec_ready P mb S (mi d) = true
    · rw [if_neg ((spec_ready_iff hS mb S _).mp hr), if_pos hr, ih _ (by rw [hsh]; exact to_atom_lt _ _),
        hsh, spec_run_congr hS mb S c (a := to_atom P.atom_bits (mi d + 1)) (p := mi d + 1)
          (by simp [to_atom])]
      simp only [to_atom]
      rw [Nat.mod_add_mod]
      congr 1
      omega
    · rw [if_neg hr, if_pos (by
        rw [spec_ready_iff hS] at hr
        exact not_not.mp hr)]
      exact (to_atom_of_lt hd).symm

/-- With an empty run the loop returns its argument. -/
theorem slide_loop_of_run_zero {T : Type} (hS : P.Shape n lb) (S : Nat) (mi : T → Nat)
    (sh : T → meta_info → T) (mb : List Nat) (cnt : Nat) (d : T)
    (h : spec_run P mb S cnt (mi d) = 0) : slide_loop P S mi sh mb cnt d = d := by
  cases cnt with
  | zero => rfl
  | succ c =>
    rw [slide_loop_succ]
    simp only [spec_run] at h
    by_cases hr : spec_ready P mb S (mi d) = true
    · rw [if_pos hr] at h; omega
    · rw [if_pos (by
        rw [spec_ready_iff hS] at hr
        exact not_not.mp hr)]

/-- After a non-empty run the producer-side cursor carries the data index computed from the
last slot passed. -/
theorem slide_loop_data_idx (hS : P.Shape n lb) (mb : List Nat) :
    ∀ cnt (d : nil_slider), d.meta_idx < 2 ^ P.atom_bits →
      0 < spec_run P mb state.nil cnt d.meta_idx →
      (slide_loop P state.nil nil_slider.meta_idx (nil_slider.shift P) mb cnt d).data_idx
        = to_atom P.atom_bits
            ((load_slot P mb (d.meta_idx + spec_run P mb state.nil cnt d.meta_idx - 1)).begin +
             (load_slot P mb (d.meta_idx + spec_run P mb state.nil cnt d.meta_idx - 1)).size +
             P.DataBufferSize) := by
  intro cnt
  induction cnt with
  | zero => intro d _ h; simp [spec_run] at h
  | succ c ih =>
    intro d hd h
    rw [slide_loop_succ]
    simp only [spec_run] at h ⊢
    by_cases hr : spec_ready P mb state.nil d.meta_idx = true
    swap
    · rw [if_neg hr] at h; omega
    rw [if_neg ((spec_ready_iff hS mb _ _).mp hr), if_pos hr]
    have hcong := spec_run_congr hS mb state.nil c
      (a := to_atom P.atom_bits (d.meta_idx + 1)) (p := d.meta_idx + 1) (by simp [to_atom])
    by_cases h0 : spec_run P mb state.nil c (d.meta_idx + 1) = 0
    · rw [slide_loop_of_run_zero hS _ _ _ mb c _ (by
        show spec_run P mb state.nil c (to_atom P.atom_bits (d.meta_idx + 1)) = 0
        rw [hcong]; exact h0)]
      rw [h0]
      simp only [nil_slider.shift, Nat.add_zero, Nat.add_sub_cancel]
    · have hi := ih (nil_slider.shift P d (load_slot P mb d.meta_idx))
        (to_atom_lt _ _) (by
          show 0 < spec_run P mb state.nil c (to_atom P.atom_bits (d.meta_idx + 1))
          rw [hcong]; omega)
      rw [hi]
      have e : (nil_slider.shift P d (load_slot P mb d.meta_idx)).meta_idx
          = to_atom P.atom_bits (d.meta_idx + 1) := rfl
      rw [e, hcong]
      have hx : 0 < spec_run P mb state.nil c (d.meta_idx + 1) := by omega
      have hls : load_slot P mb
            (to_atom P.atom_bits (d.meta_idx + 1) + spec_run P mb state.nil c (d.meta_idx + 1) - 1)
          = load_slot P mb
            (d.meta_idx + (1 + spec_run P mb state.nil c (d.meta_idx + 1)) - 1) := by
        apply hS.load_slot_congr mb (K := P.atom_bits) (by have := hS.hn; omega)
        have e1 : to_atom P.atom_bits (d.meta_idx + 1)
              + spec_run P mb state.nil c (d.meta_idx + 1) - 1
            = to_atom P.atom_bits (d.meta_idx + 1)
              + (spec_run P mb state.nil c (d.meta_idx + 1) - 1) := by omega
        have e2 : d.meta_idx + (1 + spec_run P mb state.nil c (d.meta_idx + 1)) - 1
            = (d.meta_idx + 1) + (spec_run P mb state.nil c (d.meta_idx + 1) - 1) := by omega
        rw [e1, e2]
        simp only [to_atom, Nat.mod_add_mod]
      rw [hls]

end run_section

/-! ## The slot invariant: pushes with a roomy producer cursor -/

section sinv

variable {P : Params} {n lb : Nat} {q : queue} {hist : List (List Byte)} {rel : Nat → Bool}
  {f : Nat}

/-- The slot invariant does not look at the consumer cursors, `nil_end` or the payload. -/
theorem SInv.same_slots (hI : SInv P q hist rel f) {q1 : queue} (h1 : q1.meta_buf = q.meta_buf)
    (h2 : q1.data_buf.length = q.data_buf.length) (h3 : q1.nil_begin = q.nil_begin) :
    SInv P q1 hist rel f :=
  { hsize := hI.hsize, hmlen := by rw [h1]; exact hI.hmlen, hdlen := by rw [h2]; exact hI.hdlen
    hnb := by rw [h3]; exact hI.hnb, hrel := hI.hrel, hf := hI.hf, htf := hI.htf
    hbytes := hI.hbytes, hslot := by rw [h1]; exact hI.hslot
    hfree := by rw [h1]; exact hI.hfree }

theorem SInv.f_le (hI : SInv P q hist rel f) : f ≤ hist.length := by
  by_contra hc
  have := hI.hrel hist.length (hI.hf _ (by omega))
  omega

/-- The reclaimed position may be moved up over released positions. -/
theorem SInv.mono_f (hI : SInv P q hist rel f) {f1 : Nat} (h1 : f ≤ f1)
    (h2 : ∀ p, p < f1 → rel p = true) : SInv P q hist rel f1 :=
  have h3 : f1 ≤ hist.length := by
    by_contra hc
    have := hI.hrel hist.length (h2 _ (by omega))
    omega
  { hsize := hI.hsize, hmlen := hI.hmlen, hdlen := hI.hdlen, hnb := hI.hnb, hrel := hI.hrel
    hf := h2, htf := by have := hI.htf; omega
    hbytes := by have := hI.hbytes; have := off_mono hist h1; omega
    hslot := hI.hslot, hfree := hI.hfree }

/-- The slot that the next push will use: never written, or holding the element of one ring
earlier. -/
theorem SInv.next_slot (hS : P.Shape n lb) (hI : SInv P q hist rel f) :
    load_slot P q.meta_buf hist.length
      = if hist.length < P.MaxElementsNum then ⟨0, 0, 0, 0⟩
        else ⟨off hist (hist.length - P.MaxElementsNum) % (2 * P.DataBufferSize),
              (elem hist (hist.length - P.MaxElementsNum)).length,
              if rel (hist.length - P.MaxElementsNum) = true then state.nil else state.val,
              round_at P (hist.length - P.MaxElementsNum)⟩ := by
  have hN := hS.N_pos
  by_cases hlt : hist.length < P.MaxElementsNum
  · rw [if_pos hlt, hI.hfree _ (Nat.le_refl _) hlt]
  · rw [if_neg hlt]
    have e1 : hist.length = (hist.length - P.MaxElementsNum) + P.MaxElementsNum := by omega
    conv_lhs => rw [e1]
    rw [hS.load_slot_add_N, hI.hslot _ (by omega) (by omega)]

/-- The slot of the next push does not carry the round that `nil_end` or `val_end` would
expect at that position. -/
theorem SInv.next_round (hS : P.Shape n lb) (hI : SInv P q hist rel f) :
    (load_slot P q.meta_buf hist.length).odd_round = 1 - round_at P hist.length := by
  have hN := hS.N_pos
  rw [hI.next_slot hS]
  by_cases hlt : hist.length < P.MaxElementsNum
  · rw [if_pos hlt, hS.round_at_of_lt hlt]
  · rw [if_neg hlt]
    have e1 : hist.length = (hist.length - P.MaxElementsNum) + P.MaxElementsNum := by omega
    have hr : round_at P hist.length = 1 - round_at P (hist.length - P.MaxElementsNum) := by
      conv_lhs => rw [e1]
      exact hS.round_at_add_N _
    have := hS.round_at_le (hist.length - P.MaxElementsNum)
    simp only
    omega

/-- Every slot holds an element of the last ring of the stream or has never been written. -/
theorem SInv.slot_cases (hS : P.Shape n lb) (hI : SInv P q hist rel f) (x : Nat) :
    (∃ p, p < hist.length ∧ hist.length ≤ p + P.MaxElementsNum ∧
      p % P.MaxElementsNum = x % P.MaxElementsNum) ∨
    load_slot P q.meta_buf x = ⟨0, 0, 0, 0⟩ := by
  have hN := hS.N_pos
  have hx : x % P.MaxElementsNum < P.MaxElementsNum := Nat.mod_lt _ hN
  have hlx : load_slot P q.meta_buf x = load_slot P q.meta_buf (x % P.MaxElementsNum) := by
    apply hS.load_slot_congr _ (Nat.le_refl n)
    rw [← hS.hN, Nat.mod_mod]
  by_cases ht : hist.length ≤ P.MaxElementsNum
  · by_cases hxt : x % P.MaxElementsNum < hist.length
    · exact Or.inl ⟨x % P.MaxElementsNum, hxt, by omega, Nat.mod_mod _ _⟩
    · exact Or.inr (by rw [hlx]; exact hI.hfree _ (by omega) hx)
  · left
    -- the position of slot `x` in the last ring
    have hd : (hist.length - P.MaxElementsNum) % P.MaxElementsNum < P.MaxElementsNum :=
      Nat.mod_lt _ hN
    have hdiv := Nat.div_add_mod (hist.length - P.MaxElementsNum) P.MaxElementsNum
    by_cases hc : (hist.length - P.MaxElementsNum) % P.MaxElementsNum ≤ x % P.MaxElementsNum
    · refine ⟨P.MaxElementsNum * ((hist.length - P.MaxElementsNum) / P.MaxElementsNum)
        + x % P.MaxElementsNum, by omega, by omega, ?_⟩
      rw [Nat.mul_add_mod, Nat.mod_mod]
    · refine ⟨P.MaxElementsNum * ((hist.length - P.MaxElementsNum) / P.MaxElementsNum)
        + x % P.MaxElementsNum + P.MaxElementsNum, by omega, by omega, ?_⟩
      rw [Nat.add_mod_right, Nat.mul_add_mod, Nat.mod_mod]

/-- The payload half of the space check of `try_push`. -/
theorem data_check (hS : P.Shape n lb) {a d ot oj size : Nat}
    (ha : a % (2 * P.DataBufferSize) = ot % (2 * P.DataBufferSize))
    (hd : d % (2 * P.DataBufferSize) = (oj + P.DataBufferSize) % (2 * P.DataBufferSize))
    (h1 : oj ≤ ot) (h2 : ot ≤ oj + P.DataBufferSize) (hs1 : 1 ≤ size)
    (hs2 : size ≤ P.DataBufferSize) :
    wrapped_less_than P.atom_bits P.DataBufferSize (to_atom P.atom_bits (a + (size - 1))) d
      = decide (ot + size ≤ oj + P.DataBufferSize) := by
  have hW := hS.hW
  have ha' : to_atom P.atom_bits (a + (size - 1)) % 2 ^ (lb + 1)
      = (ot + (size - 1)) % 2 ^ (lb + 1) := by
    apply add_mod_to_atom (by omega)
    rw [← hS.two_B]; exact ha
  have hb : d % 2 ^ (lb + 1) = (oj + P.DataBufferSize) % 2 ^ (lb + 1) := by
    rw [← hS.two_B]; exact hd
  conv_lhs => arg 2; rw [hS.hB]
  by_cases hfit : ot + size ≤ oj + P.DataBufferSize
  · rw [wrapped_less_than_of_le (Nat.le_refl _) (by omega) ha' hb (by omega)
      (by rw [← hS.hB]; omega)]
    simp only [hfit, decide_True, decide_eq_true_eq]
    omega
  · rw [wrapped_less_than_of_ge (Nat.le_refl _) (by omega) ha' hb (by omega)
      (by rw [← hS.hB]; omega)]
    simp [hfit]

/-- The state after a successful reservation, payload copy and publication satisfies the slot
invariant for the stream extended by the new element. -/
theorem SInv.commit (hS : P.Shape n lb) (hI : SInv P q hist rel f) {src : List Byte}
    (hsrc : 1 ≤ src.length ∧ src.length ≤ max_size P)
    (hok1 : hist.length < f + P.MaxElementsNum)
    (hok2 : off hist hist.length + src.length ≤ off hist f + P.DataBufferSize)
    {i w ne1 : Nat} {data1 : List Byte} (hd1 : data1.length = P.DataBufferSize)
    (hiN : i % P.MaxElementsNum = hist.length % P.MaxElementsNum)
    (hw : unpack_meta P w
      = ⟨off hist hist.length % (2 * P.DataBufferSize), src.length, state.val,
         round_at P hist.length⟩) :
    SInv P { q with
        nil_end := ne1,
        nil_begin := pack_nil P ⟨hist.length + 1, off hist hist.length + src.length⟩,
        data_buf := data1,
        meta_buf := q.meta_buf.set (mod P.MaxElementsNum i) w }
      (hist ++ [src]) rel f := by
  have hN := hS.N_pos
  have hft := hI.f_le
  have hoffh : ∀ p, p ≤ hist.length → off (hist ++ [src]) p = off hist p :=
    fun p hp => off_append_of_le hist src hp
  have helem : ∀ p, p < hist.length → elem (hist ++ [src]) p = elem hist p :=
    fun p hp => elem_append_of_lt hist src hp
  have hrt : rel hist.length = false := by
    cases hr : rel hist.length
    · rfl
    · exact absurd (hI.hrel _ hr) (Nat.lt_irrefl _)
  exact
    { hsize := by
        intro p hp
        rw [List.length_append] at hp; simp only [List.length_singleton] at hp
        rcases Nat.eq_or_lt_of_le (Nat.le_of_lt_succ hp) with heq | hlt
        · rw [heq, elem_append_length]; exact hsrc
        · rw [helem p hlt]; exact hI.hsize p hlt
      hmlen := by simp [hI.hmlen]
      hdlen := hd1
      hnb := by
        simp only [List.length_append, List.length_singleton]
        rw [off_append_length]
      hrel := by
        intro p hp
        have := hI.hrel p hp
        rw [List.length_append]; simp only [List.length_singleton]; omega
      hf := hI.hf
      htf := by rw [List.length_append]; simp only [List.length_singleton]; omega
      hbytes := by
        rw [List.length_append]; simp only [List.length_singleton]
        rw [off_append_length, hoffh f hft]; exact hok2
      hslot := by
        intro p hpt hpw
        rw [List.length_append] at hpt hpw; simp only [List.length_singleton] at hpt hpw
        simp only
        rw [hS.load_slot_set hI.hmlen, hiN]
        rcases Nat.eq_or_lt_of_le (Nat.le_of_lt_succ hpt) with heq | hlt
        · rw [heq, if_pos rfl, hw, hoffh _ (Nat.le_refl _), elem_append_length, hrt]
          simp
        · rw [if_neg (mod_ne_of_lt hlt (by omega)), hoffh p (by omega), helem p hlt]
          exact hI.hslot p hlt (by omega)
      hfree := by
        intro s hs hsN
        rw [List.length_append] at hs; simp only [List.length_singleton] at hs
        simp only
        rw [hS.load_slot_set hI.hmlen, hiN,
          if_neg (Ne.symm (mod_ne_of_lt (by omega) (by omega)))]
        exact hI.hfree s (by omega) hsN }

/-- The decoded `nil_begin` under the slot invariant. -/
theorem SInv.cur_eq (hS : P.Shape n lb) (hI : SInv P q hist rel f) :
    unpack_nil P q.nil_begin
      = ⟨hist.length % 2 ^ meta_idx_bits P,
         off hist hist.length % (2 * P.DataBufferSize)⟩ := by
  rw [hI.hnb, hS.unpack_pack_nil']

theorem SInv.nil_begin_lt (hS : P.Shape n lb) (hI : SInv P q hist rel f) :
    q.nil_begin < 2 ^ P.atom_bits := by
  rw [hI.hnb]; exact hS.pack_nil_lt _

/-- A `try_push` whose space check passes against a slid `nil_end` that stands for the
reclaimed position `f1`: it returns true, publishes the element in the slot of position
`hist.length`, and leaves every other slot word, the payload outside the element and the
consumer cursors alone. -/
theorem SInv.push_ok (hS : P.Shape n lb) (hI : SInv P q hist rel f) (fuel : Nat)
    {src : List Byte} (hsrc : 1 ≤ src.length ∧ src.length ≤ max_size P)
    (hcm : (hist.length % 2 ^ meta_idx_bits P) % P.MaxElementsNum
      = hist.length % P.MaxElementsNum)
    (hrd : (if ((hist.length % 2 ^ meta_idx_bits P) &&& P.MaxElementsNum) != 0 then 0 else 1)
      = round_at P hist.length)
    (hchk : nil_slider.less_than P
      ⟨hist.length % 2 ^ meta_idx_bits P,
       to_atom P.atom_bits (off hist hist.length % (2 * P.DataBufferSize) + (src.length - 1))⟩
      (slide_forward_nil P q.slide_limit q.meta_buf q.nil_end).1 = true)
    {f1 : Nat} (hff : f ≤ f1) (hf1 : ∀ p, p < f1 → rel p = true)
    (hok1 : hist.length < f1 + P.MaxElementsNum)
    (hok2 : off hist hist.length + src.length ≤ off hist f1 + P.DataBufferSize) :
    ∃ q1, try_push P (fuel + 1) q src = (.ret true, q1) ∧
      SInv P q1 (hist ++ [src]) rel f1 ∧
      q1.nil_end = (slide_forward_nil P q.slide_limit q.meta_buf q.nil_end).2 ∧
      q1.val_begin = q.val_begin ∧ q1.val_end = q.val_end ∧
      q1.slide_limit = q.slide_limit ∧
      q1.data_buf = write_data P q.data_buf (off hist hist.length % P.DataBufferSize) src
        src.length ∧
      (load_slot P q.meta_buf hist.length).state = state.nil ∧
      (∀ x, x % P.MaxElementsNum ≠ hist.length % P.MaxElementsNum →
        load_slot P q1.meta_buf x = load_slot P q.meta_buf x) := by
  have hW := hS.hW
  have hN := hS.N_pos
  have hms := hS.max_size_le
  have hKW : meta_idx_bits P ≤ P.atom_bits := by unfold meta_idx_bits; omega
  have hI1 := hI.mono_f hff hf1
  have hcur := hI.cur_eq hS
  have hvalid : src.length ≠ 0 ∧ src.length ≤ max_size P := ⟨by omega, hsrc.2⟩
  have hslot : load_slot P q.meta_buf (hist.length % 2 ^ meta_idx_bits P)
      = load_slot P q.meta_buf hist.length := by
    apply hS.load_slot_congr _ (Nat.le_refl n)
    rw [← hS.hN]; exact hcm
  have hnilst : (load_slot P q.meta_buf hist.length).state = state.nil := by
    rw [hI1.next_slot hS]
    by_cases hlt : hist.length < P.MaxElementsNum
    · rw [if_pos hlt]; rfl
    · rw [if_neg hlt]
      simp only
      rw [if_pos (hf1 _ (by omega))]
  have hnb : pack_nil P ⟨to_atom P.atom_bits (hist.length % 2 ^ meta_idx_bits P + 1),
      to_atom P.atom_bits (off hist hist.length % (2 * P.DataBufferSize) + src.length)⟩
      = pack_nil P ⟨hist.length + 1, off hist hist.length + src.length⟩ := by
    apply hS.pack_nil_congr
    · exact add_mod_to_atom hKW (Nat.mod_mod _ _)
    · simp only
      rw [hS.two_B]
      apply add_mod_to_atom (by omega)
      rw [← hS.two_B, Nat.mod_mod]
  have hw : unpack_meta P (pack_meta P
      ⟨off hist hist.length % (2 * P.DataBufferSize), to_atom P.atom_bits src.length,
       state.val,
       if ((hist.length % 2 ^ meta_idx_bits P) &&& P.MaxElementsNum) != 0 then 0 else 1⟩)
      = ⟨off hist hist.length % (2 * P.DataBufferSize), src.length, state.val,
         round_at P hist.length⟩ := by
    rw [hS.unpack_pack_meta]
    have e1 : off hist hist.length % (2 * P.DataBufferSize) % 2 ^ (lb + 1)
        = off hist hist.length % (2 * P.DataBufferSize) := by
      rw [← hS.two_B, Nat.mod_mod]
    have hlt2 : src.length < 2 ^ (P.atom_bits - 2 - (lb + 1)) := by omega
    have hlt3 : src.length < 2 ^ P.atom_bits :=
      Nat.lt_of_lt_of_le hlt2 (Nat.pow_le_pow_right (by decide) (by omega))
    have e2 : to_atom P.atom_bits src.length % 2 ^ (P.atom_bits - 2 - (lb + 1))
        = src.length := by
      rw [to_atom_of_lt hlt3, Nat.mod_eq_of_lt hlt2]
    have e3 : round_at P hist.length % 2 = round_at P hist.length :=
      Nat.mod_eq_of_lt (by have := hS.round_at_le hist.length; omega)
    simp only [hrd, e1, e2, e3, state.val]
  have hpush := try_push_eq hS fuel q src hvalid (hI.nil_begin_lt hS)
  rw [hcur] at hpush
  dsimp only at hpush
  rw [if_pos hchk, hslot, if_pos hnilst, hnb, hS.mod_B_two] at hpush
  refine ⟨_, hpush, ?_, rfl, rfl, rfl, rfl, rfl, hnilst, ?_⟩
  · exact hI1.commit hS hsrc hok1 hok2
      (by rw [length_write_data]; exact hI.hdlen) hcm hw
  · intro x hx
    dsimp only
    rw [hS.load_slot_set hI.hmlen, hcm, if_neg hx]

/-- A `try_push` whose space check fails: it returns false and only `nil_end` may have
moved. -/
theorem SInv.push_no (hS : P.Shape n lb) (hI : SInv P q hist rel f) (fuel : Nat)
    {src : List Byte} (hsrc : 1 ≤ src.length ∧ src.length ≤ max_size P)
    (hchk : nil_slider.less_than P
      ⟨hist.length % 2 ^ meta_idx_bits P,
       to_atom P.atom_bits (off hist hist.length % (2 * P.DataBufferSize) + (src.length - 1))⟩
      (slide_forward_nil P q.slide_limit q.meta_buf q.nil_end).1 = false) :
    try_push P (fuel + 1) q src
      = (.ret false,
         { q with nil_end := (slide_forward_nil P q.slide_limit q.meta_buf q.nil_end).2 }) := by
  have hvalid : src.length ≠ 0 ∧ src.length ≤ max_size P := ⟨by omega, hsrc.2⟩
  have hpush := try_push_eq hS fuel q src hvalid (hI.nil_begin_lt hS)
  rw [hI.cur_eq hS] at hpush
  dsimp only at hpush
  rw [if_neg (by rw [hchk]; simp)] at hpush
  exact hpush

end sinv

/-! ## Pushes with a roomy producer cursor -/

section roomy

variable {P : Params} {n lb : Nat} {q : queue} {hist : List (List Byte)} {rel : Nat → Bool}
  {f : Nat}

/-- The loop of `slide_forward<state::nil>` passes released positions only and stops at the
position of the next push at the latest. -/
theorem SInv.slide_nil_loop_r (hS : P.Shape n lb) (hr : n + 1 ≤ meta_idx_bits P)
    (hI : SInv P q hist rel f) :
    ∀ cnt p (s : nil_slider), f ≤ p → (∀ x, x < p → rel x = true) →
      s.At P (p + P.MaxElementsNum) (off hist p + P.DataBufferSize) →
      ∃ p1, p ≤ p1 ∧ (∀ x, x < p1 → rel x = true) ∧
        (slide_loop P state.nil nil_slider.meta_idx (nil_slider.shift P) q.meta_buf cnt s).At P
          (p1 + P.MaxElementsNum) (off hist p1 + P.DataBufferSize) := by
  have hW := hS.hW
  have hKW : meta_idx_bits P ≤ P.atom_bits := by unfold meta_idx_bits; omega
  intro cnt
  induction cnt with
  | zero =>
    intro p s _ hp hs
    exact ⟨p, Nat.le_refl _, hp, hs⟩
  | succ cnt ih =>
    intro p s hfp hp hs
    rw [slide_loop_succ]
    have hpt : p ≤ hist.length := (hI.mono_f hfp hp).f_le
    have hls : load_slot P q.meta_buf s.meta_idx = load_slot P q.meta_buf p := by
      rw [hS.load_slot_congr _ (by omega) hs.1, hS.load_slot_add_N]
    have hrd : expected_round P state.nil s.meta_idx = round_at P p := by
      rw [hS.expected_round_nil, hS.round_at_congr (by omega) hs.1, hS.round_at_add_N]
      have := hS.round_at_le p
      omega
    rw [hls, hrd]
    rcases Nat.eq_or_lt_of_le hpt with heq | hlt
    · rw [if_pos]
      · exact ⟨p, Nat.le_refl _, hp, hs⟩
      · right
        rw [heq, hI.next_round hS]
        have := hS.round_at_le hist.length
        omega
    · have hv := hI.hslot p hlt (by have := hI.htf; omega)
      rw [hv]
      by_cases hrp : rel p = true
      · rw [if_neg (by simp [hrp])]
        have hp1 : ∀ x, x < p + 1 → rel x = true := by
          intro x hx
          rcases Nat.eq_or_lt_of_le (Nat.le_of_lt_succ hx) with h1 | h1
          · rw [h1]; exact hrp
          · exact hp x h1
        obtain ⟨p1, h1, h2, h3⟩ := ih (p + 1) (nil_slider.shift P s
          ⟨off hist p % (2 * P.DataBufferSize), (elem hist p).length,
            if rel p = true then state.nil else state.val, round_at P p⟩) (by omega) hp1 (by
          constructor
          · have := add_mod_to_atom (c := 1) hKW hs.1
            simp only [nil_slider.shift]
            rw [this]; congr 1; omega
          · simp only [nil_slider.shift, to_atom]
            rw [hS.two_B, Nat.mod_mod_of_dvd _
                (Nat.pow_dvd_pow 2 (by omega : lb + 1 ≤ P.atom_bits)),
              ← hS.two_B, off_succ hlt]
            have e1 : off hist p % (2 * P.DataBufferSize) + (elem hist p).length
                  + P.DataBufferSize
                = off hist p % (2 * P.DataBufferSize)
                  + ((elem hist p).length + P.DataBufferSize) := by omega
            have e2 : off hist p + (elem hist p).length + P.DataBufferSize
                = off hist p + ((elem hist p).length + P.DataBufferSize) := by omega
            rw [e1, e2, Nat.mod_add_mod])
        exact ⟨p1, by omega, h2, h3⟩
      · rw [if_pos (by simp [hrp, state.val, state.nil])]
        exact ⟨p, Nat.le_refl _, hp, hs⟩

/-- The call `slide_forward<state::nil>(nil_end)` under the slot invariant: `nil_end` ends
one ring beyond a position `f1` up to which everything has been released. -/
theorem SInv.slide_nil_r (hS : P.Shape n lb) (hr : n + 1 ≤ meta_idx_bits P)
    (hI : SInv P q hist rel f)
    (hE : q.nil_end = pack_nil P ⟨f + P.MaxElementsNum, off hist f + P.DataBufferSize⟩) :
    ∃ f1, f ≤ f1 ∧ (∀ x, x < f1 → rel x = true) ∧
      (slide_forward_nil P q.slide_limit q.meta_buf q.nil_end).2
        = pack_nil P ⟨f1 + P.MaxElementsNum, off hist f1 + P.DataBufferSize⟩ ∧
      (slide_forward_nil P q.slide_limit q.meta_buf q.nil_end).1.At P
        (f1 + P.MaxElementsNum) (off hist f1 + P.DataBufferSize) := by
  have hexp : unpack_nil P q.nil_end
      = ⟨(f + P.MaxElementsNum) % 2 ^ meta_idx_bits P,
         (off hist f + P.DataBufferSize) % (2 * P.DataBufferSize)⟩ := by
    rw [hE, hS.unpack_pack_nil']
  have hAt0 : (unpack_nil P q.nil_end).At P (f + P.MaxElementsNum)
      (off hist f + P.DataBufferSize) := by
    rw [hexp]; exact ⟨Nat.mod_mod _ _, Nat.mod_mod _ _⟩
  have hpk : pack_nil P (unpack_nil P q.nil_end) = q.nil_end :=
    hS.pack_unpack_nil (by rw [hE]; exact hS.pack_nil_lt _)
  obtain ⟨f1, hf1, hrel1, hl⟩ := hI.slide_nil_loop_r hS hr q.slide_limit f _ (Nat.le_refl _)
    hI.hf hAt0
  refine ⟨f1, hf1, hrel1, ?_⟩
  unfold slide_forward_nil
  dsimp only
  by_cases hne : (unpack_nil P q.nil_end).ne
      (slide_loop P state.nil nil_slider.meta_idx (nil_slider.shift P) q.meta_buf
        q.slide_limit (unpack_nil P q.nil_end)) = true
  · rw [if_pos hne]
    simp only [compare_exchange, hpk, if_true]
    exact ⟨by rw [hS.pack_nil_congr
      (b := ⟨f1 + P.MaxElementsNum, off hist f1 + P.DataBufferSize⟩) hl.1 hl.2], hl⟩
  · rw [if_neg hne]
    have heq : slide_loop P state.nil nil_slider.meta_idx (nil_slider.shift P) q.meta_buf
        q.slide_limit (unpack_nil P q.nil_end) = unpack_nil P q.nil_end := by
      simp only [nil_slider.ne, Bool.or_eq_true, bne_iff_ne, ne_eq, not_or, not_not] at hne
      generalize slide_loop P state.nil nil_slider.meta_idx (nil_slider.shift P) q.meta_buf
        q.slide_limit (unpack_nil P q.nil_end) = d at hne
      generalize unpack_nil P q.nil_end = x at hne
      cases d; cases x
      simp only [nil_slider.mk.injEq]
      exact ⟨hne.1.symm, hne.2.symm⟩
    rw [heq] at hl ⊢
    refine ⟨?_, hl⟩
    dsimp only
    rw [← hpk, hS.pack_nil_congr
      (b := ⟨f1 + P.MaxElementsNum, off hist f1 + P.DataBufferSize⟩) hl.1 hl.2]

/-- The method `try_push` with a valid size on a queue with a roomy producer cursor. -/
theorem SInv.push_roomy (hS : P.Shape n lb) (hr : P.roomy = true)
    (hI : SInv P q hist rel f) (hE : NilEnd P q hist f) (fuel : Nat)
    {src : List Byte} (hsrc : 1 ≤ src.length ∧ src.length ≤ max_size P) :
    ∃ f1 q1 b, f ≤ f1 ∧ try_push P (fuel + 1) q src = (.ret b, q1) ∧
      SInv P q1 (if b = true then hist ++ [src] else hist) rel f1 ∧
      NilEnd P q1 (if b = true then hist ++ [src] else hist) f1 ∧
      q1.val_begin = q.val_begin ∧ q1.val_end = q.val_end ∧
      q1.slide_limit = q.slide_limit ∧
      (b = true →
        q1.data_buf = write_data P q.data_buf (off hist hist.length % P.DataBufferSize) src
          src.length ∧
        (load_slot P q.meta_buf hist.length).state = state.nil ∧
        (∀ x, x % P.MaxElementsNum ≠ hist.length % P.MaxElementsNum →
          load_slot P q1.meta_buf x = load_slot P q.meta_buf x)) ∧
      (b = false → q1.meta_buf = q.meta_buf ∧ q1.data_buf = q.data_buf) := by
  have hW := hS.hW
  have hms := hS.max_size_le
  have hrr : n + 1 ≤ meta_idx_bits P := hS.roomy_iff.mp hr
  have hKW : meta_idx_bits P ≤ P.atom_bits := by unfold meta_idx_bits; omega
  obtain ⟨f1, hff, hrel1, hne1, hAt⟩ := hI.slide_nil_r hS hrr (hE.2.1 hr)
  have hI1 := hI.mono_f hff hrel1
  have hft := hI1.f_le
  have hm : wrapped_less_than P.atom_bits P.MaxElementsNum
      (hist.length % 2 ^ meta_idx_bits P)
      (slide_forward_nil P q.slide_limit q.meta_buf q.nil_end).1.meta_idx
      = decide (hist.length < f1 + P.MaxElementsNum) := by
    rw [hS.hN]
    exact wrapped_less_than_of_le hrr hKW (Nat.mod_mod _ _) (by rw [← hS.hN]; exact hAt.1)
      (by rw [← hS.hN]; have := hI1.htf; omega) (by omega)
  have hd := data_check hS (a := off hist hist.length % (2 * P.DataBufferSize))
    (d := (slide_forward_nil P q.slide_limit q.meta_buf q.nil_end).1.data_idx)
    (Nat.mod_mod _ _) hAt.2 (off_mono hist hft) hI1.hbytes hsrc.1
    (by omega : src.length ≤ P.DataBufferSize)
  have hchk : nil_slider.less_than P
      ⟨hist.length % 2 ^ meta_idx_bits P,
       to_atom P.atom_bits (off hist hist.length % (2 * P.DataBufferSize) + (src.length - 1))⟩
      (slide_forward_nil P q.slide_limit q.meta_buf q.nil_end).1
      = (decide (hist.length < f1 + P.MaxElementsNum) &&
         decide (off hist hist.length + src.length ≤ off hist f1 + P.DataBufferSize)) := by
    unfold nil_slider.less_than
    rw [hm, hd]
  by_cases hok : hist.length < f1 + P.MaxElementsNum ∧
      off hist hist.length + src.length ≤ off hist f1 + P.DataBufferSize
  · rw [decide_eq_true hok.1, decide_eq_true hok.2] at hchk
    obtain ⟨q1, hp, hS1, hq1, hq2, hq3, hq4, hq5, hq6, hq7⟩ := hI.push_ok hS fuel hsrc
      (by rw [hS.hN]; exact modEq_of_pow_le (by omega) (Nat.mod_mod _ _))
      (hS.round_at_congr (K := meta_idx_bits P) (by omega) (Nat.mod_mod _ _))
      hchk hff hrel1 hok.1 hok.2
    refine ⟨f1, q1, true, hff, hp, hS1, ?_, hq2, hq3, hq4, fun _ => ⟨hq5, hq6, hq7⟩,
      fun h => by simp at h⟩
    refine ⟨by rw [hq1, hne1]; exact hS.pack_nil_lt _, fun _ => ?_, fun h => ?_⟩
    · rw [hq1, hne1, if_pos rfl, off_append_of_le hist src hft]
    · rw [hr] at h; simp at h
  · have hchk' : nil_slider.less_than P
        ⟨hist.length % 2 ^ meta_idx_bits P,
         to_atom P.atom_bits
           (off hist hist.length % (2 * P.DataBufferSize) + (src.length - 1))⟩
        (slide_forward_nil P q.slide_limit q.meta_buf q.nil_end).1 = false := by
      rw [hchk]
      simp only [Bool.and_eq_false_imp, decide_eq_true_eq, decide_eq_false_iff_not]
      intro h1 h2
      exact hok ⟨h1, h2⟩
    refine ⟨f1, _, false, hff, hI.push_no hS fuel hsrc hchk', ?_, ?_, rfl, rfl, rfl,
      fun h => by simp at h, fun _ => ⟨rfl, rfl⟩⟩
    · exact hI1.same_slots rfl rfl rfl
    · refine ⟨by dsimp only; rw [hne1]; exact hS.pack_nil_lt _, fun _ => ?_, fun h => ?_⟩
      · simp only [Bool.false_eq_true, if_false]
        exact hne1
      · rw [hr] at h; simp at h

end roomy

/-! ## Pushes with a narrow producer cursor -/

section narrow2

variable {P : Params} {n lb : Nat} {q : queue} {hist : List (List Byte)} {rel : Nat → Bool}
  {f : Nat}

theorem slide_loop_stop {T : Type} (P : Params) (S : Nat) (mi : T → Nat)
    (sh : T → meta_info → T) (mb : List Nat) (cnt : Nat) (d : T)
    (h : (load_slot P mb (mi d)).state ≠ S ∨
         (load_slot P mb (mi d)).odd_round ≠ expected_round P S (mi d)) :
    slide_loop P S mi sh mb cnt d = d := by
  cases cnt with
  | zero => rfl
  | succ c => rw [slide_loop_succ, if_pos h]

theorem slide_loop_add {T : Type} (P : Params) (S : Nat) (mi : T → Nat)
    (sh : T → meta_info → T) (mb : List Nat) :
    ∀ a b (d : T), slide_loop P S mi sh mb (a + b) d
      = slide_loop P S mi sh mb b (slide_loop P S mi sh mb a d) := by
  intro a
  induction a with
  | zero => intro b d; rw [Nat.zero_add]; rfl
  | succ a ih =>
    intro b d
    have e : a + 1 + b = (a + b) + 1 := by omega
    rw [e, slide_loop_succ, slide_loop_succ]
    by_cases h : (load_slot P mb (mi d)).state ≠ S ∨
        (load_slot P mb (mi d)).odd_round ≠ expected_round P S (mi d)
    · rw [if_pos h, if_pos h, slide_loop_stop P S mi sh mb b d h]
    · rw [if_neg h, if_neg h, ih]

theorem add_mod_cases {M a l : Nat} (ha : a < M) (hl : l < M) :
    (a + l) % M = if a + l < M then a + l else a + l - M := by
  by_cases h : a + l < M
  · rw [if_pos h, Nat.mod_eq_of_lt h]
  · rw [if_neg h]
    have e : a + l = (a + l - M) + M := by omega
    conv_lhs => rw [e]
    rw [Nat.add_mod_right, Nat.mod_eq_of_lt (by omega)]

/-- Over slots that have never been written the slide advances by its full count. -/
theorem SInv.slide_first (hS : P.Shape n lb) (hNW : P.MaxElementsNum < 2 ^ P.atom_bits)
    (hBW : P.DataBufferSize < 2 ^ P.atom_bits) (hI : SInv P q hist rel f) :
    ∀ cnt i, hist.length ≤ i → i + cnt ≤ P.MaxElementsNum →
      slide_loop P state.nil nil_slider.meta_idx (nil_slider.shift P) q.meta_buf cnt
          ⟨i, P.DataBufferSize⟩ = ⟨i + cnt, P.DataBufferSize⟩ := by
  intro cnt
  induction cnt with
  | zero => intro i _ _; rfl
  | succ c ih =>
    intro i hi hic
    rw [slide_loop_succ]
    dsimp only
    rw [hI.hfree i hi (by omega), hS.expected_round_nil, hS.round_at_of_lt (by omega)]
    rw [if_neg (by simp [state.nil])]
    have e1 : nil_slider.shift P ⟨i, P.DataBufferSize⟩ ⟨0, 0, 0, 0⟩
        = ⟨i + 1, P.DataBufferSize⟩ := by
      simp only [nil_slider.shift, Nat.zero_add, nil_slider.mk.injEq]
      exact ⟨to_atom_of_lt (by omega), to_atom_of_lt hBW⟩
    rw [e1, ih (i + 1) (by omega) (by omega)]
    congr 1
    omega

/-- In the second ring the slide passes the released positions from the start of the
stream. -/
theorem SInv.slide_second (hS : P.Shape n lb) (hI : SInv P q hist rel f)
    (htN : hist.length < P.MaxElementsNum) :
    ∀ cnt j D, (∀ p, p < j → rel p = true) →
      D % (2 * P.DataBufferSize) = (off hist j + P.DataBufferSize) % (2 * P.DataBufferSize) →
      ∃ j1 D1, j ≤ j1 ∧ j1 ≤ j + cnt ∧ (∀ p, p < j1 → rel p = true) ∧
        D1 % (2 * P.DataBufferSize)
          = (off hist j1 + P.DataBufferSize) % (2 * P.DataBufferSize) ∧
        slide_loop P state.nil nil_slider.meta_idx (nil_slider.shift P) q.meta_buf cnt
          ⟨P.MaxElementsNum + j, D⟩ = ⟨P.MaxElementsNum + j1, D1⟩ := by
  have hW := hS.hW
  have hn := hS.hn
  have h2N : 2 * P.MaxElementsNum ≤ 2 ^ P.atom_bits := by
    rw [hS.hN, ← Nat.pow_succ']
    exact Nat.pow_le_pow_right (by decide) (by omega)
  intro cnt
  induction cnt with
  | zero => intro j D hj hD; exact ⟨j, D, Nat.le_refl _, Nat.le_refl _, hj, hD, rfl⟩
  | succ c ih =>
    intro j D hj hD
    have hjt : j ≤ hist.length := by
      by_contra hc
      have := hI.hrel _ (hj hist.length (by omega))
      omega
    rw [slide_loop_succ]
    dsimp only
    have hls : load_slot P q.meta_buf (P.MaxElementsNum + j) = load_slot P q.meta_buf j := by
      rw [Nat.add_comm, hS.load_slot_add_N]
    have hrd : expected_round P state.nil (P.MaxElementsNum + j) = 1 := by
      rw [hS.expected_round_nil, Nat.add_comm, hS.round_at_add_N,
        hS.round_at_of_lt (by omega)]
    rw [hls, hrd]
    rcases Nat.eq_or_lt_of_le hjt with heq | hlt
    · rw [if_pos]
      · exact ⟨j, D, Nat.le_refl _, by omega, hj, hD, rfl⟩
      · right
        rw [heq, hI.hfree _ (Nat.le_refl _) htN]
        simp
    · rw [hI.hslot j hlt (by omega), hS.round_at_of_lt (by omega)]
      by_cases hrj : rel j = true
      · rw [if_neg (by simp [hrj])]
        have hj1 : ∀ p, p < j + 1 → rel p = true := by
          intro p hp
          rcases Nat.eq_or_lt_of_le (Nat.le_of_lt_succ hp) with h1 | h1
          · rw [h1]; exact hrj
          · exact hj p h1
        have e1 : nil_slider.shift P ⟨P.MaxElementsNum + j, D⟩
            ⟨off hist j % (2 * P.DataBufferSize), (elem hist j).length,
              if rel j = true then state.nil else state.val, 1⟩
            = ⟨P.MaxElementsNum + (j + 1),
               to_atom P.atom_bits (off hist j % (2 * P.DataBufferSize) + (elem hist j).length
                 + P.DataBufferSize)⟩ := by
          simp only [nil_slider.shift, nil_slider.mk.injEq, and_true]
          rw [to_atom_of_lt (by omega)]
          omega
        rw [e1]
        obtain ⟨j1, D1, h1, h2, h3, h4, h5⟩ := ih (j + 1)
          (to_atom P.atom_bits (off hist j % (2 * P.DataBufferSize) + (elem hist j).length
            + P.DataBufferSize)) hj1 (by
          simp only [to_atom]
          rw [hS.two_B, Nat.mod_mod_of_dvd _
              (Nat.pow_dvd_pow 2 (by omega : lb + 1 ≤ P.atom_bits)),
            ← hS.two_B, off_succ hlt]
          have e1 : off hist j % (2 * P.DataBufferSize) + (elem hist j).length
                + P.DataBufferSize
              = off hist j % (2 * P.DataBufferSize)
                + ((elem hist j).length + P.DataBufferSize) := by omega
          have e2 : off hist j + (elem hist j).length + P.DataBufferSize
              = off hist j + ((elem hist j).length + P.DataBufferSize) := by omega
          rw [e1, e2, Nat.mod_add_mod])
        exact ⟨j1, D1, by omega, by omega, h3, h4, h5⟩
      · rw [if_pos (by simp [hrj, state.val, state.nil])]
        exact ⟨j, D, Nat.le_refl _, by omega, hj, hD, rfl⟩

/-- The loop of `slide_forward<state::nil>` started at a slot index `e0` that has not been
pushed to: either it uses up its whole count inside the first ring, or it reaches the end of
the ring and goes on over released positions `0 … j`. -/
theorem SInv.slide_alive (hS : P.Shape n lb) (hNW : P.MaxElementsNum < 2 ^ P.atom_bits)
    (hBW : P.DataBufferSize < 2 ^ P.atom_bits) (hI : SInv P q hist rel f) {e0 : Nat}
    (hte : hist.length ≤ e0) (he0 : e0 < P.MaxElementsNum) (L : Nat) :
    ∃ E j D, slide_loop P state.nil nil_slider.meta_idx (nil_slider.shift P) q.meta_buf L
        ⟨e0, P.DataBufferSize⟩ = ⟨E, D⟩ ∧
      (∀ p, p < j → rel p = true) ∧
      D % (2 * P.DataBufferSize) = (off hist j + P.DataBufferSize) % (2 * P.DataBufferSize) ∧
      ((E = e0 + L ∧ E < P.MaxElementsNum ∧ j = 0) ∨
       (E = P.MaxElementsNum + j ∧ E ≤ e0 + L)) := by
  have hD0 : P.DataBufferSize % (2 * P.DataBufferSize)
      = (off hist 0 + P.DataBufferSize) % (2 * P.DataBufferSize) := by
    rw [off_zero, Nat.zero_add]
  by_cases hL : e0 + L < P.MaxElementsNum
  · exact ⟨e0 + L, 0, P.DataBufferSize, hI.slide_first hS hNW hBW L e0 hte (by omega),
      fun p hp => absurd hp (Nat.not_lt_zero _), hD0, Or.inl ⟨rfl, hL, rfl⟩⟩
  · have e : L = (P.MaxElementsNum - e0) + (L - (P.MaxElementsNum - e0)) := by omega
    rw [e, slide_loop_add, hI.slide_first hS hNW hBW _ e0 hte (by omega)]
    have e2 : e0 + (P.MaxElementsNum - e0) = P.MaxElementsNum + 0 := by omega
    rw [e2]
    obtain ⟨j1, D1, _, h2, h3, h4, h5⟩ := hI.slide_second hS (by omega)
      (L - (P.MaxElementsNum - e0)) 0 P.DataBufferSize
      (fun p hp => absurd hp (Nat.not_lt_zero _)) hD0
    exact ⟨P.MaxElementsNum + j1, j1, D1, h5, h3, h4, Or.inr ⟨rfl, by omega⟩⟩

/-- The call `slide_forward<state::nil>(nil_end)` when the stored index `e0` has not been
pushed to: the cursor returned and the word left in `nil_end`. -/
theorem SInv.slide_nil_alive (hS : P.Shape n lb) (hd : meta_idx_bits P ≤ n)
    (hI : SInv P q hist rel f) (hlt : q.nil_end < 2 ^ P.atom_bits) {e0 : Nat}
    (hu : unpack_nil P q.nil_end = ⟨e0, P.DataBufferSize⟩)
    (hte : hist.length ≤ e0) (he0 : e0 < 2 ^ meta_idx_bits P) :
    ∃ E j, (slide_forward_nil P q.slide_limit q.meta_buf q.nil_end).1.meta_idx = E ∧
      (slide_forward_nil P q.slide_limit q.meta_buf q.nil_end).1.data_idx
          % (2 * P.DataBufferSize)
        = (off hist j + P.DataBufferSize) % (2 * P.DataBufferSize) ∧
      unpack_nil P (slide_forward_nil P q.slide_limit q.meta_buf q.nil_end).2
        = ⟨E % 2 ^ meta_idx_bits P,
           (off hist j + P.DataBufferSize) % (2 * P.DataBufferSize)⟩ ∧
      (slide_forward_nil P q.slide_limit q.meta_buf q.nil_end).2 < 2 ^ P.atom_bits ∧
      (∀ p, p < j → rel p = true) ∧
      ((E = e0 + q.slide_limit ∧ E < P.MaxElementsNum ∧ j = 0) ∨
       (E = P.MaxElementsNum + j ∧ E ≤ e0 + q.slide_limit)) := by
  have hf := hS.narrow_facts hd
  have hB := hS.B_pos
  have hMN : 2 ^ meta_idx_bits P ≤ P.MaxElementsNum := by
    rw [hS.hN]; exact Nat.pow_le_pow_right (by decide) hd
  have hpk : pack_nil P ⟨e0, P.DataBufferSize⟩ = q.nil_end := by
    rw [← hu]; exact hS.pack_unpack_nil hlt
  obtain ⟨E, j, D, hloop, hj, hD, hcase⟩ := hI.slide_alive hS hf.2.2.2.1 hf.2.2.2.2 hte
    (by omega) q.slide_limit
  refine ⟨E, j, ?_⟩
  unfold slide_forward_nil
  dsimp only
  rw [hu, hloop]
  by_cases hne : nil_slider.ne ⟨e0, P.DataBufferSize⟩ ⟨E, D⟩ = true
  · rw [if_pos hne]
    have hce : compare_exchange (pack_nil P) (unpack_nil P) q.nil_end
        (⟨e0, P.DataBufferSize⟩ : nil_slider) ⟨E, D⟩
        = (true, pack_nil P ⟨E, D⟩, ⟨e0, P.DataBufferSize⟩) := by
      simp only [compare_exchange, hpk, if_true]
    rw [hce]
    refine ⟨rfl, hD, ?_, hS.pack_nil_lt _, hj, hcase⟩
    dsimp only
    rw [hS.unpack_pack_nil', hD]
  · rw [if_neg hne]
    simp only [nil_slider.ne, Bool.or_eq_true, bne_iff_ne, ne_eq, not_or, not_not] at hne
    refine ⟨rfl, hD, ?_, hlt, hj, hcase⟩
    dsimp only
    rw [hu, ← hD, ← hne.1, ← hne.2, Nat.mod_eq_of_lt he0,
      Nat.mod_eq_of_lt (by omega : P.DataBufferSize < 2 * P.DataBufferSize)]

/-- The stored `nil_end` index after a successful push in the narrow regime. -/
theorem narrow_arith_ok {M N L l t e0 E j e1 : Nat} (hM2 : 2 ≤ M) (hl : l < M)
    (hte : t ≤ e0) (he0 : e0 < M) (hc2 : l = 0 → e0 = 0)
    (hc3 : t + 1 = M → l = 1 ∧ L + M ≤ N + 1) (hjt : j ≤ t)
    (hcase : (E = e0 + L ∧ E < N ∧ j = 0 ∧
        (e0 + l < M → e1 = e0 + l) ∧ (M ≤ e0 + l → e1 = e0 + l - M)) ∨
      (E = N + j ∧ E ≤ e0 + L ∧ e1 = j)) :
    t + 1 ≤ M ∧
    ((t + 1 ≤ e1 ∧ j = 0 ∧ (l = 0 → e1 = 0) ∧ (t + 1 + 1 = M → l = 1 ∧ L + M ≤ N + 1)) ∨
     (e1 < t + 1 ∧ (t + 1 = M → e1 = 0))) := by
  omega

/-- The stored `nil_end` index after a refused push in the narrow regime. -/
theorem narrow_arith_no {M N L l t e0 E j e1 : Nat} (hM2 : 2 ≤ M) (hMN : M ≤ N) (hl : l < M)
    (hte : t ≤ e0) (he0 : e0 < M) (hc2 : l = 0 → e0 = 0)
    (hc3 : t + 1 = M → l = 1 ∧ L + M ≤ N + 1) (hjt : j ≤ t)
    (hcase : (E = e0 + L ∧ E < N ∧ j = 0 ∧
        (e0 + l < M → e1 = e0 + l) ∧ (M ≤ e0 + l → e1 = e0 + l - M)) ∨
      (E = N + j ∧ E ≤ e0 + L ∧ e1 = j))
    (hno : t < E → 0 < j → j < t) :
    t ≤ M ∧
    ((t ≤ e1 ∧ j = 0 ∧ (l = 0 → e1 = 0) ∧ (t + 1 = M → l = 1 ∧ L + M ≤ N + 1)) ∨
     (e1 < t ∧ (t = M → e1 = 0))) := by
  omega

/-- The method `try_push` with a valid size on a queue with a narrow producer cursor whose
stored `nil_end` index has not been pushed to. -/
theorem SInv.push_alive (hS : P.Shape n lb) (hr : P.roomy = false)
    (hI : SInv P q hist rel f) (hE : NilEnd P q hist f)
    (ha : hist.length ≤ (unpack_nil P q.nil_end).meta_idx) (fuel : Nat)
    {src : List Byte} (hsrc : 1 ≤ src.length ∧ src.length ≤ max_size P) :
    ∃ f1 q1 b, f ≤ f1 ∧ try_push P (fuel + 1) q src = (.ret b, q1) ∧
      SInv P q1 (if b = true then hist ++ [src] else hist) rel f1 ∧
      NilEnd P q1 (if b = true then hist ++ [src] else hist) f1 ∧
      q1.val_begin = q.val_begin ∧ q1.val_end = q.val_end ∧
      q1.slide_limit = q.slide_limit ∧
      (b = true →
        q1.data_buf = write_data P q.data_buf (off hist hist.length % P.DataBufferSize) src
          src.length ∧
        (load_slot P q.meta_buf hist.length).state = state.nil ∧
        (∀ x, x % P.MaxElementsNum ≠ hist.length % P.MaxElementsNum →
          load_slot P q1.meta_buf x = load_slot P q.meta_buf x)) ∧
      (b = false → q1.meta_buf = q.meta_buf ∧ q1.data_buf = q.data_buf) := by
  have hW := hS.hW
  have hn := hS.hn
  have hB := hS.B_pos
  have hms := hS.max_size_le
  have hd : meta_idx_bits P ≤ n := by
    by_contra hc
    have := hS.roomy_iff.mpr (by omega)
    rw [hr] at this
    exact absurd this (by simp)
  have hf := hS.narrow_facts hd
  have hMN : 2 ^ meta_idx_bits P ≤ P.MaxElementsNum := by
    rw [hS.hN]; exact Nat.pow_le_pow_right (by decide) hd
  have hM2 : 2 ≤ 2 ^ meta_idx_bits P := by
    calc 2 = 2 ^ 1 := rfl
      _ ≤ 2 ^ meta_idx_bits P := Nat.pow_le_pow_right (by decide) hf.1
  have hl : q.slide_limit % 2 ^ meta_idx_bits P < 2 ^ meta_idx_bits P :=
    Nat.mod_lt _ (by omega)
  obtain ⟨hlt, -, hN⟩ := hE
  have hNE := hN hr
  have he0M : (unpack_nil P q.nil_end).meta_idx < 2 ^ meta_idx_bits P := by
    have := bit_slice.decode_lt hS.meta_idx_valid q.nil_end
    simpa only [nil_slider.meta_idx_slice, Nat.sub_zero, meta_idx_bits] using this
  obtain ⟨htM, hcase⟩ := hNE
  rcases hcase with ⟨_, hf0, hdB, hc2, hc3⟩ | ⟨hdead, _⟩
  swap
  · omega
  subst hf0
  have hu : unpack_nil P q.nil_end
      = ⟨(unpack_nil P q.nil_end).meta_idx, P.DataBufferSize⟩ := by
    rw [← hdB]
  obtain ⟨E, j, hsm, hsd, hun, hlt1, hj, hEcase⟩ :=
    hI.slide_nil_alive hS hd hlt hu ha he0M
  have hjt : j ≤ hist.length := by
    by_contra hc
    have := hI.hrel _ (hj hist.length (by omega))
    omega
  have htM' : hist.length % 2 ^ meta_idx_bits P = hist.length := Nat.mod_eq_of_lt (by omega)
  have hby : off hist hist.length ≤ P.DataBufferSize := by
    have := hI.hbytes
    rwa [off_zero, Nat.zero_add] at this
  have hE1 : (E = (unpack_nil P q.nil_end).meta_idx + q.slide_limit ∧ E < P.MaxElementsNum ∧
        j = 0 ∧
        ((unpack_nil P q.nil_end).meta_idx + q.slide_limit % 2 ^ meta_idx_bits P
            < 2 ^ meta_idx_bits P →
          E % 2 ^ meta_idx_bits P
            = (unpack_nil P q.nil_end).meta_idx + q.slide_limit % 2 ^ meta_idx_bits P) ∧
        (2 ^ meta_idx_bits P
            ≤ (unpack_nil P q.nil_end).meta_idx + q.slide_limit % 2 ^ meta_idx_bits P →
          E % 2 ^ meta_idx_bits P
            = (unpack_nil P q.nil_end).meta_idx + q.slide_limit % 2 ^ meta_idx_bits P
              - 2 ^ meta_idx_bits P)) ∨
      (E = P.MaxElementsNum + j ∧ E ≤ (unpack_nil P q.nil_end).meta_idx + q.slide_limit ∧
        E % 2 ^ meta_idx_bits P = j) := by
    rcases hEcase with ⟨h1, h2, h3⟩ | ⟨h1, h2⟩
    · left
      have hm := add_mod_cases he0M hl
      rw [Nat.add_mod_mod, ← h1] at hm
      refine ⟨h1, h2, h3, fun h => ?_, fun h => ?_⟩
      · rw [hm, if_pos h]
      · rw [hm, if_neg (by omega)]
    · right
      refine ⟨h1, h2, ?_⟩
      rw [h1, Nat.add_mod, hf.2.2.1, Nat.zero_add, Nat.mod_mod, Nat.mod_eq_of_lt (by omega)]
  have hEt : hist.length ≤ E ∧ E ≤ hist.length + P.MaxElementsNum := by
    rcases hEcase with ⟨h1, h2, _⟩ | ⟨h1, _⟩ <;> omega
  have hm : wrapped_less_than P.atom_bits P.MaxElementsNum
      (hist.length % 2 ^ meta_idx_bits P)
      (slide_forward_nil P q.slide_limit q.meta_buf q.nil_end).1.meta_idx
      = decide (hist.length < E) := by
    rw [hS.hN, htM', hsm]
    exact wrapped_less_than_of_le (K := n + 1) (Nat.le_refl _) (by omega) rfl rfl hEt.1
      (by rw [← hS.hN]; exact hEt.2)
  have hdc := data_check hS (a := off hist hist.length % (2 * P.DataBufferSize))
    (d := (slide_forward_nil P q.slide_limit q.meta_buf q.nil_end).1.data_idx)
    (Nat.mod_mod _ _) hsd (off_mono hist hjt) (by omega) hsrc.1
    (by omega : src.length ≤ P.DataBufferSize)
  have hchk : nil_slider.less_than P
      ⟨hist.length % 2 ^ meta_idx_bits P,
       to_atom P.atom_bits (off hist hist.length % (2 * P.DataBufferSize) + (src.length - 1))⟩
      (slide_forward_nil P q.slide_limit q.meta_buf q.nil_end).1
      = (decide (hist.length < E) &&
         decide (off hist hist.length + src.length ≤ off hist j + P.DataBufferSize)) := by
    unfold nil_slider.less_than
    rw [hm, hdc]
  have hd0 : j = 0 → (off hist j + P.DataBufferSize) % (2 * P.DataBufferSize)
      = P.DataBufferSize := by
    intro h
    rw [h, off_zero, Nat.zero_add, Nat.mod_eq_of_lt (by omega)]
  by_cases hok : hist.length < E ∧
      off hist hist.length + src.length ≤ off hist j + P.DataBufferSize
  · rw [decide_eq_true hok.1, decide_eq_true hok.2] at hchk
    obtain ⟨q1, hp, hS1, hq1, hq2, hq3, hq4, hq5, hq6, hq7⟩ := hI.push_ok hS fuel hsrc
      (by rw [htM']) (by rw [htM']; rfl) hchk (Nat.zero_le j) hj (by omega) hok.2
    refine ⟨j, q1, true, Nat.zero_le _, hp, hS1, ?_, hq2, hq3, hq4, fun _ => ⟨hq5, hq6, hq7⟩,
      fun h => by simp at h⟩
    refine ⟨by rw [hq1]; exact hlt1, fun h => ?_, fun _ => ?_⟩
    · rw [hr] at h; simp at h
    · rw [hq1, hun, hq4]
      have har := narrow_arith_ok hM2 hl ha he0M hc2 hc3 hjt hE1
      simp only [if_true, List.length_append, List.length_singleton, NarrowEnd]
      refine ⟨har.1, ?_⟩
      rcases har.2 with ⟨h1, h2, h3, h4⟩ | h1
      · exact Or.inl ⟨h1, h2, hd0 h2, h3, h4⟩
      · exact Or.inr h1
  · have hchk' : nil_slider.less_than P
        ⟨hist.length % 2 ^ meta_idx_bits P,
         to_atom P.atom_bits
           (off hist hist.length % (2 * P.DataBufferSize) + (src.length - 1))⟩
        (slide_forward_nil P q.slide_limit q.meta_buf q.nil_end).1 = false := by
      rw [hchk]
      simp only [Bool.and_eq_false_imp, decide_eq_true_eq, decide_eq_false_iff_not]
      intro h1 h2
      exact hok ⟨h1, h2⟩
    refine ⟨0, _, false, Nat.le_refl _, hI.push_no hS fuel hsrc hchk', ?_, ?_, rfl, rfl, rfl,
      fun h => by simp at h, fun _ => ⟨rfl, rfl⟩⟩
    · exact hI.same_slots rfl rfl rfl
    · refine ⟨hlt1, fun h => ?_, fun _ => ?_⟩
      · rw [hr] at h; simp at h
      · dsimp only
        rw [hun]
        have har := narrow_arith_no hM2 hMN hl ha he0M hc2 hc3 hjt hE1 (by
          intro h1 h2
          by_contra hc
          have hjeq : j = hist.length := by omega
          apply hok
          refine ⟨h1, ?_⟩
          rw [hjeq]
          omega)
        simp only [Bool.false_eq_true, if_false, NarrowEnd]
        refine ⟨har.1, ?_⟩
        rcases har.2 with ⟨h1, h2, h3, h4⟩ | h1
        · exact Or.inl ⟨h1, trivial, hd0 h2, h3, h4⟩
        · exact Or.inr h1

/-- The method `try_push` with a valid size on a queue with a narrow producer cursor whose
stored `nil_end` index has been pushed to: `nil_end` cannot move and the push is refused. -/
theorem SInv.push_dead (hS : P.Shape n lb) (hr : P.roomy = false)
    (hI : SInv P q hist rel f) (hE : NilEnd P q hist f)
    (hdead : (unpack_nil P q.nil_end).meta_idx < hist.length) (fuel : Nat)
    {src : List Byte} (hsrc : 1 ≤ src.length ∧ src.length ≤ max_size P) :
    try_push P (fuel + 1) q src = (.ret false, q) := by
  have hn := hS.hn
  have hd : meta_idx_bits P ≤ n := by
    by_contra hc
    have := hS.roomy_iff.mpr (by omega)
    rw [hr] at this
    exact absurd this (by simp)
  have hf := hS.narrow_facts hd
  have hMN : 2 ^ meta_idx_bits P ≤ P.MaxElementsNum := by
    rw [hS.hN]; exact Nat.pow_le_pow_right (by decide) hd
  obtain ⟨htM, hcase⟩ := hE.2.2 hr
  have hz : hist.length = 2 ^ meta_idx_bits P → (unpack_nil P q.nil_end).meta_idx = 0 := by
    rcases hcase with ⟨h1, _⟩ | ⟨_, h2⟩
    · omega
    · exact h2
  have hstop : (load_slot P q.meta_buf (unpack_nil P q.nil_end).meta_idx).state ≠ state.nil ∨
      (load_slot P q.meta_buf (unpack_nil P q.nil_end).meta_idx).odd_round
        ≠ expected_round P state.nil (unpack_nil P q.nil_end).meta_idx := by
    right
    rw [hI.hslot _ hdead (by omega), hS.expected_round_nil, hS.round_at_of_lt (by omega)]
    simp
  have hloop := slide_loop_stop P state.nil nil_slider.meta_idx (nil_slider.shift P) q.meta_buf
    q.slide_limit (unpack_nil P q.nil_end) hstop
  have hsf : slide_forward_nil P q.slide_limit q.meta_buf q.nil_end
      = (unpack_nil P q.nil_end, q.nil_end) := by
    simp only [slide_forward_nil, hloop, nil_slider.ne, bne_self_eq_false, Bool.or_self,
      Bool.false_eq_true, if_false]
  have hm : wrapped_less_than P.atom_bits P.MaxElementsNum
      (hist.length % 2 ^ meta_idx_bits P) (unpack_nil P q.nil_end).meta_idx = false := by
    rw [hS.hN]
    rcases Nat.eq_or_lt_of_le htM with heq | hlt
    · rw [heq, Nat.mod_self, hz heq]
      exact wrapped_less_than_of_ge (K := n + 1) (Nat.le_refl _) (by omega) rfl rfl
        (Nat.le_refl _) (by rw [← hS.hN]; omega)
    · rw [Nat.mod_eq_of_lt hlt]
      exact wrapped_less_than_of_ge (K := n + 1) (Nat.le_refl _) (by omega) rfl rfl
        (by omega) (by rw [← hS.hN]; omega)
  have hpush := hI.push_no hS fuel hsrc (by
    rw [hsf]
    unfold nil_slider.less_than
    dsimp only
    rw [hm, Bool.false_and])
  rw [hpush, hsf]

/-- The method `try_push` under the slot invariant, whatever the width of the producer
cursor and whatever the size passed: it returns true or false or raises `invalid_argument`,
and the invariant holds afterwards for the stream with or without the new element. -/
theorem SInv.push_any (hS : P.Shape n lb) (hI : SInv P q hist rel f) (hE : NilEnd P q hist f)
    (fuel : Nat) (src : List Byte) :
    ∃ f1 q1 o, f ≤ f1 ∧ try_push P (fuel + 1) q src = (o, q1) ∧
      (o = .ret true ∨ o = .ret false ∨ o = .invalid_argument) ∧
      SInv P q1 (if o = .ret true then hist ++ [src] else hist) rel f1 ∧
      NilEnd P q1 (if o = .ret true then hist ++ [src] else hist) f1 ∧
      q1.val_begin = q.val_begin ∧ q1.val_end = q.val_end ∧
      q1.slide_limit = q.slide_limit ∧
      (o = .ret true →
        q1.data_buf = write_data P q.data_buf (off hist hist.length % P.DataBufferSize) src
          src.length ∧
        1 ≤ src.length ∧ src.length ≤ max_size P ∧
        (load_slot P q.meta_buf hist.length).state = state.nil ∧
        (∀ x, x % P.MaxElementsNum ≠ hist.length % P.MaxElementsNum →
          load_slot P q1.meta_buf x = load_slot P q.meta_buf x)) ∧
      (o ≠ .ret true → q1.meta_buf = q.meta_buf ∧ q1.data_buf = q.data_buf) := by
  by_cases hsrc : 1 ≤ src.length ∧ src.length ≤ max_size P
  swap
  · refine ⟨f, q, .invalid_argument, Nat.le_refl _, try_push_invalid P _ q src hsrc,
      Or.inr (Or.inr rfl), ?_, ?_, rfl, rfl, rfl, fun h => by simp at h, fun _ => ⟨rfl, rfl⟩⟩
    · simpa using hI
    · simpa using hE
  have key : ∃ f1 q1 b, f ≤ f1 ∧ try_push P (fuel + 1) q src = (.ret b, q1) ∧
      SInv P q1 (if b = true then hist ++ [src] else hist) rel f1 ∧
      NilEnd P q1 (if b = true then hist ++ [src] else hist) f1 ∧
      q1.val_begin = q.val_begin ∧ q1.val_end = q.val_end ∧
      q1.slide_limit = q.slide_limit ∧
      (b = true →
        q1.data_buf = write_data P q.data_buf (off hist hist.length % P.DataBufferSize) src
          src.length ∧
        (load_slot P q.meta_buf hist.length).state = state.nil ∧
        (∀ x, x % P.MaxElementsNum ≠ hist.length % P.MaxElementsNum →
          load_slot P q1.meta_buf x = load_slot P q.meta_buf x)) ∧
      (b = false → q1.meta_buf = q.meta_buf ∧ q1.data_buf = q.data_buf) := by
    by_cases hr : P.roomy = true
    · exact hI.push_roomy hS hr hE fuel hsrc
    · simp only [Bool.not_eq_true] at hr
      by_cases ha : hist.length ≤ (unpack_nil P q.nil_end).meta_idx
      · exact hI.push_alive hS hr hE ha fuel hsrc
      · exact ⟨f, q, false, Nat.le_refl _, hI.push_dead hS hr hE (by omega) fuel hsrc,
          by simpa using hI, by simpa using hE, rfl, rfl, rfl, fun h => by simp at h,
          fun _ => ⟨rfl, rfl⟩⟩
  obtain ⟨f1, q1, b, h1, h2, h3, h4, h5, h6, h7, h8, h9⟩ := key
  refine ⟨f1, q1, .ret b, h1, h2, ?_, ?_, ?_, h5, h6, h7, ?_, ?_⟩
  · cases b
    · exact Or.inr (Or.inl rfl)
    · exact Or.inl rfl
  · cases b <;> simpa using h3
  · cases b <;> simpa using h4
  · intro hb
    simp only [Outcome.ret.injEq] at hb
    obtain ⟨a1, a2, a3⟩ := h8 hb
    exact ⟨a1, hsrc.1, hsrc.2, a2, a3⟩
  · intro hb
    apply h9
    cases b
    · rfl
    · exact absurd rfl hb

end narrow2

/-! ## Releasing a slot, and the states a client can reach -/

section release

variable {P : Params} {n lb : Nat} {q : queue} {hist : List (List Byte)} {rel : Nat → Bool}
  {f : Nat}

theorem NilEnd.same_end (hE : NilEnd P q hist f) {q1 : queue} (h1 : q1.nil_end = q.nil_end)
    (h2 : q1.slide_limit = q.slide_limit) : NilEnd P q1 hist f := by
  unfold NilEnd at hE ⊢
  rw [h1, h2]
  exact hE

/-- Two positions of the last ring of the stream that share a slot are equal. -/
theorem window_unique {N t p r : Nat} (hp : p < t) (hpw : t ≤ p + N) (hr : r < t)
    (hrw : t ≤ r + N) (h : p % N = r % N) : p = r := by
  rcases Nat.lt_trichotomy p r with h1 | h1 | h1
  · exact absurd h (mod_ne_of_lt h1 (by omega))
  · exact h1
  · exact absurd h.symm (mod_ne_of_lt h1 (by omega))

/-- A slot in state VAL holds an unreleased element of the last ring of the stream. -/
theorem SInv.val_slot (hS : P.Shape n lb) (hI : SInv P q hist rel f) {x : Nat}
    (hx : (load_slot P q.meta_buf x).state = state.val) :
    ∃ p, p < hist.length ∧ hist.length ≤ p + P.MaxElementsNum ∧
      p % P.MaxElementsNum = x % P.MaxElementsNum ∧ rel p = false ∧ f ≤ p ∧
      load_slot P q.meta_buf x
        = ⟨off hist p % (2 * P.DataBufferSize), (elem hist p).length, state.val,
           round_at P p⟩ := by
  rcases hI.slot_cases hS x with ⟨p, hp, hpw, hpx⟩ | h0
  · have hl : load_slot P q.meta_buf x = load_slot P q.meta_buf p := by
      apply hS.load_slot_congr _ (Nat.le_refl n)
      rw [← hS.hN]; exact hpx.symm
    rw [hl, hI.hslot p hp hpw] at hx
    have hrp : rel p = false := by
      cases hr : rel p
      · rfl
      · rw [hr] at hx; simp [state.nil, state.val] at hx
    refine ⟨p, hp, hpw, hpx, hrp, ?_, ?_⟩
    · by_contra hc
      have := hI.hf p (by omega)
      rw [hrp] at this
      exact absurd this (by simp)
    · rw [hl, hI.hslot p hp hpw, hrp]
      simp
  · rw [h0] at hx
    simp [state.val] at hx

/-- A normal return of `consume_data` releases an unreleased position of the last ring: the
slot invariant holds with that position marked. -/
theorem SInv.release (hS : P.Shape n lb) (hI : SInv P q hist rel f) {x r : Nat}
    {dst dst1 : List Byte} {q1 : queue} (h : consume_data P q x dst = (.ret r, q1, dst1)) :
    ∃ p, p < hist.length ∧ hist.length ≤ p + P.MaxElementsNum ∧
      p % P.MaxElementsNum = x % P.MaxElementsNum ∧ rel p = false ∧
      r = (elem hist p).length ∧
      SInv P q1 hist (Function.update rel p true) f := by
  obtain ⟨hst, hr, _, hnew, hoth, hq1, hlen⟩ := consume_data_ret hS hI.hmlen h
  obtain ⟨p, hp, hpw, hpx, hrp, hfp, hval⟩ := hI.val_slot hS hst
  refine ⟨p, hp, hpw, hpx, hrp, by rw [hr, hval], ?_⟩
  have hlx : ∀ mb : List Nat, load_slot P mb p = load_slot P mb x := by
    intro mb
    apply hS.load_slot_congr _ (Nat.le_refl n)
    rw [← hS.hN]; exact hpx
  exact
    { hsize := hI.hsize
      hmlen := hlen
      hdlen := by rw [hq1]; exact hI.hdlen
      hnb := by rw [hq1]; exact hI.hnb
      hrel := by
        intro y hy
        by_cases hyp : y = p
        · rw [hyp]; exact hp
        · rw [Function.update_noteq hyp] at hy
          exact hI.hrel y hy
      hf := by
        intro y hy
        by_cases hyp : y = p
        · rw [hyp, Function.update_same]
        · rw [Function.update_noteq hyp]
          exact hI.hf y hy
      htf := hI.htf
      hbytes := hI.hbytes
      hslot := by
        intro y hy hyw
        by_cases hyp : y = p
        · rw [hyp, Function.update_same, hlx, hnew, hval]
          simp
        · rw [Function.update_noteq hyp, hoth y (by
            intro hc
            exact hyp (window_unique hy hyw hp hpw (hc.trans hpx.symm)))]
          exact hI.hslot y hy hyw
      hfree := by
        intro s hs hsN
        rw [hoth s (by
          intro hc
          rw [← hpx, Nat.mod_eq_of_lt hsN, Nat.mod_eq_of_lt (by omega)] at hc
          omega)]
        exact hI.hfree s hs hsN }

/-- The slot invariant of a freshly constructed queue. -/
theorem SInv.of_fresh (hS : P.Shape n lb) (sl : Nat) :
    SInv P (queue.fresh P sl) [] (fun _ => false) 0 :=
  { hsize := by intro p hp; simp at hp
    hmlen := by simp [queue.fresh]
    hdlen := by simp [queue.fresh]
    hnb := by
      simp only [queue.fresh, List.length_nil, off_zero]
      exact (pack_nil_zero P).symm
    hrel := by intro p hp; simp at hp
    hf := by intro p hp; omega
    htf := by simp
    hbytes := by simp [off]
    hslot := by intro p hp; simp at hp
    hfree := by
      intro s _ hs
      have hm : mod P.MaxElementsNum s < P.MaxElementsNum := by
        rw [hS.mod_N, hS.hN]; exact Nat.mod_lt _ (by positivity)
      simp only [load_slot, queue.fresh, List.getD_eq_getElem?_getD,
        List.getElem?_replicate, hm, if_true, Option.getD_some]
      exact unpack_meta_zero P }

/-- The cursor `nil_end` of a freshly constructed queue. -/
theorem NilEnd.init (hS : P.Shape n lb) (sl : Nat) : NilEnd P (queue.fresh P sl) [] 0 := by
  have hNlt : P.MaxElementsNum < 2 ^ P.atom_bits := by
    rw [hS.hN]; exact Nat.pow_lt_pow_right (by decide) hS.hn
  have hBlt : P.DataBufferSize < 2 ^ P.atom_bits := by
    rw [hS.hB]; exact Nat.pow_lt_pow_right (by decide) (by have := hS.hW; omega)
  have hB := hS.B_pos
  refine ⟨hS.pack_nil_lt _, fun _ => ?_, fun hr => ?_⟩
  · simp only [queue.fresh, off_zero, Nat.zero_add, to_atom_of_lt hNlt, to_atom_of_lt hBlt]
  · have hd : meta_idx_bits P ≤ n := by
      by_contra hc
      have := hS.roomy_iff.mpr (by omega)
      rw [hr] at this
      exact absurd this (by simp)
    have hf := hS.narrow_facts hd
    have hM2 : 2 ≤ 2 ^ meta_idx_bits P := by
      calc 2 = 2 ^ 1 := rfl
        _ ≤ 2 ^ meta_idx_bits P := Nat.pow_le_pow_right (by decide) hf.1
    have hu : unpack_nil P (queue.fresh P sl).nil_end = ⟨0, P.DataBufferSize⟩ := by
      simp only [queue.fresh, to_atom_of_lt hNlt, to_atom_of_lt hBlt]
      rw [hS.unpack_pack_nil']
      dsimp only
      rw [hf.2.2.1, Nat.mod_eq_of_lt (by omega)]
    rw [hu]
    simp only [NarrowEnd, List.length_nil]
    refine ⟨by omega, Or.inl ⟨Nat.le_refl _, trivial, trivial, fun _ => trivial, fun h => ?_⟩⟩
    omega

theorem Reach.same {q1 : queue} (h : Reach P q) (h1 : q1.meta_buf = q.meta_buf)
    (h2 : q1.data_buf.length = q.data_buf.length) (h3 : q1.nil_begin = q.nil_begin)
    (h4 : q1.nil_end = q.nil_end) (h5 : q1.slide_limit = q.slide_limit) : Reach P q1 := by
  obtain ⟨hist, rel, f, hI, hE⟩ := h
  exact ⟨hist, rel, f, hI.same_slots h1 h2 h3, hE.same_end h4 h5⟩

theorem Reach.after_release (hS : P.Shape n lb) (h : Reach P q) (x : Nat) (dst : List Byte) :
    Reach P (consume_data P q x dst).2.1 := by
  obtain ⟨hist, rel, f, hI, hE⟩ := h
  rcases hc : consume_data P q x dst with ⟨o, q1, dst1⟩
  cases o with
  | ret r =>
    obtain ⟨p, _, _, _, _, _, hI1⟩ := hI.release hS hc
    have hq := (consume_data_ret hS hI.hmlen hc).2.2.2.2.2.1
    exact ⟨hist, _, f, hI1, hE.same_end (by rw [hq]) (by rw [hq])⟩
  | invalid_argument =>
    have := (consume_data_err hc (by intro r; simp)).1
    exact ⟨hist, rel, f, by rw [this]; exact hI, by rw [this]; exact hE⟩
  | logic_error =>
    have := (consume_data_err hc (by intro r; simp)).1
    exact ⟨hist, rel, f, by rw [this]; exact hI, by rw [this]; exact hE⟩
  | diverged =>
    have := (consume_data_err hc (by intro r; simp)).1
    exact ⟨hist, rel, f, by rw [this]; exact hI, by rw [this]; exact hE⟩

theorem Reach.after_try_pop (hS : P.Shape n lb) (h : Reach P q) (fuel : Nat) (dst : List Byte) :
    Reach P (try_pop P (fuel + 1) q dst).2.1 := by
  rw [try_pop_eq]
  split
  · apply Reach.after_release hS
    exact h.same rfl rfl rfl rfl rfl
  · exact h.same rfl rfl rfl rfl rfl

theorem Reach.after_bulk (h : Reach P q) (fuel : Nat) :
    Reach P (pop_bulk P (fuel + 1) q).2 := by
  rw [pop_bulk_eq]
  split
  · exact h.same rfl rfl rfl rfl rfl
  · exact h.same rfl rfl rfl rfl rfl

theorem Reach.after_consume (hS : P.Shape n lb) (h : Reach P q) (b : bulk)
    (dst : List Byte) : Reach P (consume_from_bulk P q b dst).2.1 := by
  unfold consume_from_bulk
  split
  · exact h
  · exact Reach.after_release hS h _ _

theorem Reach.after_push (hS : P.Shape n lb) (h : Reach P q) (fuel : Nat) (src : List Byte) :
    Reach P (try_push P (fuel + 1) q src).2 := by
  obtain ⟨hist, rel, f, hI, hE⟩ := h
  obtain ⟨f1, q1, o, _, hp, _, hI1, hE1, _⟩ := hI.push_any hS hE fuel src
  rw [hp]
  exact ⟨_, rel, f1, hI1, hE1⟩

theorem Reach.start (hS : P.Shape n lb) (sl : Nat) : Reach P (queue.fresh P sl) :=
  ⟨[], _, 0, SInv.of_fresh hS sl, NilEnd.init hS sl⟩

/-- Every statement of a client keeps the queue among the reachable states. -/
theorem Reach.after_call (hS : P.Shape n lb) {s : Client} (h : Reach P s.q) (fuel : Nat) (c : Call) :
    Reach P (call P (fuel + 1) s c).1.q := by
  cases c with
  | push src => exact Reach.after_push hS h fuel src
  | pop dst => exact Reach.after_try_pop hS h fuel dst
  | bulk =>
    simp only [call]
    split <;> exact Reach.after_bulk h fuel
  | consume i dst =>
    simp only [call]
    split
    · exact h
    · exact Reach.after_consume hS h _ _
  | copy i =>
    simp only [call]
    split <;> exact h

/-- Every program of a client keeps the queue among the reachable states. -/
theorem Reach.after_exec (hS : P.Shape n lb) (fuel : Nat) :
    ∀ (calls : List Call) {s : Client}, Reach P s.q →
      Reach P (exec P (fuel + 1) s calls).1.q := by
  intro calls
  induction calls with
  | nil => intro s h; exact h
  | cons c cs ih =>
    intro s h
    simp only [exec]
    exact ih (Reach.after_call hS h fuel c)

end release

/-! ## The payload ranges of the slots in state VAL -/

section overlap

variable {P : Params} {n lb : Nat} {q : queue} {hist : List (List Byte)} {rel : Nat → Bool}
  {f : Nat}

theorem sum_map_range (g : Nat → Nat) (k : Nat) :
    ((List.range k).map g).sum = Finset.sum (Finset.range k) g := by
  induction k with
  | zero => simp
  | succ k ih =>
    rw [List.range_succ, List.map_append, List.sum_append, ih, Finset.sum_range_succ]
    simp

/-- The elements between two positions of the stream take up the difference of their
offsets. -/
theorem sum_Ico_length (hist : List (List Byte)) (a : Nat) :
    ∀ b, a ≤ b → b ≤ hist.length →
      Finset.sum (Finset.Ico a b) (fun p => (elem hist p).length) + off hist a = off hist b := by
  intro b
  induction b with
  | zero =>
    intro ha _
    have : a = 0 := by omega
    subst this
    simp
  | succ b ih =>
    intro ha hb
    rcases Nat.eq_or_lt_of_le ha with heq | hlt
    · rw [heq]; simp
    · rw [Finset.sum_Ico_succ_top (by omega), off_succ (by omega), ← ih (by omega) (by omega)]
      omega

theorem mod_two_B_add (B x i : Nat) : (x % (2 * B) + i) % B = (x + i) % B := by
  rw [Nat.add_mod, Nat.mod_mod_of_dvd _ (Dvd.intro_left 2 rfl), ← Nat.add_mod]

/-- The payload ranges of two distinct slots in state VAL are disjoint. -/
theorem SInv.disjoint (hS : P.Shape n lb) (hI : SInv P q hist rel f) {x y : Nat}
    (hx : x < P.MaxElementsNum) (hy : y < P.MaxElementsNum) (hxy : x ≠ y)
    (hvx : (load_slot P q.meta_buf x).state = state.val)
    (hvy : (load_slot P q.meta_buf y).state = state.val) {i j : Nat}
    (hi : i < (load_slot P q.meta_buf x).size) (hj : j < (load_slot P q.meta_buf y).size) :
    ((load_slot P q.meta_buf x).begin + i) % P.DataBufferSize
      ≠ ((load_slot P q.meta_buf y).begin + j) % P.DataBufferSize := by
  obtain ⟨p, hp, _, hpx, _, hfp, hlp⟩ := hI.val_slot hS hvx
  obtain ⟨r, hr, _, hry, _, hfr, hlr⟩ := hI.val_slot hS hvy
  rw [hlp] at hi ⊢
  rw [hlr] at hj ⊢
  dsimp only at hi hj ⊢
  rw [mod_two_B_add, mod_two_B_add]
  have hne : p ≠ r := by
    intro h
    rw [h, hry, Nat.mod_eq_of_lt hx, Nat.mod_eq_of_lt hy] at hpx
    exact hxy hpx.symm
  have hb := hI.hbytes
  have hft := hI.f_le
  have h1 := off_succ hp
  have h2 := off_succ hr
  have h3 : off hist (p + 1) ≤ off hist hist.length := off_mono hist (by omega)
  have h4 : off hist (r + 1) ≤ off hist hist.length := off_mono hist (by omega)
  have h5 : off hist f ≤ off hist p := off_mono hist hfp
  have h6 : off hist f ≤ off hist r := off_mono hist hfr
  rcases Nat.lt_or_gt_of_ne hne with hlt | hgt
  · have h7 : off hist (p + 1) ≤ off hist r := off_mono hist (by omega)
    exact mod_ne_of_lt (by omega) (by omega)
  · have h7 : off hist (r + 1) ≤ off hist p := off_mono hist (by omega)
    exact Ne.symm (mod_ne_of_lt (by omega) (by omega))

/-- The elements held by the slots in state VAL take up at most the payload buffer. -/
theorem SInv.val_bytes_le (hS : P.Shape n lb) (hI : SInv P q hist rel f) :
    val_bytes P q ≤ P.DataBufferSize := by
  have hN := hS.N_pos
  have hft := hI.f_le
  have htf := hI.htf
  unfold val_bytes
  rw [sum_map_range]
  have hinj : Set.InjOn (fun p => p % P.MaxElementsNum) (Finset.Ico f hist.length : Set Nat) := by
    intro a ha b hb hab
    simp only [Finset.coe_Ico, Set.mem_Ico] at ha hb
    exact window_unique ha.2 (by omega) hb.2 (by omega) hab
  have hsub : (Finset.Ico f hist.length).image (fun p => p % P.MaxElementsNum)
      ⊆ Finset.range P.MaxElementsNum := by
    intro s hs
    simp only [Finset.mem_image] at hs
    obtain ⟨p, _, rfl⟩ := hs
    exact Finset.mem_range.mpr (Nat.mod_lt _ hN)
  rw [← Finset.sum_subset hsub (by
    intro s hs hns
    by_cases hv : (load_slot P q.meta_buf s).state = state.val
    · exfalso
      obtain ⟨p, hp, _, hps, _, hfp, _⟩ := hI.val_slot hS hv
      apply hns
      simp only [Finset.mem_image, Finset.mem_Ico]
      exact ⟨p, ⟨hfp, hp⟩, by rw [hps, Nat.mod_eq_of_lt (Finset.mem_range.mp hs)]⟩
    · rw [if_neg hv]), Finset.sum_image hinj]
  have hle : Finset.sum (Finset.Ico f hist.length) (fun p =>
      if (load_slot P q.meta_buf (p % P.MaxElementsNum)).state = state.val
      then (load_slot P q.meta_buf (p % P.MaxElementsNum)).size else 0)
      ≤ Finset.sum (Finset.Ico f hist.length) (fun p => (elem hist p).length) := by
    apply Finset.sum_le_sum
    intro p hp
    simp only [Finset.mem_Ico] at hp
    have hl : load_slot P q.meta_buf (p % P.MaxElementsNum) = load_slot P q.meta_buf p := by
      apply hS.load_slot_congr _ (Nat.le_refl n)
      rw [← hS.hN, Nat.mod_mod]
    rw [hl, hI.hslot p hp.2 (by omega)]
    dsimp only
    by_cases hr : rel p = true <;> simp [hr, state.nil, state.val]
  have hsum := sum_Ico_length hist f hist.length hft (Nat.le_refl _)
  have hb := hI.hbytes
  omega

/-- A successful `try_push` leaves the bytes of every slot in state VAL as they were. -/
theorem SInv.push_keeps (hS : P.Shape n lb) (hI : SInv P q hist rel f)
    (hE : NilEnd P q hist f) (fuel : Nat) (src : List Byte)
    (hp : (try_push P (fuel + 1) q src).1 = .ret true) {x : Nat}
    (hvx : (load_slot P q.meta_buf x).state = state.val) {i : Nat}
    (hi : i < (load_slot P q.meta_buf x).size) :
    (try_push P (fuel + 1) q src).2.data_buf.getD
        (((load_slot P q.meta_buf x).begin + i) % P.DataBufferSize) 0
      = q.data_buf.getD (((load_slot P q.meta_buf x).begin + i) % P.DataBufferSize) 0 := by
  obtain ⟨f1, q1, o, hff, hpe, _, hI1, _, _, _, _, htrue, _⟩ := hI.push_any hS hE fuel src
  rw [hpe] at hp ⊢
  dsimp only at hp ⊢
  obtain ⟨hdata, hs1, hs2, _, _⟩ := htrue hp
  rw [if_pos hp] at hI1
  obtain ⟨p, hpt, _, _, hrp, hfp, hlp⟩ := hI.val_slot hS hvx
  rw [hlp] at hi ⊢
  dsimp only at hi ⊢
  rw [mod_two_B_add, hdata]
  have hf1p : f1 ≤ p := by
    by_contra hc
    have := hI1.hf p (by omega)
    rw [hrp] at this
    exact absurd this (by simp)
  have hb := hI1.hbytes
  rw [List.length_append, List.length_singleton, off_append_length,
    off_append_of_le hist src (by omega)] at hb
  have h1 := off_succ hpt
  have h3 : off hist (p + 1) ≤ off hist hist.length := off_mono hist (by omega)
  have h5 : off hist f1 ≤ off hist p := off_mono hist hf1p
  have e1 : off hist hist.length
      = (off hist p + i) + (off hist hist.length - (off hist p + i)) := by omega
  have hk := write_data_kept P q.data_buf src (off hist p + i)
    (off hist hist.length - (off hist p + i)) src.length hI.hdlen (by omega) (by omega)
    (by omega)
  rw [← e1] at hk
  exact hk

end overlap

/-! ## What one statement does to the slot words -/

section parity

variable {P : Params} {n lb : Nat} {q : queue}

/-- A published slot word has a round bit, not a larger value. -/
theorem SInv.round_le (hS : P.Shape n lb) {hist : List (List Byte)} {rel : Nat → Bool}
    {f : Nat} (hI : SInv P q hist rel f) (x : Nat) :
    (load_slot P q.meta_buf x).odd_round ≤ 1 := by
  rcases hI.slot_cases hS x with ⟨p, hp, hpw, hpx⟩ | h0
  · have hl : load_slot P q.meta_buf x = load_slot P q.meta_buf p := by
      apply hS.load_slot_congr _ (Nat.le_refl n)
      rw [← hS.hN]; exact hpx.symm
    rw [hl, hI.hslot p hp hpw]
    exact hS.round_at_le p
  · rw [h0]; exact Nat.zero_le _

/-- A `try_push` that returns true turns one slot from NIL to VAL and flips its round bit; one
that does not return true leaves every slot word alone. -/
theorem Reach.push_slots (hS : P.Shape n lb) (h : Reach P q) (fuel : Nat) (src : List Byte) :
    ((try_push P (fuel + 1) q src).1 = .ret true →
      ∃ y, slot_turns P q.meta_buf (try_push P (fuel + 1) q src).2.meta_buf y
        state.nil state.val true) ∧
    ((try_push P (fuel + 1) q src).1 ≠ .ret true →
      (try_push P (fuel + 1) q src).2.meta_buf = q.meta_buf) := by
  have hN := hS.N_pos
  obtain ⟨hist, rel, f, hI, hE⟩ := h
  obtain ⟨f1, q1, o, _, hp, _, hI1, _, _, _, _, htrue, hfalse⟩ := hI.push_any hS hE fuel src
  rw [hp]
  dsimp only
  refine ⟨fun ho => ?_, fun ho => (hfalse ho).1⟩
  obtain ⟨_, _, _, hnil, hoth⟩ := htrue ho
  rw [if_pos ho] at hI1
  have hl : ∀ mb : List Nat, load_slot P mb (hist.length % P.MaxElementsNum)
      = load_slot P mb hist.length := by
    intro mb
    apply hS.load_slot_congr _ (Nat.le_refl n)
    rw [← hS.hN, Nat.mod_mod]
  have hpost := hI1.hslot hist.length (by simp) (by simp; omega)
  have hrt : rel hist.length = false := by
    cases hr : rel hist.length
    · rfl
    · exact absurd (hI.hrel _ hr) (Nat.lt_irrefl _)
  refine ⟨hist.length % P.MaxElementsNum, Nat.mod_lt _ hN, ?_, ?_, ?_, ?_, ?_⟩
  · rw [hl]; exact hnil
  · rw [hl, hpost, hrt]; simp
  · rw [hl]; exact hI.round_le hS _
  · rw [hl, hl, hpost, hI.next_round hS]
    have := hS.round_at_le hist.length
    simp only [if_true]
    omega
  · intro z hz hzy
    apply hoth
    rw [Nat.mod_eq_of_lt hz]
    exact hzy

/-- A normal return of `consume_data` gives a non-zero length and turns one slot from VAL to
NIL with its round bit kept; an exception leaves the queue alone. -/
theorem Reach.consume_slots (hS : P.Shape n lb) (h : Reach P q) (x : Nat) (dst : List Byte) :
    (∀ k, (consume_data P q x dst).1 = .ret k →
      k ≠ 0 ∧ ∃ y, slot_turns P q.meta_buf (consume_data P q x dst).2.1.meta_buf y
        state.val state.nil false) ∧
    ((∀ k, (consume_data P q x dst).1 ≠ .ret k) → (consume_data P q x dst).2.1 = q) := by
  have hN := hS.N_pos
  obtain ⟨hist, rel, f, hI, hE⟩ := h
  rcases hc : consume_data P q x dst with ⟨o, q1, dst1⟩
  dsimp only
  refine ⟨fun k hk => ?_, fun hk => (consume_data_err hc hk).1⟩
  subst hk
  obtain ⟨p, hp, _, _, _, hr, _⟩ := hI.release hS hc
  obtain ⟨hst, _, _, hnew, hoth, _, _⟩ := consume_data_ret hS hI.hmlen hc
  have hl : ∀ mb : List Nat, load_slot P mb (x % P.MaxElementsNum) = load_slot P mb x := by
    intro mb
    apply hS.load_slot_congr _ (Nat.le_refl n)
    rw [← hS.hN, Nat.mod_mod]
  refine ⟨by have := (hI.hsize p hp).1; omega, x % P.MaxElementsNum, Nat.mod_lt _ hN, ?_, ?_,
    ?_, ?_, ?_⟩
  · rw [hl]; exact hst
  · rw [hl, hnew]
  · rw [hl]; exact hI.round_le hS _
  · rw [hl, hl, hnew]
    simp
  · intro z hz hzy
    apply hoth
    rw [Nat.mod_eq_of_lt hz]
    exact hzy

/-- What `try_pop` does to the slot words. -/
theorem Reach.pop_slots (hS : P.Shape n lb) (h : Reach P q) (fuel : Nat) (dst : List Byte) :
    (∀ k, (try_pop P (fuel + 1) q dst).1 = .ret k → k ≠ 0 →
      ∃ y, slot_turns P q.meta_buf (try_pop P (fuel + 1) q dst).2.1.meta_buf y
        state.val state.nil false) ∧
    ((∀ k, (try_pop P (fuel + 1) q dst).1 = .ret k → k = 0) →
      (try_pop P (fuel + 1) q dst).2.1.meta_buf = q.meta_buf) := by
  rw [try_pop_eq]
  split
  · have h1 : Reach P { q with
        val_end := (slide_forward_val P q.slide_limit q.meta_buf q.val_end).2,
        val_begin := to_atom P.atom_bits (q.val_begin + 1) } :=
      h.same rfl rfl rfl rfl rfl
    have hc := Reach.consume_slots hS h1 q.val_begin dst
    refine ⟨fun k hk _ => (hc.1 k hk).2, fun hk => ?_⟩
    rw [hc.2 (fun k hkk => (hc.1 k hkk).1 (hk k hkk))]
  · exact ⟨fun k hk hk0 => by simp at hk; exact absurd hk.symm hk0, fun _ => rfl⟩

/-- What `consume_from_bulk` does to the slot words. -/
theorem Reach.bulk_slots (hS : P.Shape n lb) (h : Reach P q) (b : bulk) (dst : List Byte) :
    (∀ k, (consume_from_bulk P q b dst).1 = .ret k → k ≠ 0 →
      ∃ y, slot_turns P q.meta_buf (consume_from_bulk P q b dst).2.1.meta_buf y
        state.val state.nil false) ∧
    ((∀ k, (consume_from_bulk P q b dst).1 = .ret k → k = 0) →
      (consume_from_bulk P q b dst).2.1.meta_buf = q.meta_buf) := by
  unfold consume_from_bulk
  split
  · exact ⟨fun k hk hk0 => by simp at hk; exact absurd hk.symm hk0, fun _ => rfl⟩
  · have hc := Reach.consume_slots hS h b.cur dst
    refine ⟨fun k hk _ => (hc.1 k hk).2, fun hk => ?_⟩
    dsimp only at hk ⊢
    rw [hc.2 (fun k hkk => (hc.1 k hkk).1 (hk k hkk))]

/-- What one statement of a client does to the slot words. -/
theorem Reach.call_slots (hS : P.Shape n lb) {s : Client} (h : Reach P s.q) (fuel : Nat)
    (c : Call) :
    ((call P (fuel + 1) s c).2 = .pushed (.ret true) →
      ∃ y, slot_turns P s.q.meta_buf (call P (fuel + 1) s c).1.q.meta_buf y
        state.nil state.val true) ∧
    (∀ k dst, k ≠ 0 →
      ((call P (fuel + 1) s c).2 = .popped (.ret k) dst ∨
       (call P (fuel + 1) s c).2 = .consumed (.ret k) dst) →
      ∃ y, slot_turns P s.q.meta_buf (call P (fuel + 1) s c).1.q.meta_buf y
        state.val state.nil false) ∧
    ((call P (fuel + 1) s c).2 ≠ .pushed (.ret true) →
      (∀ k dst, k ≠ 0 →
        (call P (fuel + 1) s c).2 ≠ .popped (.ret k) dst ∧
        (call P (fuel + 1) s c).2 ≠ .consumed (.ret k) dst) →
      (call P (fuel + 1) s c).1.q.meta_buf = s.q.meta_buf) := by
  cases c with
  | push src =>
    have hp := Reach.push_slots hS h fuel src
    simp only [call, Reply.pushed.injEq, ne_eq, reduceCtorEq, or_self, false_implies,
      implies_true, not_false_eq_true, and_self, true_implies, and_true]
    exact ⟨hp.1, trivial, hp.2⟩
  | pop dst =>
    have hp := Reach.pop_slots hS h fuel dst
    simp only [call, reduceCtorEq, false_implies, Reply.popped.injEq, or_false, ne_eq,
      not_false_eq_true, not_and, and_true, true_implies, true_and]
    refine ⟨fun k d hk hr => hp.1 k hr.1 hk, fun hr => hp.2 (fun k hk => ?_)⟩
    by_contra hk0
    exact hr k _ hk0 hk rfl
  | bulk =>
    simp only [call]
    split
    · simp only [reduceCtorEq, false_implies, ne_eq, or_self, implies_true,
        not_false_eq_true, and_self, true_implies, true_and]
      rw [pop_bulk_eq]
      split <;> rfl
    · simp only [reduceCtorEq, false_implies, ne_eq, or_self, implies_true,
        not_false_eq_true, and_self, true_implies, true_and]
      rw [pop_bulk_eq]
      split <;> rfl
  | consume i dst =>
    simp only [call]
    split
    · simp
    · rename_i b _
      have hp := Reach.bulk_slots hS h b dst
      simp only [reduceCtorEq, false_implies, Reply.consumed.injEq, false_or, ne_eq,
        not_false_eq_true, not_and, true_and, true_implies]
      refine ⟨fun k d hk hr => hp.1 k hr.1 hk, fun hr => hp.2 (fun k hk => ?_)⟩
      by_contra hk0
      exact hr k _ hk0 hk rfl
  | copy i =>
    simp only [call]
    split <;> simp

end parity

/-! ## The consumer side of a client that never copies a handle -/

section vinv

variable {P : Params} {n lb : Nat} {s : Client} {hist : List (List Byte)} {rel : Nat → Bool}
  {f c e : Nat} {lo hi : Nat → Nat}

theorem off_append_le (hist ext : List (List Byte)) {p : Nat} (hp : p ≤ hist.length) :
    off (hist ++ ext) p = off hist p := by
  unfold off
  rw [List.take_append_of_le_length hp]

theorem elem_append_lt (hist ext : List (List Byte)) {p : Nat} (hp : p < hist.length) :
    elem (hist ++ ext) p = elem hist p := by
  unfold elem
  rw [List.getD_eq_getElem?_getD, List.getD_eq_getElem?_getD, List.getElem?_append_left hp]

/-- Everything reclaimed has been claimed. -/
theorem Full.f_le_c (hF : Full P s hist rel f c e lo hi) : f ≤ c := by
  by_contra hc
  have := hF.vals.hrc c (hF.slots.hf c (by omega))
  omega

/-- A position that has been claimed or is visible and has not been released is held by its
slot in state VAL. -/
theorem Full.val_at (hF : Full P s hist rel f c e lo hi) {p : Nat}
    (hp : p < hist.length) (hr : rel p = false) :
    load_slot P s.q.meta_buf p
      = ⟨off hist p % (2 * P.DataBufferSize), (elem hist p).length, state.val,
         round_at P p⟩ := by
  have hfp : f ≤ p := by
    by_contra hc
    have := hF.slots.hf p (by omega)
    rw [hr] at this
    exact absurd this (by simp)
  rw [hF.slots.hslot p hp (by have := hF.slots.htf; omega), hr]
  simp

/-- The loop of `slide_forward<state::val>` passes published positions only. -/
theorem Full.slide_visible_loop (hS : P.Shape n lb) (hF : Full P s hist rel f c e lo hi) :
    ∀ cnt p, e ≤ p → p ≤ hist.length →
      ∃ p1, p ≤ p1 ∧ p1 ≤ hist.length ∧
        slide_loop P state.val val_slider.meta_idx (val_slider.shift P) s.q.meta_buf cnt
          ⟨p % 2 ^ P.atom_bits⟩ = ⟨p1 % 2 ^ P.atom_bits⟩ := by
  have hn := hS.hn
  intro cnt
  induction cnt with
  | zero => intro p _ hp; exact ⟨p, Nat.le_refl _, hp, rfl⟩
  | succ cnt ih =>
    intro p hep hp
    rw [slide_loop_succ]
    dsimp only
    have hls : load_slot P s.q.meta_buf (p % 2 ^ P.atom_bits) = load_slot P s.q.meta_buf p :=
      hS.load_slot_congr _ (by omega) (Nat.mod_mod _ _)
    have hrd : expected_round P state.val (p % 2 ^ P.atom_bits) = round_at P p := by
      rw [hS.expected_round_val]
      exact hS.round_at_congr hn (Nat.mod_mod _ _)
    rw [hls, hrd]
    rcases Nat.eq_or_lt_of_le hp with heq | hlt
    · rw [if_pos]
      · exact ⟨p, Nat.le_refl _, hp, rfl⟩
      · right
        rw [heq, hF.slots.next_round hS]
        have := hS.round_at_le hist.length
        omega
    · have hrp : rel p = false := by
        cases hr : rel p
        · rfl
        · have := hF.vals.hrc p hr
          have := hF.vals.hce
          omega
      rw [hF.val_at hlt hrp, if_neg (by simp)]
      obtain ⟨p1, h1, h2, h3⟩ := ih (p + 1) (by omega) (by omega)
      refine ⟨p1, by omega, h2, ?_⟩
      rw [← h3]
      congr 1
      simp only [val_slider.shift, to_atom, Nat.mod_add_mod]

/-- The call `slide_forward<state::val>(val_end)` of a client that never copies a handle. -/
theorem Full.slide_val (hS : P.Shape n lb) (hF : Full P s hist rel f c e lo hi) :
    ∃ e1, e ≤ e1 ∧ e1 ≤ hist.length ∧
      slide_forward_val P s.q.slide_limit s.q.meta_buf s.q.val_end
        = (⟨e1 % 2 ^ P.atom_bits⟩, e1 % 2 ^ P.atom_bits) := by
  obtain ⟨e1, h1, h2, h3⟩ := hF.slide_visible_loop hS s.q.slide_limit e (Nat.le_refl _) hF.vals.het
  refine ⟨e1, h1, h2, ?_⟩
  simp only [slide_forward_val, unpack_val, hF.vals.hve, h3, val_slider.ne, compare_exchange,
    pack_val, if_true]
  by_cases hne : (e % 2 ^ P.atom_bits != e1 % 2 ^ P.atom_bits) = true
  · rw [if_pos hne]
  · rw [if_neg hne]
    simp only [bne_iff_ne, ne_eq, not_not] at hne
    rw [hne]

/-- The emptiness test of `try_pop` and `pop_bulk`. -/
theorem Full.less_than_claimed (hS : P.Shape n lb) (hF : Full P s hist rel f c e lo hi)
    {e1 : Nat} (h1 : e ≤ e1) (h2 : e1 ≤ hist.length) :
    val_slider.less_than P ⟨c % 2 ^ P.atom_bits⟩ ⟨e1 % 2 ^ P.atom_bits⟩ = decide (c < e1) := by
  have hn := hS.hn
  have := hF.f_le_c
  have := hF.slots.htf
  have := hF.vals.hce
  unfold val_slider.less_than
  dsimp only
  rw [hS.hN]
  exact wrapped_less_than_of_le (K := P.atom_bits) (by omega) (Nat.le_refl _) (Nat.mod_mod _ _)
    (Nat.mod_mod _ _) (by omega) (by rw [← hS.hN]; omega)

theorem consume_data_val (P : Params) (q : queue) (x : Nat) (dst : List Byte)
    (h : (load_slot P q.meta_buf x).state = state.val) :
    (consume_data P q x dst).1 ≠ .logic_error ∧ (consume_data P q x dst).1 ≠ .diverged := by
  rw [consume_data_eq, if_neg (not_not.mpr h)]
  split <;> simp

/-- The call `consume_data` on an unreleased position of the stream: either the capacity is
too small and nothing changes, or the element is returned and the position is released. -/
theorem SInv.consume_at (hS : P.Shape n lb) {q : queue} (hI : SInv P q hist rel f)
    (hE : NilEnd P q hist f) {p x : Nat} (hp : p < hist.length) (hr : rel p = false)
    (hx : x % 2 ^ P.atom_bits = p % 2 ^ P.atom_bits) (dst : List Byte) :
    consume_data P q x dst = (.invalid_argument, q, dst) ∨
    ∃ q1 dst1, consume_data P q x dst = (.ret (elem hist p).length, q1, dst1) ∧
      SInv P q1 hist (Function.update rel p true) f ∧ NilEnd P q1 hist f ∧
      q1.val_begin = q.val_begin ∧ q1.val_end = q.val_end ∧
      q1.slide_limit = q.slide_limit := by
  have hn := hS.hn
  have hfp : f ≤ p := by
    by_contra hc
    have := hI.hf p (by omega)
    rw [hr] at this
    exact absurd this (by simp)
  have hpw : hist.length ≤ p + P.MaxElementsNum := by have := hI.htf; omega
  have hls : load_slot P q.meta_buf x = load_slot P q.meta_buf p :=
    hS.load_slot_congr _ (by omega) hx
  have hst : (load_slot P q.meta_buf x).state = state.val := by
    rw [hls, hI.hslot p hp hpw, hr]
    simp
  have hxN : x % P.MaxElementsNum = p % P.MaxElementsNum := by
    rw [hS.hN]; exact modEq_of_pow_le (by omega) hx
  have hnl := consume_data_val P q x dst hst
  rcases hc : consume_data P q x dst with ⟨o, q1, dst1⟩
  rw [hc] at hnl
  cases o with
  | ret r =>
    right
    obtain ⟨p1, hp1, hp1w, hp1x, _, hr1, hI1⟩ := hI.release hS hc
    have hpp : p1 = p := window_unique hp1 hp1w hp hpw (hp1x.trans hxN)
    subst hpp
    have hq := (consume_data_ret hS hI.hmlen hc).2.2.2.2.2.1
    refine ⟨q1, dst1, by rw [hr1], hI1, hE.same_end (by rw [hq]) (by rw [hq]), by rw [hq],
      by rw [hq], by rw [hq]⟩
  | invalid_argument =>
    left
    obtain ⟨h1, h2, _⟩ := consume_data_err hc (by intro r; simp)
    rw [h1, h2]
  | logic_error => exact absurd rfl hnl.1
  | diverged => exact absurd rfl hnl.2

/-- The method `try_pop` of a client that never copies a handle: `val_end` slides to some
`e1`, and either nothing is claimable or position `c` is claimed and consumed. -/
theorem Full.try_pop_cases (hS : P.Shape n lb) (hF : Full P s hist rel f c e lo hi)
    (fuel : Nat) (dst : List Byte) :
    ∃ e1, e ≤ e1 ∧ e1 ≤ hist.length ∧
      ((¬ c < e1 ∧ try_pop P (fuel + 1) s.q dst
          = (.ret 0, { s.q with val_end := e1 % 2 ^ P.atom_bits }, dst)) ∨
       (c < e1 ∧ try_pop P (fuel + 1) s.q dst
          = consume_data P
              { s.q with val_end := e1 % 2 ^ P.atom_bits,
                         val_begin := (c + 1) % 2 ^ P.atom_bits }
              (c % 2 ^ P.atom_bits) dst)) := by
  obtain ⟨e1, he1, het1, hsv⟩ := hF.slide_val hS
  have hlt := hF.less_than_claimed hS he1 het1
  refine ⟨e1, he1, het1, ?_⟩
  rw [try_pop_eq, hsv, hF.vals.hvb]
  dsimp only
  rw [hlt]
  by_cases hce1 : c < e1
  · right
    refine ⟨hce1, ?_⟩
    rw [if_pos (by simpa using hce1)]
    simp only [to_atom, Nat.mod_add_mod]
  · left
    refine ⟨hce1, ?_⟩
    rw [if_neg (by simpa using hce1), hF.vals.hvb]

/-- A `try_push` of a client that never copies a handle. -/
theorem Full.push_step (hS : P.Shape n lb) (hF : Full P s hist rel f c e lo hi) (fuel : Nat)
    (src : List Byte) :
    Stepped P s hist rel c lo hi (call P (fuel + 1) s (.push src)).1
      (call P (fuel + 1) s (.push src)).2 := by
  obtain ⟨f1, q1, o, _, hp, ho, hI1, hE1, hv1, hv2, hsl, _, _⟩ :=
    hF.slots.push_any hS hF.ends fuel src
  have hcall : call P (fuel + 1) s (.push src) = ({ s with q := q1 }, .pushed o) := by
    simp only [call, hp]
  rw [hcall]
  have hh : hist ++ (if o = .ret true then [src] else [])
      = if o = .ret true then hist ++ [src] else hist := by
    split <;> simp
  refine ⟨if o = .ret true then [src] else [], rel, f1, c, e, lo, hi, ?_, ?_, ?_, ?_,
    Nat.le_refl _, fun p hp => hp, hsl, fun d hd => by simp at hd⟩
  · rw [hh]
    refine ⟨hI1, hE1, ?_⟩
    exact
      { hce := hF.vals.hce
        het := by
          have := hF.vals.het
          split <;> simp <;> omega
        hvb := by show q1.val_begin = _; rw [hv1]; exact hF.vals.hvb
        hve := by show q1.val_end = _; rw [hv2]; exact hF.vals.hve
        hrc := hF.vals.hrc
        hh := hF.vals.hh
        hdisj := hF.vals.hdisj }
  · rcases ho with h | h | h <;> subst h <;> simp [Reply.is_pushed]
  · rcases ho with h | h | h <;> subst h <;> simp [Reply.is_logic_error]
  · rcases ho with h | h | h <;> subst h <;> simp [Reply.is_diverged]

/-- A `try_pop` of a client that never copies a handle. -/
theorem Full.pop_step (hS : P.Shape n lb) (hF : Full P s hist rel f c e lo hi) (fuel : Nat)
    (dst : List Byte) :
    Stepped P s hist rel c lo hi (call P (fuel + 1) s (.pop dst)).1
      (call P (fuel + 1) s (.pop dst)).2 := by
  have hcall : call P (fuel + 1) s (.pop dst)
      = ({ s with q := (try_pop P (fuel + 1) s.q dst).2.1 },
         .popped (try_pop P (fuel + 1) s.q dst).1 (try_pop P (fuel + 1) s.q dst).2.2) := rfl
  rw [hcall]
  have hfc := hF.f_le_c
  have hce := hF.vals.hce
  have hrcc : rel c = false := by
    cases hr : rel c
    · rfl
    · exact absurd (hF.vals.hrc c hr) (Nat.lt_irrefl _)
  obtain ⟨e1, he1, het1, hcase⟩ := hF.try_pop_cases hS fuel dst
  rcases hcase with ⟨hno, hpop⟩ | ⟨hyes, hpop⟩
  · rw [hpop]
    refine ⟨[], rel, f, c, e1, lo, hi, ?_, by simp [Reply.is_pushed],
      by simp [Reply.is_logic_error], by simp [Reply.is_diverged], Nat.le_refl _, fun p hp => hp, rfl,
      fun d hd => by simp at hd⟩
    rw [List.append_nil]
    exact ⟨hF.slots.same_slots rfl rfl rfl, hF.ends.same_end rfl rfl,
      { hce := by omega, het := het1, hvb := hF.vals.hvb, hve := rfl, hrc := hF.vals.hrc
        hh := hF.vals.hh, hdisj := hF.vals.hdisj }⟩
  · rw [hpop]
    have hI' : SInv P { s.q with val_end := e1 % 2 ^ P.atom_bits,
                                 val_begin := (c + 1) % 2 ^ P.atom_bits } hist rel f :=
      hF.slots.same_slots rfl rfl rfl
    have hE' : NilEnd P { s.q with val_end := e1 % 2 ^ P.atom_bits,
                                   val_begin := (c + 1) % 2 ^ P.atom_bits } hist f :=
      hF.ends.same_end rfl rfl
    rcases hI'.consume_at hS hE' (p := c) (x := c % 2 ^ P.atom_bits) (by omega) hrcc
      (Nat.mod_mod _ _) dst with hinv | ⟨q1, dst1, hret, hI1, hE1, hq1, hq2, hq3⟩
    · rw [hinv]
      refine ⟨[], rel, f, c + 1, e1, lo, hi, ?_, by simp [Reply.is_pushed],
        by simp [Reply.is_logic_error], by simp [Reply.is_diverged], by omega, ?_, rfl, ?_⟩
      · rw [List.append_nil]
        exact ⟨hI', hE',
          { hce := by omega, het := het1, hvb := rfl, hve := rfl
            hrc := fun p hp => by have := hF.vals.hrc p hp; omega
            hh := fun i hi' => by
              obtain ⟨a1, a2, a3, a4⟩ := hF.vals.hh i hi'
              exact ⟨a1, by omega, a3, a4⟩
            hdisj := hF.vals.hdisj }⟩
      · intro p hp
        exact ⟨by have := hp.1; omega, hp.2.1, hp.2.2⟩
      · intro d _
        refine ⟨by omega, hrcc, fun i hi' hc => ?_⟩
        have := (hF.vals.hh i hi').2.1
        omega
    · rw [hret]
      refine ⟨[], Function.update rel c true, f, c + 1, e1, lo, hi, ?_,
        by simp [Reply.is_pushed], by simp [Reply.is_logic_error], by simp [Reply.is_diverged], by omega, ?_, hq3,
        fun d hd => by simp at hd⟩
      · rw [List.append_nil]
        exact ⟨hI1, hE1,
          { hce := by omega, het := het1
            hvb := by show q1.val_begin = _; rw [hq1]
            hve := by show q1.val_end = _; rw [hq2]
            hrc := fun p hp => by
              by_cases hpc : p = c
              · omega
              · rw [Function.update_noteq hpc] at hp
                have := hF.vals.hrc p hp; omega
            hh := fun i hi' => by
              obtain ⟨a1, a2, a3, a4⟩ := hF.vals.hh i hi'
              refine ⟨a1, by omega, a3, fun p h1 h2 => ?_⟩
              rw [Function.update_noteq (by omega)]
              exact a4 p h1 h2
            hdisj := hF.vals.hdisj }⟩
      · intro p hp
        refine ⟨by have := hp.1; omega, ?_, hp.2.2⟩
        rw [Function.update_noteq (by have := hp.1; omega)]
        exact hp.2.1

/-- The invariant after the client has obtained a further handle that owns the positions
from `a` up to `b`. -/
theorem Full.add_handle (hF : Full P s hist rel f c e lo hi) (q1 : queue) (c1 e1 a b : Nat)
    (hI : SInv P q1 hist rel f) (hE : NilEnd P q1 hist f)
    (hvb : q1.val_begin = c1 % 2 ^ P.atom_bits) (hve : q1.val_end = e1 % 2 ^ P.atom_bits)
    (hcc : c ≤ c1) (hce : c1 ≤ e1) (het : e1 ≤ hist.length)
    (hab : a ≤ b) (hb : b ≤ c1) (hca : a = b ∨ c ≤ a) :
    Full P { q := q1, handles := s.handles ++ [⟨a % 2 ^ P.atom_bits, b % 2 ^ P.atom_bits⟩] }
      hist rel f c1 e1 (Function.update lo s.handles.length a)
      (Function.update hi s.handles.length b) ∧
    ∀ p, orphan s rel c lo hi p →
      orphan { q := q1, handles := s.handles ++ [⟨a % 2 ^ P.atom_bits, b % 2 ^ P.atom_bits⟩] }
        rel c1 (Function.update lo s.handles.length a)
        (Function.update hi s.handles.length b) p := by
  constructor
  · refine ⟨hI, hE, ?_⟩
    refine { hce := hce, het := het, hvb := hvb, hve := hve, hrc := ?_, hh := ?_, hdisj := ?_ }
    · intro p hp
      have := hF.vals.hrc p hp
      omega
    · intro i hi'
      simp only [List.length_append, List.length_singleton] at hi'
      by_cases hik : i = s.handles.length
      · subst hik
        simp only [Function.update_same]
        refine ⟨hab, hb, ?_, ?_⟩
        · simp [List.getD_eq_getElem?_getD]
        · intro p h1 h2
          rcases hca with h | h
          · omega
          · cases hr : rel p
            · rfl
            · have := hF.vals.hrc p hr
              omega
      · have hil : i < s.handles.length := by omega
        simp only [Function.update_noteq hik]
        obtain ⟨a1, a2, a3, a4⟩ := hF.vals.hh i hil
        refine ⟨a1, by omega, ?_, a4⟩
        rw [← a3]
        simp [List.getD_eq_getElem?_getD, List.getElem?_append_left hil]
    · intro i j hij hj
      simp only [List.length_append, List.length_singleton] at hj
      have hik : i ≠ s.handles.length := by omega
      simp only [Function.update_noteq hik]
      by_cases hjk : j = s.handles.length
      · subst hjk
        simp only [Function.update_same]
        rcases hca with h | h
        · right; left; exact h
        · right; right
          have := (hF.vals.hh i (by omega)).2.1
          omega
      · simp only [Function.update_noteq hjk]
        exact hF.vals.hdisj i j hij (by omega)
  · intro p hp
    obtain ⟨h1, h2, h3⟩ := hp
    refine ⟨by omega, h2, ?_⟩
    intro i hi'
    simp only [List.length_append, List.length_singleton] at hi'
    by_cases hik : i = s.handles.length
    · subst hik
      simp only [Function.update_same]
      rcases hca with h | h <;> omega
    · simp only [Function.update_noteq hik]
      exact h3 i (by omega)

/-- The invariant after handle `i` has given up its first position `lo i`. -/
theorem Full.shrink_handle (hF : Full P s hist rel f c e lo hi) {i : Nat}
    (hi' : i < s.handles.length) (hlt : lo i < hi i) {q1 : queue} {rel1 : Nat → Bool}
    (hI : SInv P q1 hist rel1 f) (hE : NilEnd P q1 hist f)
    (hvb : q1.val_begin = s.q.val_begin) (hve : q1.val_end = s.q.val_end)
    (hr1 : ∀ p, p ≠ lo i → rel1 p = rel p) :
    Full P { q := q1,
             handles := s.handles.set i ⟨(lo i + 1) % 2 ^ P.atom_bits, hi i % 2 ^ P.atom_bits⟩ }
      hist rel1 f c e (Function.update lo i (lo i + 1)) hi ∧
    ∀ p, orphan s rel c lo hi p →
      orphan { q := q1,
               handles :=
                 s.handles.set i ⟨(lo i + 1) % 2 ^ P.atom_bits, hi i % 2 ^ P.atom_bits⟩ }
        rel1 c (Function.update lo i (lo i + 1)) hi p := by
  have hci := (hF.vals.hh i hi').2.1
  constructor
  · refine ⟨hI, hE, ?_⟩
    refine { hce := hF.vals.hce, het := hF.vals.het, hvb := hvb.trans hF.vals.hvb,
             hve := hve.trans hF.vals.hve, hrc := ?_, hh := ?_, hdisj := ?_ }
    · intro p hp
      by_cases hpl : p = lo i
      · omega
      · rw [hr1 p hpl] at hp
        exact hF.vals.hrc p hp
    · intro j hj
      simp only [List.length_set] at hj
      obtain ⟨a1, a2, a3, a4⟩ := hF.vals.hh j hj
      by_cases hji : j = i
      · subst hji
        simp only [Function.update_same]
        refine ⟨by omega, a2, ?_, fun p h1 h2 => ?_⟩
        · simp [List.getD_eq_getElem?_getD, List.getElem?_set, hj]
        · rw [hr1 p (by omega)]
          exact a4 p (by omega) h2
      · simp only [Function.update_noteq hji]
        refine ⟨a1, a2, ?_, fun p h1 h2 => ?_⟩
        · rw [← a3]
          simp [List.getD_eq_getElem?_getD, List.getElem?_set, Ne.symm hji]
        · rw [hr1 p ?_]
          · exact a4 p h1 h2
          · rcases Nat.lt_or_gt_of_ne hji with h | h
            · have := hF.vals.hdisj j i h hi'
              omega
            · have := hF.vals.hdisj i j h hj
              omega
    · intro j k hjk hk
      simp only [List.length_set] at hk
      have := hF.vals.hdisj j k hjk hk
      simp only [Function.update_apply]
      split_ifs with h1 h2 h2
      · omega
      · subst h1
        omega
      · subst h2
        omega
      · exact this
  · intro p hp
    obtain ⟨h1, h2, h3⟩ := hp
    have hpl : p ≠ lo i := by
      intro h
      exact h3 i hi' ⟨by omega, by omega⟩
    refine ⟨h1, by rw [hr1 p hpl]; exact h2, ?_⟩
    intro j hj
    simp only [List.length_set] at hj
    have := h3 j hj
    simp only [Function.update_apply]
    split_ifs with h4
    · subst h4
      omega
    · exact this

/-- The method `pop_bulk` of a client that never copies a handle. -/
theorem Full.pop_bulk_cases (hS : P.Shape n lb) (hF : Full P s hist rel f c e lo hi)
    (fuel : Nat) :
    ∃ e1, e ≤ e1 ∧ e1 ≤ hist.length ∧
      ((¬ c < e1 ∧ pop_bulk P (fuel + 1) s.q
          = (.ret ⟨0, 0⟩, { s.q with val_end := e1 % 2 ^ P.atom_bits })) ∨
       (c < e1 ∧ pop_bulk P (fuel + 1) s.q
          = (.ret ⟨c % 2 ^ P.atom_bits, e1 % 2 ^ P.atom_bits⟩,
              { s.q with val_end := e1 % 2 ^ P.atom_bits,
                         val_begin := e1 % 2 ^ P.atom_bits }))) := by
  obtain ⟨e1, he1, het1, hsv⟩ := hF.slide_val hS
  have hlt := hF.less_than_claimed hS he1 het1
  refine ⟨e1, he1, het1, ?_⟩
  rw [pop_bulk_eq, hsv, hF.vals.hvb]
  dsimp only
  rw [hlt]
  by_cases hce1 : c < e1
  · right
    refine ⟨hce1, ?_⟩
    rw [if_pos (by simpa using hce1)]
  · left
    refine ⟨hce1, ?_⟩
    rw [if_neg (by simpa using hce1), hF.vals.hvb]

/-- A `pop_bulk` of a client that never copies a handle. -/
theorem Full.bulk_step (hS : P.Shape n lb) (hF : Full P s hist rel f c e lo hi) (fuel : Nat) :
    Stepped P s hist rel c lo hi (call P (fuel + 1) s .bulk).1
      (call P (fuel + 1) s .bulk).2 := by
  have hce := hF.vals.hce
  obtain ⟨e1, he1, het1, hcase⟩ := hF.pop_bulk_cases hS fuel
  rcases hcase with ⟨hno, hpop⟩ | ⟨hyes, hpop⟩
  · have hcall : call P (fuel + 1) s .bulk
        = ({ q := { s.q with val_end := e1 % 2 ^ P.atom_bits },
             handles := s.handles ++ [⟨0 % 2 ^ P.atom_bits, 0 % 2 ^ P.atom_bits⟩] },
           .claimed (.ret ⟨0, 0⟩)) := by
      simp only [call, hpop, Nat.zero_mod]
    rw [hcall]
    obtain ⟨h1, h2⟩ := hF.add_handle { s.q with val_end := e1 % 2 ^ P.atom_bits } c e1 0 0
      (hF.slots.same_slots rfl rfl rfl) (hF.ends.same_end rfl rfl) hF.vals.hvb rfl
      (Nat.le_refl _) (by omega) het1 (Nat.le_refl _) (Nat.zero_le _) (Or.inl rfl)
    exact ⟨[], rel, f, c, e1, _, _, by rw [List.append_nil]; exact h1,
      by simp [Reply.is_pushed], by simp [Reply.is_logic_error], by simp [Reply.is_diverged], Nat.le_refl _, h2, rfl,
      fun d hd => by simp at hd⟩
  · have hcall : call P (fuel + 1) s .bulk
        = ({ q := { s.q with val_end := e1 % 2 ^ P.atom_bits,
                             val_begin := e1 % 2 ^ P.atom_bits },
             handles := s.handles ++ [⟨c % 2 ^ P.atom_bits, e1 % 2 ^ P.atom_bits⟩] },
           .claimed (.ret ⟨c % 2 ^ P.atom_bits, e1 % 2 ^ P.atom_bits⟩)) := by
      simp only [call, hpop]
    rw [hcall]
    obtain ⟨h1, h2⟩ := hF.add_handle
      { s.q with val_end := e1 % 2 ^ P.atom_bits, val_begin := e1 % 2 ^ P.atom_bits } e1 e1 c e1
      (hF.slots.same_slots rfl rfl rfl) (hF.ends.same_end rfl rfl) rfl rfl
      (by omega) (Nat.le_refl _) het1 (by omega) (Nat.le_refl _) (Or.inr (Nat.le_refl _))
    exact ⟨[], rel, f, e1, e1, _, _, by rw [List.append_nil]; exact h1,
      by simp [Reply.is_pushed], by simp [Reply.is_logic_error], by simp [Reply.is_diverged], by omega, h2, rfl,
      fun d hd => by simp at hd⟩

/-- A statement that leaves the client as it is. -/
theorem Full.stay (hF : Full P s hist rel f c e lo hi) {rep : Reply}
    (h1 : rep.is_pushed = false) (h2 : rep.is_logic_error = false)
    (h4 : rep.is_diverged = false) (h3 : ∀ d, rep ≠ .popped .invalid_argument d) :
    Stepped P s hist rel c lo hi s rep :=
  ⟨[], rel, f, c, e, lo, hi, by rw [List.append_nil]; exact hF, by simp [h1], h2, h4,
    Nat.le_refl _, fun _ hp => hp, rfl, fun d hd => absurd hd (h3 d)⟩

/-- A `consume_from_bulk` of a client that never copies a handle. -/
theorem Full.consume_step (hS : P.Shape n lb) (hF : Full P s hist rel f c e lo hi)
    (fuel i : Nat) (dst : List Byte) :
    Stepped P s hist rel c lo hi (call P (fuel + 1) s (.consume i dst)).1
      (call P (fuel + 1) s (.consume i dst)).2 := by
  have hNW : P.MaxElementsNum < 2 ^ P.atom_bits := by
    rw [hS.hN]
    exact Nat.pow_lt_pow_right (by decide) hS.hn
  by_cases hi' : i < s.handles.length
  · obtain ⟨a1, a2, a3, a4⟩ := hF.vals.hh i hi'
    have hget : s.handles.get? i
        = some ⟨lo i % 2 ^ P.atom_bits, hi i % 2 ^ P.atom_bits⟩ := by
      rw [← a3]
      simp [List.getD_eq_getElem?_getD, List.getElem?_eq_getElem hi']
    by_cases hem : lo i = hi i
    · have hset : s.handles.set i ⟨lo i % 2 ^ P.atom_bits, hi i % 2 ^ P.atom_bits⟩
          = s.handles := by
        apply List.ext_getElem?
        intro j
        rw [List.getElem?_set]
        split_ifs with h1
        · subst h1
          rw [← List.get?_eq_getElem?, hget]
        · rfl
      have hcall : call P (fuel + 1) s (.consume i dst)
          = ({ q := s.q, handles := s.handles }, .consumed (.ret 0) dst) := by
        rw [hem] at hset
        simp only [call, hget, consume_from_bulk, bulk.empty, hem, beq_self_eq_true, if_true,
          hset]
      rw [hcall]
      exact hF.stay rfl rfl rfl (fun d hd => by simp at hd)
    · have hlt : lo i < hi i := by omega
      have hrl : rel (lo i) = false := a4 (lo i) (Nat.le_refl _) hlt
      have hfl : f ≤ lo i := by
        by_contra hc
        have := hF.slots.hf (lo i) (by omega)
        rw [hrl] at this
        exact absurd this (by simp)
      have hne : (lo i % 2 ^ P.atom_bits == hi i % 2 ^ P.atom_bits) = false := by
        have := hF.slots.htf
        have := hF.vals.hce
        have := hF.vals.het
        simpa using mod_two_pow_ne hNW hlt (by omega)
      have hcall : call P (fuel + 1) s (.consume i dst)
          = ({ q := (consume_data P s.q (lo i % 2 ^ P.atom_bits) dst).2.1,
               handles := s.handles.set i
                 ⟨(lo i + 1) % 2 ^ P.atom_bits, hi i % 2 ^ P.atom_bits⟩ },
             .consumed (consume_data P s.q (lo i % 2 ^ P.atom_bits) dst).1
               (consume_data P s.q (lo i % 2 ^ P.atom_bits) dst).2.2) := by
        simp only [call, hget, consume_from_bulk, bulk.empty, hne, to_atom, Nat.mod_add_mod,
          Bool.false_eq_true, if_false]
      rw [hcall]
      have hlt' : lo i < hist.length := by
        have := hF.vals.hce
        have := hF.vals.het
        omega
      rcases hF.slots.consume_at hS hF.ends (p := lo i) (x := lo i % 2 ^ P.atom_bits) hlt' hrl
        (Nat.mod_mod _ _) dst with hinv | ⟨q1, dst1, hret, hI1, hE1, hq1, hq2, hq3⟩
      · rw [hinv]
        obtain ⟨h1, h2⟩ := hF.shrink_handle hi' hlt hF.slots hF.ends rfl rfl (fun p _ => rfl)
        exact ⟨[], rel, f, c, e, _, _, by rw [List.append_nil]; exact h1,
          by simp [Reply.is_pushed], by simp [Reply.is_logic_error], by simp [Reply.is_diverged], Nat.le_refl _, h2, rfl,
          fun d hd => by simp at hd⟩
      · rw [hret]
        obtain ⟨h1, h2⟩ := hF.shrink_handle hi' hlt hI1 hE1 hq1 hq2
          (fun p hp => Function.update_noteq hp _ _)
        exact ⟨[], _, f, c, e, _, _, by rw [List.append_nil]; exact h1,
          by simp [Reply.is_pushed], by simp [Reply.is_logic_error], by simp [Reply.is_diverged], Nat.le_refl _, h2, hq3,
          fun d hd => by simp at hd⟩
  · have hget : s.handles.get? i = none := by
      rw [List.get?_eq_none]
      omega
    have hcall : call P (fuel + 1) s (.consume i dst) = (s, .no_handle) := by
      simp only [call, hget]
    rw [hcall]
    exact hF.stay rfl rfl rfl (fun d hd => by simp at hd)

/-- One statement of a client that never copies a handle keeps the invariant. -/
theorem Full.step (hS : P.Shape n lb) (hF : Full P s hist rel f c e lo hi) (fuel : Nat)
    (cl : Call) (hcl : cl.is_copy = false) :
    Stepped P s hist rel c lo hi (call P (fuel + 1) s cl).1 (call P (fuel + 1) s cl).2 := by
  cases cl with
  | push src => exact hF.push_step hS fuel src
  | pop dst => exact hF.pop_step hS fuel dst
  | bulk => exact hF.bulk_step hS fuel
  | consume i dst => exact hF.consume_step hS fuel i dst
  | copy i => simp [Call.is_copy] at hcl

/-- A program of a client that never copies a handle keeps the invariant: the stream grows
by one element per successful `try_push`, no call fails an assertion or runs out of fuel, and
positions that were claimed, unreleased and owned by no handle stay so. -/
theorem Full.run (hS : P.Shape n lb) (fuel : Nat) :
    ∀ (calls : List Call) {s : Client} {hist : List (List Byte)} {rel : Nat → Bool}
      {f c e : Nat} {lo hi : Nat → Nat}, Full P s hist rel f c e lo hi →
      (∀ cl ∈ calls, cl.is_copy = false) →
      ∃ ext rel1 f1 c1 e1 lo1 hi1,
        Full P (exec P (fuel + 1) s calls).1 (hist ++ ext) rel1 f1 c1 e1 lo1 hi1 ∧
        ext.length = ((exec P (fuel + 1) s calls).2.filter Reply.is_pushed).length ∧
        (∀ rep ∈ (exec P (fuel + 1) s calls).2,
          rep.is_logic_error = false ∧ rep.is_diverged = false) ∧
        c ≤ c1 ∧
        (∀ p, orphan s rel c lo hi p → orphan (exec P (fuel + 1) s calls).1 rel1 c1 lo1 hi1 p) ∧
        (exec P (fuel + 1) s calls).1.q.slide_limit = s.q.slide_limit := by
  intro calls
  induction calls with
  | nil =>
    intro s hist rel f c e lo hi hF _
    exact ⟨[], rel, f, c, e, lo, hi, by rw [List.append_nil]; exact hF, rfl,
      fun rep hrep => by simp [exec] at hrep, Nat.le_refl _, fun _ hp => hp, rfl⟩
  | cons cl cs ih =>
    intro s hist rel f c e lo hi hF hcalls
    obtain ⟨ext, rel1, f1, c1, e1, lo1, hi1, hF1, hlen, hle, hdv, hc1, ho1, hs1, _⟩ :=
      hF.step hS fuel cl (hcalls cl (List.mem_cons_self _ _))
    obtain ⟨ext2, rel2, f2, c2, e2, lo2, hi2, hF2, hlen2, hle2, hc2, ho2, hs2⟩ :=
      ih hF1 (fun x hx => hcalls x (List.mem_cons_of_mem _ hx))
    have hex : exec P (fuel + 1) s (cl :: cs)
        = ((exec P (fuel + 1) (call P (fuel + 1) s cl).1 cs).1,
           (call P (fuel + 1) s cl).2 :: (exec P (fuel + 1) (call P (fuel + 1) s cl).1 cs).2) :=
      rfl
    rw [hex]
    refine ⟨ext ++ ext2, rel2, f2, c2, e2, lo2, hi2, by rw [← List.append_assoc]; exact hF2,
      ?_, ?_, by omega, fun p hp => ho2 p (ho1 p hp), hs2.trans hs1⟩
    · rw [List.length_append, hlen, hlen2, List.filter_cons]
      split
      · simp_all
        omega
      · simp_all
    · intro rep hrep
      rcases List.mem_cons.mp hrep with h | h
      · rw [h]
        exact ⟨hle, hdv⟩
      · exact hle2 rep h

/-- The invariant holds for the client of a freshly constructed queue. -/
theorem Full.initial (hS : P.Shape n lb) (sl : Nat) :
    Full P (Client.fresh P sl) [] (fun _ => false) 0 0 0 (fun _ => 0) (fun _ => 0) :=
  ⟨SInv.of_fresh hS sl, NilEnd.init hS sl,
    { hce := Nat.le_refl _
      het := Nat.le_refl _
      hvb := by simp [Client.fresh, queue.fresh]
      hve := by simp [Client.fresh, queue.fresh]
      hrc := by intro p hp; simp at hp
      hh := by intro i hi'; simp [Client.fresh] at hi'
      hdisj := by intro i j _ hj; simp [Client.fresh] at hj }⟩

end vinv

/-! ## Wrap-aware distances between the cursors -/

section dist

variable {P : Params} {n lb : Nat}
variable {s : Client} {hist : List (List Byte)} {rel : Nat → Bool} {f c e : Nat}
variable {lo hi : Nat → Nat}

theorem dist_mod {k x y a b : Nat} (ha : a % 2 ^ k = x % 2 ^ k) (hb : b % 2 ^ k = y % 2 ^ k)
    (hxy : x ≤ y) : b % 2 ^ k = (a + (y - x)) % 2 ^ k := by
  rw [hb, Nat.add_mod, ha, ← Nat.add_mod]
  congr 1
  omega

/-- The distance on the doubled slot ring between two cursor indices that stand for the
positions `x ≤ y`, at most one ring apart. -/
theorem ring_dist_eq (hS : P.Shape n lb) {x y a b : Nat}
    (ha : a % 2 ^ (n + 1) = x % 2 ^ (n + 1)) (hb : b % 2 ^ (n + 1) = y % 2 ^ (n + 1))
    (hxy : x ≤ y) (hd : y ≤ x + P.MaxElementsNum) : ring_dist P a b = y - x := by
  have hn := hS.hn
  have hN := hS.hN
  unfold ring_dist
  rw [hS.hN, ← Nat.pow_succ, mod_two_pow]
  exact atom_sub_mod_eq (by omega) (by rw [Nat.pow_succ]; omega) (dist_mod ha hb hxy)

/-- With a roomy producer cursor, `nil_end` stands `f + N - p` beyond every position `p` of
the current ring. -/
theorem Full.dist_end (hS : P.Shape n lb) (hR : P.roomy = true)
    (hF : Full P s hist rel f c e lo hi) {p a : Nat} (hfp : f ≤ p)
    (hp : p ≤ f + P.MaxElementsNum) (ha : a % 2 ^ (n + 1) = p % 2 ^ (n + 1)) :
    ring_dist P a (unpack_nil P s.q.nil_end).meta_idx = f + P.MaxElementsNum - p := by
  have hm := hS.roomy_iff.mp hR
  refine ring_dist_eq hS ha ?_ hp (by omega)
  rw [hF.ends.2.1 hR, hS.unpack_pack_nil']
  exact modEq_of_pow_le hm (Nat.mod_mod _ _)

/-- With a roomy producer cursor the three distances between the four cursors are the numbers
of visible, published and free positions. -/
theorem Full.dists (hS : P.Shape n lb) (hR : P.roomy = true)
    (hF : Full P s hist rel f c e lo hi) :
    ring_dist P s.q.val_begin s.q.val_end = e - c ∧
    ring_dist P s.q.val_end (unpack_nil P s.q.nil_begin).meta_idx = hist.length - e ∧
    ring_dist P (unpack_nil P s.q.nil_begin).meta_idx (unpack_nil P s.q.nil_end).meta_idx
      = f + P.MaxElementsNum - hist.length := by
  have hm := hS.roomy_iff.mp hR
  have hn := hS.hn
  have hfc := hF.f_le_c
  have hce := hF.vals.hce
  have het := hF.vals.het
  have htf := hF.slots.htf
  have hc : s.q.val_begin % 2 ^ (n + 1) = c % 2 ^ (n + 1) := by
    rw [hF.vals.hvb]
    exact modEq_of_pow_le (by omega) (Nat.mod_mod _ _)
  have he : s.q.val_end % 2 ^ (n + 1) = e % 2 ^ (n + 1) := by
    rw [hF.vals.hve]
    exact modEq_of_pow_le (by omega) (Nat.mod_mod _ _)
  have ht : (unpack_nil P s.q.nil_begin).meta_idx % 2 ^ (n + 1) = hist.length % 2 ^ (n + 1) := by
    rw [hF.slots.hnb, hS.unpack_pack_nil']
    exact modEq_of_pow_le hm (Nat.mod_mod _ _)
  exact ⟨ring_dist_eq hS hc he hce (by omega), ring_dist_eq hS he ht het (by omega),
    hF.dist_end hS hR (by omega) htf ht⟩

/-- A claimed position that has not been released and that no handle owns lies in the current
ring. -/
theorem Full.orphan_window (hF : Full P s hist rel f c e lo hi) {p : Nat}
    (ho : orphan s rel c lo hi p) :
    f ≤ p ∧ p < hist.length ∧ hist.length ≤ p + P.MaxElementsNum := by
  have hce := hF.vals.hce
  have het := hF.vals.het
  have htf := hF.slots.htf
  have hfp : f ≤ p := by
    by_contra hc
    have := hF.slots.hf p (by omega)
    rw [ho.2.1] at this
    exact absurd this (by simp)
  have := ho.1
  exact ⟨hfp, by omega, by omega⟩

/-- A capacity error of `try_pop` in a client that never copies a handle: the slot of the
claimed position keeps its word in state VAL through every later program, `nil_end` stays
within one ring of that position, at most `N - 1` later pushes succeed, and once they have, no
push succeeds. -/
theorem Full.wedge (hS : P.Shape n lb) (hF1 : Full P s hist rel f c e lo hi) (fuel : Nat)
    (dst d : List Byte) (calls : List Call) (hcalls : ∀ cl ∈ calls, cl.is_copy = false)
    (hw : (call P (fuel + 1) s (.pop dst)).2 = .popped .invalid_argument d) :
    (load_slot P (exec P (fuel + 1) (call P (fuel + 1) s (.pop dst)).1 calls).1.q.meta_buf
        s.q.val_begin = load_slot P s.q.meta_buf s.q.val_begin ∧
      (load_slot P (exec P (fuel + 1) (call P (fuel + 1) s (.pop dst)).1 calls).1.q.meta_buf
        s.q.val_begin).state = state.val) ∧
    (P.roomy = true →
      ring_dist P s.q.val_begin
        (unpack_nil P
          (exec P (fuel + 1) (call P (fuel + 1) s (.pop dst)).1 calls).1.q.nil_end).meta_idx
        ≤ P.MaxElementsNum) ∧
    ((exec P (fuel + 1) (call P (fuel + 1) s (.pop dst)).1 calls).2.filter
        Reply.is_pushed).length ≤ P.MaxElementsNum - 1 ∧
    (((exec P (fuel + 1) (call P (fuel + 1) s (.pop dst)).1 calls).2.filter
        Reply.is_pushed).length = P.MaxElementsNum - 1 →
      ∀ src, (try_push P (fuel + 1)
        (exec P (fuel + 1) (call P (fuel + 1) s (.pop dst)).1 calls).1.q src).1
          ≠ .ret true) := by
  have hn := hS.hn
  have hNpos : 0 < P.MaxElementsNum := by
    rw [hS.hN]
    positivity
  obtain ⟨ext, rel2, f2, c2, e2, lo2, hi2, hF2, hlen, _, _, _, _, _, hwedge⟩ :=
    hF1.pop_step hS fuel dst
  have ho2 := hwedge d hw
  rw [hw] at hlen
  have hext : ext = [] := List.eq_nil_of_length_eq_zero (by simpa [Reply.is_pushed] using hlen)
  subst hext
  rw [List.append_nil] at hF2
  obtain ⟨ext3, rel3, f3, c3, e3, lo3, hi3, hF3, hcnt, _, _, ho3, _⟩ :=
    Full.run hS fuel calls hF2 hcalls
  have ho3c := ho3 c ho2
  obtain ⟨w1, w2, w3⟩ := hF2.orphan_window ho2
  obtain ⟨v1, v2, v3⟩ := hF3.orphan_window ho3c
  have hidx : ∀ mb, load_slot P mb s.q.val_begin = load_slot P mb c := fun mb =>
    hS.load_slot_congr mb (K := P.atom_bits) (by omega)
      (by rw [hF1.vals.hvb]; exact Nat.mod_mod _ _)
  have hrc1 : rel c = false := by
    cases hr : rel c
    · rfl
    · exact absurd (hF1.vals.hrc c hr) (Nat.lt_irrefl _)
  have hs1 := hF1.val_at w2 hrc1
  have hs3 := hF3.val_at v2 ho3c.2.1
  rw [off_append_le hist ext3 (Nat.le_of_lt w2), elem_append_lt hist ext3 w2] at hs3
  have hl : (hist ++ ext3).length = hist.length + ext3.length := List.length_append _ _
  have htf3 := hF3.slots.htf
  refine ⟨⟨by rw [hidx, hidx, hs1, hs3], by rw [hidx, hs3]⟩, ?_, ?_, ?_⟩
  · intro hR
    rw [hF3.dist_end hS hR v1 (by omega)
      (by rw [hF1.vals.hvb]; exact modEq_of_pow_le (by omega) (Nat.mod_mod _ _))]
    omega
  · rw [← hcnt]
    omega
  · intro heq src hpush
    obtain ⟨ext4, rel4, f4, c4, e4, lo4, hi4, hF4, hlen4, _, _, _, ho4, _⟩ :=
      hF3.push_step hS fuel src
    have hrep : (call P (fuel + 1) (exec P (fuel + 1) (call P (fuel + 1) s (.pop dst)).1
        calls).1 (.push src)).2 = .pushed (.ret true) := by
      show Reply.pushed (try_push P (fuel + 1) (exec P (fuel + 1)
        (call P (fuel + 1) s (.pop dst)).1 calls).1.q src).1 = _
      rw [hpush]
    rw [hrep] at hlen4
    simp only [Reply.is_pushed, if_true] at hlen4
    obtain ⟨_, _, u3⟩ := hF4.orphan_window (ho4 c ho3c)
    simp only [List.length_append] at u3
    omega

end dist

/-! ## Claims about the codecs and the precondition errors -/

theorem try_push_loop_outcome (P : Params) (size : Nat) (fuel : Nat) (q : queue)
    (cur end_ : nil_slider) :
    (try_push_loop P size fuel q cur end_).1 ≠ .invalid_argument ∧
    (try_push_loop P size fuel q cur end_).1 ≠ .logic_error := by
  induction fuel generalizing cur end_ with
  | zero => simp [try_push_loop]
  | succ fuel ih =>
    unfold try_push_loop
    split
    · simp
    · split
      · simp
      · exact ih _ _

/-- C3: `try_push(src, size)` raises `invalid_argument` exactly when `size == 0` or
`size > max_size` (for every state and every retry budget), and the state returned with that
error is the state the call started from: cursors, slot words and payload bytes are all
unchanged. -/
theorem C3_try_push_precondition (P : Params) (fuel : Nat) (q : queue) (src : List Byte) :
    ((try_push P fuel q src).1 = .invalid_argument
        ↔ (src.length = 0 ∨ src.length > max_size P)) ∧
    ((try_push P fuel q src).1 = .invalid_argument → (try_push P fuel q src).2 = q) := by
  by_cases hs : src.length ≠ 0 ∧ src.length ≤ max_size P
  · have hne : (try_push P fuel q src).1 ≠ .invalid_argument := by
      have h := try_push_loop_outcome P src.length fuel
        { q with nil_end := (slide_forward_nil P q.slide_limit q.meta_buf q.nil_end).2 }
        (unpack_nil P q.nil_begin) (slide_forward_nil P q.slide_limit q.meta_buf q.nil_end).1
      unfold try_push
      rw [if_neg (not_not.mpr hs)]
      dsimp only
      split
      · simp
      · split <;> simp
      · rename_i heq; rw [heq] at h; exact absurd rfl h.1
      · simp
      · simp
    refine ⟨⟨fun h => absurd h hne, fun h => ?_⟩, fun h => absurd h hne⟩
    omega
  · have he : try_push P fuel q src = (.invalid_argument, q) := by
      unfold try_push
      simp only [hs, not_false_eq_true, if_true]
    rw [he]
    refine ⟨⟨fun _ => ?_, fun _ => rfl⟩, fun _ => rfl⟩
    omega

/-- C4: when `try_pop(dst, capacity)` claims a slot (the slid `val_end` is ahead of
`val_begin`) that is in state VAL and holds more bytes than `capacity`, it raises
`invalid_argument`; in the state at that point `val_begin` has advanced by one, every slot
word (in particular the claimed one) and every payload byte is unchanged and `dst` is
untouched.  `consume_from_bulk` on a non-empty handle behaves the same, and the handle's `cur`
has been incremented. -/
theorem C4_capacity_error_after_claim (P : Params) (fuel : Nat) (q : queue) (dst : List Byte) :
    (val_slider.less_than P (unpack_val q.val_begin)
        (slide_forward_val P q.slide_limit q.meta_buf q.val_end).1 = true →
      (load_slot P q.meta_buf q.val_begin).state = state.val →
      dst.length < (load_slot P q.meta_buf q.val_begin).size →
      try_pop P (fuel + 1) q dst
        = (.invalid_argument,
           { q with val_end := (slide_forward_val P q.slide_limit q.meta_buf q.val_end).2,
                    val_begin := to_atom P.atom_bits (q.val_begin + 1) },
           dst)) ∧
    (∀ b : bulk, b.empty = false →
      (load_slot P q.meta_buf b.cur).state = state.val →
      dst.length < (load_slot P q.meta_buf b.cur).size →
      consume_from_bulk P q b dst
        = (.invalid_argument, q, { b with cur := to_atom P.atom_bits (b.cur + 1) }, dst)) := by
  constructor
  · intro hlt hst hsz
    have hsz' : ¬ (load_slot P q.meta_buf q.val_begin).size ≤ dst.length := by omega
    simp only [unpack_val] at hlt
    simp only [try_pop, try_pop_loop, hlt, compare_exchange, pack_val, unpack_val,
      Bool.not_true, Bool.false_eq_true, if_false, if_true, consume_data, hst,
      ne_eq, not_true_eq_false, hsz', not_false_eq_true]
  · intro b hb hst hsz
    have hsz' : ¬ (load_slot P q.meta_buf b.cur).size ≤ dst.length := by omega
    simp only [consume_from_bulk, hb, Bool.false_eq_true, if_false, consume_data, hst,
      ne_eq, not_true_eq_false, hsz', not_false_eq_true, if_true]

/-- Witness of C4 on `queue<4, 8, uint8_t>`: a three-byte element is pushed and then popped
into a two-byte buffer. -/
theorem C4_capacity_error_after_claim_witness :
    try_pop ⟨4, 8, 8⟩ 1 (try_push ⟨4, 8, 8⟩ 1 (queue.fresh ⟨4, 8, 8⟩ default_slide_limit)
        [1, 2, 3]).2 [0, 0]
      = (.invalid_argument,
         { (try_push ⟨4, 8, 8⟩ 1 (queue.fresh ⟨4, 8, 8⟩ default_slide_limit) [1, 2, 3]).2 with
             val_end := 1, val_begin := 1 },
         [0, 0]) :=
  (C4_capacity_error_after_claim ⟨4, 8, 8⟩ 0
    (try_push ⟨4, 8, 8⟩ 1 (queue.fresh ⟨4, 8, 8⟩ default_slide_limit) [1, 2, 3]).2 [0, 0]).1
    (by decide) (by decide) (by decide)

/-- C7: for every accepted instantiation `max_size = min(B, 2^size_bits - 1)`, where
`size_bits = W - 2 - (log2(B) + 1)` is the width of the `size` slice of the slot word; the four
instantiations of the test program give 16384, 4096, 8 and 3. -/
theorem C7_max_size (P : Params) (h : P.accepted = true) :
    max_size P = min P.DataBufferSize (2 ^ size_bits P - 1) ∧
    size_bits P = (meta_info.size_slice P).end_bit - (meta_info.size_slice P).start_bit ∧
    max_size ⟨1024, 16384, 64⟩ = 16384 ∧ max_size ⟨512, 4096, 32⟩ = 4096 ∧
    max_size ⟨1024, 8, 64⟩ = 8 ∧ max_size ⟨4, 8, 8⟩ = 3 := by
  have hS := Params.shape_of_accepted h
  refine ⟨hS.max_size_eq, rfl, ?_, ?_, ?_, ?_⟩
  · decide
  · decide
  · decide
  · decide

/-- Witness of C7 on `queue<4, 8, uint8_t>`. -/
theorem C7_max_size_witness : max_size ⟨4, 8, 8⟩ = min 8 (2 ^ size_bits ⟨4, 8, 8⟩ - 1) :=
  (C7_max_size ⟨4, 8, 8⟩ (by decide)).1

/-- C8: for a power-of-two modulus `M` with `2M ≤ 2^W` and all words `a`, `b` (in particular
all `W`-bit ones), `wrapped_less_than<M>(a, b)` is true exactly when `(b - a) mod 2M` lies in
`[1, M]`; it is false when `a = b` and whenever `a` and `b` are congruent modulo `2M`. -/
theorem C8_wrapped_less_than (W M a b : Nat) (hM : is_pow_of_2 M = true)
    (hW : 2 * M ≤ 2 ^ W) :
    (wrapped_less_than W M a b = true
      ↔ 1 ≤ ((b : Int) - a) % (2 * M) ∧ ((b : Int) - a) % (2 * M) ≤ M) ∧
    (a = b → wrapped_less_than W M a b = false) ∧
    (a % (2 * M) = b % (2 * M) → wrapped_less_than W M a b = false) := by
  obtain ⟨k, rfl⟩ := eq_two_pow_of_is_pow_of_2 hM
  have hk : k + 1 ≤ W := by
    have h2 : 2 ^ (k + 1) ≤ 2 ^ W := by rw [Nat.pow_succ]; omega
    exact (Nat.pow_le_pow_iff_right (by decide)).mp h2
  have hdiff : ((mod (2 ^ k * 2) (atom_sub W b a) : Nat) : Int)
      = ((b : Int) - a) % (2 * (2 ^ k : Nat)) := by
    rw [← Nat.pow_succ, mod_two_pow]
    push_cast
    rw [atom_sub_cast]
    have e : (2 : Int) * 2 ^ k = 2 ^ (k + 1) := by ring
    rw [e]
    exact Int.emod_emod_of_dvd _ (pow_dvd_pow 2 hk)
  have key : wrapped_less_than W (2 ^ k) a b = true
      ↔ 1 ≤ ((b : Int) - a) % (2 * (2 ^ k : Nat)) ∧
        ((b : Int) - a) % (2 * (2 ^ k : Nat)) ≤ (2 ^ k : Nat) := by
    rw [← hdiff]
    simp only [wrapped_less_than, Bool.and_eq_true, decide_eq_true_eq, bne_iff_ne, ne_eq]
    constructor
    · rintro ⟨h1, h2⟩
      exact ⟨by exact_mod_cast Nat.pos_of_ne_zero h2, by exact_mod_cast h1⟩
    · rintro ⟨h1, h2⟩
      refine ⟨by exact_mod_cast h2, ?_⟩
      have : 1 ≤ mod (2 ^ k * 2) (atom_sub W b a) := by exact_mod_cast h1
      omega
  have hcong : a % (2 * 2 ^ k) = b % (2 * 2 ^ k) → wrapped_less_than W (2 ^ k) a b = false := by
    intro hc
    have := wrapped_less_than_of_dist (W := W) (k := k) (a := a) (b := b) (d := 0) hk
      (by positivity) (by rw [Nat.add_zero, Nat.pow_succ, Nat.mul_comm]; exact hc.symm)
    rw [this]; simp
  exact ⟨key, fun h => hcong (by rw [h]), hcong⟩

/-- Witness of C8 with `W = 8`, `M = 4`, `a = 250`, `b = 2`. -/
theorem C8_wrapped_less_than_witness :
    (wrapped_less_than 8 4 250 2 = true
      ↔ 1 ≤ ((2 : Nat) - (250 : Nat) : Int) % (2 * (4 : Nat)) ∧
        ((2 : Nat) - (250 : Nat) : Int) % (2 * (4 : Nat)) ≤ (4 : Nat)) :=
  (C8_wrapped_less_than 8 4 250 2 (by decide) (by decide)).1

/-- C9: in every accepted instantiation the slices of the slot word (`begin`, `size`, `state`,
`odd_round`) and of the producer cursor (`meta_idx`, `data_idx`) are consecutive from bit `0`
to bit `W`, their masks are pairwise disjoint and together cover all `W` bits;
`pack(unpack(w)) = w` for every
`W`-bit word `w`, and `unpack(pack(r)) = r` for every record whose fields fit their slices
(`begin < 2B`, `size < 2^size_bits`, `state, round ∈ {0, 1}`; `meta_idx < 2^(W - log2(B) - 1)`,
`data_idx < 2B`). -/
theorem C9_pack_unpack_lossless (P : Params) (h : P.accepted = true) :
    ((meta_info.begin_slice P).start_bit = 0 ∧
      (meta_info.begin_slice P).end_bit = (meta_info.size_slice P).start_bit ∧
      (meta_info.size_slice P).end_bit = (meta_info.state_slice P).start_bit ∧
      (meta_info.state_slice P).end_bit = (meta_info.odd_round_slice P).start_bit ∧
      (meta_info.odd_round_slice P).end_bit = P.atom_bits) ∧
    ((nil_slider.meta_idx_slice P).start_bit = 0 ∧
      (nil_slider.meta_idx_slice P).end_bit = (nil_slider.data_idx_slice P).start_bit ∧
      (nil_slider.data_idx_slice P).end_bit = P.atom_bits) ∧
    ((meta_info.begin_slice P).mask P.atom_bits ||| (meta_info.size_slice P).mask P.atom_bits |||
        (meta_info.state_slice P).mask P.atom_bits |||
        (meta_info.odd_round_slice P).mask P.atom_bits = 2 ^ P.atom_bits - 1 ∧
      (meta_info.begin_slice P).mask P.atom_bits &&& (meta_info.size_slice P).mask P.atom_bits = 0 ∧
      (meta_info.begin_slice P).mask P.atom_bits &&& (meta_info.state_slice P).mask P.atom_bits = 0 ∧
      (meta_info.begin_slice P).mask P.atom_bits &&&
        (meta_info.odd_round_slice P).mask P.atom_bits = 0 ∧
      (meta_info.size_slice P).mask P.atom_bits &&& (meta_info.state_slice P).mask P.atom_bits = 0 ∧
      (meta_info.size_slice P).mask P.atom_bits &&&
        (meta_info.odd_round_slice P).mask P.atom_bits = 0 ∧
      (meta_info.state_slice P).mask P.atom_bits &&&
        (meta_info.odd_round_slice P).mask P.atom_bits = 0) ∧
    ((nil_slider.meta_idx_slice P).mask P.atom_bits |||
        (nil_slider.data_idx_slice P).mask P.atom_bits = 2 ^ P.atom_bits - 1 ∧
      (nil_slider.meta_idx_slice P).mask P.atom_bits &&&
        (nil_slider.data_idx_slice P).mask P.atom_bits = 0) ∧
    (∀ w, w < 2 ^ P.atom_bits →
      pack_meta P (unpack_meta P w) = w ∧ pack_nil P (unpack_nil P w) = w) ∧
    (∀ r : meta_info, r.begin < 2 * P.DataBufferSize → r.size < 2 ^ size_bits P →
      r.state ≤ 1 → r.odd_round ≤ 1 → unpack_meta P (pack_meta P r) = r) ∧
    (∀ s : nil_slider, s.meta_idx < 2 ^ (P.atom_bits - log2 P.DataBufferSize - 1) →
      s.data_idx < 2 * P.DataBufferSize → unpack_nil P (pack_nil P s) = s) := by
  have hs := Params.shape_of_accepted h
  have hW := hs.hW
  have hB := hs.hB
  have hl := hs.log2_B
  have hd : ∀ {s t : bit_slice}, s.valid P.atom_bits = true → t.valid P.atom_bits = true →
      s.end_bit ≤ t.start_bit → s.mask P.atom_bits &&& t.mask P.atom_bits = 0 :=
    fun h1 h2 h3 => bit_slice.mask_and_of_disjoint h1 h2 (Or.inr h3)
  have hcover1 : (meta_info.begin_slice P).mask P.atom_bits |||
      (meta_info.size_slice P).mask P.atom_bits |||
      (meta_info.state_slice P).mask P.atom_bits |||
      (meta_info.odd_round_slice P).mask P.atom_bits = 2 ^ P.atom_bits - 1 := by
    have v1 : (⟨0, P.atom_bits - 2⟩ : bit_slice).valid P.atom_bits = true := by
      rw [bit_slice.valid_iff]; dsimp only; omega
    have v2 : (⟨0, P.atom_bits - 1⟩ : bit_slice).valid P.atom_bits = true := by
      rw [bit_slice.valid_iff]; dsimp only; omega
    have a1 := bit_slice.mask_or_of_adjacent hs.begin_valid hs.size_valid rfl
    have a2 := bit_slice.mask_or_of_adjacent v1 hs.state_valid rfl
    have a3 := bit_slice.mask_or_of_adjacent v2 hs.odd_round_valid rfl
    rw [a1]
    exact (a2.trans rfl) ▸ (a3.trans (bit_slice.mask_full (by omega))) ▸ rfl
  have hcover2 : (nil_slider.meta_idx_slice P).mask P.atom_bits |||
      (nil_slider.data_idx_slice P).mask P.atom_bits = 2 ^ P.atom_bits - 1 := by
    have a1 := bit_slice.mask_or_of_adjacent hs.meta_idx_valid hs.data_idx_valid rfl
    rw [a1]
    exact bit_slice.mask_full (by omega)
  refine ⟨⟨rfl, rfl, rfl, ?_, rfl⟩, ⟨rfl, rfl, rfl⟩,
    ⟨hcover1, hd hs.begin_valid hs.size_valid (Nat.le_refl _),
      hd hs.begin_valid hs.state_valid ?_, hd hs.begin_valid hs.odd_round_valid ?_,
      hd hs.size_valid hs.state_valid (Nat.le_refl _),
      hd hs.size_valid hs.odd_round_valid ?_,
      hd hs.state_valid hs.odd_round_valid (Nat.le_refl _)⟩,
    ⟨hcover2, hd hs.meta_idx_valid hs.data_idx_valid (Nat.le_refl _)⟩,
    fun w hw => ⟨hs.pack_unpack_meta hw, hs.pack_unpack_nil hw⟩, ?_, ?_⟩
  · simp only [meta_info.state_slice, meta_info.odd_round_slice]
  · simp only [meta_info.begin_slice, meta_info.state_slice, hl]; omega
  · simp only [meta_info.begin_slice, meta_info.odd_round_slice, hl]; omega
  · simp only [meta_info.size_slice, meta_info.odd_round_slice]; omega
  · intro r h1 h2 h3 h4
    rw [hs.unpack_pack_meta]
    have e1 : r.begin % 2 ^ (log2 P.DataBufferSize + 1) = r.begin := by
      apply Nat.mod_eq_of_lt
      rw [Nat.pow_succ, ← hB]; omega
    have e2 : r.size % 2 ^ (P.atom_bits - 2 - (log2 P.DataBufferSize + 1)) = r.size :=
      Nat.mod_eq_of_lt h2
    have e3 : r.state % 2 = r.state := Nat.mod_eq_of_lt (by omega)
    have e4 : r.odd_round % 2 = r.odd_round := Nat.mod_eq_of_lt (by omega)
    rw [e1, e2, e3, e4]
  · intro s h1 h2
    rw [hs.unpack_pack_nil]
    have e1 : s.meta_idx % 2 ^ (P.atom_bits - (log2 P.DataBufferSize + 1)) = s.meta_idx := by
      apply Nat.mod_eq_of_lt
      have : P.atom_bits - (log2 P.DataBufferSize + 1)
          = P.atom_bits - log2 P.DataBufferSize - 1 := by omega
      rw [this]; exact h1
    have e2 : s.data_idx % 2 ^ (log2 P.DataBufferSize + 1) = s.data_idx := by
      apply Nat.mod_eq_of_lt
      rw [Nat.pow_succ, ← hB]; omega
    rw [e1, e2]

/-- Witness of C9 on `queue<4, 8, uint8_t>`: the word `0xB5` survives unpacking and
repacking. -/
theorem C9_pack_unpack_lossless_witness :
    pack_meta ⟨4, 8, 8⟩ (unpack_meta ⟨4, 8, 8⟩ 181) = 181 ∧
    pack_nil ⟨4, 8, 8⟩ (unpack_nil ⟨4, 8, 8⟩ 181) = 181 :=
  (C9_pack_unpack_lossless ⟨4, 8, 8⟩ (by decide)).2.2.2.2.1 181 (by decide)

/-- C10: for a bit slice `[start, end)` with `start < end ≤ W` and every word `v`:
`decode(encode(v)) = v mod 2^(end - start)` (so it is `v` when `v < 2^(end - start)`),
`encode(v)` has no bit outside the mask, and `encode(decode(v)) = v & mask`. -/
theorem C10_bit_slice_codec (W : Nat) (s : bit_slice) (v : Nat)
    (hs : s.start_bit < s.end_bit) (he : s.end_bit ≤ W) :
    s.decode W (s.encode W v) = v % 2 ^ (s.end_bit - s.start_bit) ∧
    (v < 2 ^ (s.end_bit - s.start_bit) → s.decode W (s.encode W v) = v) ∧
    s.encode W v &&& s.mask W = s.encode W v ∧
    (∀ i, (s.encode W v).testBit i = true → (s.mask W).testBit i = true) ∧
    (∀ i, ¬ (s.start_bit ≤ i ∧ i < s.end_bit) → (s.encode W v).testBit i = false) ∧
    s.encode W (s.decode W v) = v &&& s.mask W := by
  have hv : s.valid W = true := by rw [bit_slice.valid_iff]; omega
  refine ⟨bit_slice.decode_encode hv v, fun h => ?_, bit_slice.encode_and_mask W s v, ?_, ?_,
    bit_slice.encode_decode hv v⟩
  · rw [bit_slice.decode_encode hv, Nat.mod_eq_of_lt h]
  · intro i hi
    rw [bit_slice.testBit_encode hv] at hi
    rw [bit_slice.testBit_mask hv]
    simp only [Bool.and_eq_true] at hi
    exact hi.1
  · intro i hi
    rw [bit_slice.testBit_encode hv]
    simp [hi]

/-- Witness of C10 for the slice `[4, 6)` of an 8-bit word and `v = 7`. -/
theorem C10_bit_slice_codec_witness :
    bit_slice.decode 8 ⟨4, 6⟩ (bit_slice.encode 8 ⟨4, 6⟩ 7) = 7 % 2 ^ (6 - 4) :=
  (C10_bit_slice_codec 8 ⟨4, 6⟩ 7 (by decide) (by decide)).1

/-! ## Claims about single-threaded executions -/

/-- C1: in every single-threaded execution from a freshly constructed queue of an accepted
instantiation, with a slide limit of at least `MaxElementsNum` (the default limit
`2^64 - 1` is one), made of `try_push` calls with `1 ≤ size ≤ max_size` and `try_pop` calls
with `capacity ≥ max_size`, every call returns normally, and a `try_pop` issued at any point
returns `0` exactly when no successfully pushed element remains unpopped (then nothing
changes), and otherwise returns the length of the oldest unpopped element and writes exactly
its bytes, in order, to the front of `dst`, leaving the rest of `dst` as it was. -/
theorem C1_sequential_fifo (P : Params) (hacc : P.accepted = true) (slide_limit fuel : Nat)
    (hsl : P.MaxElementsNum ≤ slide_limit) (ops : List Op) (hops : ∀ op ∈ ops, op.sized P) :
    ∃ q pend, run P slide_limit (fuel + 1) ops = some (q, pend) ∧
      ∀ dst : List Byte, max_size P ≤ dst.length →
        ((try_pop P (fuel + 1) q dst).1 = .ret 0 ↔ pend = []) ∧
        (pend = [] → try_pop P (fuel + 1) q dst = (.ret 0, q, dst)) ∧
        (∀ x rest, pend = x :: rest →
          (try_pop P (fuel + 1) q dst).1 = .ret x.length ∧
          (try_pop P (fuel + 1) q dst).2.2 = x ++ dst.drop x.length) := by
  have hS := Params.shape_of_accepted hacc
  have hG0 := Good.at_start hS slide_limit
  obtain ⟨⟨q, pend⟩, hrun⟩ := Good.run_sized hS fuel ops hG0 hsl hops
  obtain ⟨hist, h, e, f, hG, hpend, hslq⟩ := Good.run_ok hS fuel ops hG0 hsl hrun
  refine ⟨q, pend, hrun, ?_⟩
  intro dst hcap
  have hI := hG.1
  have hht : h ≤ hist.length := by have := hI.hce; have := hI.het; omega
  have hp := hI.pop_spec hS (by rw [hslq]; exact hsl) fuel dst
  rcases Nat.eq_or_lt_of_le hht with heq | hlt
  · have hnil : pend = [] := by rw [hpend, heq]; exact List.drop_length _
    refine ⟨⟨fun _ => hnil, fun _ => by rw [hp.1 heq]⟩, fun _ => hp.1 heq, ?_⟩
    intro x rest hx
    rw [hnil] at hx
    exact absurd hx (List.cons_ne_nil _ _).symm
  · have hcons : pend = elem hist h :: hist.drop (h + 1) := by
      rw [hpend]; exact drop_eq_elem_cons hist hlt
    have hsz := hI.hsize h hlt
    obtain ⟨q1, hq1, -, -⟩ := hp.2.1 hlt (by omega)
    refine ⟨⟨fun h0 => ?_, fun hn => ?_⟩, fun hn => ?_, ?_⟩
    · rw [hq1] at h0
      simp only [Outcome.ret.injEq] at h0
      omega
    · rw [hcons] at hn; exact absurd hn (List.cons_ne_nil _ _)
    · rw [hcons] at hn; exact absurd hn (List.cons_ne_nil _ _)
    · intro x rest hx
      rw [hcons] at hx
      simp only [List.cons.injEq] at hx
      obtain ⟨rfl, -⟩ := hx
      rw [hq1]
      exact ⟨rfl, rfl⟩

/-- Witness of C1 on `queue<4, 8, uint8_t>` with the default slide limit: push an element of
`max_size = 3` bytes, pop it, push an element of one byte. -/
theorem C1_sequential_fifo_witness :
    ∃ q pend, run ⟨4, 8, 8⟩ default_slide_limit 1
        [.push [1, 2, 3], .pop [0, 0, 0], .push [7]] = some (q, pend) ∧
      ∀ dst : List Byte, max_size ⟨4, 8, 8⟩ ≤ dst.length →
        ((try_pop ⟨4, 8, 8⟩ 1 q dst).1 = .ret 0 ↔ pend = []) ∧
        (pend = [] → try_pop ⟨4, 8, 8⟩ 1 q dst = (.ret 0, q, dst)) ∧
        (∀ x rest, pend = x :: rest →
          (try_pop ⟨4, 8, 8⟩ 1 q dst).1 = .ret x.length ∧
          (try_pop ⟨4, 8, 8⟩ 1 q dst).2.2 = x ++ dst.drop x.length) :=
  C1_sequential_fifo ⟨4, 8, 8⟩ (by decide) default_slide_limit 0 (by decide)
    [.push [1, 2, 3], .pop [0, 0, 0], .push [7]]
    (by
      intro op hop
      simp only [List.mem_cons, List.mem_singleton, List.not_mem_nil, or_false] at hop
      rcases hop with rfl | rfl | rfl
      · exact ⟨by decide, by decide⟩
      · show max_size ⟨4, 8, 8⟩ ≤ 3
        decide
      · exact ⟨by decide, by decide⟩)

/-- C2 wherever the `meta_idx` field of the producer cursor has the `log2(N) + 1` bits that
the compile-time checks fail to enforce: for such an accepted instantiation, after every
single-threaded execution from a fresh queue (slide limit at least `N`, e.g. the default) in
which every `try_push` and `try_pop` returned normally, `try_push(src, size)` with
`1 ≤ size ≤ max_size` returns true if and only if fewer than `N` elements are stored and the
stored bytes plus `size` are at most `B`; otherwise it returns false.  In particular a push of
`max_size` bytes succeeds on an empty queue, however far the cursors have advanced. -/
theorem C2_exact_capacity (P : Params) (hacc : P.accepted = true) (hroomy : P.roomy = true)
    (slide_limit fuel : Nat) (hsl : P.MaxElementsNum ≤ slide_limit) (ops : List Op)
    (q : queue) (pend : List (List Byte))
    (hrun : run P slide_limit (fuel + 1) ops = some (q, pend))
    (src : List Byte) (hsrc : 1 ≤ src.length ∧ src.length ≤ max_size P) :
    (∃ q1, try_push P (fuel + 1) q src
        = (.ret (decide (pend.length < P.MaxElementsNum ∧
                  total_bytes pend + src.length ≤ P.DataBufferSize)), q1)) ∧
    (pend = [] → (try_push P (fuel + 1) q src).1 = .ret true) := by
  have hS := Params.shape_of_accepted hacc
  have hG0 := Good.at_start hS slide_limit
  obtain ⟨hist, h, e, f, hG, hpend, hslq⟩ := Good.run_ok hS fuel ops hG0 hsl hrun
  have hI := hG.1
  have hht : h ≤ hist.length := by have := hI.hce; have := hI.het; omega
  obtain ⟨b, q1, f1, hq1, -, -, hb⟩ := hG.push hS (by rw [hslq]; exact hsl) fuel hsrc
  have hlen : pend.length = hist.length - h := by rw [hpend, List.length_drop]
  have hbytes : off hist h + total_bytes pend = off hist hist.length := by
    rw [hpend]; exact off_add_total_bytes_drop hist h
  have hiff : (hist.length < h + P.MaxElementsNum ∧
      off hist hist.length + src.length ≤ off hist h + P.DataBufferSize)
      ↔ (pend.length < P.MaxElementsNum ∧
        total_bytes pend + src.length ≤ P.DataBufferSize) := by
    rw [hlen]; constructor <;> rintro ⟨h1, h2⟩ <;> constructor <;> omega
  have hb' := hb hroomy
  rw [decide_eq_decide.mpr hiff] at hb'
  refine ⟨⟨q1, by rw [hq1, hb']⟩, ?_⟩
  intro hemp
  rw [hq1, hb']
  have hN := hS.N_pos
  have hms := hS.max_size_le
  have : pend.length < P.MaxElementsNum ∧
      total_bytes pend + src.length ≤ P.DataBufferSize := by
    rw [hemp]; simp [total_bytes]; omega
  simp [this]

/-- Witness of C2 on `queue<4, 8, uint8_t>`: after one push of three bytes, a second push of
three bytes fits. -/
theorem C2_exact_capacity_witness :
    (∃ q1, try_push ⟨4, 8, 8⟩ 1
        (try_push ⟨4, 8, 8⟩ 1 (queue.fresh ⟨4, 8, 8⟩ default_slide_limit) [1, 2, 3]).2 [4, 5, 6]
        = (.ret (decide (([[1, 2, 3]] : List (List Byte)).length < 4 ∧
                  total_bytes [[1, 2, 3]] + 3 ≤ 8)), q1)) ∧
    (([[1, 2, 3]] : List (List Byte)) = [] →
      (try_push ⟨4, 8, 8⟩ 1
        (try_push ⟨4, 8, 8⟩ 1 (queue.fresh ⟨4, 8, 8⟩ default_slide_limit) [1, 2, 3]).2
        [4, 5, 6]).1 = .ret true) :=
  C2_exact_capacity ⟨4, 8, 8⟩ (by decide) (by decide) default_slide_limit 0 (by decide)
    [.push [1, 2, 3]] _ [[1, 2, 3]] (by decide) [4, 5, 6] (by decide)

/-- C2 fails where that width check is missing: `queue<8, 16, uint8_t>` passes every
compile-time check although its `meta_idx` field has 3 bits instead of 4, and after one
successful push of one byte (1 < 8 elements and 1 + 1 ≤ 16 bytes stored) a second push of one
byte returns false. -/
theorem C2_exact_capacity_counterexample :
    Params.accepted ⟨8, 16, 8⟩ = true ∧
    (run ⟨8, 16, 8⟩ default_slide_limit 1 [.push [1]]).map
        (fun s => (s.2, (try_push ⟨8, 16, 8⟩ 1 s.1 [2]).1)) = some ([[1]], .ret false) ∧
    (([[1]] : List (List Byte)).length < 8 ∧ total_bytes [[1]] + 1 ≤ 16) ∧
    (1 ≤ ([2] : List Byte).length ∧ ([2] : List Byte).length ≤ max_size ⟨8, 16, 8⟩) := by
  decide

/-- C5: after every single-threaded execution from a fresh queue of an accepted instantiation
(slide limit at least `N`, e.g. the default) in which `k` elements are stored, `pop_bulk`
returns a handle and leaves `val_begin` equal to the slid `val_end`; the handle is empty iff
`k = 0`; `k` successive `consume_from_bulk` calls with sufficient capacities return the `k`
stored elements in push order, each with its exact bytes; after them the handle is empty and
`consume_from_bulk` returns `0` changing neither queue, handle nor buffer; and a `try_pop`
issued right after `pop_bulk` returns `0`. -/
theorem C5_pop_bulk_batch (P : Params) (hacc : P.accepted = true) (slide_limit fuel : Nat)
    (hsl : P.MaxElementsNum ≤ slide_limit) (ops : List Op) (q : queue)
    (pend : List (List Byte)) (hrun : run P slide_limit (fuel + 1) ops = some (q, pend)) :
    ∃ b q1, pop_bulk P (fuel + 1) q = (.ret b, q1) ∧
      q1.val_begin = q1.val_end ∧
      q1.val_end = (slide_forward_val P q.slide_limit q.meta_buf q.val_end).2 ∧
      (b.empty = true ↔ pend = []) ∧
      (∀ dst, try_pop P (fuel + 1) q1 dst = (.ret 0, q1, dst)) ∧
      ∀ dsts : List (List Byte), dsts.length = pend.length →
        (∀ i, i < pend.length → (pend.getD i []).length ≤ (dsts.getD i []).length) →
        ∃ q2 b2, consume_all P q1 b dsts = (drained pend dsts, q2, b2) ∧ b2.empty = true ∧
          ∀ dst, consume_from_bulk P q2 b2 dst = (.ret 0, q2, b2, dst) := by
  have hS := Params.shape_of_accepted hacc
  have hG0 := Good.at_start hS slide_limit
  obtain ⟨hist, h, e, f, hG, hpend, hslq⟩ := Good.run_ok hS fuel ops hG0 hsl hrun
  have hI := hG.1
  have hslq' : P.MaxElementsNum ≤ q.slide_limit := by rw [hslq]; exact hsl
  have hht : h ≤ hist.length := by have := hI.hce; have := hI.het; omega
  have hpb := hI.pop_bulk_spec hS hslq' fuel
  have hsv := hI.slide_val_end hS hslq'
  have hempty_eq : ∀ (b : bulk) (q2 : queue) (dst : List Byte), b.empty = true →
      consume_from_bulk P q2 b dst = (.ret 0, q2, b, dst) := by
    intro b q2 dst hb
    simp only [consume_from_bulk, hb, if_true]
  rcases Nat.eq_or_lt_of_le hht with heq | hlt
  · have hnil : pend = [] := by rw [hpend, heq]; exact List.drop_length _
    have hve : q.val_end = hist.length % 2 ^ P.atom_bits := by
      rw [hI.hve]; have := hI.hce; have := hI.het
      have : e = hist.length := by omega
      rw [this]
    refine ⟨⟨0, 0⟩, q, hpb.1 heq, ?_, ?_, ?_, ?_, ?_⟩
    · rw [hI.hvb, hve, heq]
    · rw [hsv, hve]
    · simp [bulk.empty, hnil]
    · exact fun dst => hI.pop_none hS heq hslq' fuel dst
    · intro dsts hlen _
      rw [hnil] at hlen ⊢
      have hd : dsts = [] := List.length_eq_zero.mp hlen
      subst hd
      exact ⟨q, ⟨0, 0⟩, rfl, rfl, fun dst => hempty_eq _ _ _ rfl⟩
  · obtain ⟨hq1, hne⟩ := hpb.2 hlt
    have hI1 : Inv P { q with val_begin := hist.length % 2 ^ P.atom_bits,
                              val_end := hist.length % 2 ^ P.atom_bits }
        hist h hist.length hist.length f :=
      hI.set_val hht (Nat.le_refl _) (Nat.le_refl _)
    have hcons : pend = elem hist h :: hist.drop (h + 1) := by
      rw [hpend]; exact drop_eq_elem_cons hist hlt
    refine ⟨_, _, hq1, rfl, by rw [hsv], ?_, ?_, ?_⟩
    · simp [bulk.empty, hne, hcons]
    · exact fun dst => hI1.pop_none hS rfl hslq' fuel dst
    · intro dsts hlen hcap
      have hplen : pend.length = hist.length - h := by rw [hpend, List.length_drop]
      obtain ⟨q2, hq2, -, -, -, -⟩ := hI1.consume_all_ok hS dsts hht (by omega)
        (by
          intro i hi
          have := hcap i (by omega)
          rw [hpend] at this
          simpa [elem, List.getElem?_drop] using this)
      have htake : (hist.drop h).take (hist.length - h) = pend := by
        rw [hpend, List.take_of_length_le (by rw [List.length_drop])]
      rw [htake] at hq2
      exact ⟨q2, _, hq2, by simp [bulk.empty], fun dst => hempty_eq _ _ _ (by simp [bulk.empty])⟩

/-- Witness of C5 on `queue<4, 8, uint8_t>`: two elements are stored when `pop_bulk` is
called. -/
theorem C5_pop_bulk_batch_witness :
    ∃ b q1, pop_bulk ⟨4, 8, 8⟩ 1
        (try_push ⟨4, 8, 8⟩ 1
          (try_push ⟨4, 8, 8⟩ 1 (queue.fresh ⟨4, 8, 8⟩ default_slide_limit) [1, 2, 3]).2
          [4, 5]).2 = (.ret b, q1) ∧
      q1.val_begin = q1.val_end ∧
      q1.val_end = (slide_forward_val ⟨4, 8, 8⟩
        (try_push ⟨4, 8, 8⟩ 1
          (try_push ⟨4, 8, 8⟩ 1 (queue.fresh ⟨4, 8, 8⟩ default_slide_limit) [1, 2, 3]).2
          [4, 5]).2.slide_limit
        (try_push ⟨4, 8, 8⟩ 1
          (try_push ⟨4, 8, 8⟩ 1 (queue.fresh ⟨4, 8, 8⟩ default_slide_limit) [1, 2, 3]).2
          [4, 5]).2.meta_buf
        (try_push ⟨4, 8, 8⟩ 1
          (try_push ⟨4, 8, 8⟩ 1 (queue.fresh ⟨4, 8, 8⟩ default_slide_limit) [1, 2, 3]).2
          [4, 5]).2.val_end).2 ∧
      (b.empty = true ↔ ([[1, 2, 3], [4, 5]] : List (List Byte)) = []) ∧
      (∀ dst, try_pop ⟨4, 8, 8⟩ 1 q1 dst = (.ret 0, q1, dst)) ∧
      ∀ dsts : List (List Byte), dsts.length = ([[1, 2, 3], [4, 5]] : List (List Byte)).length →
        (∀ i, i < ([[1, 2, 3], [4, 5]] : List (List Byte)).length →
          (([[1, 2, 3], [4, 5]] : List (List Byte)).getD i []).length
            ≤ (dsts.getD i []).length) →
        ∃ q2 b2, consume_all ⟨4, 8, 8⟩ q1 b dsts
            = (drained [[1, 2, 3], [4, 5]] dsts, q2, b2) ∧ b2.empty = true ∧
          ∀ dst, consume_from_bulk ⟨4, 8, 8⟩ q2 b2 dst = (.ret 0, q2, b2, dst) :=
  C5_pop_bulk_batch ⟨4, 8, 8⟩ (by decide) default_slide_limit 0 (by decide)
    [.push [1, 2, 3], .push [4, 5]] _ [[1, 2, 3], [4, 5]] (by decide)

/-! ## Claims about the released slot word and the widths of the packed fields -/

/-- C11 as stated fails: on `queue<4, 8, uint8_t>` push a 1-byte and then a 2-byte element and
pop both.  The second pop returns 2 from slot 1, whose word was `{begin = 1, size = 2, VAL,
round = 1}`; afterwards the slot decodes to `{begin = 1, size = 2, NIL, round = 1}`, not to
`begin = 0, size = 0`. -/
theorem C11_release_keeps_fields_counterexample :
    let P : Params := ⟨4, 8, 8⟩
    let q1 := (try_push P 1 (queue.fresh P default_slide_limit) [7]).2
    let q2 := (try_push P 1 q1 [8, 9]).2
    let q3 := (try_pop P 1 q2 [0, 0, 0]).2.1
    let r := try_pop P 1 q3 [0, 0, 0]
    load_slot P q3.meta_buf 1 = ⟨1, 2, state.val, 1⟩ ∧
    r.1 = .ret 2 ∧ r.2.2 = [8, 9, 0] ∧
    load_slot P r.2.1.meta_buf 1 = ⟨1, 2, state.nil, 1⟩ := by
  decide

/-- C11 (amended): after a successful `try_pop` (one that returns a non-zero length) or a
`consume_from_bulk` on a non-empty handle that returns normally, taken from slot `s` whose
metadata was `m`, the slot was VAL, the call returned `m.size`, and the word now stored in slot
`s` decodes to `begin = m.begin`, `size = m.size`, `state = NIL` and `round = m.round`: only
the state field changes. -/
theorem C11_release_keeps_fields (P : Params) (hP : P.accepted = true) (q : queue)
    (hlen : q.meta_buf.length = P.MaxElementsNum) (fuel : Nat) (dst : List Byte) :
    (∀ r q1 dst1, try_pop P (fuel + 1) q dst = (.ret r, q1, dst1) → r ≠ 0 →
      (load_slot P q.meta_buf q.val_begin).state = state.val ∧
      r = (load_slot P q.meta_buf q.val_begin).size ∧
      load_slot P q1.meta_buf q.val_begin
        = { (load_slot P q.meta_buf q.val_begin) with state := state.nil }) ∧
    (∀ b r q1 b1 dst1, b.empty = false →
      consume_from_bulk P q b dst = (.ret r, q1, b1, dst1) →
      (load_slot P q.meta_buf b.cur).state = state.val ∧
      r = (load_slot P q.meta_buf b.cur).size ∧
      load_slot P q1.meta_buf b.cur
        = { (load_slot P q.meta_buf b.cur) with state := state.nil }) := by
  have hS := Params.shape_of_accepted hP
  constructor
  · intro r q1 dst1 h hr
    rw [try_pop_eq] at h
    by_cases hlt : val_slider.less_than P ⟨q.val_begin⟩
        (slide_forward_val P q.slide_limit q.meta_buf q.val_end).1 = true
    · rw [if_pos hlt] at h
      have := consume_data_ret hS (by exact hlen) h
      exact ⟨this.1, this.2.1, this.2.2.2.1⟩
    · rw [if_neg hlt] at h
      simp only [Prod.mk.injEq, Outcome.ret.injEq] at h
      exact absurd h.1.symm hr
  · intro b r q1 b1 dst1 hb h
    simp only [consume_from_bulk, hb, Bool.false_eq_true, if_false, Prod.mk.injEq] at h
    have h' : consume_data P q b.cur dst = (.ret r, q1, dst1) := by
      rw [← h.1, ← h.2.1, ← h.2.2.2]
    have := consume_data_ret hS hlen h'
    exact ⟨this.1, this.2.1, this.2.2.2.1⟩

/-- C11 (amended) applied to `queue<4, 8, uint8_t>` holding the single element `[7, 8]`.  -/
theorem C11_release_keeps_fields_witness :
    let P : Params := ⟨4, 8, 8⟩
    let q := (try_push P 1 (queue.fresh P default_slide_limit) [7, 8]).2
    (load_slot P q.meta_buf q.val_begin).state = state.val ∧
    2 = (load_slot P q.meta_buf q.val_begin).size ∧
    load_slot P (try_pop P 1 q [0, 0]).2.1.meta_buf q.val_begin
      = { (load_slot P q.meta_buf q.val_begin) with state := state.nil } :=
  (C11_release_keeps_fields ⟨4, 8, 8⟩ (by decide)
    (try_push ⟨4, 8, 8⟩ 1 (queue.fresh ⟨4, 8, 8⟩ default_slide_limit) [7, 8]).2 (by decide) 0
    [0, 0]).1 2 _
    (try_pop ⟨4, 8, 8⟩ 1
      (try_push ⟨4, 8, 8⟩ 1 (queue.fresh ⟨4, 8, 8⟩ default_slide_limit) [7, 8]).2 [0, 0]).2.2
    (by decide) (by decide)

/-- C19: `queue<8, 16, uint8_t>` passes every compile-time check (both sizes are powers of
two, every `bit_slice` is non-empty and inside the 8 bits of the atom), yet the `meta_idx`
slice of its producer cursor is only 3 bits wide, while the slot index together with its
wrap-parity bit needs `log2(8) + 1 = 4` bits: the initial `nil_end = {8, 16}` reads back as
`{0, 16}`.  The `begin`, `data_idx` and `size` fields do have the widths the claim names. -/
theorem C19_meta_idx_field_too_narrow :
    let P : Params := ⟨8, 16, 8⟩
    P.accepted = true ∧
    (nil_slider.meta_idx_slice P).end_bit - (nil_slider.meta_idx_slice P).start_bit = 3 ∧
    log2 P.MaxElementsNum + 1 = 4 ∧
    (meta_info.begin_slice P).end_bit - (meta_info.begin_slice P).start_bit
      = log2 P.DataBufferSize + 1 ∧
    (nil_slider.data_idx_slice P).end_bit - (nil_slider.data_idx_slice P).start_bit
      = log2 P.DataBufferSize + 1 ∧
    1 ≤ (meta_info.size_slice P).end_bit - (meta_info.size_slice P).start_bit ∧
    unpack_nil P (pack_nil P ⟨8, 16⟩) = ⟨0, 16⟩ ∧
    unpack_nil P (queue.fresh P default_slide_limit).nil_end = ⟨0, 16⟩ := by
  decide

/-! ## Claims about the ring copies -/

/-- C18: for `idx < B` and `size ≤ B`, `write_data(idx, src, size)` puts `src[i]` at payload
index `(idx + i) mod B` for every `i < size` — the first `min(size, B - idx)` bytes at
`idx, idx + 1, …` and the remaining ones at `0, 1, …` — and changes no other payload byte;
`read_data(idx, dst, size)` puts payload byte `(idx + i) mod B` at `dst[i]` for every
`i < size` and changes nothing else of `dst`; reading after writing with the same `idx` and
`size` gives back the bytes of `src`; and neither touches anything beyond the `B` bytes of the
payload buffer: whatever lies behind them is neither changed by the write nor seen by the
read. -/
theorem C18_wrap_aware_copy (P : Params) (data src dst : List Byte) (idx size : Nat)
    (hlen : data.length = P.DataBufferSize) (hidx : idx < P.DataBufferSize)
    (hsize : size ≤ P.DataBufferSize) :
    (∀ i, i < size →
      (write_data P data idx src size).getD ((idx + i) % P.DataBufferSize) 0 = src.getD i 0) ∧
    (∀ i, i < min size (P.DataBufferSize - idx) →
      (write_data P data idx src size).getD (idx + i) 0 = src.getD i 0) ∧
    (∀ i, min size (P.DataBufferSize - idx) ≤ i → i < size →
      (write_data P data idx src size).getD (i - (P.DataBufferSize - idx)) 0 = src.getD i 0) ∧
    (∀ j, j < P.DataBufferSize → (∀ i, i < size → j ≠ (idx + i) % P.DataBufferSize) →
      (write_data P data idx src size).getD j 0 = data.getD j 0) ∧
    (write_data P data idx src size).length = P.DataBufferSize ∧
    (size ≤ dst.length →
      (∀ i, i < size →
        (read_data P data idx dst size).getD i 0
          = data.getD ((idx + i) % P.DataBufferSize) 0) ∧
      (∀ i, size ≤ i → (read_data P data idx dst size)[i]? = dst[i]?) ∧
      (read_data P data idx dst size).length = dst.length) ∧
    (size ≤ src.length → size ≤ dst.length →
      read_data P (write_data P data idx src size) idx dst size
        = src.take size ++ dst.drop size) ∧
    (∀ junk : List Byte,
      write_data P (data ++ junk) idx src size = write_data P data idx src size ++ junk) ∧
    (∀ junk : List Byte,
      read_data P (data ++ junk) idx dst size = read_data P data idx dst size) := by
  have hB : 0 < P.DataBufferSize := by omega
  have hw : ∀ i, i < size →
      (write_data P data idx src size).getD ((idx + i) % P.DataBufferSize) 0
        = src.getD i 0 := by
    intro i hi
    have := @write_data_written P data src idx size i hlen hsize hi
    rwa [Nat.mod_eq_of_lt hidx] at this
  refine ⟨hw, ?_, ?_, ?_, ?_, ?_, ?_, ?_, ?_⟩
  · intro i hi
    have h1 := hw i (by omega)
    rwa [Nat.mod_eq_of_lt (by omega)] at h1
  · intro i hi1 hi2
    have h1 := hw i hi2
    have e : idx + i = (i - (P.DataBufferSize - idx)) + P.DataBufferSize := by omega
    rwa [e, Nat.add_mod_right, Nat.mod_eq_of_lt (by omega)] at h1
  · intro j hj hout
    exact write_data_frame P data src idx size j hlen hidx hsize hj hout
  · rw [length_write_data, hlen]
  · intro hcap
    refine ⟨?_, ?_, length_read_data P data idx dst size⟩
    · intro i hi
      rw [List.getD_eq_getElem?_getD, getElem?_read_data P data idx dst size i hidx hsize hcap,
        if_pos hi]
      rfl
    · intro i hi
      rw [getElem?_read_data P data idx dst size i hidx hsize hcap, if_neg (by omega)]
  · intro hs hcap
    apply List.ext_getElem?
    intro i
    rw [getElem?_read_data P _ idx dst size i hidx hsize hcap]
    by_cases hi : i < size
    · rw [if_pos hi, hw i hi, List.getElem?_append_left (by simp; omega),
        List.getElem?_take_of_lt hi, List.getD_eq_getElem?_getD,
        List.getElem?_eq_getElem (by omega)]
      rfl
    · rw [if_neg hi, List.getElem?_append_right (by simp; omega), List.getElem?_drop]
      congr 1
      simp only [List.length_take]
      omega
  · intro junk
    simp only [write_data]
    rw [memcpy_append_dst data junk src idx 0 _ (by omega),
      memcpy_append_dst _ junk src 0 _ _ (by rw [length_memcpy]; omega)]
  · intro junk
    simp only [read_data]
    rw [memcpy_append_src dst data junk 0 idx _ (by omega),
      memcpy_append_src _ data junk _ 0 _ (by omega)]

/-- C18 on an 8-byte ring: three bytes written at index 6 land at 6, 7 and 0. -/
theorem C18_wrap_aware_copy_witness :
    (write_data ⟨4, 8, 8⟩ (List.replicate 8 0) 6 [1, 2, 3] 3).getD ((6 + 2) % 8) 0
      = ([1, 2, 3] : List Byte).getD 2 0 :=
  (C18_wrap_aware_copy ⟨4, 8, 8⟩ (List.replicate 8 0) [1, 2, 3] [0, 0, 0] 6 3
    (by decide) (by decide) (by decide)).1 2 (by decide)

/-! ## Claims about one call on an arbitrary state -/

/-- C17: let `try_push(src, size)` run on a queue whose buffers have their constructed sizes,
with `cur = (meta_idx, data_idx)` the decoded `nil_begin`.  If it returns true, then
afterwards `nil_begin` decodes to `(meta_idx + 1, data_idx + size)` modulo the widths of the
two fields, slot `meta_idx mod N` decodes to `{begin = data_idx, size, VAL, round = NOT(bit
log2(N) of meta_idx)}`, payload byte `(data_idx + i) mod B` equals `src[i]` for every
`i < size`, and `val_begin`, `val_end`, `slide_limit`, every other slot word and every other
payload byte are unchanged (only `nil_end` may have moved besides).  If it returns false, the
state is the old one except possibly for `nil_end`. -/
theorem C17_push_effect_and_frame (P : Params) (hP : P.accepted = true) (q : queue)
    (hm : q.meta_buf.length = P.MaxElementsNum) (hd : q.data_buf.length = P.DataBufferSize)
    (hnb : q.nil_begin < 2 ^ P.atom_bits) (fuel : Nat) (src : List Byte) (q1 : queue) :
    (try_push P (fuel + 1) q src = (.ret true, q1) →
      unpack_nil P q1.nil_begin
        = ⟨((unpack_nil P q.nil_begin).meta_idx + 1) % 2 ^ meta_idx_bits P,
           ((unpack_nil P q.nil_begin).data_idx + src.length) % (2 * P.DataBufferSize)⟩ ∧
      load_slot P q1.meta_buf (unpack_nil P q.nil_begin).meta_idx
        = ⟨(unpack_nil P q.nil_begin).data_idx, src.length, state.val,
           if (unpack_nil P q.nil_begin).meta_idx.testBit (log2 P.MaxElementsNum) = true
           then 0 else 1⟩ ∧
      (∀ i, i < src.length →
        q1.data_buf.getD (((unpack_nil P q.nil_begin).data_idx + i) % P.DataBufferSize) 0
          = src.getD i 0) ∧
      q1.val_begin = q.val_begin ∧ q1.val_end = q.val_end ∧
      q1.slide_limit = q.slide_limit ∧
      (∀ s, s < P.MaxElementsNum →
        s ≠ (unpack_nil P q.nil_begin).meta_idx % P.MaxElementsNum →
        q1.meta_buf.getD s 0 = q.meta_buf.getD s 0) ∧
      q1.meta_buf.length = P.MaxElementsNum ∧
      (∀ j, j < P.DataBufferSize →
        (∀ i, i < src.length →
          j ≠ ((unpack_nil P q.nil_begin).data_idx + i) % P.DataBufferSize) →
        q1.data_buf.getD j 0 = q.data_buf.getD j 0) ∧
      q1.data_buf.length = P.DataBufferSize) ∧
    (try_push P (fuel + 1) q src = (.ret false, q1) →
      q1 = { q with nil_end := q1.nil_end }) := by
  have hS := Params.shape_of_accepted hP
  have hB := hS.B_pos
  have hN := hS.N_pos
  by_cases hvalid : src.length ≠ 0 ∧ src.length ≤ max_size P
  swap
  · have he := try_push_invalid P (fuel + 1) q src (by omega)
    rw [he]
    constructor <;> intro h <;> simp at h
  have hms := hS.max_size_le
  rw [try_push_eq hS fuel q src hvalid hnb]
  constructor
  · intro h
    by_cases hchk : nil_slider.less_than P
        ⟨(unpack_nil P q.nil_begin).meta_idx,
         to_atom P.atom_bits ((unpack_nil P q.nil_begin).data_idx + (src.length - 1))⟩
        (slide_forward_nil P q.slide_limit q.meta_buf q.nil_end).1 = true
    swap
    · rw [if_neg hchk] at h; simp at h
    rw [if_pos hchk] at h
    by_cases hst :
        (load_slot P q.meta_buf (unpack_nil P q.nil_begin).meta_idx).state = state.nil
    swap
    · rw [if_neg hst] at h; simp at h
    rw [if_pos hst] at h
    simp only [Prod.mk.injEq, true_and] at h
    subst h
    dsimp only
    have hdlt : (unpack_nil P q.nil_begin).data_idx < 2 ^ (log2 P.DataBufferSize + 1) := by
      have := bit_slice.decode_lt hS.data_idx_valid q.nil_begin
      simp only [nil_slider.data_idx_slice] at this
      have e : P.atom_bits - (P.atom_bits - (log2 P.DataBufferSize + 1))
          = log2 P.DataBufferSize + 1 := by
        have := hS.hW
        have := hS.log2_B
        omega
      rw [e] at this
      exact this
    refine ⟨?_, ?_, ?_, rfl, rfl, rfl, ?_, ?_, ?_, ?_⟩
    · rw [hS.unpack_pack_nil']
      simp only [nil_slider.mk.injEq]
      constructor
      · exact add_mod_to_atom (Nat.sub_le _ _) rfl
      · rw [hS.two_B]
        exact add_mod_to_atom (by have := hS.hW; omega) rfl
    · rw [hS.load_slot_set hm, if_pos rfl, hS.unpack_pack_meta]
      simp only [meta_info.mk.injEq]
      refine ⟨?_, ?_, ?_, ?_⟩
      · rw [hS.log2_B] at hdlt
        exact Nat.mod_eq_of_lt hdlt
      · rw [to_atom_of_lt (lt_of_lt_of_le (by omega : src.length < 2 ^ (P.atom_bits - 2 - (log2 P.DataBufferSize + 1)))
          (Nat.pow_le_pow_right (by omega) (by omega)))]
        exact Nat.mod_eq_of_lt (by omega)
      · simp [state.val]
      · rw [hS.log2_N]
        have := and_two_pow_ne_zero (unpack_nil P q.nil_begin).meta_idx (log2 P.MaxElementsNum)
        rw [hS.log2_N, ← hS.hN] at this
        rw [this]
        cases (unpack_nil P q.nil_begin).meta_idx.testBit _ <;> simp
    · intro i hi
      have := @write_data_written P q.data_buf src (unpack_nil P q.nil_begin).data_idx
        src.length i hd (by omega : src.length ≤ P.DataBufferSize) hi
      rw [hS.mod_B, ← hS.hB]
      exact this
    · intro s hs hne
      rw [List.getD_eq_getElem?_getD, getElem?_set_eq_ite, if_neg, List.getD_eq_getElem?_getD]
      rw [hS.mod_N, ← hS.hN]
      omega
    · simp [hm]
    · intro j hj hout
      rw [hS.mod_B, ← hS.hB]
      exact write_data_frame P q.data_buf src _ src.length j hd (Nat.mod_lt _ hB) (by omega) hj
        (by intro i hi; rw [Nat.mod_add_mod]; exact hout i hi)
    · rw [length_write_data, hd]
  · intro h
    by_cases hchk : nil_slider.less_than P
        ⟨(unpack_nil P q.nil_begin).meta_idx,
         to_atom P.atom_bits ((unpack_nil P q.nil_begin).data_idx + (src.length - 1))⟩
        (slide_forward_nil P q.slide_limit q.meta_buf q.nil_end).1 = true
    · rw [if_pos hchk] at h
      by_cases hst :
          (load_slot P q.meta_buf (unpack_nil P q.nil_begin).meta_idx).state = state.nil
      · rw [if_pos hst] at h; simp at h
      · rw [if_neg hst] at h; simp at h
    · rw [if_neg hchk] at h
      simp only [Prod.mk.injEq, true_and] at h
      subst h
      rfl

/-- C17 on a fresh `queue<4, 8, uint8_t>`: the push of `[7, 8]` publishes slot 0 as
`{begin = 0, size = 2, VAL, round = 1}`. -/
theorem C17_push_effect_and_frame_witness :
    load_slot ⟨4, 8, 8⟩
        (try_push ⟨4, 8, 8⟩ 1 (queue.fresh ⟨4, 8, 8⟩ default_slide_limit) [7, 8]).2.meta_buf
        (unpack_nil ⟨4, 8, 8⟩ (queue.fresh ⟨4, 8, 8⟩ default_slide_limit).nil_begin).meta_idx
      = ⟨(unpack_nil ⟨4, 8, 8⟩ (queue.fresh ⟨4, 8, 8⟩ default_slide_limit).nil_begin).data_idx,
         ([7, 8] : List Byte).length, state.val,
         if (unpack_nil ⟨4, 8, 8⟩
              (queue.fresh ⟨4, 8, 8⟩ default_slide_limit).nil_begin).meta_idx.testBit
            (log2 (4 : Nat)) = true
         then 0 else 1⟩ :=
  ((C17_push_effect_and_frame ⟨4, 8, 8⟩ (by decide) (queue.fresh ⟨4, 8, 8⟩ default_slide_limit)
    (by decide) (by decide) (by decide) 0 [7, 8]
    (try_push ⟨4, 8, 8⟩ 1 (queue.fresh ⟨4, 8, 8⟩ default_slide_limit) [7, 8]).2).1
    (by decide)).2.1

/-! ## The claim about the slide -/

/-- C12: with no interfering thread, `slide_forward<S>` on a cursor cell stores and returns
the cursor advanced by exactly `k = min(slide_limit, r)` slots, where `r` is the length of the
maximal run of consecutive positions `p`, starting at the cursor's `meta_idx`, such that
slot `p mod N` has state `S` and round `(S == VAL) XOR (bit log2(N) of p)`.  The run never
exceeds `N` (so counting it up to any bound of at least `N` gives the same `r`).  The stored
word is the packed form of the returned cursor; on the producer side the returned `data_idx`
is congruent modulo `2B` to `begin + size + B` of the last slot passed; and when `k = 0` the
cursor word is left unchanged. -/
theorem C12_slide_forward_step (P : Params) (hP : P.accepted = true) (L : Nat)
    (mb : List Nat) (sl : Nat) (hsl : sl < 2 ^ P.atom_bits) :
    (slide_forward_val P L mb sl
        = (⟨to_atom P.atom_bits
              (sl + min L (spec_run P mb state.val P.MaxElementsNum sl))⟩,
           to_atom P.atom_bits (sl + min L (spec_run P mb state.val P.MaxElementsNum sl))) ∧
      spec_run P mb state.val P.MaxElementsNum sl ≤ P.MaxElementsNum ∧
      (∀ bound, P.MaxElementsNum ≤ bound →
        spec_run P mb state.val bound sl = spec_run P mb state.val P.MaxElementsNum sl) ∧
      (min L (spec_run P mb state.val P.MaxElementsNum sl) = 0 →
        slide_forward_val P L mb sl = (unpack_val sl, sl))) ∧
    ((slide_forward_nil P L mb sl).1.meta_idx
        = to_atom P.atom_bits ((unpack_nil P sl).meta_idx +
            min L (spec_run P mb state.nil P.MaxElementsNum (unpack_nil P sl).meta_idx)) ∧
      (slide_forward_nil P L mb sl).2 = pack_nil P (slide_forward_nil P L mb sl).1 ∧
      spec_run P mb state.nil P.MaxElementsNum (unpack_nil P sl).meta_idx
        ≤ P.MaxElementsNum ∧
      (∀ bound, P.MaxElementsNum ≤ bound →
        spec_run P mb state.nil bound (unpack_nil P sl).meta_idx
          = spec_run P mb state.nil P.MaxElementsNum (unpack_nil P sl).meta_idx) ∧
      (min L (spec_run P mb state.nil P.MaxElementsNum (unpack_nil P sl).meta_idx) = 0 →
        slide_forward_nil P L mb sl = (unpack_nil P sl, sl)) ∧
      (0 < min L (spec_run P mb state.nil P.MaxElementsNum (unpack_nil P sl).meta_idx) →
        (slide_forward_nil P L mb sl).1.data_idx % (2 * P.DataBufferSize)
          = ((load_slot P mb ((unpack_nil P sl).meta_idx +
                min L (spec_run P mb state.nil P.MaxElementsNum (unpack_nil P sl).meta_idx)
                - 1)).begin +
             (load_slot P mb ((unpack_nil P sl).meta_idx +
                min L (spec_run P mb state.nil P.MaxElementsNum (unpack_nil P sl).meta_idx)
                - 1)).size +
             P.DataBufferSize) % (2 * P.DataBufferSize))) := by
  have hS := Params.shape_of_accepted hP
  have hW := hS.hW
  have hn := hS.hn
  constructor
  · have hmi := slide_loop_meta_idx hS state.val val_slider.meta_idx (val_slider.shift P) mb
      (fun _ _ => rfl) L ⟨sl⟩ hsl
    rw [spec_run_limit hS] at hmi
    have hval : slide_forward_val P L mb sl
        = (⟨to_atom P.atom_bits
              (sl + min L (spec_run P mb state.val P.MaxElementsNum sl))⟩,
           to_atom P.atom_bits (sl + min L (spec_run P mb state.val P.MaxElementsNum sl))) := by
      simp only [slide_forward_val, unpack_val, val_slider.ne, compare_exchange, pack_val,
        if_true]
      dsimp only at hmi
      by_cases hne : (sl != (slide_loop P state.val val_slider.meta_idx (val_slider.shift P) mb L
          ⟨sl⟩).meta_idx) = true
      · rw [if_pos hne, ← hmi]
      · rw [if_neg hne]
        simp only [bne_iff_ne, ne_eq, not_not] at hne
        rw [← hmi, ← hne]
        simp only [Prod.mk.injEq, and_true]
        cases hd : slide_loop P state.val val_slider.meta_idx (val_slider.shift P) mb L ⟨sl⟩
        rw [hd] at hne
        simp only at hne
        rw [hne]
    refine ⟨hval, spec_run_le_N hS mb _ _ _, fun b hb => spec_run_stable hS mb _ _ hb, ?_⟩
    intro hk
    rw [hval, hk, Nat.add_zero, to_atom_of_lt hsl]
    rfl
  · have hlt : (unpack_nil P sl).meta_idx < 2 ^ P.atom_bits := by
      have := bit_slice.decode_lt hS.meta_idx_valid sl
      simp only [nil_slider.meta_idx_slice, Nat.sub_zero] at this
      exact lt_of_lt_of_le this (Nat.pow_le_pow_right (by omega) (Nat.sub_le _ _))
    have hmi := slide_loop_meta_idx hS state.nil nil_slider.meta_idx (nil_slider.shift P) mb
      (fun _ _ => rfl) L (unpack_nil P sl) hlt
    rw [spec_run_limit hS] at hmi
    have hrN := spec_run_le_N hS mb state.nil P.MaxElementsNum (unpack_nil P sl).meta_idx
    have hNW : P.MaxElementsNum < 2 ^ P.atom_bits := by
      rw [hS.hN]; exact Nat.pow_lt_pow_right (by omega) hn
    have hpk : pack_nil P (unpack_nil P sl) = sl := hS.pack_unpack_nil hsl
    by_cases hk : min L (spec_run P mb state.nil P.MaxElementsNum (unpack_nil P sl).meta_idx) = 0
    · have hloop : slide_loop P state.nil nil_slider.meta_idx (nil_slider.shift P) mb L
          (unpack_nil P sl) = unpack_nil P sl :=
        slide_loop_of_run_zero hS _ _ _ mb L _ (by rw [spec_run_limit hS]; exact hk)
      have hres : slide_forward_nil P L mb sl = (unpack_nil P sl, sl) := by
        simp only [slide_forward_nil, hloop, nil_slider.ne, bne_self_eq_false, Bool.or_self,
          Bool.false_eq_true, if_false]
      rw [hres, hk]
      refine ⟨?_, hpk.symm, hrN, fun b hb => spec_run_stable hS mb _ _ hb, fun _ => rfl, ?_⟩
      · rw [Nat.add_zero, to_atom_of_lt hlt]
      · intro h; omega
    · have hne : nil_slider.ne (unpack_nil P sl)
          (slide_loop P state.nil nil_slider.meta_idx (nil_slider.shift P) mb L
            (unpack_nil P sl)) = true := by
        simp only [nil_slider.ne, Bool.or_eq_true, bne_iff_ne, ne_eq]
        left
        rw [hmi]
        intro heq
        have h1 : ((unpack_nil P sl).meta_idx +
            min L (spec_run P mb state.nil P.MaxElementsNum (unpack_nil P sl).meta_idx))
              % 2 ^ P.atom_bits = (unpack_nil P sl).meta_idx % 2 ^ P.atom_bits := by
          rw [Nat.mod_eq_of_lt hlt]; exact heq.symm
        have := mod_two_pow_ne hNW
          (a := (unpack_nil P sl).meta_idx)
          (b := (unpack_nil P sl).meta_idx +
            min L (spec_run P mb state.nil P.MaxElementsNum (unpack_nil P sl).meta_idx))
          (by omega) (by omega)
        exact this h1.symm
      have hres : slide_forward_nil P L mb sl
          = (slide_loop P state.nil nil_slider.meta_idx (nil_slider.shift P) mb L
              (unpack_nil P sl),
             pack_nil P (slide_loop P state.nil nil_slider.meta_idx (nil_slider.shift P) mb L
              (unpack_nil P sl))) := by
        simp only [slide_forward_nil, hne, compare_exchange, hpk, if_true]
      rw [hres]
      refine ⟨hmi, rfl, hrN, fun b hb => spec_run_stable hS mb _ _ hb,
        fun h => absurd h hk, ?_⟩
      intro _
      dsimp only
      have hd := slide_loop_data_idx hS mb L (unpack_nil P sl) hlt
        (by rw [spec_run_limit hS]; omega)
      rw [spec_run_limit hS] at hd
      rw [hd, hS.two_B]
      simp only [to_atom]
      exact Nat.mod_mod_of_dvd _ (Nat.pow_dvd_pow 2 (by omega))

/-- C12 on `queue<4, 8, uint8_t>` with `slide_limit = 2` after one element has been pushed and
popped: from `nil_end = (4, 8)` exactly slot 0 is NIL with the round expected in the second
ring, so the run has length 1 and the cursor advances to `meta_idx = 5`. -/
theorem C12_slide_forward_step_witness :
    let P : Params := ⟨4, 8, 8⟩
    let q := (try_pop P 1 (try_push P 1 (queue.fresh P 2) [7]).2 [0]).2.1
    (slide_forward_nil P 2 q.meta_buf q.nil_end).1.meta_idx
        = to_atom 8 ((unpack_nil P q.nil_end).meta_idx +
            min 2 (spec_run P q.meta_buf state.nil 4 (unpack_nil P q.nil_end).meta_idx)) ∧
    (slide_forward_nil P 2 q.meta_buf q.nil_end).1.meta_idx = 5 :=
  ⟨(C12_slide_forward_step ⟨4, 8, 8⟩ (by decide) 2
      (try_pop ⟨4, 8, 8⟩ 1 (try_push ⟨4, 8, 8⟩ 1 (queue.fresh ⟨4, 8, 8⟩ 2) [7]).2 [0]).2.1.meta_buf
      (try_pop ⟨4, 8, 8⟩ 1 (try_push ⟨4, 8, 8⟩ 1 (queue.fresh ⟨4, 8, 8⟩ 2) [7]).2 [0]).2.1.nil_end
      (by decide)).2.1, by decide⟩

/-! ## Claims about every reachable state: payload ranges and round bits -/

/-- C14: in every state that a single-threaded client reaches from a fresh queue (any
instantiation that compiles, any `slide_limit`, any sequence of `try_push`, `try_pop`,
`pop_bulk` and `consume_from_bulk` calls on any of its handles, copied or not, exceptions
included), the byte ranges `{(begin + i) mod B : i < size}` of two distinct slots in state VAL
are disjoint, the sizes of all slots in state VAL sum to at most `B`, and a `try_push` that
returns true from that state leaves every byte of every slot in state VAL as it was. -/
theorem C14_no_payload_overlap (P : Params) (hP : P.accepted = true) (sl fuel : Nat)
    (calls : List Call) :
    (∀ x y, x < P.MaxElementsNum → y < P.MaxElementsNum → x ≠ y →
      (load_slot P (run_client P sl (fuel + 1) calls).1.q.meta_buf x).state = state.val →
      (load_slot P (run_client P sl (fuel + 1) calls).1.q.meta_buf y).state = state.val →
      ∀ i j, i < (load_slot P (run_client P sl (fuel + 1) calls).1.q.meta_buf x).size →
        j < (load_slot P (run_client P sl (fuel + 1) calls).1.q.meta_buf y).size →
        ((load_slot P (run_client P sl (fuel + 1) calls).1.q.meta_buf x).begin + i)
            % P.DataBufferSize
          ≠ ((load_slot P (run_client P sl (fuel + 1) calls).1.q.meta_buf y).begin + j)
            % P.DataBufferSize) ∧
    val_bytes P (run_client P sl (fuel + 1) calls).1.q ≤ P.DataBufferSize ∧
    (∀ src,
      (try_push P (fuel + 1) (run_client P sl (fuel + 1) calls).1.q src).1 = .ret true →
      ∀ x, (load_slot P (run_client P sl (fuel + 1) calls).1.q.meta_buf x).state = state.val →
      ∀ i, i < (load_slot P (run_client P sl (fuel + 1) calls).1.q.meta_buf x).size →
        (try_push P (fuel + 1) (run_client P sl (fuel + 1) calls).1.q src).2.data_buf.getD
            (((load_slot P (run_client P sl (fuel + 1) calls).1.q.meta_buf x).begin + i)
              % P.DataBufferSize) 0
          = (run_client P sl (fuel + 1) calls).1.q.data_buf.getD
            (((load_slot P (run_client P sl (fuel + 1) calls).1.q.meta_buf x).begin + i)
              % P.DataBufferSize) 0) := by
  have hS := Params.shape_of_accepted hP
  obtain ⟨hist, rel, f, hI, hE⟩ :=
    Reach.after_exec hS fuel calls (s := Client.fresh P sl) (Reach.start hS sl)
  refine ⟨?_, hI.val_bytes_le hS, ?_⟩
  · intro x y hx hy hxy hvx hvy i j hi hj
    exact hI.disjoint hS hx hy hxy hvx hvy hi hj
  · intro src hp x hvx i hi
    exact hI.push_keeps hS hE fuel src hp hvx hi

/-- C14 on `queue<4, 8, uint8_t>` after two pushes, a pop without capacity and a bulk claim:
the slots in state VAL hold at most the 8 bytes of the payload buffer. -/
theorem C14_no_payload_overlap_witness :
    val_bytes ⟨4, 8, 8⟩
        (run_client ⟨4, 8, 8⟩ 2 1 [.push [1, 2], .push [3], .pop [], .bulk]).1.q ≤ 8 :=
  (C14_no_payload_overlap ⟨4, 8, 8⟩ (by decide) 2 0
    [.push [1, 2], .push [3], .pop [], .bulk]).2.1

/-- C16: every slot of a fresh queue is NIL with round 0; and for every state `s` that a
single-threaded client reaches from a fresh queue (any instantiation that compiles, any
`slide_limit`, any statements, exceptions and handle copies included) and every statement `c`
executed from `s`: a `try_push` that returns true turns exactly one slot from NIL to VAL and
stores the negation of the round bit that the slot held; a `try_pop` or `consume_from_bulk`
that returns a non-zero length turns exactly one slot from VAL to NIL and keeps its round bit;
every other statement or outcome leaves all slot words unchanged.  So each slot alternates NIL,
VAL, NIL, … and its round bit toggles once per publication. -/
theorem C16_round_parity (P : Params) (hP : P.accepted = true) (sl fuel : Nat)
    (calls : List Call) (c : Call) :
    (∀ x, load_slot P (queue.fresh P sl).meta_buf x = ⟨0, 0, state.nil, 0⟩) ∧
    ((call P (fuel + 1) (run_client P sl (fuel + 1) calls).1 c).2 = .pushed (.ret true) →
      ∃ y, slot_turns P (run_client P sl (fuel + 1) calls).1.q.meta_buf
        (call P (fuel + 1) (run_client P sl (fuel + 1) calls).1 c).1.q.meta_buf y
        state.nil state.val true) ∧
    (∀ k dst, k ≠ 0 →
      ((call P (fuel + 1) (run_client P sl (fuel + 1) calls).1 c).2 = .popped (.ret k) dst ∨
       (call P (fuel + 1) (run_client P sl (fuel + 1) calls).1 c).2
         = .consumed (.ret k) dst) →
      ∃ y, slot_turns P (run_client P sl (fuel + 1) calls).1.q.meta_buf
        (call P (fuel + 1) (run_client P sl (fuel + 1) calls).1 c).1.q.meta_buf y
        state.val state.nil false) ∧
    ((call P (fuel + 1) (run_client P sl (fuel + 1) calls).1 c).2 ≠ .pushed (.ret true) →
      (∀ k dst, k ≠ 0 →
        (call P (fuel + 1) (run_client P sl (fuel + 1) calls).1 c).2 ≠ .popped (.ret k) dst ∧
        (call P (fuel + 1) (run_client P sl (fuel + 1) calls).1 c).2
          ≠ .consumed (.ret k) dst) →
      (call P (fuel + 1) (run_client P sl (fuel + 1) calls).1 c).1.q.meta_buf
        = (run_client P sl (fuel + 1) calls).1.q.meta_buf) := by
  have hS := Params.shape_of_accepted hP
  have hR := Reach.after_exec hS fuel calls (s := Client.fresh P sl) (Reach.start hS sl)
  refine ⟨?_, Reach.call_slots hS hR fuel c⟩
  intro x
  have hI := SInv.of_fresh hS sl
  rcases hI.slot_cases hS x with ⟨p, hp, _⟩ | h0
  · simp at hp
  · exact h0

/-- C16 on `queue<4, 8, uint8_t>`: the pop after one push turns a slot from VAL to NIL with
its round bit kept. -/
theorem C16_round_parity_witness :
    ∃ y, slot_turns ⟨4, 8, 8⟩ (run_client ⟨4, 8, 8⟩ 2 1 [.push [7]]).1.q.meta_buf
      (call ⟨4, 8, 8⟩ 1 (run_client ⟨4, 8, 8⟩ 2 1 [.push [7]]).1 (.pop [0])).1.q.meta_buf y
      state.val state.nil false :=
  (C16_round_parity ⟨4, 8, 8⟩ (by decide) 2 0 [.push [7]] (.pop [0])).2.2.1 1 [7]
    (by decide) (Or.inl (by decide))

/-! ## Claims about whole executions of a client that never replays a handle -/

set_option maxRecDepth 20000

/-- C13: in every single-threaded execution from a fresh queue (any instantiation that
compiles, any `slide_limit`) made of `try_push`, `try_pop`, `pop_bulk` and `consume_from_bulk`
calls in which no `bulk` handle is copied, no call ends in a failed `SQUERREL_ASSERT`: the slot
loaded after a successful reservation of `try_push` is in state NIL and the slot loaded by
`consume_data` is in state VAL.  Calls that raise a precondition error are part of the
executions covered, and every call returns (no retry loop runs out of fuel). -/
theorem C13_asserts_unreachable (P : Params) (hP : P.accepted = true) (sl fuel : Nat)
    (calls : List Call) (hcalls : ∀ cl ∈ calls, cl.is_copy = false) :
    ∀ rep ∈ (run_client P sl (fuel + 1) calls).2,
      rep.is_logic_error = false ∧ rep.is_diverged = false := by
  have hS := Params.shape_of_accepted hP
  obtain ⟨_, _, _, _, _, _, _, _, _, h, _⟩ := Full.run hS fuel calls (Full.initial hS sl) hcalls
  exact h

/-- C13 on `queue<4, 8, uint8_t>` with slide limit 2, for a program with a push of size 0 and
a pop without capacity among its calls. -/
theorem C13_asserts_unreachable_witness :
    (∀ cl ∈ [Call.push [1, 2], .push [], .pop [], .bulk, .consume 0 [0, 0], .pop [0, 0]],
      cl.is_copy = false) ∧
    ∀ rep ∈ (run_client ⟨4, 8, 8⟩ 2 1
        [.push [1, 2], .push [], .pop [], .bulk, .consume 0 [0, 0], .pop [0, 0]]).2,
      rep.is_logic_error = false ∧ rep.is_diverged = false :=
  ⟨by decide, C13_asserts_unreachable ⟨4, 8, 8⟩ (by decide) 2 0
    [.push [1, 2], .push [], .pop [], .bulk, .consume 0 [0, 0], .pop [0, 0]] (by decide)⟩

/-- C15 as stated fails on `queue<8, 16, uint8_t>`, which compiles but whose producer cursor
has no room for the wrap-parity bit of `meta_idx`: after one successful `try_push` on a fresh
queue the distances are `d1 = 0`, `d2 = 1` and `d3 = 15`, so `d1 + d2 + d3 = 16 > 8`. -/
theorem C15_cursor_order_counterexample :
    Params.accepted ⟨8, 16, 8⟩ = true ∧
    (run_client ⟨8, 16, 8⟩ default_slide_limit 1 [.push [1]]).2 = [.pushed (.ret true)] ∧
    ring_dist ⟨8, 16, 8⟩ (run_client ⟨8, 16, 8⟩ default_slide_limit 1 [.push [1]]).1.q.val_begin
      (run_client ⟨8, 16, 8⟩ default_slide_limit 1 [.push [1]]).1.q.val_end = 0 ∧
    ring_dist ⟨8, 16, 8⟩ (run_client ⟨8, 16, 8⟩ default_slide_limit 1 [.push [1]]).1.q.val_end
      (unpack_nil ⟨8, 16, 8⟩
        (run_client ⟨8, 16, 8⟩ default_slide_limit 1 [.push [1]]).1.q.nil_begin).meta_idx = 1 ∧
    ring_dist ⟨8, 16, 8⟩
      (unpack_nil ⟨8, 16, 8⟩
        (run_client ⟨8, 16, 8⟩ default_slide_limit 1 [.push [1]]).1.q.nil_begin).meta_idx
      (unpack_nil ⟨8, 16, 8⟩
        (run_client ⟨8, 16, 8⟩ default_slide_limit 1 [.push [1]]).1.q.nil_end).meta_idx = 15 := by
  decide

/-- The cursor ordering also fails in an instantiation with a roomy producer cursor once a
copy of a `bulk` handle is replayed: on `queue<4, 8, uint8_t>` the stale copy releases the
slot of a later element, `nil_end` slides over it, and the distances become `0`, `2` and `3`,
which sum to `5 > 4`. -/
theorem cursor_order_fails_on_replay :
    Params.accepted ⟨4, 8, 8⟩ = true ∧ Params.roomy ⟨4, 8, 8⟩ = true ∧
    ring_dist ⟨4, 8, 8⟩
      (run_client ⟨4, 8, 8⟩ 8 1
        [.push [1], .bulk, .copy 0, .consume 0 [0], .push [2], .push [3], .push [4], .push [5],
         .consume 1 [0], .pop [0], .pop [0], .pop [0], .push [6]]).1.q.val_end
      (unpack_nil ⟨4, 8, 8⟩
        (run_client ⟨4, 8, 8⟩ 8 1
          [.push [1], .bulk, .copy 0, .consume 0 [0], .push [2], .push [3], .push [4],
           .push [5], .consume 1 [0], .pop [0], .pop [0], .pop [0],
           .push [6]]).1.q.nil_begin).meta_idx = 2 ∧
    ring_dist ⟨4, 8, 8⟩
      (unpack_nil ⟨4, 8, 8⟩
        (run_client ⟨4, 8, 8⟩ 8 1
          [.push [1], .bulk, .copy 0, .consume 0 [0], .push [2], .push [3], .push [4],
           .push [5], .consume 1 [0], .pop [0], .pop [0], .pop [0],
           .push [6]]).1.q.nil_begin).meta_idx
      (unpack_nil ⟨4, 8, 8⟩
        (run_client ⟨4, 8, 8⟩ 8 1
          [.push [1], .bulk, .copy 0, .consume 0 [0], .push [2], .push [3], .push [4],
           .push [5], .consume 1 [0], .pop [0], .pop [0], .pop [0],
           .push [6]]).1.q.nil_end).meta_idx = 3 := by
  decide

/-- C15, amended: a fresh queue has `val_begin = val_end = nil_begin = 0` and
`nil_end = (N, B)`; and in every state reached from it by single-threaded calls of the public
operations in which no `bulk` handle is copied, on an instantiation that compiles and whose
producer cursor has room for `log2(N) + 1` bits of `meta_idx`, the distances
`d1 = (val_end - val_begin) mod 2N`, `d2 = (nil_begin - val_end) mod 2N` and
`d3 = (nil_end - nil_begin) mod 2N` of the metadata indices satisfy `d1 + d2 + d3 ≤ N`. -/
theorem C15_cursor_order (P : Params) (hP : P.accepted = true) (hR : P.roomy = true)
    (sl fuel : Nat) (calls : List Call) (hcalls : ∀ cl ∈ calls, cl.is_copy = false) :
    ((queue.fresh P sl).val_begin = 0 ∧ (queue.fresh P sl).val_end = 0 ∧
      (queue.fresh P sl).nil_begin = 0 ∧
      unpack_nil P (queue.fresh P sl).nil_end = ⟨P.MaxElementsNum, P.DataBufferSize⟩) ∧
    ring_dist P (run_client P sl (fuel + 1) calls).1.q.val_begin
        (run_client P sl (fuel + 1) calls).1.q.val_end
      + ring_dist P (run_client P sl (fuel + 1) calls).1.q.val_end
          (unpack_nil P (run_client P sl (fuel + 1) calls).1.q.nil_begin).meta_idx
      + ring_dist P (unpack_nil P (run_client P sl (fuel + 1) calls).1.q.nil_begin).meta_idx
          (unpack_nil P (run_client P sl (fuel + 1) calls).1.q.nil_end).meta_idx
      ≤ P.MaxElementsNum := by
  have hS := Params.shape_of_accepted hP
  have hm := hS.roomy_iff.mp hR
  refine ⟨⟨rfl, rfl, rfl, ?_⟩, ?_⟩
  · have h0 := (NilEnd.init hS sl).2.1 hR
    have hN : P.MaxElementsNum < 2 ^ meta_idx_bits P := by
      rw [hS.hN]
      exact Nat.pow_lt_pow_right (by decide) (by omega)
    have hB := hS.B_pos
    rw [h0, hS.unpack_pack_nil']
    simp only [List.length_nil, off_zero, Nat.zero_add, Nat.mod_eq_of_lt hN]
    rw [Nat.mod_eq_of_lt (by omega)]
  · obtain ⟨ext, rel, f, c, e, lo, hi, hF, _⟩ :=
      Full.run hS fuel calls (Full.initial hS sl) hcalls
    obtain ⟨h1, h2, h3⟩ := hF.dists hS hR
    have hfc := hF.f_le_c
    have hce := hF.vals.hce
    have het := hF.vals.het
    have htf := hF.slots.htf
    unfold run_client
    rw [h1, h2, h3]
    omega

/-- C15 (amended) on `queue<4, 8, uint8_t>` after two pushes, a pop and a bulk claim. -/
theorem C15_cursor_order_witness :
    Params.accepted ⟨4, 8, 8⟩ = true ∧ Params.roomy ⟨4, 8, 8⟩ = true ∧
    (∀ cl ∈ [Call.push [1, 2], .push [3], .pop [0, 0], .bulk], cl.is_copy = false) ∧
    ring_dist ⟨4, 8, 8⟩
        (run_client ⟨4, 8, 8⟩ 2 1 [.push [1, 2], .push [3], .pop [0, 0], .bulk]).1.q.val_begin
        (run_client ⟨4, 8, 8⟩ 2 1 [.push [1, 2], .push [3], .pop [0, 0], .bulk]).1.q.val_end
      + ring_dist ⟨4, 8, 8⟩
          (run_client ⟨4, 8, 8⟩ 2 1 [.push [1, 2], .push [3], .pop [0, 0], .bulk]).1.q.val_end
          (unpack_nil ⟨4, 8, 8⟩ (run_client ⟨4, 8, 8⟩ 2 1
            [.push [1, 2], .push [3], .pop [0, 0], .bulk]).1.q.nil_begin).meta_idx
      + ring_dist ⟨4, 8, 8⟩
          (unpack_nil ⟨4, 8, 8⟩ (run_client ⟨4, 8, 8⟩ 2 1
            [.push [1, 2], .push [3], .pop [0, 0], .bulk]).1.q.nil_begin).meta_idx
          (unpack_nil ⟨4, 8, 8⟩ (run_client ⟨4, 8, 8⟩ 2 1
            [.push [1, 2], .push [3], .pop [0, 0], .bulk]).1.q.nil_end).meta_idx
      ≤ 4 :=
  ⟨by decide, by decide, by decide,
    (C15_cursor_order ⟨4, 8, 8⟩ (by decide) (by decide) 2 0
      [.push [1, 2], .push [3], .pop [0, 0], .bulk] (by decide)).2⟩

/-- C20 as stated fails when a stale copy of a `bulk` handle is replayed.  On
`queue<4, 8, uint8_t>`: an element is pushed, claimed by `pop_bulk`, the handle is copied and
the original consumed; four pushes follow, the last of which lands in slot 0 again; three pops
succeed and the fourth raises the insufficient-capacity error for the element `[5]` in slot 0
(position 4).  A later `consume_from_bulk` on the stale copy returns that element and sets
slot 0 back to NIL. -/
theorem C20_capacity_error_wedges_counterexample :
    Params.accepted ⟨4, 8, 8⟩ = true ∧
    (call ⟨4, 8, 8⟩ 1
      (run_client ⟨4, 8, 8⟩ 8 1
        [.push [1], .bulk, .copy 0, .consume 0 [0], .push [2], .push [3], .push [4], .push [5],
         .pop [0], .pop [0], .pop [0]]).1 (.pop [])).2 = .popped .invalid_argument [] ∧
    (run_client ⟨4, 8, 8⟩ 8 1
        [.push [1], .bulk, .copy 0, .consume 0 [0], .push [2], .push [3], .push [4], .push [5],
         .pop [0], .pop [0], .pop [0]]).1.q.val_begin = 4 ∧
    load_slot ⟨4, 8, 8⟩
      (call ⟨4, 8, 8⟩ 1
        (run_client ⟨4, 8, 8⟩ 8 1
          [.push [1], .bulk, .copy 0, .consume 0 [0], .push [2], .push [3], .push [4],
           .push [5], .pop [0], .pop [0], .pop [0]]).1 (.pop [])).1.q.meta_buf 4
      = ⟨4, 1, state.val, 0⟩ ∧
    (exec ⟨4, 8, 8⟩ 1
      (call ⟨4, 8, 8⟩ 1
        (run_client ⟨4, 8, 8⟩ 8 1
          [.push [1], .bulk, .copy 0, .consume 0 [0], .push [2], .push [3], .push [4],
           .push [5], .pop [0], .pop [0], .pop [0]]).1 (.pop [])).1
      [.consume 1 [0]]).2 = [.consumed (.ret 1) [5]] ∧
    load_slot ⟨4, 8, 8⟩
      (exec ⟨4, 8, 8⟩ 1
        (call ⟨4, 8, 8⟩ 1
          (run_client ⟨4, 8, 8⟩ 8 1
            [.push [1], .bulk, .copy 0, .consume 0 [0], .push [2], .push [3], .push [4],
             .push [5], .pop [0], .pop [0], .pop [0]]).1 (.pop [])).1
        [.consume 1 [0]]).1.q.meta_buf 4
      = ⟨4, 1, state.nil, 0⟩ := by
  decide

/-- The distance from the wedged position to `nil_end` says nothing where the `meta_idx`
field of the producer cursor is too narrow for the wrap bit: on `queue<8, 16, uint8_t>` with
slide limit 3, after three pushes, a pop and a pop without capacity (the error is raised at
`val_begin = 1`), `nil_end` is stored with `meta_idx = 8 mod 8 = 0` and the distance is
`15 > 8`. -/
theorem wedge_distance_fails_when_narrow :
    Params.accepted ⟨8, 16, 8⟩ = true ∧ Params.roomy ⟨8, 16, 8⟩ = false ∧
    (call ⟨8, 16, 8⟩ 1
      (run_client ⟨8, 16, 8⟩ 3 1 [.push [1], .push [2], .push [3], .pop [0]]).1
      (.pop [])).2 = .popped .invalid_argument [] ∧
    (run_client ⟨8, 16, 8⟩ 3 1 [.push [1], .push [2], .push [3], .pop [0]]).1.q.val_begin = 1 ∧
    ring_dist ⟨8, 16, 8⟩
      (run_client ⟨8, 16, 8⟩ 3 1 [.push [1], .push [2], .push [3], .pop [0]]).1.q.val_begin
      (unpack_nil ⟨8, 16, 8⟩
        (call ⟨8, 16, 8⟩ 1
          (run_client ⟨8, 16, 8⟩ 3 1 [.push [1], .push [2], .push [3], .pop [0]]).1
          (.pop [])).1.q.nil_end).meta_idx = 15 := by
  decide

/-- C20, amended: in a single-threaded execution from a fresh queue (any instantiation that
compiles, any `slide_limit`) in which no `bulk` handle is copied, after a `try_pop` has raised
the insufficient-capacity error for the element in slot `s` (the slot of the `val_begin` it
read), whatever calls follow: slot `s` still holds the same word, in state VAL, so no later
`try_pop`, `pop_bulk` or `consume_from_bulk` has returned that element or set the slot back to
NIL; where the producer cursor has room for `log2(N) + 1` bits of `meta_idx`, `nil_end` is at
most `N` positions beyond the wedged one, that is, not past the slot's next generation; and in
every instantiation at most `N - 1` of the later `try_push` calls return true, and once
`N - 1` have, no further `try_push` returns true. -/
theorem C20_capacity_error_wedges (P : Params) (hP : P.accepted = true) (sl fuel : Nat)
    (calls1 : List Call) (dst d : List Byte) (calls2 : List Call)
    (h1 : ∀ cl ∈ calls1, cl.is_copy = false) (h2 : ∀ cl ∈ calls2, cl.is_copy = false)
    (hw : (call P (fuel + 1) (run_client P sl (fuel + 1) calls1).1 (.pop dst)).2
      = .popped .invalid_argument d) :
    (load_slot P
        (exec P (fuel + 1)
          (call P (fuel + 1) (run_client P sl (fuel + 1) calls1).1 (.pop dst)).1
          calls2).1.q.meta_buf
        (run_client P sl (fuel + 1) calls1).1.q.val_begin
      = load_slot P (run_client P sl (fuel + 1) calls1).1.q.meta_buf
          (run_client P sl (fuel + 1) calls1).1.q.val_begin ∧
      (load_slot P
        (exec P (fuel + 1)
          (call P (fuel + 1) (run_client P sl (fuel + 1) calls1).1 (.pop dst)).1
          calls2).1.q.meta_buf
        (run_client P sl (fuel + 1) calls1).1.q.val_begin).state = state.val) ∧
    (P.roomy = true →
      ring_dist P (run_client P sl (fuel + 1) calls1).1.q.val_begin
        (unpack_nil P
          (exec P (fuel + 1)
            (call P (fuel + 1) (run_client P sl (fuel + 1) calls1).1 (.pop dst)).1
            calls2).1.q.nil_end).meta_idx
        ≤ P.MaxElementsNum) ∧
    ((exec P (fuel + 1)
        (call P (fuel + 1) (run_client P sl (fuel + 1) calls1).1 (.pop dst)).1
        calls2).2.filter Reply.is_pushed).length ≤ P.MaxElementsNum - 1 ∧
    (((exec P (fuel + 1)
        (call P (fuel + 1) (run_client P sl (fuel + 1) calls1).1 (.pop dst)).1
        calls2).2.filter Reply.is_pushed).length = P.MaxElementsNum - 1 →
      ∀ src, (try_push P (fuel + 1)
        (exec P (fuel + 1)
          (call P (fuel + 1) (run_client P sl (fuel + 1) calls1).1 (.pop dst)).1
          calls2).1.q src).1 ≠ .ret true) := by
  have hS := Params.shape_of_accepted hP
  obtain ⟨ext, rel, f, c, e, lo, hi, hF, _⟩ := Full.run hS fuel calls1 (Full.initial hS sl) h1
  exact Full.wedge hS hF fuel dst d calls2 h2 hw

/-- C20 (amended) on `queue<4, 8, uint8_t>` with slide limit 2: after the pop without capacity
of the only element, three of the four later pushes succeed. -/
theorem C20_capacity_error_wedges_witness :
    Params.accepted ⟨4, 8, 8⟩ = true ∧
    (∀ cl ∈ [Call.push [1, 2]], cl.is_copy = false) ∧
    (∀ cl ∈ [Call.push [3], .push [4], .push [5], .push [6], .pop [0, 0]],
      cl.is_copy = false) ∧
    (call ⟨4, 8, 8⟩ 1 (run_client ⟨4, 8, 8⟩ 2 1 [.push [1, 2]]).1 (.pop [])).2
      = .popped .invalid_argument [] ∧
    ((exec ⟨4, 8, 8⟩ 1
        (call ⟨4, 8, 8⟩ 1 (run_client ⟨4, 8, 8⟩ 2 1 [.push [1, 2]]).1 (.pop [])).1
        [.push [3], .push [4], .push [5], .push [6], .pop [0, 0]]).2.filter
      Reply.is_pushed).length ≤ 4 - 1 :=
  ⟨by decide, by decide, by decide, by decide,
    (C20_capacity_error_wedges ⟨4, 8, 8⟩ (by decide) 2 0 [.push [1, 2]] [] []
      [.push [3], .push [4], .push [5], .push [6], .pop [0, 0]] (by decide) (by decide)
      (by decide)).2.2.1⟩

end squerrel
